import Mathlib

/-! Embree: parallel in-place partitioning and the fast block allocator.

A shallow embedding of `kernels/algorithms/parallel_partition.h` and of the
allocation paths of `kernels/common/alloc.h`, with the properties proved about them.

Conventions of the embedding.

* A `T* array` is a memory `Int → T` addressed by the element offset from `array`;
  a pointer into the array (`l`, `r`) is its offset, an `Int` because
  `array + end - 1` lies one cell before `array + begin` for an empty subrange.
* `size_t` values are `Nat`, `ssize_t` values are `Int`.  Array lengths stay far
  below `2^63`, so the conversions `size_t → ssize_t` of `Range` are exact and a
  `size_t` expression such as `counter_start[i] + counter_left[i] - 1`, which wraps
  to `2^64 - 1` when both are zero, reads `-1` as an `ssize_t`: it is computed in `Int`.
* A reduction functor `reduction_t(V&, const T&)` is a function `V → T → V` giving
  the new accumulator; `reduction_v(V&, const V&)` is a function `V → V → V`.
* Loops are structural recursions on a fuel that is computed from the loop bounds.
-/

namespace Embree

variable {T V : Type}

/-! ## Memory -/

/-- Memory of an array of `T`, addressed by the element offset from the base pointer. -/
abbrev Mem (T : Type) := Int → T

/-- The function `xchg(a,b)` applied to the cells `l` and `r` of the array: the two
cells trade contents. -/
def xchg (array : Mem T) (l r : Int) : Mem T :=
  fun k => if k = l then array r else if k = r then array l else array k

/-- The cells `lo, lo+1, ..., hi-1` of the array, in order. -/
def slice (array : Mem T) (lo hi : Int) : List T :=
  (List.range (hi - lo).toNat).map (fun (i : Nat) => array (lo + (i : Int)))

/-- The contents `array[0..N)`. -/
def contents (array : Mem T) (N : Nat) : List T :=
  slice array 0 (N : Int)

/-- The memory holding the list `xs` in the cells `0 .. xs.length-1` and `d` elsewhere. -/
def ofList (xs : List T) (d : T) : Mem T :=
  fun k => if 0 ≤ k then xs.getD k.toNat d else d

/-! ## serial_partitioning -/

/-- First inner loop of `serial_partitioning`:
`while (l <= r && cmp(*l)) { reduction_t(leftReduction,*l); ++l; }`.
Returns the final `l` and `leftReduction`. The caller passes the fuel `r + 1 - l`,
which is `0` exactly when `l <= r` fails. -/
def scanLeft (cmp : T → Bool) (reduction_t : V → T → V) (array : Mem T) (r : Int) :
    Nat → Int → V → Int × V
  | 0, l, leftReduction => (l, leftReduction)
  | fuel + 1, l, leftReduction =>
    if l ≤ r ∧ cmp (array l) = true then
      scanLeft cmp reduction_t array r fuel (l + 1) (reduction_t leftReduction (array l))
    else (l, leftReduction)

/-- Second inner loop of `serial_partitioning`:
`while (l <= r && !cmp(*r)) { reduction_t(rightReduction,*r); --r; }`.
Returns the final `r` and `rightReduction`. -/
def scanRight (cmp : T → Bool) (reduction_t : V → T → V) (array : Mem T) (l : Int) :
    Nat → Int → V → Int × V
  | 0, r, rightReduction => (r, rightReduction)
  | fuel + 1, r, rightReduction =>
    if l ≤ r ∧ cmp (array r) = false then
      scanRight cmp reduction_t array l fuel (r - 1) (reduction_t rightReduction (array r))
    else (r, rightReduction)

/-- The `while(1)` loop of `serial_partitioning`, from a state `(array, l, r,
leftReduction, rightReduction)`; returns the final `l`, the array and the two
accumulators. Each round that does not `break` moves `l` up and `r` down, so a fuel
above `r + 1 - l` is never used up. -/
def serialLoop (cmp : T → Bool) (reduction_t : V → T → V) :
    Nat → Mem T → Int → Int → V → V → Int × Mem T × V × V
  | 0, array, l, _, leftReduction, rightReduction => (l, array, leftReduction, rightReduction)
  | fuel + 1, array, l, r, leftReduction, rightReduction =>
    let sl := scanLeft cmp reduction_t array r (r + 1 - l).toNat l leftReduction
    let sr := scanRight cmp reduction_t array sl.1 (r + 1 - sl.1).toNat r rightReduction
    if sr.1 < sl.1 then (sl.1, array, sl.2, sr.2)
    else
      serialLoop cmp reduction_t fuel (xchg array sl.1 sr.1) (sl.1 + 1) (sr.1 - 1)
        (reduction_t sl.2 (array sr.1)) (reduction_t sr.2 (array sl.1))

/-- The function `serial_partitioning(array, begin, end, leftReduction, rightReduction,
cmp, reduction_t)`: returns `l - array`, the array and the two accumulators. -/
def serial_partitioning (array : Mem T) (begin end_ : Nat) (leftReduction rightReduction : V)
    (cmp : T → Bool) (reduction_t : V → T → V) : Nat × Mem T × V × V :=
  let l : Int := (begin : Int)
  let r : Int := (end_ : Int) - 1
  let res := serialLoop cmp reduction_t (end_ - begin + 1) array l r leftReduction rightReduction
  (res.1.toNat, res.2.1, res.2.2.1, res.2.2.2)

/-! ## parallel_partition_static_task -/

/-- The constant `MAX_TASKS` of `parallel_partition_static_task`. -/
def MAX_TASKS : Nat := 512

/-- The struct `Range` of `parallel_partition_static_task`: a range of array indices
with inclusive bounds `start` and `end`, both `ssize_t`. -/
structure Range where
  /-- First index of the range. -/
  start : Int
  /-- Last index of the range (inclusive). -/
  end_ : Int
deriving DecidableEq

/-- The method `Range::intersect`. -/
def Range.intersect (a r : Range) : Range :=
  ⟨max a.start r.start, min a.end_ r.end_⟩

/-- The method `Range::empty`. -/
def Range.empty (a : Range) : Bool :=
  decide (a.end_ < a.start)

/-- The method `Range::size`, `end-start+1` (the source asserts `!empty()`). -/
def Range.size (a : Range) : Nat :=
  (a.end_ - a.start + 1).toNat

/-- A store `tbl[i] = v` into one of the per-task arrays. -/
def store {α : Type} (tbl : Nat → α) (i : Nat) (v : α) : Nat → α :=
  fun k => if k = i then v else tbl k

/-- A store `tbl[i] = v` into a per-task array of `MAX_TASKS` entries whose index is
not below `tasks`: the arrays are declared `[MAX_TASKS]`, a store at an index outside
`0 .. MAX_TASKS-1` has no defined behaviour and the run yields no result (`none`). -/
def storeChecked {α : Type} (tbl : Nat → α) (i : Nat) (v : α) : Option (Nat → α) :=
  if i < MAX_TASKS then some (store tbl i v) else none

/-- The members of `parallel_partition_static_task` (the functors `cmp`,
`reduction_t`, `reduction_v` are passed to the methods instead). -/
structure parallel_partition_static_task (T V : Type) where
  /-- Member `array`. -/
  array : Mem T
  /-- Member `N`. -/
  N : Nat
  /-- Member `tasks`. -/
  tasks : Nat
  /-- Member `init` (stored by the constructor, read by no method). -/
  init : V
  /-- Member `numMisplacedRangesLeft`. -/
  numMisplacedRangesLeft : Nat
  /-- Member `numMisplacedRangesRight`. -/
  numMisplacedRangesRight : Nat
  /-- Member `numMisplacedItems`. -/
  numMisplacedItems : Nat
  /-- Member `counter_start[MAX_TASKS]`. -/
  counter_start : Nat → Nat
  /-- Member `counter_left[MAX_TASKS]`. -/
  counter_left : Nat → Nat
  /-- Member `leftMisplacedRanges[MAX_TASKS]`. -/
  leftMisplacedRanges : Nat → Range
  /-- Member `rightMisplacedRanges[MAX_TASKS]`. -/
  rightMisplacedRanges : Nat → Range
  /-- Member `leftReductions[MAX_TASKS]`. -/
  leftReductions : Nat → V
  /-- Member `rightReductions[MAX_TASKS]`. -/
  rightReductions : Nat → V

/-- The per-task arrays of a task object before its constructor ran: the constructor
does not initialise them, their contents are whatever the storage held. -/
structure RawTables (V : Type) where
  /-- Storage of `counter_start`. -/
  counter_start : Nat → Nat
  /-- Storage of `counter_left`. -/
  counter_left : Nat → Nat
  /-- Storage of `leftMisplacedRanges`. -/
  leftMisplacedRanges : Nat → Range
  /-- Storage of `rightMisplacedRanges`. -/
  rightMisplacedRanges : Nat → Range
  /-- Storage of `leftReductions`. -/
  leftReductions : Nat → V
  /-- Storage of `rightReductions`. -/
  rightReductions : Nat → V

/-- The task count computed by the constructor:
`tasks = (N+maxNumThreads-1)/maxNumThreads >= BLOCK_SIZE ? maxNumThreads : (N+BLOCK_SIZE-1)/BLOCK_SIZE;
tasks = min(tasks,MAX_TASKS);`. -/
def numTasks (BLOCK_SIZE N maxNumThreads : Nat) : Nat :=
  min (if (N + maxNumThreads - 1) / maxNumThreads ≥ BLOCK_SIZE then maxNumThreads
       else (N + BLOCK_SIZE - 1) / BLOCK_SIZE) MAX_TASKS

/-- The constructor of `parallel_partition_static_task`, on the storage `raw`. -/
def parallel_partition_static_task.create (BLOCK_SIZE : Nat) (array : Mem T) (N : Nat)
    (maxNumThreads : Nat) (init : V) (raw : RawTables V) : parallel_partition_static_task T V :=
  { array := array, N := N, tasks := numTasks BLOCK_SIZE N maxNumThreads, init := init,
    numMisplacedRangesLeft := 0, numMisplacedRangesRight := 0, numMisplacedItems := 0,
    counter_start := raw.counter_start, counter_left := raw.counter_left,
    leftMisplacedRanges := raw.leftMisplacedRanges,
    rightMisplacedRanges := raw.rightMisplacedRanges,
    leftReductions := raw.leftReductions, rightReductions := raw.rightReductions }

/-- The call `parallel_for(tasks, body)` under a sequential schedule: `order` lists the
task indices `0 .. tasks-1` in the order in which the scheduler happens to run them, and
each body runs to completion on the state left by the previous one. -/
def parallel_for {S : Type} (order : List Nat) (body : Nat → S → S) (s : S) : S :=
  order.foldl (fun st taskID => body taskID st) s

/-- The method `findStartRange(index, r, numRanges)`, its loop started at list index `i`:
`while (index >= r[i].size()) { index -= r[i].size(); i++; }`.
Returns the list index of the range found and the residual `index`. -/
def findStartRangeLoop (r : Nat → Range) : Nat → Nat → Nat → Nat × Nat
  | 0, i, index => (i, index)
  | fuel + 1, i, index =>
    if index ≥ (r i).size then findStartRangeLoop r fuel (i + 1) (index - (r i).size)
    else (i, index)

/-- The method `findStartRange(index, r, numRanges)`. The loop runs on the fuel
`numRanges`: the source asserts `i < numRanges` in every round. -/
def findStartRange (index : Nat) (r : Nat → Range) (numRanges : Nat) : Nat × Nat :=
  findStartRangeLoop r numRanges 0 index

/-- The inner loop of `swapItemsInMisplacedRanges`:
`while(items) { items--; xchg(*l++,*r++); }`. Returns the array and the final `l`, `r`. -/
def swapRun : Nat → Mem T → Int → Int → Mem T × Int × Int
  | 0, array, l, r => (array, l, r)
  | items + 1, array, l, r => swapRun items (xchg array l r) (l + 1) (r + 1)

/-- The local variables of `swapItemsInMisplacedRanges` together with the array;
`l_range` and `r_range` are kept as indices into the two range lists. -/
structure SwapState (T : Type) where
  /-- The array. -/
  array : Mem T
  /-- Index of `l_range` in `leftMisplacedRanges`. -/
  l_range : Nat
  /-- Index of `r_range` in `rightMisplacedRanges`. -/
  r_range : Nat
  /-- Local `l_left`. -/
  l_left : Nat
  /-- Local `r_left`. -/
  r_left : Nat
  /-- Local `size`. -/
  size : Nat
  /-- Pointer `l`, as an offset from `array`. -/
  l : Int
  /-- Pointer `r`, as an offset from `array`. -/
  r : Int
  /-- Local `items`. -/
  items : Nat

/-- The statement `if (unlikely(l_left == 0)) { l_range++; l_left = l_range->size();
l = &array[l_range->start]; items = min(size,min(l_left,r_left)); }` of
`swapItemsInMisplacedRanges`. -/
def advanceLeft (leftMisplacedRanges : Nat → Range) (s : SwapState T) : SwapState T :=
  if s.l_left = 0 then
    let l_range := s.l_range + 1
    let l_left := (leftMisplacedRanges l_range).size
    { s with l_range := l_range, l_left := l_left,
             l := (leftMisplacedRanges l_range).start,
             items := min s.size (min l_left s.r_left) }
  else s

/-- The statement `if (unlikely(r_left == 0)) { r_range++; r_left = r_range->size();
r = &array[r_range->start]; items = min(size,min(l_left,r_left)); }` of
`swapItemsInMisplacedRanges`. -/
def advanceRight (rightMisplacedRanges : Nat → Range) (s : SwapState T) : SwapState T :=
  if s.r_left = 0 then
    let r_range := s.r_range + 1
    let r_left := (rightMisplacedRanges r_range).size
    { s with r_range := r_range, r_left := r_left,
             r := (rightMisplacedRanges r_range).start,
             items := min s.size (min s.l_left r_left) }
  else s

/-- One round of the `while(size)` loop of `swapItemsInMisplacedRanges` (entered with
`size != 0`): the two range-advance statements, the three subtractions of `items`, and
the inner loop. -/
def swapRound (leftMisplacedRanges rightMisplacedRanges : Nat → Range) (s : SwapState T) :
    SwapState T :=
  let s2 := advanceRight rightMisplacedRanges (advanceLeft leftMisplacedRanges s)
  let run := swapRun s2.items s2.array s2.l s2.r
  { s2 with size := s2.size - s2.items, l_left := s2.l_left - s2.items,
            r_left := s2.r_left - s2.items, array := run.1, l := run.2.1, r := run.2.2,
            items := 0 }

/-- The `while(size)` loop of `swapItemsInMisplacedRanges`. A round that swaps at least
one pair lowers `size`, so the fuel `size` is never used up while `size != 0`. -/
def swapLoop (leftMisplacedRanges rightMisplacedRanges : Nat → Range) :
    Nat → SwapState T → SwapState T
  | 0, s => s
  | fuel + 1, s =>
    if s.size = 0 then s
    else swapLoop leftMisplacedRanges rightMisplacedRanges fuel
      (swapRound leftMisplacedRanges rightMisplacedRanges s)

/-- The method `swapItemsInMisplacedRanges`; returns the array. -/
def swapItemsInMisplacedRanges (array : Mem T) (leftMisplacedRanges : Nat → Range)
    (numLeftMisplacedRanges : Nat) (rightMisplacedRanges : Nat → Range)
    (numRightMisplacedRanges : Nat) (startID endID : Nat) : Mem T :=
  let fl := findStartRange startID leftMisplacedRanges numLeftMisplacedRanges
  let fr := findStartRange startID rightMisplacedRanges numRightMisplacedRanges
  let l_range := fl.1
  let leftLocalIndex := fl.2
  let r_range := fr.1
  let rightLocalIndex := fr.2
  let l_left := (leftMisplacedRanges l_range).size - leftLocalIndex
  let r_left := (rightMisplacedRanges r_range).size - rightLocalIndex
  let size := endID - startID
  let l : Int := (leftMisplacedRanges l_range).start + (leftLocalIndex : Int)
  let r : Int := (rightMisplacedRanges r_range).start + (rightLocalIndex : Int)
  let items := min size (min l_left r_left)
  (swapLoop leftMisplacedRanges rightMisplacedRanges size
    { array := array, l_range := l_range, r_range := r_range, l_left := l_left,
      r_left := r_left, size := size, l := l, r := r, items := items }).array

/-- Body of the first `parallel_for` of `partition` for the task `taskID`. -/
def partitionTask (empty : V) (cmp : T → Bool) (reduction_t : V → T → V) (taskID : Nat)
    (p : parallel_partition_static_task T V) : parallel_partition_static_task T V :=
  let startID := (taskID + 0) * p.N / p.tasks
  let endID := (taskID + 1) * p.N / p.tasks
  let res := serial_partitioning p.array startID endID empty empty cmp reduction_t
  let mid := res.1
  { p with array := res.2.1
           counter_start := store p.counter_start taskID startID
           counter_left := store p.counter_left taskID (mid - startID)
           leftReductions := store p.leftReductions taskID res.2.2.1
           rightReductions := store p.rightReductions taskID res.2.2.2 }

/-- The loop `for (i=0;i<tasks;i++) { reduction_v(leftReduction,leftReductions[i]);
reduction_v(rightReduction,rightReductions[i]); }` from `leftReduction = empty;
rightReduction = empty;`. -/
def combineReductions (empty : V) (reduction_v : V → V → V)
    (p : parallel_partition_static_task T V) : V × V :=
  (List.range p.tasks).foldl
    (fun acc i => (reduction_v acc.1 (p.leftReductions i), reduction_v acc.2 (p.rightReductions i)))
    (empty, empty)

/-- The sum `mid = counter_left[0]; for (i=1;i<tasks;i++) mid += counter_left[i];`. -/
def sumCounterLeft (p : parallel_partition_static_task T V) : Nat :=
  (List.range' 1 (p.tasks - 1)).foldl (fun mid i => mid + p.counter_left i) (p.counter_left 0)

/-- The state of the misplaced-range loop of `partition`: the task object and the locals
`numMisplacedItemsLeft`, `numMisplacedItemsRight`. -/
structure MisplacedState (T V : Type) where
  /-- The task object. -/
  p : parallel_partition_static_task T V
  /-- Local `numMisplacedItemsLeft`. -/
  numMisplacedItemsLeft : Nat
  /-- Local `numMisplacedItemsRight`. -/
  numMisplacedItemsRight : Nat

/-- Body of the loop `for (i=0;i<tasks;i++)` of `partition` that records the misplaced
ranges of task `i`. -/
def misplacedStep (globalLeft globalRight : Range) (st : MisplacedState T V) (i : Nat) :
    MisplacedState T V :=
  let left_start : Int := (st.p.counter_start i : Int)
  let left_end : Int := (st.p.counter_start i : Int) + (st.p.counter_left i : Int) - 1
  let right_start : Int := (st.p.counter_start i : Int) + (st.p.counter_left i : Int)
  let right_end : Int := (st.p.counter_start (i + 1) : Int) - 1
  let left_range : Range := ⟨left_start, left_end⟩
  let right_range : Range := ⟨right_start, right_end⟩
  let left_misplaced := globalLeft.intersect right_range
  let right_misplaced := globalRight.intersect left_range
  let st1 : MisplacedState T V :=
    if left_misplaced.empty = false then
      { st with
        numMisplacedItemsLeft := st.numMisplacedItemsLeft + left_misplaced.size
        p := { st.p with
               leftMisplacedRanges :=
                 store st.p.leftMisplacedRanges st.p.numMisplacedRangesLeft left_misplaced
               numMisplacedRangesLeft := st.p.numMisplacedRangesLeft + 1 } }
    else st
  if right_misplaced.empty = false then
    { st1 with
      numMisplacedItemsRight := st1.numMisplacedItemsRight + right_misplaced.size
      p := { st1.p with
             rightMisplacedRanges :=
               store st1.p.rightMisplacedRanges st1.p.numMisplacedRangesRight right_misplaced
             numMisplacedRangesRight := st1.p.numMisplacedRangesRight + 1 } }
  else st1

/-- Body of the second `parallel_for` of `partition` for the task `taskID`. -/
def swapTask (taskID : Nat) (p : parallel_partition_static_task T V) :
    parallel_partition_static_task T V :=
  let startID := (taskID + 0) * p.numMisplacedItems / p.tasks
  let endID := (taskID + 1) * p.numMisplacedItems / p.tasks
  { p with array := swapItemsInMisplacedRanges p.array p.leftMisplacedRanges
             p.numMisplacedRangesLeft p.rightMisplacedRanges p.numMisplacedRangesRight
             startID endID }

/-- The result of `partition`: the returned `mid`, the values left in the reference
parameters `leftReduction` and `rightReduction`, and the task object (with the array). -/
structure PartitionResult (T V : Type) where
  /-- The returned value. -/
  mid : Nat
  /-- Final `leftReduction`. -/
  leftReduction : V
  /-- Final `rightReduction`. -/
  rightReduction : V
  /-- The task object after the call. -/
  task : parallel_partition_static_task T V

/-- The statements `numMisplacedRangesLeft = 0; numMisplacedRangesRight = 0;
counter_start[tasks] = N; counter_left[tasks] = 0;` of `partition`. All other accesses
to the per-task arrays use an index below `tasks`, and `tasks <= MAX_TASKS`; these two
stores use the index `tasks` itself. -/
def setSentinels (p : parallel_partition_static_task T V) :
    Option (parallel_partition_static_task T V) :=
  (storeChecked p.counter_start p.tasks p.N).bind fun counter_start =>
  (storeChecked p.counter_left p.tasks 0).map fun counter_left =>
    { p with numMisplacedRangesLeft := 0, numMisplacedRangesRight := 0,
             counter_start := counter_start, counter_left := counter_left }

/-- The ranges `globalLeft(0,mid-1)`, `globalRight(mid,N-1)` and the loop
`for (i=0;i<tasks;i++)` of `partition` that records the misplaced ranges. -/
def misplacedLoop (mid : Nat) (p : parallel_partition_static_task T V) : MisplacedState T V :=
  let globalLeft : Range := ⟨0, (mid : Int) - 1⟩
  let globalRight : Range := ⟨(mid : Int), (p.N : Int) - 1⟩
  (List.range p.tasks).foldl (misplacedStep globalLeft globalRight)
    { p := p, numMisplacedItemsLeft := 0, numMisplacedItemsRight := 0 }

/-- The part of `partition` after the sentinel stores, up to the `return`: the sum
`mid`, the misplaced-range loop, `numMisplacedItems = numMisplacedItemsLeft` (the source
asserts `numMisplacedItemsLeft == numMisplacedItemsRight`), and the second
`parallel_for` when `numMisplacedItems` is not zero. -/
def partitionTail (order2 : List Nat) (leftReduction rightReduction : V)
    (p1 : parallel_partition_static_task T V) : PartitionResult T V :=
  let mid := sumCounterLeft p1
  let st := misplacedLoop mid p1
  let p2 : parallel_partition_static_task T V :=
    { st.p with numMisplacedItems := st.numMisplacedItemsLeft }
  let global_mid := mid
  let p3 := if p2.numMisplacedItems ≠ 0 then parallel_for order2 swapTask p2 else p2
  { mid := global_mid, leftReduction := leftReduction,
    rightReduction := rightReduction, task := p3 }

/-- The part of `partition` from the sentinel stores to the `return`, on the task object
`p` left by the first `parallel_for`. -/
def partitionFinish (order2 : List Nat) (leftReduction rightReduction : V)
    (p : parallel_partition_static_task T V) : Option (PartitionResult T V) :=
  (setSentinels p).map (partitionTail order2 leftReduction rightReduction)

/-- The method `partition(leftReduction, rightReduction)`. `empty` is the value of type
`V` built from the constant `empty`; `order1` and `order2` are the schedules of the two
`parallel_for` calls. -/
def parallel_partition_static_task.partition (BLOCK_SIZE : Nat) (empty : V)
    (cmp : T → Bool) (reduction_t : V → T → V) (reduction_v : V → V → V)
    (order1 order2 : List Nat) (p : parallel_partition_static_task T V) :
    Option (PartitionResult T V) :=
  if p.N < BLOCK_SIZE then
    let res := serial_partitioning p.array 0 p.N empty empty cmp reduction_t
    some { mid := res.1, leftReduction := res.2.2.1, rightReduction := res.2.2.2,
           task := { p with array := res.2.1 } }
  else
    let p1 := parallel_for order1 (partitionTask empty cmp reduction_t) p
    let red := combineReductions empty reduction_v p1
    partitionFinish order2 red.1 red.2 p1

/-- The function `parallel_in_place_partitioning_static<BLOCK_SIZE>` (the `__X86_64__`
branch): builds the task object on the storage `raw` and calls `partition`. Returns
`mid`, the array and the final `leftReduction`, `rightReduction`; the values
`leftReduction` and `rightReduction` hold on entry are overwritten by `partition`. -/
def parallel_in_place_partitioning_static (BLOCK_SIZE : Nat) (array : Mem T) (N : Nat)
    (init : V) (_leftReduction _rightReduction : V) (cmp : T → Bool)
    (reduction_t : V → T → V) (reduction_v : V → V → V) (numThreads : Nat)
    (empty : V) (raw : RawTables V) (order1 order2 : List Nat) :
    Option (Nat × Mem T × V × V) :=
  ((parallel_partition_static_task.create BLOCK_SIZE array N numThreads init raw).partition
      BLOCK_SIZE empty cmp reduction_t reduction_v order1 order2).map
    fun res => (res.mid, res.task.array, res.leftReduction, res.rightReduction)

/-- Storage with all counters zero, used in examples. -/
def zeroTables (v : V) : RawTables V :=
  { counter_start := fun _ => 0, counter_left := fun _ => 0,
    leftMisplacedRanges := fun _ => ⟨0, 0⟩, rightMisplacedRanges := fun _ => ⟨0, 0⟩,
    leftReductions := fun _ => v, rightReductions := fun _ => v }

/-! ## Specification predicates -/

/-- Postcondition of the `while(1)` loop of `serial_partitioning` started on the cells
`l .. r` of `a` with accumulators `L`, `R`, for a result `(m, a', L', R')`: the boundary
lies in `[l, r+1]`, the cells below it satisfy `cmp` and those from it on do not, cells
outside `l .. r` are untouched, the cells `l .. r` are permuted, and the accumulators
are the folds of `red` over a permutation of the cells that satisfied `cmp`,
respectively did not. -/
structure SerialPost (cmp : T → Bool) (red : V → T → V) (a : Mem T) (l r : Int) (L R : V)
    (res : Int × Mem T × V × V) : Prop where
  /-- The boundary is not below `l`. -/
  lo : l ≤ res.1
  /-- The boundary is not above `r + 1`. -/
  hi : res.1 ≤ r + 1
  /-- Cells below the boundary satisfy `cmp`. -/
  left : ∀ k, l ≤ k → k < res.1 → cmp (res.2.1 k) = true
  /-- Cells from the boundary on do not satisfy `cmp`. -/
  right : ∀ k, res.1 ≤ k → k ≤ r → cmp (res.2.1 k) = false
  /-- Cells outside `l .. r` are unchanged. -/
  frame : ∀ k, k < l ∨ r < k → res.2.1 k = a k
  /-- The cells `l .. r` are permuted. -/
  perm : (slice res.2.1 l (r + 1)).Perm (slice a l (r + 1))
  /-- The accumulators are folds over permutations of the two classes. -/
  traces : ∃ tl tr : List T,
    tl.Perm ((slice a l (r + 1)).filter cmp) ∧
    tr.Perm ((slice a l (r + 1)).filter (fun x => !cmp x)) ∧
    res.2.2.1 = tl.foldl red L ∧ res.2.2.2 = tr.foldl red R

/-- The sequences of elements that `serial_partitioning` passes to `reduction_t` for
`leftReduction` and for `rightReduction`, in the order of the calls: the run of
`serial_partitioning` whose accumulators are lists and whose `reduction_t` appends the
element it is given. -/
def serialTrace (array : Mem T) (begin end_ : Nat) (cmp : T → Bool) : List T × List T :=
  (serial_partitioning array begin end_ ([] : List T) ([] : List T) cmp
    (fun acc x => acc ++ [x])).2.2

/-- The task object after the sentinel stores of `setSentinels`, when these are inside
the arrays. -/
def withSentinels (p : parallel_partition_static_task T V) :
    parallel_partition_static_task T V :=
  { p with numMisplacedRangesLeft := 0, numMisplacedRangesRight := 0,
           counter_start := store p.counter_start p.tasks p.N,
           counter_left := store p.counter_left p.tasks 0 }

/-- The first index `(t+0)*N/tasks` of the subrange of task `t`; the subrange ends
before `taskStart N tasks (t+1)`. -/
def taskStart (N tasks t : Nat) : Nat := t * N / tasks

/-- What the body of the first `parallel_for` for task `t` has established in the task
object `p`, relative to the array `a0` on entry of `partition`: the recorded start and
left count, the partition of the task's subrange, and the two local reductions. -/
structure TaskPost (cmp : T → Bool) (red : V → T → V) (empty : V) (a0 : Mem T)
    (N tasks : Nat) (p : parallel_partition_static_task T V) (t : Nat) : Prop where
  /-- The entry `counter_start[t]`. -/
  start : p.counter_start t = taskStart N tasks t
  /-- The left count stays inside the subrange. -/
  bound : taskStart N tasks t + p.counter_left t ≤ taskStart N tasks (t + 1)
  /-- The first `counter_left[t]` cells of the subrange satisfy `cmp`. -/
  left : ∀ k : Int, (taskStart N tasks t : Int) ≤ k →
    k < (taskStart N tasks t : Int) + (p.counter_left t : Int) → cmp (p.array k) = true
  /-- The other cells of the subrange do not. -/
  right : ∀ k : Int, (taskStart N tasks t : Int) + (p.counter_left t : Int) ≤ k →
    k < (taskStart N tasks (t + 1) : Int) → cmp (p.array k) = false
  /-- The subrange is a permutation of what it held on entry. -/
  perm : (slice p.array (taskStart N tasks t) (taskStart N tasks (t + 1))).Perm
    (slice a0 (taskStart N tasks t) (taskStart N tasks (t + 1)))
  /-- The local reductions are folds over permutations of the two classes. -/
  traces : ∃ tl tr : List T,
    tl.Perm ((slice a0 (taskStart N tasks t) (taskStart N tasks (t + 1))).filter cmp) ∧
    tr.Perm ((slice a0 (taskStart N tasks t) (taskStart N tasks (t + 1))).filter
      (fun x => !cmp x)) ∧
    p.leftReductions t = tl.foldl red empty ∧ p.rightReductions t = tr.foldl red empty

/-- Invariant of the first `parallel_for` of `partition` when the tasks in `D` have run:
these satisfy `TaskPost`, the subranges of the other tasks and the cells outside
`[0,N)` still hold what `a0` held. -/
structure Phase1Inv (cmp : T → Bool) (red : V → T → V) (empty : V) (a0 : Mem T)
    (N tasks : Nat) (D : Nat → Prop) (p : parallel_partition_static_task T V) : Prop where
  /-- Member `N` is unchanged. -/
  hN : p.N = N
  /-- Member `tasks` is unchanged. -/
  hT : p.tasks = tasks
  /-- The tasks that ran. -/
  done : ∀ t, D t → TaskPost cmp red empty a0 N tasks p t
  /-- The subranges of the tasks that did not run yet. -/
  todo : ∀ t, t < tasks → ¬ D t → ∀ k : Int, (taskStart N tasks t : Int) ≤ k →
    k < (taskStart N tasks (t + 1) : Int) → p.array k = a0 k
  /-- Cells outside the array. -/
  frame : ∀ k : Int, k < 0 ∨ (N : Int) ≤ k → p.array k = a0 k

/-! ## Specification of the misplaced ranges -/

/-- One of the two range lists of `partition` with its length and the running item
count: `leftMisplacedRanges`, `numMisplacedRangesLeft`, `numMisplacedItemsLeft`, or the
right-hand three. -/
structure RangeTable where
  /-- The array of ranges. -/
  tbl : Nat → Range
  /-- The number of ranges stored. -/
  n : Nat
  /-- The number of items of the stored ranges. -/
  total : Nat

/-- The left range list of a state of the misplaced-range loop. -/
def leftView (st : MisplacedState T V) : RangeTable :=
  ⟨st.p.leftMisplacedRanges, st.p.numMisplacedRangesLeft, st.numMisplacedItemsLeft⟩

/-- The right range list of a state of the misplaced-range loop. -/
def rightView (st : MisplacedState T V) : RangeTable :=
  ⟨st.p.rightMisplacedRanges, st.p.numMisplacedRangesRight, st.numMisplacedItemsRight⟩

/-- The statement `if (!r.empty()) { items += r.size(); ranges[num++] = r; }` of the
misplaced-range loop for the range `cand i` of task `i`. -/
def collectStep (cand : Nat → Range) (c : RangeTable) (i : Nat) : RangeTable :=
  if (cand i).empty = false then
    { tbl := store c.tbl c.n (cand i), n := c.n + 1, total := c.total + (cand i).size }
  else c

/-- The range `left_misplaced` of task `i`: `globalLeft.intersect(right_range)`. -/
def leftMisOf (mid : Nat) (cs cl : Nat → Nat) (i : Nat) : Range :=
  (⟨0, (mid : Int) - 1⟩ : Range).intersect
    ⟨(cs i : Int) + (cl i : Int), (cs (i + 1) : Int) - 1⟩

/-- The range `right_misplaced` of task `i`: `globalRight.intersect(left_range)`. -/
def rightMisOf (mid N : Nat) (cs cl : Nat → Nat) (i : Nat) : Range :=
  (⟨(mid : Int), (N : Int) - 1⟩ : Range).intersect
    ⟨(cs i : Int), (cs i : Int) + (cl i : Int) - 1⟩

/-- The number of items of the first `n` ranges of a range list. -/
def prefixSize (r : Nat → Range) (n : Nat) : Nat :=
  ((List.range n).map (fun j => (r j).size)).sum

/-- Invariant of a range list after the misplaced-range loop handled the tasks below
`k`: the stored ranges are the non-empty ranges `cand t`, `t < k`, in increasing order
and pairwise apart, all below the separator `sep k`, and the item count is their total
size. -/
structure CollInv (cand : Nat → Range) (sep : Nat → Int) (k : Nat) (c : RangeTable) :
    Prop where
  /-- Every stored range is a non-empty candidate. -/
  src : ∀ j, j < c.n → ∃ t, t < k ∧ c.tbl j = cand t ∧ (cand t).empty = false
  /-- Every non-empty candidate is stored. -/
  cov : ∀ t, t < k → (cand t).empty = false → ∃ j, j < c.n ∧ c.tbl j = cand t
  /-- The stored ranges are strictly increasing and disjoint. -/
  sorted : ∀ j j', j < j' → j' < c.n → (c.tbl j).end_ < (c.tbl j').start
  /-- The stored ranges lie below the separator. -/
  below : ∀ j, j < c.n → (c.tbl j).end_ < sep k
  /-- The item count is the size of the stored ranges. -/
  tot1 : c.total = prefixSize c.tbl c.n
  /-- The item count is the size of all candidates. -/
  tot2 : c.total = ((List.range k).map (fun t => (cand t).size)).sum

/-- Two task objects agree on the array, on `N` and `tasks` and on the two counter
arrays. -/
def SameCore (p q : parallel_partition_static_task T V) : Prop :=
  p.array = q.array ∧ p.N = q.N ∧ p.tasks = q.tasks ∧
  p.counter_start = q.counter_start ∧ p.counter_left = q.counter_left

/-- The array cell with coordinate `c` in the virtual concatenation of the ranges
`r[0], r[1], ...`: the cell that `findStartRange` and the pointer initialisation of
`swapItemsInMisplacedRanges` compute for `startID = c`. -/
def cellOf (r : Nat → Range) (numRanges : Nat) (c : Nat) : Int :=
  (r (findStartRange c r numRanges).1).start + ((findStartRange c r numRanges).2 : Int)

/-- The exchanges `xchg(array[f c], array[g c])` for the coordinates
`c = s, s+1, ..., s+n-1`, in this order. -/
def swapCells (f g : Nat → Int) : Nat → Nat → Mem T → Mem T
  | _, 0, a => a
  | s, n + 1, a => swapCells f g (s + 1) n (xchg a (f s) (g s))

/-- The cursor of `swapItemsInMisplacedRanges` into one range list, at coordinate `c`:
the current range `idx`, the items `left` of it that remain, and the pointer. -/
structure CursorOK (r : Nat → Range) (n c idx left : Nat) (ptr : Int) : Prop where
  /-- The current range is one of the list. -/
  inList : idx < n
  /-- No more items remain than the range has. -/
  le_size : left ≤ (r idx).size
  /-- The coordinate and the remaining items add up to the end of the range. -/
  coord : c + left = prefixSize r (idx + 1)
  /-- The pointer stands `left` cells before the end of the range. -/
  ptr_eq : ptr = (r idx).start + ((r idx).size : Int) - (left : Int)

/-- Invariant of the `while(size)` loop of `swapItemsInMisplacedRanges` at coordinate
`c` of the slice ending at `e`. -/
structure SwapInv (lm : Nat → Range) (nl : Nat) (rm : Nat → Range) (nr : Nat) (e c : Nat)
    (s : SwapState T) : Prop where
  /-- The coordinate is inside the slice. -/
  c_le : c ≤ e
  /-- Local `size` counts the remaining coordinates. -/
  size_eq : s.size = e - c
  /-- The left cursor. -/
  left : CursorOK lm nl c s.l_range s.l_left s.l
  /-- The right cursor. -/
  right : CursorOK rm nr c s.r_range s.r_left s.r
  /-- Local `items` is up to date unless a range is used up. -/
  items : s.size = 0 ∨ s.l_left = 0 ∨ s.r_left = 0 ∨
    (s.items = min s.size (min s.l_left s.r_left) ∧ 0 < s.l_left ∧ 0 < s.r_left)

/-- The array `a` is the array `a1` with the cells `f k` and `g k` exchanged for every
coordinate `k` of the set `S`. -/
structure Swapped (f g : Nat → Int) (S : Nat → Prop) (a1 a : Mem T) : Prop where
  /-- The cell `f k` holds what `g k` held. -/
  at_f : ∀ k, S k → a (f k) = a1 (g k)
  /-- The cell `g k` holds what `f k` held. -/
  at_g : ∀ k, S k → a (g k) = a1 (f k)
  /-- The other cells are unchanged. -/
  other : ∀ x, (∀ k, S k → x ≠ f k ∧ x ≠ g k) → a x = a1 x

/-- Invariant of the second `parallel_for` of `partition` when the tasks in `D` have
run: the range lists and counts are untouched, and the array is the array `a1` left by
the first phase with the cells of the coordinates of these tasks exchanged. -/
structure Phase3Inv (lm : Nat → Range) (nl : Nat) (rm : Nat → Range) (nr : Nat)
    (M tasks N : Nat) (a1 : Mem T) (D : Nat → Prop)
    (p : parallel_partition_static_task T V) : Prop where
  /-- Member `leftMisplacedRanges`. -/
  h_lm : p.leftMisplacedRanges = lm
  /-- Member `numMisplacedRangesLeft`. -/
  h_nl : p.numMisplacedRangesLeft = nl
  /-- Member `rightMisplacedRanges`. -/
  h_rm : p.rightMisplacedRanges = rm
  /-- Member `numMisplacedRangesRight`. -/
  h_nr : p.numMisplacedRangesRight = nr
  /-- Member `numMisplacedItems`. -/
  h_M : p.numMisplacedItems = M
  /-- Member `tasks`. -/
  h_T : p.tasks = tasks
  /-- The exchanges made so far. -/
  swapped : Swapped (cellOf lm nl) (cellOf rm nr)
    (fun k => ∃ t, D t ∧ taskStart M tasks t ≤ k ∧ k < taskStart M tasks (t + 1)) a1 p.array
  /-- The array is a permutation of `a1`. -/
  perm : (contents p.array N).Perm (contents a1 N)
  /-- Cells outside the array are unchanged. -/
  frame : ∀ x : Int, x < 0 ∨ (N : Int) ≤ x → p.array x = a1 x

/-! ## FastAllocator

Conventions of the embedding of `alloc.h`.

* A `Block*` is the index of the block in the list `blocks` of all `Block` objects
  created so far, `nullptr` is `none`; a pointer `&data[i]` into the payload of a block
  is the pair of the block's index and the offset `i`.
* Byte counts and cursors are `Nat`; they count bytes of one address space and stay far
  below `2^64`, so the sums of the source are exact. The masks `~(align-1)` and
  `~(PAGE_SIZE-1)` are 64-bit complements, and a difference of two `size_t` values that
  can fall below zero wraps around (`sub64`).
* Execution is sequential: one call runs to completion before the next starts, the
  calling thread is given by its `threadIndex`. The locks are not part of the state. The
  calls that `clear` and `shrink` make to the backend and to `memoryMonitor` are recorded
  as a trace; the `memoryMonitor` calls of `Block::create` and `Block::malloc` are not.
-/

/-- The constant `maxAlignment`. -/
def maxAlignment : Nat := 64

/-- The macro `maxAllocationSize`, `size_t(4*1024*1024-maxAlignment)`. -/
def maxAllocationSize : Nat := 4 * 1024 * 1024 - maxAlignment

/-- The constant `MAX_THREAD_USED_BLOCK_SLOTS`. -/
def MAX_THREAD_USED_BLOCK_SLOTS : Nat := 8

/-- Modelled from the spec: the macro `PAGE_SIZE` of the platform headers, which are not
among the sources; the spec speaks of page-sized allocation and of 4 KiB regions. -/
def PAGE_SIZE : Nat := 4096

/-- Modelled from the spec: the macro `PAGE_SIZE_2M` of the platform headers, which are
not among the sources; the spec speaks of 2 MiB huge pages. -/
def PAGE_SIZE_2M : Nat := 2 * 1024 * 1024

/-- The value `offsetof(Block,data[0])`: the header members and the padding array
`align[maxAlignment-5*sizeof(size_t)-sizeof(AllocationType)-sizeof(bool)]` fill
`maxAlignment` bytes. -/
def sizeof_Header : Nat := 64

/-- The 64-bit complement `~x` of a `size_t`. -/
def complement64 (x : Nat) : Nat := x ^^^ (2 ^ 64 - 1)

/-- The expression `(bytes+(align-1)) & ~(align-1)`. -/
def roundUp (bytes align : Nat) : Nat := (bytes + (align - 1)) &&& complement64 (align - 1)

/-- The enum `AllocationType`. -/
inductive AllocationType where
  | ALIGNED_MALLOC
  | OS_MALLOC
  | SHARED
  | ANY_TYPE
deriving DecidableEq

/-- The header of a `Block` (the payload `data` is addressed by offsets). -/
structure Block where
  /-- Member `cur`: current location of the allocator. -/
  cur : Nat
  /-- Member `allocEnd`: end of the allocated memory region. -/
  allocEnd : Nat
  /-- Member `reserveEnd`: end of the reserved memory region. -/
  reserveEnd : Nat
  /-- Member `next`: pointer to the next block in the list. -/
  next : Option Nat
  /-- Member `wasted`. -/
  wasted : Nat
  /-- Member `atype`. -/
  atype : AllocationType
  /-- Member `huge_pages`. -/
  huge_pages : Bool
deriving DecidableEq

/-- The result of `Block::malloc`: the block afterwards, the returned pointer as an
offset into `data` (`none` for `nullptr`), and the value of the reference parameter
`bytes_in` after the call. -/
structure BlockMalloc where
  /-- The block after the call. -/
  block : Block
  /-- The offset `i` of the returned `&data[i]`, or `none` for `nullptr`. -/
  ptr : Option Nat
  /-- The reference parameter `bytes_in` after the call. -/
  bytes_in : Nat
deriving DecidableEq

/-- The method `Block::malloc(device, bytes_in, align, partial)`. -/
def Block.malloc (b : Block) (bytes_in align : Nat) (partial_ : Bool) : BlockMalloc :=
  let bytes := roundUp bytes_in align
  if b.cur + bytes > b.reserveEnd ∧ partial_ = false then
    { block := b, ptr := none, bytes_in := bytes_in }
  else
    let i := b.cur
    let b1 : Block := { b with cur := b.cur + bytes }
    if i + bytes > b.reserveEnd ∧ partial_ = false then
      { block := b1, ptr := none, bytes_in := bytes_in }
    else if i > b.reserveEnd then
      { block := b1, ptr := none, bytes_in := bytes_in }
    else
      { block := b1, ptr := some i, bytes_in := min bytes (b.reserveEnd - i) }

/-- The constructor `Block(atype, bytesAllocate, bytesReserve, next, wasted, huge_pages)`. -/
def Block.new (atype : AllocationType) (bytesAllocate bytesReserve : Nat) (next : Option Nat)
    (wasted : Nat) (huge_pages : Bool) : Block :=
  { cur := 0, allocEnd := bytesAllocate, reserveEnd := bytesReserve, next := next,
    wasted := wasted, atype := atype, huge_pages := huge_pages }

/-- The function `Block::create(device, bytesAllocate, bytesReserve, next, atype)`; its
result is the header of the new block, `none` for the `NULL` returned after
`assert(false)`. `huge_pages` is the flag that `os_malloc` reports. -/
def Block.create (bytesAllocate bytesReserve : Nat) (next : Option Nat)
    (atype : AllocationType) (huge_pages : Bool) : Option Block :=
  let bytesAllocate := (sizeof_Header + bytesAllocate + PAGE_SIZE - 1) &&& complement64 (PAGE_SIZE - 1)
  let bytesReserve := (sizeof_Header + bytesReserve + PAGE_SIZE - 1) &&& complement64 (PAGE_SIZE - 1)
  if atype = AllocationType.ALIGNED_MALLOC then
    if bytesAllocate = 2 * PAGE_SIZE_2M then
      if next = none then
        some (Block.new AllocationType.OS_MALLOC (bytesAllocate - sizeof_Header)
          (bytesReserve - sizeof_Header) next 0 huge_pages)
      else
        some (Block.new AllocationType.ALIGNED_MALLOC (bytesAllocate - sizeof_Header)
          (bytesAllocate - sizeof_Header) next maxAlignment false)
    else
      some (Block.new AllocationType.ALIGNED_MALLOC (bytesAllocate - sizeof_Header)
        (bytesAllocate - sizeof_Header) next maxAlignment false)
  else if atype = AllocationType.OS_MALLOC then
    some (Block.new AllocationType.OS_MALLOC (bytesAllocate - sizeof_Header)
      (bytesReserve - sizeof_Header) next 0 huge_pages)
  else none

/-- A pointer `&data[offset]` into the payload of the block `block`. -/
structure Ptr where
  /-- The block. -/
  block : Nat
  /-- The offset into `data`. -/
  offset : Nat
deriving DecidableEq

/-- The difference `a - b` of two `size_t` values, which wraps around below zero. -/
def sub64 (a b : Nat) : Nat := (a + (2 ^ 64 - b % 2 ^ 64)) % 2 ^ 64

/-- The members of `ThreadLocal` (the back pointer `alloc` is passed to the methods that
use it). -/
structure ThreadLocal where
  /-- Member `ptr`: pointer to the memory block, `none` for `nullptr`. -/
  ptr : Option Ptr
  /-- Member `cur`: current location of the allocator. -/
  cur : Nat
  /-- Member `end`: end of the memory block. -/
  end_ : Nat
  /-- Member `allocBlockSize`: block size for allocations. -/
  allocBlockSize : Nat
  /-- Member `bytesUsed`: number of total bytes allocated. -/
  bytesUsed : Nat
  /-- Member `bytesWasted`: number of bytes wasted. -/
  bytesWasted : Nat
deriving DecidableEq

/-- The method `ThreadLocal::reset`. -/
def ThreadLocal.reset (tl : ThreadLocal) : ThreadLocal :=
  { tl with ptr := none, cur := 0, end_ := 0, bytesWasted := 0, bytesUsed := 0 }

/-- The method `ThreadLocal::getUsedBytes`. -/
def ThreadLocal.getUsedBytes (tl : ThreadLocal) : Nat := tl.bytesUsed

/-- The method `ThreadLocal::getWastedBytes`, `bytesWasted + (end-cur)`. -/
def ThreadLocal.getWastedBytes (tl : ThreadLocal) : Nat := tl.bytesWasted + sub64 tl.end_ tl.cur

/-- The members of `ThreadLocal2`: the array `allocators[2]`, and `alloc0`, `alloc1` as
indices into it. -/
structure ThreadLocal2 where
  /-- Member `alloc0`, a pointer to `allocators[alloc0]`. -/
  alloc0 : Nat
  /-- Member `alloc1`, a pointer to `allocators[alloc1]`. -/
  alloc1 : Nat
  /-- Member `allocators[0]`. -/
  allocators0 : ThreadLocal
  /-- Member `allocators[1]`. -/
  allocators1 : ThreadLocal
deriving DecidableEq

/-- The method `ThreadLocal2::reset`. -/
def ThreadLocal2.reset (t : ThreadLocal2) : ThreadLocal2 :=
  { t with allocators0 := t.allocators0.reset, allocators1 := t.allocators1.reset }

/-- The method `ThreadLocal2::getUsedBytes`. -/
def ThreadLocal2.getUsedBytes (t : ThreadLocal2) : Nat :=
  t.allocators0.getUsedBytes + t.allocators1.getUsedBytes

/-- The method `ThreadLocal2::getWastedBytes`. -/
def ThreadLocal2.getWastedBytes (t : ThreadLocal2) : Nat :=
  t.allocators0.getWastedBytes + t.allocators1.getWastedBytes

/-- The members of `FastAllocator` that the allocation and lifecycle paths use, and the
`Block` objects created so far. -/
structure FastAllocator where
  /-- All `Block` objects; a `Block*` is an index into this list. -/
  blocks : List Block
  /-- Member `slotMask`. -/
  slotMask : Nat
  /-- Member `threadUsedBlocks[MAX_THREAD_USED_BLOCK_SLOTS]`. -/
  threadUsedBlocks : Nat → Option Nat
  /-- Member `usedBlocks`. -/
  usedBlocks : Option Nat
  /-- Member `freeBlocks`. -/
  freeBlocks : Option Nat
  /-- Member `threadBlocks[MAX_THREAD_USED_BLOCK_SLOTS]`. -/
  threadBlocks : Nat → Option Nat
  /-- Member `use_single_mode`. -/
  use_single_mode : Bool
  /-- Member `defaultBlockSize`. -/
  defaultBlockSize : Nat
  /-- Member `growSize`. -/
  growSize : Nat
  /-- Member `log2_grow_size_scale`. -/
  log2_grow_size_scale : Nat
  /-- Member `bytesUsed`. -/
  bytesUsed : Nat
  /-- Member `bytesWasted`. -/
  bytesWasted : Nat
  /-- Member `atype`. -/
  atype : AllocationType
  /-- Modelled from the spec: the member `thread_local_allocators2`, whose class
  `ThreadLocalData` is not among the sources; the spec speaks of a registry of the
  per-thread states that the pool can iterate. The list holds the `ThreadLocal2` objects
  of the threads. -/
  thread_local_allocators2 : List ThreadLocal2

/-- The constructor `FastAllocator(device, osAllocation)`. -/
def FastAllocator.new (osAllocation : Bool) : FastAllocator :=
  { blocks := [], slotMask := 0, threadUsedBlocks := fun _ => none, usedBlocks := none,
    freeBlocks := none, threadBlocks := fun _ => none, use_single_mode := false,
    defaultBlockSize := PAGE_SIZE, growSize := PAGE_SIZE, log2_grow_size_scale := 0,
    bytesUsed := 0, bytesWasted := 0,
    atype := if osAllocation then AllocationType.OS_MALLOC else AllocationType.ALIGNED_MALLOC,
    thread_local_allocators2 := [] }

/-- Placement of a new `Block` object: it is appended to `blocks` and its index is the
pointer; a `NULL` result of `Block::create` places nothing. -/
def FastAllocator.place (fa : FastAllocator) (b : Option Block) : FastAllocator × Option Nat :=
  match b with
  | some blk => ({ fa with blocks := fa.blocks ++ [blk] }, some fa.blocks.length)
  | none => (fa, none)

/-- The errors of `FastAllocator::malloc`: the exception `allocation is too large`, the
use of a `Block*` that points to no block, and a loop that did not end within the
fuel. -/
inductive MallocError where
  | tooLarge
  | badPointer
  | outOfFuel
deriving DecidableEq

/-- The outcome of `FastAllocator::malloc`: the allocator afterwards and either the
returned pointer with the final value of the reference parameter `bytes`, or the
error. -/
structure MallocOutcome where
  /-- The allocator after the call. -/
  pool : FastAllocator
  /-- The returned pointer and the granted byte count, or the error. -/
  result : Except MallocError (Ptr × Nat)

/-- The method `incGrowSizeScale`; returns the allocator and the scale. -/
def FastAllocator.incGrowSizeScale (fa : FastAllocator) : FastAllocator × Nat :=
  let scale := fa.log2_grow_size_scale + 1
  ({ fa with log2_grow_size_scale := fa.log2_grow_size_scale + 1 }, 1 <<< min 16 scale)

/-- The first statement of a round of `FastAllocator::malloc`:
`if (myUsedBlocks) { void* ptr = myUsedBlocks->malloc(device,bytes,align,partial);
if (ptr) return ptr; }`. Returns the allocator and the pointer with the granted byte
count when the round returns one. -/
def FastAllocator.tryCurrent (fa : FastAllocator) (myUsedBlocks : Option Nat)
    (bytes align : Nat) (partial_ : Bool) :
    Except MallocError (FastAllocator × Option (Ptr × Nat)) :=
  match myUsedBlocks with
  | none => Except.ok (fa, none)
  | some addr =>
    match fa.blocks.get? addr with
    | none => Except.error MallocError.badPointer
    | some blk =>
      let r := blk.malloc bytes align partial_
      Except.ok ({ fa with blocks := fa.blocks.set addr r.block },
        r.ptr.map (fun i => ((⟨addr, i⟩ : Ptr), r.bytes_in)))

/-- The rest of a round of `FastAllocator::malloc` after the current block gave no
memory and `bytes <= maxAllocationSize`: a new block for the slot, created or taken from
the free list. In sequential execution the tests `myUsedBlocks == threadUsedBlocks[slot]`
hold. -/
def FastAllocator.refill (fa : FastAllocator) (slot : Nat) (myUsedBlocks : Option Nat)
    (bytes : Nat) (huge_pages : Bool) : Except MallocError FastAllocator :=
  /- parallel block creation in case of no freeBlocks -/
  if fa.freeBlocks = none then
    if myUsedBlocks = fa.threadUsedBlocks slot then
      let allocSize := min (max fa.growSize bytes) maxAllocationSize
      let placed := fa.place
        (Block.create allocSize allocSize (fa.threadBlocks slot) fa.atype huge_pages)
      Except.ok
        { placed.1 with threadUsedBlocks := store placed.1.threadUsedBlocks slot placed.2,
                        threadBlocks := store placed.1.threadBlocks slot placed.2 }
    else Except.ok fa
  /- if this fails allocate new block -/
  else if myUsedBlocks = fa.threadUsedBlocks slot then
    match fa.freeBlocks with
    | some free =>
      match fa.blocks.get? free with
      | none => Except.error MallocError.badPointer
      | some freeBlk =>
        let nextFreeBlock := freeBlk.next
        Except.ok
          { fa with blocks := fa.blocks.set free { freeBlk with next := fa.usedBlocks },
                    usedBlocks := some free,
                    threadUsedBlocks := store fa.threadUsedBlocks slot (some free),
                    freeBlocks := nextFreeBlock }
    | none =>
      let grown := fa.incGrowSizeScale
      let allocSize := min (grown.1.growSize * grown.2) (maxAllocationSize + maxAlignment)
        - maxAlignment
      let placed := grown.1.place
        (Block.create allocSize allocSize grown.1.usedBlocks grown.1.atype huge_pages)
      Except.ok
        { placed.1 with threadUsedBlocks := store placed.1.threadUsedBlocks slot placed.2,
                        usedBlocks := placed.2 }
  else Except.ok fa

/-- The `while (true)` loop of `FastAllocator::malloc(bytes, align, partial)` for the
calling thread `threadIndex`; `huge_pages` is the flag `os_malloc` reports for a block
created by the call. -/
def FastAllocator.mallocLoop (threadIndex align : Nat) (partial_ huge_pages : Bool) :
    Nat → FastAllocator → Nat → MallocOutcome
  | 0, fa, _ => { pool := fa, result := Except.error MallocError.outOfFuel }
  | fuel + 1, fa, bytes =>
    let slot := threadIndex &&& fa.slotMask
    let myUsedBlocks := fa.threadUsedBlocks slot
    match fa.tryCurrent myUsedBlocks bytes align partial_ with
    | Except.error e => { pool := fa, result := Except.error e }
    | Except.ok (fa1, some res) => { pool := fa1, result := Except.ok res }
    | Except.ok (fa1, none) =>
      /- throw error if allocation is too large -/
      if bytes > maxAllocationSize then
        { pool := fa1, result := Except.error MallocError.tooLarge }
      else
        match fa1.refill slot myUsedBlocks bytes huge_pages with
        | Except.error e => { pool := fa1, result := Except.error e }
        | Except.ok fa2 =>
          FastAllocator.mallocLoop threadIndex align partial_ huge_pages fuel fa2 bytes

/-- The method `FastAllocator::malloc(bytes, align, partial)` called by the thread
`threadIndex`. A round of the loop returns, throws, takes a block from the free list or
creates a block, so the fuel `blocks.length + 3` is never used up. -/
def FastAllocator.malloc (fa : FastAllocator) (threadIndex bytes align : Nat)
    (partial_ huge_pages : Bool) : MallocOutcome :=
  FastAllocator.mallocLoop threadIndex align partial_ huge_pages (fa.blocks.length + 3) fa bytes

/-- A call of `FastAllocator::malloc`: the calling thread, the arguments, and the flag
`os_malloc` reports should the call create a block. -/
structure Request where
  /-- The calling thread. -/
  threadIndex : Nat
  /-- Argument `bytes`. -/
  bytes : Nat
  /-- Argument `align`. -/
  align : Nat
  /-- Argument `partial`. -/
  partial_ : Bool
  /-- The flag reported by `os_malloc`. -/
  huge_pages : Bool

/-- A sequence of calls of `FastAllocator::malloc` on one allocator, run as long as the
calls succeed: the pointers and granted byte counts of the successful calls, in order;
the run ends at the first call that throws. -/
def FastAllocator.run : FastAllocator → List Request → List (Ptr × Nat)
  | _, [] => []
  | fa, q :: rest =>
    match (fa.malloc q.threadIndex q.bytes q.align q.partial_ q.huge_pages).result with
    | Except.ok res =>
      res :: FastAllocator.run
        (fa.malloc q.threadIndex q.bytes q.align q.partial_ q.huge_pages).pool rest
    | Except.error _ => []

/-- A sequence of calls of `Block::malloc` on one block: the result of each call, in
order. -/
def Block.run : Block → List (Nat × Nat × Bool) → List BlockMalloc
  | _, [] => []
  | b, q :: rest =>
    (b.malloc q.1 q.2.1 q.2.2) :: Block.run (b.malloc q.1 q.2.1 q.2.2).block rest

/-- Every block cursor of the allocator is a multiple of `A`. -/
def FastAllocator.CursorsAligned (A : Nat) (fa : FastAllocator) : Prop :=
  ∀ b ∈ fa.blocks, A ∣ b.cur


/-- The byte count that a call of `Block::malloc` granted: the value it wrote to
`bytes_in` when it returned a pointer, nothing when it returned `nullptr`. -/
def BlockMalloc.granted (r : BlockMalloc) : Nat :=
  match r.ptr with
  | some _ => r.bytes_in
  | none => 0

/-- The allocator after a sequence of calls of `FastAllocator::malloc`, run as long as
the calls succeed; the run ends at the first call that throws, with the allocator that
call left. -/
def FastAllocator.runPool : FastAllocator → List Request → FastAllocator
  | fa, [] => fa
  | fa, q :: rest =>
    match (fa.malloc q.threadIndex q.bytes q.align q.partial_ q.huge_pages).result with
    | Except.ok _ =>
      FastAllocator.runPool
        (fa.malloc q.threadIndex q.bytes q.align q.partial_ q.huge_pages).pool rest
    | Except.error _ => (fa.malloc q.threadIndex q.bytes q.align q.partial_ q.huge_pages).pool

/-! ## ThreadLocal::malloc -/

/-- A pointer returned by `ThreadLocal::malloc`. -/
inductive BumpPtr where
  /-- The pointer `&ptr[offset]` into the memory block `ptr` of the `ThreadLocal`. -/
  | slab (ptr : Option Ptr) (offset : Nat)
  /-- A pointer returned by `alloc->malloc`. -/
  | pool (p : Ptr)
  /-- The `nullptr` returned after `assert(false)`. -/
  | null
deriving DecidableEq

/-- The outcome of `ThreadLocal::malloc`: the `ThreadLocal` and the parent allocator
afterwards, the calls of `alloc->malloc` it made, in order, and the returned pointer or
the exception thrown by `alloc->malloc`. -/
structure BumpOutcome where
  /-- The `ThreadLocal` after the call. -/
  bump : ThreadLocal
  /-- The parent allocator after the call. -/
  alloc : FastAllocator
  /-- The calls of `alloc->malloc` made. -/
  requests : List Request
  /-- The returned pointer, or the error. -/
  result : Except MallocError BumpPtr

/-- The value `ofs = (align - cur) & (align-1)`. -/
def ThreadLocal.ofs (tl : ThreadLocal) (align : Nat) : Nat :=
  sub64 align tl.cur &&& (align - 1)

/-- The statements `ofs = (align - cur) & (align-1); cur += bytes + ofs;
if (likely(cur <= end)) { bytesWasted += ofs; return &ptr[cur - bytes]; }
cur -= bytes + ofs;` of `ThreadLocal::malloc`: the `ThreadLocal` and the returned offset
into `ptr` when the statements return, `none` when they fall through (with `cur`
restored). -/
def ThreadLocal.tryLocal (tl : ThreadLocal) (bytes align : Nat) : Option (ThreadLocal × Nat) :=
  let ofs := tl.ofs align
  let cur := tl.cur + (bytes + ofs)
  if cur ≤ tl.end_ then
    some ({ tl with cur := cur, bytesWasted := tl.bytesWasted + ofs }, cur - bytes)
  else none

/-- The statements `blockSize = allocBlockSize; ptr = (char*) alloc->malloc(blockSize,
maxAlignment,partial); bytesWasted += end-cur; cur = 0; end = blockSize;` of
`ThreadLocal::malloc`; `blockSize` is passed by reference and holds the granted byte
count afterwards. An exception of `alloc->malloc` leaves the `ThreadLocal` as it is. -/
def ThreadLocal.newBlock (tl : ThreadLocal) (alloc : FastAllocator) (threadIndex : Nat)
    (partial_ huge_pages : Bool) : FastAllocator × Except MallocError ThreadLocal :=
  let blockSize := tl.allocBlockSize
  let r := alloc.malloc threadIndex blockSize maxAlignment partial_ huge_pages
  match r.result with
  | Except.error e => (r.pool, Except.error e)
  | Except.ok (p, granted) =>
    (r.pool, Except.ok { tl with ptr := some p, bytesWasted := tl.bytesWasted + sub64 tl.end_ tl.cur,
                                 cur := 0, end_ := granted })

/-- The method `ThreadLocal::malloc(bytes, align)` of a `ThreadLocal` whose parent
allocator is `alloc`, called by the thread `threadIndex`; `huge_pages k` is the flag that
`os_malloc` reports should the `k`-th call of `alloc->malloc` in the text of the method
(0: the large allocation, 1: the partial block, 2: the full block) create a block. -/
def ThreadLocal.malloc (tl : ThreadLocal) (alloc : FastAllocator) (threadIndex : Nat)
    (bytes align : Nat) (huge_pages : Nat → Bool) : BumpOutcome :=
  let tl0 : ThreadLocal := { tl with bytesUsed := tl.bytesUsed + bytes }
  /- try to allocate in local block -/
  match tl0.tryLocal bytes align with
  | some (tl1, offset) =>
    { bump := tl1, alloc := alloc, requests := [], result := Except.ok (BumpPtr.slab tl1.ptr offset) }
  | none =>
    /- if allocation is too large allocate with parent allocator -/
    if 4 * bytes > tl0.allocBlockSize then
      let r := alloc.malloc threadIndex bytes maxAlignment false (huge_pages 0)
      { bump := tl0, alloc := r.pool,
        requests := [⟨threadIndex, bytes, maxAlignment, false, huge_pages 0⟩],
        result := r.result.map (fun res => BumpPtr.pool res.1) }
    else
      /- get new partial block if allocation failed -/
      let req1 : Request := ⟨threadIndex, tl0.allocBlockSize, maxAlignment, true, huge_pages 1⟩
      match tl0.newBlock alloc threadIndex true (huge_pages 1) with
      | (alloc1, Except.error e) =>
        { bump := tl0, alloc := alloc1, requests := [req1], result := Except.error e }
      | (alloc1, Except.ok tl1) =>
        /- retry allocation -/
        match tl1.tryLocal bytes align with
        | some (tl2, offset) =>
          { bump := tl2, alloc := alloc1, requests := [req1],
            result := Except.ok (BumpPtr.slab tl2.ptr offset) }
        | none =>
          /- get new full block if allocation failed -/
          let req2 : Request :=
            ⟨threadIndex, tl1.allocBlockSize, maxAlignment, false, huge_pages 2⟩
          match tl1.newBlock alloc1 threadIndex false (huge_pages 2) with
          | (alloc2, Except.error e) =>
            { bump := tl1, alloc := alloc2, requests := [req1, req2], result := Except.error e }
          | (alloc2, Except.ok tl2) =>
            /- retry allocation -/
            match tl2.tryLocal bytes align with
            | some (tl3, offset) =>
              { bump := tl3, alloc := alloc2, requests := [req1, req2],
                result := Except.ok (BumpPtr.slab tl3.ptr offset) }
            | none =>
              { bump := tl2, alloc := alloc2, requests := [req1, req2],
                result := Except.ok BumpPtr.null }

/-! ## Block lists and the lifecycle operations

A block list is a chain of `next` pointers in `blocks` that ends in `nullptr`. The loops
that walk or relink such a list get a fuel of `blocks.length` rounds, which a list that
ends is shorter than; a walk over a pointer to no block, or over a chain that never
reaches `nullptr`, has no result (`none`).
-/

/-- The blocks of the list that starts at `head`: `isChain blocks head l` holds when
following `next` from `head` visits the blocks `l` in this order and then `nullptr`. -/
def isChain (blocks : List Block) : Option Nat → List Nat → Bool
  | head, [] => decide (head = none)
  | head, a :: l =>
    decide (head = some a) &&
      match blocks.get? a with
      | some b => isChain blocks b.next l
      | none => false

/-- The method `Block::reset_block`. -/
def Block.reset_block (b : Block) : Block :=
  { b with allocEnd := max b.allocEnd b.cur, cur := 0 }

/-- The method `Block::getBlockUsedBytes`. -/
def Block.getBlockUsedBytes (b : Block) : Nat := min b.cur b.reserveEnd

/-- The method `Block::getBlockAllocatedBytes`. -/
def Block.getBlockAllocatedBytes (b : Block) : Nat := min (max b.allocEnd b.cur) b.reserveEnd

/-- The loop `while (threadBlocks[i].load() != nullptr) { ... }` of
`internal_fix_used_blocks`, which moves the head of the list `threadBlocks[i]` to the
front of `usedBlocks`. -/
def FastAllocator.fixLoop (i : Nat) : Nat → FastAllocator → Option FastAllocator
  | 0, fa =>
    match fa.threadBlocks i with
    | none => some fa
    | some _ => none
  | fuel + 1, fa =>
    match fa.threadBlocks i with
    | none => some fa
    | some a =>
      match fa.blocks.get? a with
      | none => none
      | some b =>
        let nextUsedBlock := b.next
        FastAllocator.fixLoop i fuel
          { fa with blocks := fa.blocks.set a { b with next := fa.usedBlocks },
                    usedBlocks := some a,
                    threadBlocks := store fa.threadBlocks i nextUsedBlock }

/-- The body of the `for` loop of `internal_fix_used_blocks` for the slot `i`. -/
def FastAllocator.fixSlot (fa : FastAllocator) (i : Nat) : Option FastAllocator :=
  (FastAllocator.fixLoop i fa.blocks.length fa).map
    (fun fa1 => { fa1 with threadBlocks := store fa1.threadBlocks i none })

/-- The method `internal_fix_used_blocks`. -/
def FastAllocator.internal_fix_used_blocks (fa : FastAllocator) : Option FastAllocator :=
  (List.range MAX_THREAD_USED_BLOCK_SLOTS).foldlM FastAllocator.fixSlot fa

/-- The loop `while (usedBlocks.load() != nullptr) { ... }` of `reset`, which resets the
head of `usedBlocks` and moves it to the front of `freeBlocks`. -/
def FastAllocator.resetLoop : Nat → FastAllocator → Option FastAllocator
  | 0, fa =>
    match fa.usedBlocks with
    | none => some fa
    | some _ => none
  | fuel + 1, fa =>
    match fa.usedBlocks with
    | none => some fa
    | some a =>
      match fa.blocks.get? a with
      | none => none
      | some b =>
        let b1 := b.reset_block
        let nextUsedBlock := b1.next
        FastAllocator.resetLoop fuel
          { fa with blocks := fa.blocks.set a { b1 with next := fa.freeBlocks },
                    freeBlocks := some a,
                    usedBlocks := nextUsedBlock }

/-- The `for` loop of `Block::remove_shared_blocks`. The variable `prev_next` is `none`
when it points to the local `head` and `some p` when it points to the member `next` of
the block `p`; `block` is the loop variable. Returns the blocks and `head`. -/
def Block.removeSharedLoop : Nat → List Block → Option Nat → Option Nat → Option Nat →
    Option (List Block × Option Nat)
  | 0, blocks, head, _, block =>
    match block with
    | none => some (blocks, head)
    | some _ => none
  | fuel + 1, blocks, head, prev_next, block =>
    match block with
    | none => some (blocks, head)
    | some a =>
      match blocks.get? a with
      | none => none
      | some b =>
        if b.atype = AllocationType.SHARED then
          /- *prev_next = block->next -/
          match prev_next with
          | none => Block.removeSharedLoop fuel blocks b.next none b.next
          | some p =>
            match blocks.get? p with
            | none => none
            | some pb =>
              Block.removeSharedLoop fuel (blocks.set p { pb with next := b.next }) head
                (some p) b.next
        else
          /- prev_next = &block->next -/
          Block.removeSharedLoop fuel blocks head (some a) b.next

/-- The function `Block::remove_shared_blocks(head)` on the blocks `blocks`; returns the
blocks afterwards and the returned `head`. -/
def Block.remove_shared_blocks (blocks : List Block) (head : Option Nat) :
    Option (List Block × Option Nat) :=
  Block.removeSharedLoop blocks.length blocks head none head

/-- The loop `for (i=0; i<MAX_THREAD_USED_BLOCK_SLOTS; i++) { threadUsedBlocks[i] =
nullptr; threadBlocks[i] = nullptr; }` of `reset` and `clear`. -/
def FastAllocator.clearSlots (fa : FastAllocator) : FastAllocator :=
  (List.range MAX_THREAD_USED_BLOCK_SLOTS).foldl
    (fun fa i => { fa with threadUsedBlocks := store fa.threadUsedBlocks i none,
                           threadBlocks := store fa.threadBlocks i none }) fa

/-- The method `FastAllocator::reset`. -/
def FastAllocator.reset (fa : FastAllocator) : Option FastAllocator :=
  match fa.internal_fix_used_blocks with
  | none => none
  | some fa1 =>
    let fa2 : FastAllocator := { fa1 with bytesUsed := 0, bytesWasted := 0 }
    /- reset all used blocks and move them to begin of free block list -/
    match FastAllocator.resetLoop fa2.blocks.length fa2 with
    | none => none
    | some fa3 =>
      /- remove all shared blocks as they are re-added during build -/
      match Block.remove_shared_blocks fa3.blocks fa3.freeBlocks with
      | none => none
      | some (blocks, head) =>
        let fa4 : FastAllocator := { fa3 with blocks := blocks, freeBlocks := head }
        let fa5 := fa4.clearSlots
        /- reset all thread local allocators -/
        some { fa5 with
          thread_local_allocators2 := fa5.thread_local_allocators2.map ThreadLocal2.reset }

/-- Whether the block at `a` has the type `SHARED`. -/
def isShared (blocks : List Block) (a : Nat) : Bool :=
  match blocks.get? a with
  | some b => decide (b.atype = AllocationType.SHARED)
  | none => false

/-- The blocks `blocks2` are the blocks `blocks1` up to the members `next`: the same
block objects with the same `cur`, `allocEnd`, `reserveEnd`, `wasted`, `atype` and
`huge_pages`. -/
def SameButNext (blocks1 blocks2 : List Block) : Prop :=
  blocks2.length = blocks1.length ∧
  ∀ x b, blocks1.get? x = some b →
    ∃ b2, blocks2.get? x = some b2 ∧ b2 = { b with next := b2.next }

/-- The block lists of an allocator: `lt i` is the list `threadBlocks[i]` of the slot `i`,
`lu` the list `usedBlocks` and `lf` the list `freeBlocks`, and no block is in two of the
lists. -/
structure FastAllocator.ListsOK (fa : FastAllocator) (lt : Nat → List Nat)
    (lu lf : List Nat) : Prop where
  /-- The list `threadBlocks[i]`. -/
  thread : ∀ i, i < MAX_THREAD_USED_BLOCK_SLOTS →
    isChain fa.blocks (fa.threadBlocks i) (lt i) = true
  /-- The list `usedBlocks`. -/
  used : isChain fa.blocks fa.usedBlocks lu = true
  /-- The list `freeBlocks`. -/
  free : isChain fa.blocks fa.freeBlocks lf = true
  /-- Two slots share no block. -/
  thread_thread : ∀ i j, i < MAX_THREAD_USED_BLOCK_SLOTS → j < MAX_THREAD_USED_BLOCK_SLOTS →
    i ≠ j → ∀ x, x ∈ lt i → x ∉ lt j
  /-- A slot and the used list share no block. -/
  thread_used : ∀ i, i < MAX_THREAD_USED_BLOCK_SLOTS → ∀ x, x ∈ lt i → x ∉ lu
  /-- A slot and the free list share no block. -/
  thread_free : ∀ i, i < MAX_THREAD_USED_BLOCK_SLOTS → ∀ x, x ∈ lt i → x ∉ lf
  /-- The used list and the free list share no block. -/
  used_free : ∀ x, x ∈ lu → x ∉ lf

/-- The list `usedBlocks` after the first `n` rounds of the `for` loop of
`internal_fix_used_blocks`: each round puts the blocks of its slot, in reverse order, in
front of the list. -/
def usedAfterFix (lt : Nat → List Nat) (lu : List Nat) : Nat → List Nat
  | 0 => lu
  | n + 1 => (lt n).reverse ++ usedAfterFix lt lu n

/-- Six blocks linked `0 -> 1 -> 2 -> 3 -> 4 -> 5`, of which the blocks 0, 2, 3 and 5 are
shared; used in examples. -/
def exampleBlocks : List Block :=
  [⟨0, 8000, 8000, some 1, 0, AllocationType.SHARED, false⟩,
   ⟨0, 4032, 4032, some 2, 64, AllocationType.ALIGNED_MALLOC, false⟩,
   ⟨0, 8000, 8000, some 3, 0, AllocationType.SHARED, false⟩,
   ⟨0, 8000, 8000, some 4, 0, AllocationType.SHARED, false⟩,
   ⟨0, 4032, 8128, some 5, 0, AllocationType.OS_MALLOC, true⟩,
   ⟨0, 8000, 8000, none, 0, AllocationType.SHARED, false⟩]

/-- An allocator with five blocks, used in examples: the list of slot 0 is the block 4
(the current block of the slot), the used list holds the blocks 2 and 3, the free list
the blocks 0 and 1; the blocks 1 and 3 are shared. -/
def examplePool : FastAllocator :=
  { FastAllocator.new false with
    blocks := [⟨0, 4032, 4032, some 1, 64, AllocationType.ALIGNED_MALLOC, false⟩,
               ⟨0, 8000, 8000, none, 0, AllocationType.SHARED, false⟩,
               ⟨128, 4032, 4032, some 3, 64, AllocationType.ALIGNED_MALLOC, false⟩,
               ⟨8000, 8000, 8000, none, 0, AllocationType.SHARED, false⟩,
               ⟨256, 100, 8128, none, 0, AllocationType.OS_MALLOC, false⟩],
    threadUsedBlocks := fun i => if i = 0 then some 4 else none,
    threadBlocks := fun i => if i = 0 then some 4 else none,
    usedBlocks := some 2,
    freeBlocks := some 0,
    bytesUsed := 5,
    bytesWasted := 7 }

/-- The block lists of `examplePool`: the lists of the slots. -/
def exampleThreadLists (i : Nat) : List Nat := if i = 0 then [4] else []

/-! ## clear and shrink

The calls that return memory to the backend, and the `memoryMonitor` callbacks, are
recorded in the order in which they are made. `device` tells whether the pointer `device`
is non-null; `os_shrink` is the function of the platform layer, which returns the new
size of the mapping.
-/

/-- A call made by `clear_block` or `shrink_block`. -/
inductive BackendCall where
  /-- The call `alignedFree(this)` for the block `block`. -/
  | alignedFree (block : Nat)
  /-- The call `os_free(this, bytes, huge_pages)` for the block `block`. -/
  | os_free (block bytes : Nat) (huge_pages : Bool)
  /-- The call `os_shrink(this, bytesNew, bytesOld, huge_pages)` for the block `block`. -/
  | os_shrink (block bytesNew bytesOld : Nat) (huge_pages : Bool)
  /-- The call `device->memoryMonitor(bytes, post)`, made while handling the block
  `block`. -/
  | memoryMonitor (block : Nat) (bytes : Int) (post : Bool)
deriving DecidableEq

/-- The block that a call concerns. -/
def BackendCall.block : BackendCall → Nat
  | BackendCall.alignedFree a => a
  | BackendCall.os_free a _ _ => a
  | BackendCall.os_shrink a _ _ _ => a
  | BackendCall.memoryMonitor a _ _ => a

/-- Whether a call returns the memory of the block `a` to the backend (`alignedFree` or
`os_free`). -/
def BackendCall.releases (a : Nat) : BackendCall → Bool
  | BackendCall.alignedFree x => decide (x = a)
  | BackendCall.os_free x _ _ => decide (x = a)
  | _ => false

/-- The method `Block::clear_block(device)` of the block `b` at `this`: the calls it
makes. -/
def Block.clear_block (device : Bool) (this : Nat) (b : Block) : List BackendCall :=
  let sizeof_Alloced : Int := ((b.wasted + sizeof_Header + b.getBlockAllocatedBytes : Nat) : Int)
  if b.atype = AllocationType.ALIGNED_MALLOC then
    BackendCall.alignedFree this ::
      (if device then [BackendCall.memoryMonitor this (-sizeof_Alloced) true] else [])
  else if b.atype = AllocationType.OS_MALLOC then
    let sizeof_This := sizeof_Header + b.reserveEnd
    BackendCall.os_free this sizeof_This b.huge_pages ::
      (if device then [BackendCall.memoryMonitor this (-sizeof_Alloced) true] else [])
  else []

/-- The loop of `Block::clear_list(device)`, from the block pointer `block`. -/
def Block.clearLoop (device : Bool) (blocks : List Block) : Nat → Option Nat →
    Option (List BackendCall)
  | 0, block =>
    match block with
    | none => some []
    | some _ => none
  | fuel + 1, block =>
    match block with
    | none => some []
    | some a =>
      match blocks.get? a with
      | none => none
      | some b =>
        let next := b.next
        (Block.clearLoop device blocks fuel next).map (fun calls => b.clear_block device a ++ calls)

/-- The statement `if (head != nullptr) head->clear_list(device);` on the blocks
`blocks`. -/
def Block.clear_list (device : Bool) (blocks : List Block) (head : Option Nat) :
    Option (List BackendCall) :=
  Block.clearLoop device blocks blocks.length head

/-- The method `Block::shrink_block(device)` of the block `b` at `this`: the block
afterwards and the calls made. -/
def Block.shrink_block (os_shrink : Nat → Nat → Nat → Bool → Nat) (device : Bool) (this : Nat)
    (b : Block) : Block × List BackendCall :=
  if b.atype = AllocationType.OS_MALLOC then
    let newSize := os_shrink this (sizeof_Header + b.getBlockUsedBytes)
      (b.reserveEnd + sizeof_Header) b.huge_pages
    ({ b with reserveEnd := newSize - sizeof_Header, allocEnd := newSize - sizeof_Header },
     BackendCall.os_shrink this (sizeof_Header + b.getBlockUsedBytes)
        (b.reserveEnd + sizeof_Header) b.huge_pages ::
      (if device then
        [BackendCall.memoryMonitor this ((newSize : Int) - sizeof_Header - b.allocEnd) true]
       else []))
  else (b, [])

/-- The loop of `Block::shrink_list(device)`, from the block pointer `block`: the blocks
afterwards and the calls made. -/
def Block.shrinkLoop (os_shrink : Nat → Nat → Nat → Bool → Nat) (device : Bool) :
    Nat → List Block → Option Nat → Option (List Block × List BackendCall)
  | 0, blocks, block =>
    match block with
    | none => some (blocks, [])
    | some _ => none
  | fuel + 1, blocks, block =>
    match block with
    | none => some (blocks, [])
    | some a =>
      match blocks.get? a with
      | none => none
      | some b =>
        let r := b.shrink_block os_shrink device a
        (Block.shrinkLoop os_shrink device fuel (blocks.set a r.1) r.1.next).map
          (fun res => (res.1, r.2 ++ res.2))

/-- The statement `if (head != nullptr) head->shrink_list(device);` on the blocks
`blocks`. -/
def Block.shrink_list (os_shrink : Nat → Nat → Nat → Bool → Nat) (device : Bool)
    (blocks : List Block) (head : Option Nat) : Option (List Block × List BackendCall) :=
  Block.shrinkLoop os_shrink device blocks.length blocks head

/-- The method `FastAllocator::cleanup`. -/
def FastAllocator.cleanup (fa : FastAllocator) : Option FastAllocator :=
  (fa.internal_fix_used_blocks).map (fun fa1 =>
    { fa1 with
      bytesUsed := fa1.bytesUsed +
        (fa1.thread_local_allocators2.map ThreadLocal2.getUsedBytes).sum,
      bytesWasted := fa1.bytesWasted +
        (fa1.thread_local_allocators2.map ThreadLocal2.getWastedBytes).sum,
      thread_local_allocators2 := [] })

/-- The method `FastAllocator::clear`: the allocator afterwards and the calls made, in
order. The block objects that were freed stay in `blocks`; no list refers to them any
more. The member `primrefarray` is not part of the state. -/
def FastAllocator.clear (fa : FastAllocator) (device : Bool) :
    Option (FastAllocator × List BackendCall) :=
  match fa.cleanup with
  | none => none
  | some fa1 =>
    let fa2 : FastAllocator := { fa1 with bytesUsed := 0, bytesWasted := 0 }
    match Block.clear_list device fa2.blocks fa2.usedBlocks with
    | none => none
    | some calls1 =>
      let fa3 : FastAllocator := { fa2 with usedBlocks := none }
      match Block.clear_list device fa3.blocks fa3.freeBlocks with
      | none => none
      | some calls2 =>
        let fa4 : FastAllocator := { fa3 with freeBlocks := none }
        some (fa4.clearSlots, calls1 ++ calls2)

/-- The `for` loop of `FastAllocator::shrink` over the slots below `n`:
`if (threadUsedBlocks[i].load() != nullptr) threadUsedBlocks[i].load()->shrink_list(device);`. -/
def FastAllocator.shrinkSlots (os_shrink : Nat → Nat → Nat → Bool → Nat) (device : Bool)
    (fa : FastAllocator) : Nat → Option (List Block × List BackendCall)
  | 0 => some (fa.blocks, [])
  | n + 1 =>
    match FastAllocator.shrinkSlots os_shrink device fa n with
    | none => none
    | some (blocks, calls) =>
      (Block.shrink_list os_shrink device blocks (fa.threadUsedBlocks n)).map
        (fun res => (res.1, calls ++ res.2))

/-- The method `FastAllocator::shrink`: the allocator afterwards and the calls made, in
order. -/
def FastAllocator.shrink (os_shrink : Nat → Nat → Nat → Bool → Nat) (device : Bool)
    (fa : FastAllocator) : Option (FastAllocator × List BackendCall) :=
  match FastAllocator.shrinkSlots os_shrink device fa MAX_THREAD_USED_BLOCK_SLOTS with
  | none => none
  | some (blocks1, calls1) =>
    match Block.shrink_list os_shrink device blocks1 fa.usedBlocks with
    | none => none
    | some (blocks2, calls2) =>
      match Block.clear_list device blocks2 fa.freeBlocks with
      | none => none
      | some calls3 =>
        some ({ fa with blocks := blocks2, freeBlocks := none }, calls1 ++ calls2 ++ calls3)

/-- The calls that `clear_block` makes for the block at `a`. -/
def clearCalls (device : Bool) (blocks : List Block) (a : Nat) : List BackendCall :=
  match blocks.get? a with
  | some b => b.clear_block device a
  | none => []

/-- The blocks `blocks2` have the same links and types as the blocks `blocks1`: the same
block objects with the same `next`, `atype`, `wasted` and `huge_pages`. -/
def SameLinks (blocks1 blocks2 : List Block) : Prop :=
  blocks2.length = blocks1.length ∧
  ∀ x b, blocks1.get? x = some b →
    ∃ b2, blocks2.get? x = some b2 ∧ b2.next = b.next ∧ b2.atype = b.atype ∧
      b2.wasted = b.wasted ∧ b2.huge_pages = b.huge_pages

/-! ## Reuse of blocks after reset -/

/-- The method `Block::getBlockTotalReservedBytes`. -/
def Block.getBlockTotalReservedBytes (b : Block) : Nat :=
  b.reserveEnd + sizeof_Header + b.wasted

/-- The total mapped byte count of an allocator: the sum of `getBlockTotalReservedBytes`
over all its block objects. -/
def FastAllocator.mappedBytes (fa : FastAllocator) : Nat :=
  (fa.blocks.map Block.getBlockTotalReservedBytes).sum

/-- The value `reserveEnd` of a block that `FastAllocator::malloc` creates for a request
of at most `growSize` bytes: `Block::create` with
`allocSize = min(max(growSize,bytes),maxAllocationSize)`. -/
def poolBlockSize (growSize : Nat) : Nat :=
  ((sizeof_Header + min growSize maxAllocationSize + PAGE_SIZE - 1) &&&
    complement64 (PAGE_SIZE - 1)) - sizeof_Header

/-- A request of a run in which all blocks get the same size: made by the thread
`threadIndex`, of at most `growSize` and at most `maxAllocationSize` bytes, with a
power-of-two alignment of at most 64. -/
def Request.Uniform (growSize threadIndex : Nat) (q : Request) : Prop :=
  q.threadIndex = threadIndex ∧ q.bytes ≤ growSize ∧ q.bytes ≤ maxAllocationSize ∧
    ∃ k, k ≤ 6 ∧ q.align = 2 ^ k

/-- The cursor of the current block of a slot after a request, and the number of blocks
the request takes into use (0 or 1), when every block has `reserveEnd = C` and a block
taken into use has `cur = 0`; `cs` is the cursor of the current block, `none` when the
slot has no current block. -/
def cursorStep (C : Nat) (cs : Option Nat) (q : Request) : Option Nat × Nat :=
  match cs with
  | none => (some (roundUp q.bytes q.align), 1)
  | some c =>
    if (q.partial_ = false ∧ c + roundUp q.bytes q.align > C) ∨ c > C then
      (some (roundUp q.bytes q.align), 1)
    else (some (c + roundUp q.bytes q.align), 0)

/-- The number of blocks that a sequence of requests takes into use. -/
def cursorRun (C : Nat) : Option Nat → List Request → Nat
  | _, [] => 0
  | cs, q :: rest => (cursorStep C cs q).2 + cursorRun C (cursorStep C cs q).1 rest

/-- The current block of the slot `s` has `reserveEnd = C` and the cursor `cs`
(`cs = none`: the slot has no current block). -/
def FastAllocator.SlotCursor (C : Nat) (fa : FastAllocator) (s : Nat) (cs : Option Nat) : Prop :=
  match fa.threadUsedBlocks s with
  | none => cs = none
  | some a => ∃ b, fa.blocks.get? a = some b ∧ b.reserveEnd = C ∧ cs = some b.cur

/-- The state of an allocator that started without blocks and served requests of one
thread, all of at most `growSize` bytes: the free and used lists are empty, every block
is in the list of the slot `s`, has `reserveEnd = C` and is not shared. -/
structure FastAllocator.GrowInv (C s : Nat) (fa : FastAllocator) : Prop where
  /-- The free list is empty. -/
  free : fa.freeBlocks = none
  /-- The used list is empty. -/
  used : fa.usedBlocks = none
  /-- The type of the allocator. -/
  atype : fa.atype = AllocationType.ALIGNED_MALLOC ∨ fa.atype = AllocationType.OS_MALLOC
  /-- The block size. -/
  size : C = poolBlockSize fa.growSize
  /-- The other slots have no blocks. -/
  others : ∀ i, i ≠ s → fa.threadBlocks i = none
  /-- The list of the slot holds every block. -/
  chain : ∃ l, isChain fa.blocks (fa.threadBlocks s) l = true ∧ ∀ x, x < fa.blocks.length → x ∈ l
  /-- All blocks have the same size and none is shared. -/
  blocks : ∀ b, b ∈ fa.blocks → b.reserveEnd = C ∧ b.atype ≠ AllocationType.SHARED

/-- The state of an allocator after `reset` while it serves requests of one thread from
its free list `lf`: the free blocks have `cur = 0` and `reserveEnd = C`, and the current
block of the slot `s` is not free. -/
structure FastAllocator.ReuseInv (C s : Nat) (fa : FastAllocator) (lf : List Nat) : Prop where
  /-- The free list. -/
  chain : isChain fa.blocks fa.freeBlocks lf = true
  /-- The free blocks are unused and have size `C`. -/
  fresh : ∀ x, x ∈ lf → ∃ b, fa.blocks.get? x = some b ∧ b.cur = 0 ∧ b.reserveEnd = C
  /-- The current block is not in the free list. -/
  current : ∀ a, fa.threadUsedBlocks s = some a → a ∉ lf

/-- The blocks `blocks2` have the sizes of the blocks `blocks1`: the same number of block
objects with the same `reserveEnd` and `wasted`. -/
def SameSizes (blocks1 blocks2 : List Block) : Prop :=
  blocks2.map Block.getBlockTotalReservedBytes = blocks1.map Block.getBlockTotalReservedBytes

/-! ## The second half of `partition`, step by step -/

/-- The task object on entry of the second `parallel_for` of `partition`, from the task
object `ps` left by the sentinel stores: the sum `mid`, the misplaced-range loop and the
assignment `numMisplacedItems = numMisplacedItemsLeft`. -/
def phase3Entry (ps : parallel_partition_static_task T V) :
    parallel_partition_static_task T V :=
  { (misplacedLoop (sumCounterLeft ps) ps).p with
    numMisplacedItems := (misplacedLoop (sumCounterLeft ps) ps).numMisplacedItemsLeft }

/-- The local variables of `swapItemsInMisplacedRanges` on entry of its `while(size)`
loop. -/
def swapStart (array : Mem T) (leftMisplacedRanges : Nat → Range)
    (numLeftMisplacedRanges : Nat) (rightMisplacedRanges : Nat → Range)
    (numRightMisplacedRanges : Nat) (startID endID : Nat) : SwapState T :=
  let fl := findStartRange startID leftMisplacedRanges numLeftMisplacedRanges
  let fr := findStartRange startID rightMisplacedRanges numRightMisplacedRanges
  let l_left := (leftMisplacedRanges fl.1).size - fl.2
  let r_left := (rightMisplacedRanges fr.1).size - fr.2
  let size := endID - startID
  { array := array, l_range := fl.1, r_range := fr.1, l_left := l_left, r_left := r_left,
    size := size, l := (leftMisplacedRanges fl.1).start + (fl.2 : Int),
    r := (rightMisplacedRanges fr.1).start + (fr.2 : Int),
    items := min size (min l_left r_left) }

/-- The rounds of the `while(size)` loop of `swapItemsInMisplacedRanges` run from the
state `s`: for each round, in order, the state after its two range-advance statements.
The inner loop of the round then makes `items` exchanges. -/
def swapRounds (leftMisplacedRanges rightMisplacedRanges : Nat → Range) :
    Nat → SwapState T → List (SwapState T)
  | 0, _ => []
  | fuel + 1, s =>
    if s.size = 0 then []
    else advanceRight rightMisplacedRanges (advanceLeft leftMisplacedRanges s) ::
      swapRounds leftMisplacedRanges rightMisplacedRanges fuel
        (swapRound leftMisplacedRanges rightMisplacedRanges s)

/-- The task object `p` with the member `init` replaced by `v`. -/
def withInit (v : V) (p : parallel_partition_static_task T V) :
    parallel_partition_static_task T V :=
  { p with init := v }

/-- The task object built by `parallel_in_place_partitioning_static<2>` for the array
`5, 6, 1, 2, 7, 3` and three threads, used in examples: three tasks of two elements. -/
def exampleTask : parallel_partition_static_task Nat Nat :=
  parallel_partition_static_task.create 2 (ofList [5, 6, 1, 2, 7, 3] 0) 6 3 0 (zeroTables 0)

/-- The predicate "is below 4", used in examples. -/
def exampleCmp (x : Nat) : Bool := decide (x < 4)

/-- The task object `exampleTask` after the first `parallel_for` of `partition`, run in
the order `2, 0, 1`, and the sentinel stores. -/
def examplePhase1 : parallel_partition_static_task Nat Nat :=
  withSentinels (parallel_for [2, 0, 1] (partitionTask 0 exampleCmp (fun acc x => acc + x))
    exampleTask)

/-- The cells of a range, in increasing order. -/
def Range.cells (r : Range) : List Int :=
  (List.range r.size).map (fun (j : Nat) => r.start + (j : Int))

/-- The virtual concatenation of the first `n` ranges of a range list: the cells of
`r[0]`, then those of `r[1]`, and so on. -/
def concatCells (r : Nat → Range) (n : Nat) : List Int :=
  (List.range n).flatMap (fun j => (r j).cells)

/-- The array cell that `swapItemsInMisplacedRanges` computes for the coordinate `k` of
the left range list of the task object `q`. -/
def leftCell (q : parallel_partition_static_task T V) (k : Nat) : Int :=
  cellOf q.leftMisplacedRanges q.numMisplacedRangesLeft k

/-- The array cell that `swapItemsInMisplacedRanges` computes for the coordinate `k` of
the right range list of the task object `q`. -/
def rightCell (q : parallel_partition_static_task T V) (k : Nat) : Int :=
  cellOf q.rightMisplacedRanges q.numMisplacedRangesRight k

/-! ## Initialisation of the allocator and shared blocks -/

/-- Modelled from the spec: the function `clamp(x, lower, upper)` of the math headers,
which are not among the sources; the spec writes `clamp(bytesAllocate/4, 128,
PAGE_SIZE+64)` for the value limited to the interval. -/
def clamp (x lower upper : Nat) : Nat := max (min x upper) lower

/-- The method `initGrowSizeAndNumSlots(bytesAllocate, compact)`. -/
def FastAllocator.initGrowSizeAndNumSlots (fa : FastAllocator) (bytesAllocate : Nat)
    (compact : Bool) : FastAllocator :=
  /- always consume full pages -/
  let bytesAllocate := (bytesAllocate + PAGE_SIZE - 1) &&& complement64 (PAGE_SIZE - 1)
  let fa1 : FastAllocator :=
    { fa with growSize := clamp bytesAllocate PAGE_SIZE maxAllocationSize,
              log2_grow_size_scale := 0, slotMask := 0 }
  if compact = false then
    let fa2 : FastAllocator :=
      if MAX_THREAD_USED_BLOCK_SLOTS ≥ 2 ∧ bytesAllocate > 4 * maxAllocationSize
      then { fa1 with slotMask := 1 } else fa1
    let fa3 : FastAllocator :=
      if MAX_THREAD_USED_BLOCK_SLOTS ≥ 4 ∧ bytesAllocate > 8 * maxAllocationSize
      then { fa2 with slotMask := 3 } else fa2
    if MAX_THREAD_USED_BLOCK_SLOTS ≥ 8 ∧ bytesAllocate > 16 * maxAllocationSize
    then { fa3 with slotMask := 7 } else fa3
  else fa1

/-- The method `init(bytesAllocate, bytesReserve)`; `huge_pages` is the flag `os_malloc`
reports for the block that the call creates. The result is `none` when a block list of
the allocator is not a list that ends. -/
def FastAllocator.init (fa : FastAllocator) (bytesAllocate bytesReserve : Nat)
    (huge_pages : Bool) : Option FastAllocator :=
  match fa.internal_fix_used_blocks with
  | none => none
  | some fa1 =>
    /- distribute the allocation to multiple thread block slots -/
    let fa2 : FastAllocator := { fa1 with slotMask := MAX_THREAD_USED_BLOCK_SLOTS - 1 }
    if fa2.usedBlocks ≠ none ∨ fa2.freeBlocks ≠ none then fa2.reset
    else
      let bytesReserve := if bytesReserve = 0 then bytesAllocate else bytesReserve
      let placed := fa2.place (Block.create bytesAllocate bytesReserve none fa2.atype huge_pages)
      let fa3 : FastAllocator := { placed.1 with freeBlocks := placed.2 }
      let fa4 : FastAllocator :=
        { fa3 with defaultBlockSize := clamp (bytesAllocate / 4) 128 (PAGE_SIZE + maxAlignment) }
      some (fa4.initGrowSizeAndNumSlots bytesAllocate false)

/-- The address `aptr` of `addBlock(ptr, bytes)`, at which the `Block` object is placed:
`(((size_t)ptr)+maxAlignment-1) & ~(maxAlignment-1)`. -/
def FastAllocator.aptr (ptr : Nat) : Nat :=
  (ptr + maxAlignment - 1) &&& complement64 (maxAlignment - 1)

/-- The method `addBlock(ptr, bytes)` for the region of `bytes` bytes at the address
`ptr`. `bytes` is an `ssize_t` and can be negative; the difference `bytes -= ofs` is
taken exactly, as byte counts stay far from the limits of `ssize_t`. The `Block` object
is constructed at the address `aptr` inside the region and becomes the head of
`freeBlocks`. -/
def FastAllocator.addBlock (fa : FastAllocator) (ptr : Nat) (bytes : Int) : FastAllocator :=
  let aptr := FastAllocator.aptr ptr
  let ofs := sub64 aptr ptr
  let bytes := bytes - (ofs : Int)
  /- ignore empty or very small blocks -/
  if bytes < 4096 then fa
  else
    let placed := fa.place (some (Block.new AllocationType.SHARED
      (bytes - (sizeof_Header : Int)).toNat (bytes - (sizeof_Header : Int)).toNat
      fa.freeBlocks ofs false))
    { placed.1 with freeBlocks := placed.2 }

/-- The allocator `fa2` is the allocator `fa` after one block of type `SHARED` for the
region of `bytes` bytes at the address `ptr` was pushed at the head of `freeBlocks`: the
block has the cursor 0, its member `wasted` is the padding `pad` between `ptr` and the
aligned address, and its header and payload fill the rest of the region; when the region
lies in the address space, they lie inside it. -/
def SharedBlockAdded (fa : FastAllocator) (ptr : Nat) (bytes : Int) (pad : Nat)
    (fa2 : FastAllocator) : Prop :=
  ∃ b : Block,
    fa2 = { fa with blocks := fa.blocks ++ [b], freeBlocks := some fa.blocks.length } ∧
    b.atype = AllocationType.SHARED ∧ b.next = fa.freeBlocks ∧ b.wasted = pad ∧ b.cur = 0 ∧
    b.allocEnd = b.reserveEnd ∧
    (pad : Int) + (sizeof_Header : Int) + (b.reserveEnd : Int) = bytes ∧
    ((ptr : Int) + bytes ≤ 2 ^ 64 →
      ptr ≤ FastAllocator.aptr ptr ∧ FastAllocator.aptr ptr = ptr + pad ∧
      (FastAllocator.aptr ptr : Int) + (sizeof_Header : Int) + (b.reserveEnd : Int) ≤
        (ptr : Int) + bytes)

/-! ## The thread-local allocator over a sequence of calls -/

/-- The constructor `ThreadLocal(alloc)`. -/
def ThreadLocal.new (alloc : FastAllocator) : ThreadLocal :=
  { ptr := none, cur := 0, end_ := 0, allocBlockSize := alloc.defaultBlockSize,
    bytesUsed := 0, bytesWasted := 0 }

/-- What a call of `FastAllocator::malloc` by the thread `threadIndex` relies on: the
allocation type is one of the two that the constructor sets, `freeBlocks` is the list
`lf` of blocks, which ends, and the current block of the slot of the thread, if there is
one, is a `Block` object. Nothing is required of the cursors. -/
structure FastAllocator.SlotOK (fa : FastAllocator) (threadIndex : Nat) (lf : List Nat) :
    Prop where
  /-- Member `atype` as set by the constructor. -/
  atype : fa.atype = AllocationType.ALIGNED_MALLOC ∨ fa.atype = AllocationType.OS_MALLOC
  /-- The list `freeBlocks`. -/
  free : isChain fa.blocks fa.freeBlocks lf = true
  /-- The current block of the slot. -/
  current : ∀ a, fa.threadUsedBlocks (threadIndex &&& fa.slotMask) = some a →
    a < fa.blocks.length

/-- The call `malloc(bytes, align, partial)` of the thread `threadIndex` leaves the
`while (true)` loop within `n` rounds with a pointer, which for `partial = false` comes
with at least `bytes` bytes, and this is the result of `FastAllocator::malloc`. -/
def FastAllocator.ReturnsWithin (fa : FastAllocator) (threadIndex bytes align : Nat)
    (partial_ huge_pages : Bool) (n : Nat) : Prop :=
  ∃ p g,
    (FastAllocator.mallocLoop threadIndex align partial_ huge_pages n fa bytes).result =
      Except.ok (p, g) ∧
    (partial_ = false → bytes ≤ g) ∧
    fa.malloc threadIndex bytes align partial_ huge_pages =
      FastAllocator.mallocLoop threadIndex align partial_ huge_pages n fa bytes

/-- The allocator `examplePool` after the thread 0 asked for 5000000 bytes, which
`FastAllocator::malloc` refuses as too large; used in examples. -/
def exampleFailedPool : FastAllocator :=
  (examplePool.malloc 0 5000000 64 false false).pool

theorem slice_length (a : Mem T) (lo hi : Int) : (slice a lo hi).length = (hi - lo).toNat := by
  simp [slice]

theorem slice_nil (a : Mem T) {lo hi : Int} (h : hi ≤ lo) : slice a lo hi = [] := by
  have : (hi - lo).toNat = 0 := by omega
  simp [slice, this]

theorem slice_append (a : Mem T) {lo mid hi : Int} (h1 : lo ≤ mid) (h2 : mid ≤ hi) :
    slice a lo hi = slice a lo mid ++ slice a mid hi := by
  have e : (hi - lo).toNat = (mid - lo).toNat + (hi - mid).toNat := by omega
  unfold slice
  rw [e, List.range_add, List.map_append, List.map_map]
  congr 1
  apply List.map_congr_left
  intro i _
  simp only [Function.comp]
  congr 1
  push_cast
  omega

theorem slice_one (a : Mem T) (lo : Int) : slice a lo (lo + 1) = [a lo] := by
  have : (lo + 1 - lo).toNat = 1 := by omega
  simp [slice, this, List.range_succ]

theorem slice_cons (a : Mem T) {lo hi : Int} (h : lo < hi) :
    slice a lo hi = a lo :: slice a (lo + 1) hi := by
  rw [slice_append a (show lo ≤ lo + 1 by omega) (show lo + 1 ≤ hi by omega), slice_one]
  rfl

theorem slice_snoc (a : Mem T) {lo hi : Int} (h : lo < hi) :
    slice a lo hi = slice a lo (hi - 1) ++ [a (hi - 1)] := by
  rw [slice_append a (show lo ≤ hi - 1 by omega) (show hi - 1 ≤ hi by omega)]
  congr 1
  have := slice_one a (hi - 1)
  simpa using this

theorem slice_congr {a b : Mem T} {lo hi : Int} (h : ∀ k, lo ≤ k → k < hi → a k = b k) :
    slice a lo hi = slice b lo hi := by
  unfold slice
  apply List.map_congr_left
  intro i hi'
  rw [List.mem_range] at hi'
  apply h <;> omega

theorem mem_slice {a : Mem T} {lo hi : Int} {x : T} :
    x ∈ slice a lo hi ↔ ∃ k, lo ≤ k ∧ k < hi ∧ a k = x := by
  unfold slice
  rw [List.mem_map]
  constructor
  · rintro ⟨i, hi', rfl⟩
    rw [List.mem_range] at hi'
    exact ⟨lo + i, by omega, by omega, rfl⟩
  · rintro ⟨k, h1, h2, rfl⟩
    refine ⟨(k - lo).toNat, ?_, ?_⟩
    · rw [List.mem_range]; omega
    · congr 1; omega

theorem xchg_left (a : Mem T) (l r : Int) : xchg a l r l = a r := by
  simp [xchg]

theorem xchg_right (a : Mem T) (l r : Int) : xchg a l r r = a l := by
  by_cases h : r = l <;> simp [xchg, h]

theorem xchg_other (a : Mem T) {l r k : Int} (h1 : k ≠ l) (h2 : k ≠ r) : xchg a l r k = a k := by
  simp [xchg, h1, h2]

/-! ## Correctness of serial_partitioning -/

theorem scanLeft_spec (cmp : T → Bool) (red : V → T → V) (a : Mem T) (r : Int) :
    ∀ (fuel : Nat) (l : Int) (L : V), l ≤ r + 1 → (r + 1 - l).toNat ≤ fuel →
      l ≤ (scanLeft cmp red a r fuel l L).1 ∧
      (scanLeft cmp red a r fuel l L).1 ≤ r + 1 ∧
      (∀ k, l ≤ k → k < (scanLeft cmp red a r fuel l L).1 → cmp (a k) = true) ∧
      ((scanLeft cmp red a r fuel l L).1 ≤ r → cmp (a (scanLeft cmp red a r fuel l L).1) = false) ∧
      (scanLeft cmp red a r fuel l L).2 =
        (slice a l (scanLeft cmp red a r fuel l L).1).foldl red L := by
  intro fuel
  induction fuel with
  | zero =>
    intro l L h1 h2
    have hl : l = r + 1 := by omega
    simp only [scanLeft]
    refine ⟨le_refl _, h1, ?_, ?_, ?_⟩
    · intro k hk1 hk2; omega
    · intro h; omega
    · simp [slice_nil a (le_refl l)]
  | succ fuel ih =>
    intro l L h1 h2
    simp only [scanLeft]
    split
    · rename_i hc
      obtain ⟨i1, i2, i3, i4, i5⟩ := ih (l + 1) (red L (a l)) (by omega) (by omega)
      refine ⟨by omega, i2, ?_, i4, ?_⟩
      · intro k hk1 hk2
        by_cases hk : k = l
        · subst hk; exact hc.2
        · exact i3 k (by omega) hk2
      · rw [i5, slice_cons a (show l < _ by omega)]
        rfl
    · rename_i hc
      refine ⟨le_refl _, h1, ?_, ?_, ?_⟩
      · intro k hk1 hk2; omega
      · intro h
        by_contra hcon
        exact hc ⟨h, by simpa using hcon⟩
      · simp [slice_nil a (le_refl l)]

theorem scanRight_spec (cmp : T → Bool) (red : V → T → V) (a : Mem T) (l : Int) :
    ∀ (fuel : Nat) (r : Int) (R : V), l ≤ r + 1 → (r + 1 - l).toNat ≤ fuel →
      (scanRight cmp red a l fuel r R).1 ≤ r ∧
      l ≤ (scanRight cmp red a l fuel r R).1 + 1 ∧
      (∀ k, (scanRight cmp red a l fuel r R).1 < k → k ≤ r → cmp (a k) = false) ∧
      (l ≤ (scanRight cmp red a l fuel r R).1 → cmp (a (scanRight cmp red a l fuel r R).1) = true) ∧
      (scanRight cmp red a l fuel r R).2 =
        (slice a ((scanRight cmp red a l fuel r R).1 + 1) (r + 1)).reverse.foldl red R := by
  intro fuel
  induction fuel with
  | zero =>
    intro r R h1 h2
    have hl : l = r + 1 := by omega
    simp only [scanRight]
    refine ⟨le_refl _, h1, ?_, ?_, ?_⟩
    · intro k hk1 hk2; omega
    · intro h; omega
    · simp [slice_nil a (le_refl (r + 1))]
  | succ fuel ih =>
    intro r R h1 h2
    simp only [scanRight]
    split
    · rename_i hc
      obtain ⟨i1, i2, i3, i4, i5⟩ := ih (r - 1) (red R (a r)) (by omega) (by omega)
      refine ⟨by omega, i2, ?_, i4, ?_⟩
      · intro k hk1 hk2
        by_cases hk : k = r
        · subst hk; exact hc.2
        · exact i3 k hk1 (by omega)
      · rw [i5, slice_snoc a (show _ < r + 1 by omega)]
        simp
    · rename_i hc
      refine ⟨le_refl _, h1, ?_, ?_, ?_⟩
      · intro k hk1 hk2; omega
      · intro h
        by_contra hcon
        exact hc ⟨h, by simpa using hcon⟩
      · simp [slice_nil a (le_refl (r + 1))]

theorem perm_swap_ends {A B M M' : List T} (x y : T) (h : M'.Perm M) :
    (A ++ y :: (M' ++ x :: B)).Perm (A ++ x :: (M ++ y :: B)) := by
  apply List.Perm.append_left
  have h1 : (M' ++ x :: B).Perm (x :: (M ++ B)) :=
    List.perm_middle.trans (List.Perm.cons x (h.append_right B))
  have h2 : (M ++ y :: B).Perm (y :: (M ++ B)) := List.perm_middle
  exact ((List.Perm.cons y h1).trans (List.Perm.swap x y _)).trans (List.Perm.cons x h2.symm)

theorem filter_slice_all {p : T → Bool} {a : Mem T} {lo hi : Int}
    (h : ∀ k, lo ≤ k → k < hi → p (a k) = true) : (slice a lo hi).filter p = slice a lo hi := by
  apply List.filter_eq_self.2
  intro x hx
  obtain ⟨k, h1, h2, rfl⟩ := mem_slice.1 hx
  exact h k h1 h2

theorem filter_slice_none {p : T → Bool} {a : Mem T} {lo hi : Int}
    (h : ∀ k, lo ≤ k → k < hi → p (a k) = false) : (slice a lo hi).filter p = [] := by
  apply List.filter_eq_nil_iff.2
  intro x hx
  obtain ⟨k, h1, h2, rfl⟩ := mem_slice.1 hx
  simp [h k h1 h2]

theorem serialLoop_spec (cmp : T → Bool) (red : V → T → V) :
    ∀ (fuel : Nat) (a : Mem T) (l r : Int) (L R : V), l ≤ r + 1 → (r + 1 - l).toNat < fuel →
      SerialPost cmp red a l r L R (serialLoop cmp red fuel a l r L R) := by
  intro fuel
  induction fuel with
  | zero => intro a l r L R _ h2; omega
  | succ fuel ih =>
    intro a l r L R h1 h2
    obtain ⟨sl1, sl2, sl3, sl4, sl5⟩ :=
      scanLeft_spec cmp red a r (r + 1 - l).toNat l L h1 (le_refl _)
    generalize hsl : scanLeft cmp red a r (r + 1 - l).toNat l L = sl at sl1 sl2 sl3 sl4 sl5
    obtain ⟨sr1, sr2, sr3, sr4, sr5⟩ :=
      scanRight_spec cmp red a sl.1 (r + 1 - sl.1).toNat r R sl2 (le_refl _)
    generalize hsr : scanRight cmp red a sl.1 (r + 1 - sl.1).toNat r R = sr
      at sr1 sr2 sr3 sr4 sr5
    have hdef : serialLoop cmp red (fuel + 1) a l r L R =
        if sr.1 < sl.1 then (sl.1, a, sl.2, sr.2)
        else serialLoop cmp red fuel (xchg a sl.1 sr.1) (sl.1 + 1) (sr.1 - 1)
          (red sl.2 (a sr.1)) (red sr.2 (a sl.1)) := by
      simp only [serialLoop, hsl, hsr]
    rw [hdef]
    have hsplit : slice a l (r + 1) = slice a l sl.1 ++ slice a sl.1 (r + 1) :=
      slice_append a sl1 sl2
    split
    · rename_i hlt
      have hr : sr.1 + 1 = sl.1 := by omega
      have hright : ∀ k, sl.1 ≤ k → k < r + 1 → cmp (a k) = false :=
        fun k hk1 hk2 => sr3 k (by omega) (by omega)
      refine ⟨sl1, sl2, sl3, fun k hk1 hk2 => hright k hk1 (by omega), fun _ _ => rfl,
        List.Perm.refl _, slice a l sl.1, (slice a sl.1 (r + 1)).reverse, ?_, ?_, sl5, ?_⟩
      · rw [hsplit, List.filter_append, filter_slice_all sl3, filter_slice_none hright]
        simp
      · have fA : (slice a l sl.1).filter (fun x => !cmp x) = [] :=
          filter_slice_none (fun k hk1 hk2 => by simp [sl3 k hk1 hk2])
        have fB : (slice a sl.1 (r + 1)).filter (fun x => !cmp x) = slice a sl.1 (r + 1) :=
          filter_slice_all (fun k hk1 hk2 => by simp [hright k hk1 hk2])
        rw [hsplit, List.filter_append, fA, fB]
        exact List.reverse_perm _
      · rw [sr5, hr]
    · rename_i hge
      have hle : sl.1 ≤ sr.1 := by omega
      have cl : cmp (a sl.1) = false := sl4 (by omega)
      have cr : cmp (a sr.1) = true := sr4 hle
      have hne : sl.1 ≠ sr.1 := by
        intro he; rw [he] at cl; rw [cl] at cr; exact Bool.noConfusion cr
      have hlt : sl.1 < sr.1 := by omega
      have post := ih (xchg a sl.1 sr.1) (sl.1 + 1) (sr.1 - 1) (red sl.2 (a sr.1))
        (red sr.2 (a sl.1)) (by omega) (by omega)
      generalize serialLoop cmp red fuel (xchg a sl.1 sr.1) (sl.1 + 1) (sr.1 - 1)
        (red sl.2 (a sr.1)) (red sr.2 (a sl.1)) = res at post
      obtain ⟨p1, p2, p3, p4, p5, p6, tl, tr, t1, t2, t3, t4⟩ := post
      have e5 : sr.1 - 1 + 1 = sr.1 := by omega
      rw [e5] at p2 p6 t1 t2
      have hmid : slice (xchg a sl.1 sr.1) (sl.1 + 1) sr.1 = slice a (sl.1 + 1) sr.1 :=
        slice_congr fun k hk1 hk2 => xchg_other a (by omega) (by omega)
      rw [hmid] at p6 t1 t2
      have hres_lo : ∀ k, k < sl.1 → res.2.1 k = a k := fun k hk => by
        rw [p5 k (Or.inl (by omega))]; exact xchg_other a (by omega) (by omega)
      have hres_hi : ∀ k, sr.1 < k → res.2.1 k = a k := fun k hk => by
        rw [p5 k (Or.inr (by omega))]; exact xchg_other a (by omega) (by omega)
      have hres_l : res.2.1 sl.1 = a sr.1 := by
        rw [p5 _ (Or.inl (by omega))]; exact xchg_left a _ _
      have hres_r : res.2.1 sr.1 = a sl.1 := by
        rw [p5 _ (Or.inr (by omega))]; exact xchg_right a _ _
      have dec : ∀ b : Mem T, slice b l (r + 1) =
          slice b l sl.1 ++ b sl.1 :: (slice b (sl.1 + 1) sr.1 ++ b sr.1 :: slice b (sr.1 + 1) (r + 1)) := by
        intro b
        rw [slice_append b sl1 sl2, slice_cons b (show sl.1 < r + 1 by omega),
          slice_append b (show sl.1 + 1 ≤ sr.1 by omega) (show sr.1 ≤ r + 1 by omega),
          slice_cons b (show sr.1 < r + 1 by omega)]
      have hA : slice res.2.1 l sl.1 = slice a l sl.1 := slice_congr fun k _ hk2 => hres_lo k hk2
      have hB : slice res.2.1 (sr.1 + 1) (r + 1) = slice a (sr.1 + 1) (r + 1) :=
        slice_congr fun k hk1 _ => hres_hi k (by omega)
      have hright : ∀ k, sr.1 + 1 ≤ k → k < r + 1 → cmp (a k) = false :=
        fun k hk1 hk2 => sr3 k (by omega) (by omega)
      refine ⟨by omega, by omega, ?_, ?_, ?_, ?_, slice a l sl.1 ++ a sr.1 :: tl,
        (slice a (sr.1 + 1) (r + 1)).reverse ++ a sl.1 :: tr, ?_, ?_, ?_, ?_⟩
      · intro k hk1 hk2
        rcases lt_trichotomy k sl.1 with h | h | h
        · rw [hres_lo k h]; exact sl3 k hk1 h
        · rw [h, hres_l]; exact cr
        · exact p3 k (by omega) hk2
      · intro k hk1 hk2
        rcases lt_trichotomy k sr.1 with h | h | h
        · exact p4 k hk1 (by omega)
        · rw [h, hres_r]; exact cl
        · rw [hres_hi k h]; exact sr3 k h hk2
      · intro k hk
        rcases hk with hk | hk
        · exact hres_lo k (by omega)
        · exact hres_hi k (by omega)
      · rw [dec res.2.1, dec a, hA, hB, hres_l, hres_r]
        exact perm_swap_ends _ _ p6
      · rw [dec a]
        simp only [List.filter_append, List.filter_cons, cl, cr, filter_slice_all sl3,
          filter_slice_none hright]
        simp only [Bool.false_eq_true, if_false, if_true, List.append_nil]
        apply List.Perm.append_left
        exact (List.Perm.cons _ t1).trans (List.perm_append_singleton _ _).symm
      · rw [dec a]
        have fA : (slice a l sl.1).filter (fun x => !cmp x) = [] :=
          filter_slice_none (fun k hk1 hk2 => by simp [sl3 k hk1 hk2])
        have fB : (slice a (sr.1 + 1) (r + 1)).filter (fun x => !cmp x) =
            slice a (sr.1 + 1) (r + 1) :=
          filter_slice_all (fun k hk1 hk2 => by simp [hright k hk1 hk2])
        simp only [List.filter_append, List.filter_cons, cl, cr, fA, fB]
        simp only [Bool.not_false, Bool.not_true, Bool.false_eq_true, if_false, if_true,
          List.nil_append]
        have h1 : ((slice a (sr.1 + 1) (r + 1)).reverse ++ a sl.1 :: tr).Perm
            (a sl.1 :: (tr ++ slice a (sr.1 + 1) (r + 1))) :=
          (List.perm_append_comm).trans
            (List.Perm.cons _ (List.Perm.append_left _ (List.reverse_perm _)))
        exact h1.trans (List.Perm.cons _ (t2.append_right _))
      · rw [t3, List.foldl_append, ← sl5]; rfl
      · rw [t4, List.foldl_append, ← sr5]; rfl

theorem serial_partitioning_post (array : Mem T) (begin end_ : Nat) (L R : V) (cmp : T → Bool)
    (red : V → T → V) (h : begin ≤ end_) :
    SerialPost cmp red array (begin : Int) ((end_ : Int) - 1) L R
      (serialLoop cmp red (end_ - begin + 1) array (begin : Int) ((end_ : Int) - 1) L R) :=
  serialLoop_spec cmp red _ array _ _ L R (by omega) (by omega)

theorem serial_partitioning_mid_cast (array : Mem T) (begin end_ : Nat) (L R : V)
    (cmp : T → Bool) (red : V → T → V) (h : begin ≤ end_) :
    ((serial_partitioning array begin end_ L R cmp red).1 : Int) =
      (serialLoop cmp red (end_ - begin + 1) array (begin : Int) ((end_ : Int) - 1) L R).1 := by
  have post := serial_partitioning_post array begin end_ L R cmp red h
  have := post.lo
  simp only [serial_partitioning]
  omega

theorem scanLeft_sim (cmp : T → Bool) (red : V → T → V) (a : Mem T) (r : Int) (L0 : V) :
    ∀ (fuel : Nat) (l : Int) (t : List T),
      (scanLeft cmp red a r fuel l (t.foldl red L0)).1 =
        (scanLeft cmp (fun acc x => acc ++ [x]) a r fuel l t).1 ∧
      (scanLeft cmp red a r fuel l (t.foldl red L0)).2 =
        (scanLeft cmp (fun acc x => acc ++ [x]) a r fuel l t).2.foldl red L0 := by
  intro fuel
  induction fuel with
  | zero => intro l t; simp [scanLeft]
  | succ fuel ih =>
    intro l t
    simp only [scanLeft]
    split
    · have := ih (l + 1) (t ++ [a l])
      simpa [List.foldl_append] using this
    · simp

theorem scanRight_sim (cmp : T → Bool) (red : V → T → V) (a : Mem T) (l : Int) (R0 : V) :
    ∀ (fuel : Nat) (r : Int) (t : List T),
      (scanRight cmp red a l fuel r (t.foldl red R0)).1 =
        (scanRight cmp (fun acc x => acc ++ [x]) a l fuel r t).1 ∧
      (scanRight cmp red a l fuel r (t.foldl red R0)).2 =
        (scanRight cmp (fun acc x => acc ++ [x]) a l fuel r t).2.foldl red R0 := by
  intro fuel
  induction fuel with
  | zero => intro r t; simp [scanRight]
  | succ fuel ih =>
    intro r t
    simp only [scanRight]
    split
    · have := ih (r - 1) (t ++ [a r])
      simpa [List.foldl_append] using this
    · simp

theorem serialLoop_sim (cmp : T → Bool) (red : V → T → V) (L0 R0 : V) :
    ∀ (fuel : Nat) (a : Mem T) (l r : Int) (tl tr : List T),
      (serialLoop cmp red fuel a l r (tl.foldl red L0) (tr.foldl red R0)).1 =
        (serialLoop cmp (fun acc x => acc ++ [x]) fuel a l r tl tr).1 ∧
      (serialLoop cmp red fuel a l r (tl.foldl red L0) (tr.foldl red R0)).2.1 =
        (serialLoop cmp (fun acc x => acc ++ [x]) fuel a l r tl tr).2.1 ∧
      (serialLoop cmp red fuel a l r (tl.foldl red L0) (tr.foldl red R0)).2.2.1 =
        (serialLoop cmp (fun acc x => acc ++ [x]) fuel a l r tl tr).2.2.1.foldl red L0 ∧
      (serialLoop cmp red fuel a l r (tl.foldl red L0) (tr.foldl red R0)).2.2.2 =
        (serialLoop cmp (fun acc x => acc ++ [x]) fuel a l r tl tr).2.2.2.foldl red R0 := by
  intro fuel
  induction fuel with
  | zero => intro a l r tl tr; simp [serialLoop]
  | succ fuel ih =>
    intro a l r tl tr
    obtain ⟨e1, e2⟩ := scanLeft_sim cmp red a r L0 (r + 1 - l).toNat l tl
    generalize hsl : scanLeft cmp red a r (r + 1 - l).toNat l (tl.foldl red L0) = sl at e1 e2
    generalize hsl' : scanLeft cmp (fun acc x => acc ++ [x]) a r (r + 1 - l).toNat l tl = sl'
      at e1 e2
    obtain ⟨f1, f2⟩ := scanRight_sim cmp red a sl'.1 R0 (r + 1 - sl'.1).toNat r tr
    generalize hsr : scanRight cmp red a sl'.1 (r + 1 - sl'.1).toNat r (tr.foldl red R0) = sr
      at f1 f2
    generalize hsr' : scanRight cmp (fun acc x => acc ++ [x]) a sl'.1 (r + 1 - sl'.1).toNat r tr
      = sr' at f1 f2
    simp only [serialLoop, hsl, hsl']
    rw [e1, hsr, hsr', f1, e2, f2]
    split
    · simp
    · have := ih (xchg a sl'.1 sr'.1) (sl'.1 + 1) (sr'.1 - 1) (sl'.2 ++ [a sr'.1])
        (sr'.2 ++ [a sl'.1])
      simpa [List.foldl_append] using this

/-- C5: for `begin <= end`, `serial_partitioning(array, begin, end, ...)` returns a
boundary `m` with `begin <= m <= end`; afterwards every cell of `[begin, m)` satisfies
`cmp` and every cell of `[m, end)` does not; `m - begin` is the number of cells of
`[begin, end)` that satisfied `cmp` on entry; cells outside `[begin, end)` are
unchanged; and the empty subrange `begin = end` returns `begin`. -/
theorem serial_partitioning_boundary (array : Mem T) (begin end_ : Nat) (L R : V)
    (cmp : T → Bool) (red : V → T → V) (h : begin ≤ end_) :
    begin ≤ (serial_partitioning array begin end_ L R cmp red).1 ∧
    (serial_partitioning array begin end_ L R cmp red).1 ≤ end_ ∧
    (∀ k : Nat, begin ≤ k → k < (serial_partitioning array begin end_ L R cmp red).1 →
      cmp ((serial_partitioning array begin end_ L R cmp red).2.1 k) = true) ∧
    (∀ k : Nat, (serial_partitioning array begin end_ L R cmp red).1 ≤ k → k < end_ →
      cmp ((serial_partitioning array begin end_ L R cmp red).2.1 k) = false) ∧
    (serial_partitioning array begin end_ L R cmp red).1 - begin =
      (slice array begin end_).countP cmp ∧
    (∀ k : Int, k < begin ∨ (end_ : Int) ≤ k →
      (serial_partitioning array begin end_ L R cmp red).2.1 k = array k) ∧
    (begin = end_ → (serial_partitioning array begin end_ L R cmp red).1 = begin) := by
  have post := serial_partitioning_post array begin end_ L R cmp red h
  have hm := serial_partitioning_mid_cast array begin end_ L R cmp red h
  have harr : (serial_partitioning array begin end_ L R cmp red).2.1 =
      (serialLoop cmp red (end_ - begin + 1) array (begin : Int) ((end_ : Int) - 1) L R).2.1 := rfl
  generalize serial_partitioning array begin end_ L R cmp red = sp at hm harr
  generalize serialLoop cmp red (end_ - begin + 1) array (begin : Int) ((end_ : Int) - 1) L R = res
    at post hm harr
  obtain ⟨p1, p2, p3, p4, p5, p6, -⟩ := post
  have e : (end_ : Int) - 1 + 1 = end_ := by omega
  rw [e] at p2 p6
  rw [harr]
  refine ⟨by omega, by omega, fun k hk1 hk2 => p3 k (by omega) (by omega),
    fun k hk1 hk2 => p4 k (by omega) (by omega), ?_, fun k hk => p5 k (by omega), by omega⟩
  rw [← p6.countP_eq, slice_append res.2.1 p1 p2, List.countP_append]
  have c1 : (slice res.2.1 (begin : Int) res.1).countP cmp = (slice res.2.1 (begin : Int) res.1).length := by
    apply List.countP_eq_length.2
    intro x hx
    obtain ⟨k, h1, h2, rfl⟩ := mem_slice.1 hx
    exact p3 k h1 h2
  have c2 : (slice res.2.1 res.1 (end_ : Int)).countP cmp = 0 := by
    apply List.countP_eq_zero.2
    intro x hx
    obtain ⟨k, h1, h2, rfl⟩ := mem_slice.1 hx
    simp [p4 k h1 (by omega)]
  rw [c1, c2, slice_length]
  omega

/-- Witness of C5 on the cells `[1, 3)` of the array `3, 4, 5, 6`. -/
theorem serial_partitioning_boundary_witness :
    (1 : Nat) ≤ 3 ∧
    (serial_partitioning (ofList [3, 4, 5, 6] 0) 1 3 (0 : Nat) 0 (fun x : Nat => x % 2 == 0)
      (fun acc x => acc + x)).1 - 1 =
      (slice (ofList [3, 4, 5, 6] 0) (1 : Nat) (3 : Nat)).countP (fun x : Nat => x % 2 == 0) :=
  ⟨by decide, (serial_partitioning_boundary (ofList [3, 4, 5, 6] 0) 1 3 (0 : Nat) 0
    (fun x : Nat => x % 2 == 0) (fun acc x => acc + x) (by decide)).2.2.2.2.1⟩

/-- C6: `serial_partitioning` passes each element of `[begin, end)` to `reduction_t`
exactly once: the sequence folded into `leftReduction` is a permutation of the elements
that satisfied `cmp` on entry, the sequence folded into `rightReduction` is a permutation
of those that did not, together they are a permutation of the subrange, and for every
accumulator type, `reduction_t` and initial accumulators the final accumulators are the
left folds of `reduction_t` over these two sequences. -/
theorem serial_partitioning_folds_once (array : Mem T) (begin end_ : Nat) (L R : V)
    (cmp : T → Bool) (red : V → T → V) (h : begin ≤ end_) :
    (serialTrace array begin end_ cmp).1.Perm ((slice array begin end_).filter cmp) ∧
    (serialTrace array begin end_ cmp).2.Perm
      ((slice array begin end_).filter (fun x => !cmp x)) ∧
    ((serialTrace array begin end_ cmp).1 ++ (serialTrace array begin end_ cmp).2).Perm
      (slice array begin end_) ∧
    (serial_partitioning array begin end_ L R cmp red).2.2.1 =
      (serialTrace array begin end_ cmp).1.foldl red L ∧
    (serial_partitioning array begin end_ L R cmp red).2.2.2 =
      (serialTrace array begin end_ cmp).2.foldl red R := by
  have post := serial_partitioning_post array begin end_ ([] : List T) ([] : List T) cmp
    (fun acc x => acc ++ [x]) h
  obtain ⟨-, -, -, -, -, -, tl, tr, t1, t2, t3, t4⟩ := post
  have e : (end_ : Int) - 1 + 1 = end_ := by omega
  rw [e] at t1 t2
  have snoc : ∀ t : List T, t.foldl (fun acc x => acc ++ [x]) ([] : List T) = t := by
    intro t
    have : ∀ (t s : List T), t.foldl (fun acc x => acc ++ [x]) s = s ++ t := by
      intro t
      induction t with
      | nil => intro s; simp
      | cons x t ih => intro s; simp [ih]
    simpa using this t []
  rw [snoc] at t3 t4
  have sim := serialLoop_sim cmp red L R (end_ - begin + 1) array (begin : Int)
    ((end_ : Int) - 1) [] []
  simp only [List.foldl_nil] at sim
  have ht1 : (serialTrace array begin end_ cmp).1 = tl := t3
  have ht2 : (serialTrace array begin end_ cmp).2 = tr := t4
  refine ⟨ht1 ▸ t1, ht2 ▸ t2, ?_, ?_, ?_⟩
  · rw [ht1, ht2]
    exact (t1.append t2).trans (List.filter_append_perm _ _)
  · exact sim.2.2.1
  · exact sim.2.2.2

/-- Witness of C6 on the array `1, 2, 3, 4` with the summing reduction. -/
theorem serial_partitioning_folds_once_witness :
    (0 : Nat) ≤ 4 ∧
    (serial_partitioning (ofList [1, 2, 3, 4] 0) 0 4 (0 : Nat) 0 (fun x : Nat => x % 2 == 0)
      (fun acc x => acc + x)).2.2.1 =
      (serialTrace (ofList [1, 2, 3, 4] 0) 0 4 (fun x : Nat => x % 2 == 0)).1.foldl
        (fun acc x => acc + x) 0 :=
  ⟨by decide, (serial_partitioning_folds_once (ofList [1, 2, 3, 4] 0) 0 4 (0 : Nat) 0
    (fun x : Nat => x % 2 == 0) (fun acc x => acc + x) (by decide)).2.2.2.1⟩

/-! ## The degenerate paths of partition -/

theorem setSentinels_of_lt (p : parallel_partition_static_task T V) (h : p.tasks < MAX_TASKS) :
    setSentinels p = some (withSentinels p) := by
  simp [setSentinels, storeChecked, h, withSentinels]

theorem setSentinels_of_not_lt (p : parallel_partition_static_task T V)
    (h : ¬ p.tasks < MAX_TASKS) : setSentinels p = none := by
  simp [setSentinels, storeChecked, h]

theorem partitionTask_tasks (empty : V) (cmp : T → Bool) (reduction_t : V → T → V) (t : Nat)
    (p : parallel_partition_static_task T V) :
    (partitionTask empty cmp reduction_t t p).tasks = p.tasks ∧
    (partitionTask empty cmp reduction_t t p).N = p.N := ⟨rfl, rfl⟩

theorem phase1_tasks (empty : V) (cmp : T → Bool) (reduction_t : V → T → V) (order : List Nat) :
    ∀ p : parallel_partition_static_task T V,
      (parallel_for order (partitionTask empty cmp reduction_t) p).tasks = p.tasks ∧
      (parallel_for order (partitionTask empty cmp reduction_t) p).N = p.N := by
  induction order with
  | nil => intro p; exact ⟨rfl, rfl⟩
  | cons t order ih =>
    intro p
    have := ih (partitionTask empty cmp reduction_t t p)
    simpa [parallel_for] using this

theorem partition_none_of_max_tasks (BLOCK_SIZE : Nat) (array : Mem T) (N : Nat) (init : V)
    (L0 R0 : V) (cmp : T → Bool) (reduction_t : V → T → V) (reduction_v : V → V → V)
    (numThreads : Nat) (empty : V) (raw : RawTables V) (order1 order2 : List Nat)
    (h : ¬ N < BLOCK_SIZE) (ht : numTasks BLOCK_SIZE N numThreads = MAX_TASKS) :
    parallel_in_place_partitioning_static BLOCK_SIZE array N init L0 R0 cmp reduction_t
      reduction_v numThreads empty raw order1 order2 = none := by
  have hp := phase1_tasks empty cmp reduction_t order1
    (parallel_partition_static_task.create BLOCK_SIZE array N numThreads init raw)
  have hN : (parallel_partition_static_task.create BLOCK_SIZE array N numThreads init raw).N = N :=
    rfl
  have hT : (parallel_partition_static_task.create BLOCK_SIZE array N numThreads init raw).tasks
      = MAX_TASKS := ht
  rw [hT] at hp
  simp only [parallel_in_place_partitioning_static, parallel_partition_static_task.partition,
    hN, if_neg h, partitionFinish]
  rw [setSentinels_of_not_lt _ (by rw [hp.1]; exact lt_irrefl _)]
  rfl

theorem taskStart_mono (N tasks : Nat) {t u : Nat} (h : t ≤ u) :
    taskStart N tasks t ≤ taskStart N tasks u :=
  Nat.div_le_div_right (Nat.mul_le_mul_right N h)

theorem taskStart_zero (N tasks : Nat) : taskStart N tasks 0 = 0 := by
  simp [taskStart]

theorem taskStart_last (N : Nat) {tasks : Nat} (h : 0 < tasks) : taskStart N tasks tasks = N := by
  simp [taskStart, Nat.mul_div_cancel_left N h]

theorem taskStart_le (N : Nat) {tasks t : Nat} (h : t ≤ tasks) : taskStart N tasks t ≤ N := by
  rcases Nat.eq_zero_or_pos tasks with h0 | h0
  · subst h0; simp [taskStart]
  · calc taskStart N tasks t ≤ taskStart N tasks tasks := taskStart_mono N tasks h
      _ = N := taskStart_last N h0

theorem taskRange_disjoint (N tasks : Nat) {t u : Nat} (h : t ≠ u) (k : Int)
    (h1 : (taskStart N tasks t : Int) ≤ k) (h2 : k < (taskStart N tasks (t + 1) : Int)) :
    k < (taskStart N tasks u : Int) ∨ (taskStart N tasks (u + 1) : Int) ≤ k := by
  rcases Nat.lt_or_gt_of_ne h with hlt | hgt
  · left
    have := taskStart_mono N tasks (show t + 1 ≤ u from hlt)
    omega
  · right
    have := taskStart_mono N tasks (show u + 1 ≤ t from hgt)
    omega

theorem partitionTask_step (cmp : T → Bool) (red : V → T → V) (empty : V) (a0 : Mem T)
    (N tasks : Nat) (D : Nat → Prop) (p : parallel_partition_static_task T V) (t : Nat)
    (inv : Phase1Inv cmp red empty a0 N tasks D p) (ht : t < tasks) (hD : ¬ D t) :
    Phase1Inv cmp red empty a0 N tasks (fun u => u = t ∨ D u)
      (partitionTask empty cmp red t p) := by
  have hse : taskStart N tasks t ≤ taskStart N tasks (t + 1) := taskStart_mono N tasks (by omega)
  have heN : taskStart N tasks (t + 1) ≤ N := taskStart_le N (by omega)
  have post := serial_partitioning_post p.array (taskStart N tasks t) (taskStart N tasks (t + 1))
    empty empty cmp red hse
  have hmid := serial_partitioning_mid_cast p.array (taskStart N tasks t)
    (taskStart N tasks (t + 1)) empty empty cmp red hse
  have hsp : serial_partitioning p.array ((t + 0) * p.N / p.tasks) ((t + 1) * p.N / p.tasks)
      empty empty cmp red = serial_partitioning p.array (taskStart N tasks t)
        (taskStart N tasks (t + 1)) empty empty cmp red := by
    rw [inv.hN, inv.hT]; rfl
  have harr : (serial_partitioning p.array (taskStart N tasks t) (taskStart N tasks (t + 1))
      empty empty cmp red).2.1 = (serialLoop cmp red (taskStart N tasks (t + 1) -
        taskStart N tasks t + 1) p.array (taskStart N tasks t : Int)
        ((taskStart N tasks (t + 1) : Int) - 1) empty empty).2.1 := rfl
  have hL : (serial_partitioning p.array (taskStart N tasks t) (taskStart N tasks (t + 1))
      empty empty cmp red).2.2.1 = (serialLoop cmp red (taskStart N tasks (t + 1) -
        taskStart N tasks t + 1) p.array (taskStart N tasks t : Int)
        ((taskStart N tasks (t + 1) : Int) - 1) empty empty).2.2.1 := rfl
  have hR : (serial_partitioning p.array (taskStart N tasks t) (taskStart N tasks (t + 1))
      empty empty cmp red).2.2.2 = (serialLoop cmp red (taskStart N tasks (t + 1) -
        taskStart N tasks t + 1) p.array (taskStart N tasks t : Int)
        ((taskStart N tasks (t + 1) : Int) - 1) empty empty).2.2.2 := rfl
  generalize serialLoop cmp red (taskStart N tasks (t + 1) - taskStart N tasks t + 1) p.array
    (taskStart N tasks t : Int) ((taskStart N tasks (t + 1) : Int) - 1) empty empty = res
    at post hmid harr hL hR
  generalize hq : partitionTask empty cmp red t p = q
  have qa : q.array = res.2.1 := by rw [← hq]; simp only [partitionTask]; rw [hsp, harr]
  have qcs : q.counter_start = store p.counter_start t (taskStart N tasks t) := by
    rw [← hq]; simp only [partitionTask]; rw [inv.hN, inv.hT]; rfl
  have qcl : q.counter_left = store p.counter_left t (res.1.toNat - taskStart N tasks t) := by
    rw [← hq]; simp only [partitionTask]; rw [hsp]
    have : (serial_partitioning p.array (taskStart N tasks t) (taskStart N tasks (t + 1))
        empty empty cmp red).1 = res.1.toNat := by omega
    rw [this, inv.hN, inv.hT]; rfl
  have qlr : q.leftReductions = store p.leftReductions t res.2.2.1 := by
    rw [← hq]; simp only [partitionTask]; rw [hsp, hL]
  have qrr : q.rightReductions = store p.rightReductions t res.2.2.2 := by
    rw [← hq]; simp only [partitionTask]; rw [hsp, hR]
  obtain ⟨p1, p2, p3, p4, p5, p6, tl, tr, t1, t2, t3, t4⟩ := post
  have e1 : (taskStart N tasks (t + 1) : Int) - 1 + 1 = taskStart N tasks (t + 1) := by omega
  rw [e1] at p2 p6 t1 t2
  have hslice : slice p.array (taskStart N tasks t) (taskStart N tasks (t + 1)) =
      slice a0 (taskStart N tasks t) (taskStart N tasks (t + 1)) :=
    slice_congr fun k hk1 hk2 => inv.todo t ht hD k hk1 hk2
  rw [hslice] at p6 t1 t2
  have hother : ∀ u, u ≠ t → ∀ k : Int, (taskStart N tasks u : Int) ≤ k →
      k < (taskStart N tasks (u + 1) : Int) → q.array k = p.array k := by
    intro u hu k hk1 hk2
    rw [qa]
    apply p5
    have := taskRange_disjoint N tasks hu k hk1 hk2
    omega
  refine ⟨by rw [← hq]; exact inv.hN, by rw [← hq]; exact inv.hT, ?_, ?_, ?_⟩
  · intro u hu
    by_cases hut : u = t
    · subst hut
      have c1 : q.counter_left u = res.1.toNat - taskStart N tasks u := by
        rw [qcl]; simp [store]
      refine ⟨by rw [qcs]; simp [store], by rw [c1]; omega, ?_, ?_, ?_, tl, tr, t1, t2, ?_, ?_⟩
      · intro k hk1 hk2
        rw [qa]; exact p3 k hk1 (by rw [c1] at hk2; omega)
      · intro k hk1 hk2
        rw [qa]; exact p4 k (by rw [c1] at hk1; omega) (by omega)
      · rw [qa]; exact p6
      · rw [qlr]; simpa [store] using t3
      · rw [qrr]; simpa [store] using t4
    · have hDu : D u := hu.resolve_left hut
      obtain ⟨d1, d2, d3, d4, d5, d6⟩ := inv.done u hDu
      have c1 : q.counter_left u = p.counter_left u := by rw [qcl]; simp [store, hut]
      have hsl : slice q.array (taskStart N tasks u) (taskStart N tasks (u + 1)) =
          slice p.array (taskStart N tasks u) (taskStart N tasks (u + 1)) :=
        slice_congr fun k hk1 hk2 => hother u hut k hk1 hk2
      refine ⟨by rw [qcs]; simpa [store, hut] using d1, by rw [c1]; exact d2, ?_, ?_, ?_, ?_⟩
      · intro k hk1 hk2
        rw [c1] at hk2
        rw [hother u hut k hk1 (by omega)]; exact d3 k hk1 hk2
      · intro k hk1 hk2
        rw [c1] at hk1
        rw [hother u hut k (by omega) hk2]; exact d4 k hk1 hk2
      · rw [hsl]; exact d5
      · rw [qlr, qrr]; simpa [store, hut] using d6
  · intro u hu hnD k hk1 hk2
    have hut : u ≠ t := fun h => hnD (Or.inl h)
    rw [hother u hut k hk1 hk2]
    exact inv.todo u hu (fun h => hnD (Or.inr h)) k hk1 hk2
  · intro k hk
    rw [qa, p5 k (by omega)]
    exact inv.frame k hk

theorem phase1_fold (cmp : T → Bool) (red : V → T → V) (empty : V) (a0 : Mem T)
    (N tasks : Nat) (order : List Nat) :
    ∀ (D : Nat → Prop) (p : parallel_partition_static_task T V),
      Phase1Inv cmp red empty a0 N tasks D p → order.Nodup →
      (∀ t ∈ order, t < tasks ∧ ¬ D t) →
      Phase1Inv cmp red empty a0 N tasks (fun u => u ∈ order ∨ D u)
        (parallel_for order (partitionTask empty cmp red) p) := by
  induction order with
  | nil =>
    intro D p inv _ _
    have e : (fun u => u ∈ ([] : List Nat) ∨ D u) = D := by
      funext u; simp
    rw [e]
    exact inv
  | cons t rest ih =>
    intro D p inv hnd hall
    have ht := hall t (List.mem_cons_self t rest)
    have hnd' := List.nodup_cons.1 hnd
    have step := partitionTask_step cmp red empty a0 N tasks D p t inv ht.1 ht.2
    have := ih (fun u => u = t ∨ D u) (partitionTask empty cmp red t p) step hnd'.2
      (fun u hu => ⟨(hall u (List.mem_cons_of_mem t hu)).1, fun h => by
        rcases h with h | h
        · exact hnd'.1 (h ▸ hu)
        · exact (hall u (List.mem_cons_of_mem t hu)).2 h⟩)
    have e : (fun u => u ∈ t :: rest ∨ D u) = (fun u => u ∈ rest ∨ (u = t ∨ D u)) := by
      funext u
      apply propext
      simp only [List.mem_cons]
      tauto
    rw [e]
    exact this

theorem phase1_post (cmp : T → Bool) (red : V → T → V) (empty : V)
    (p : parallel_partition_static_task T V) (order : List Nat)
    (ho : order.Perm (List.range p.tasks)) :
    Phase1Inv cmp red empty p.array p.N p.tasks (fun u => u < p.tasks)
      (parallel_for order (partitionTask empty cmp red) p) := by
  have inv0 : Phase1Inv cmp red empty p.array p.N p.tasks (fun _ => False) p :=
    ⟨rfl, rfl, fun _ h => h.elim, fun _ _ _ _ _ _ => rfl, fun _ _ => rfl⟩
  have hnd : order.Nodup := ho.nodup_iff.2 (List.nodup_range _)
  have hmem : ∀ t, t ∈ order ↔ t < p.tasks := fun t => by
    rw [ho.mem_iff, List.mem_range]
  have := phase1_fold cmp red empty p.array p.N p.tasks order (fun _ => False) p inv0 hnd
    (fun t ht => ⟨(hmem t).1 ht, fun h => h⟩)
  have e : (fun u => u ∈ order ∨ False) = (fun u => u < p.tasks) := by
    funext u
    apply propext
    simp [hmem]
  rw [e] at this
  exact this

/-! ## The reductions of the parallel path -/

theorem foldl_lift (red_t : V → T → V) (red_v : V → V → V) (lift : T → V) (empty : V)
    (hc : ∀ a b, red_v a b = red_v b a)
    (ha : ∀ a b c, red_v (red_v a b) c = red_v a (red_v b c))
    (hid : ∀ a, red_v empty a = a)
    (hl : ∀ acc x, red_t acc x = red_v acc (lift x)) (xs : List T) :
    ∀ acc, xs.foldl red_t acc = red_v acc (xs.foldl red_t empty) := by
  induction xs using List.reverseRecOn with
  | nil =>
    intro acc
    have : red_v acc empty = acc := by rw [hc, hid]
    simp [this]
  | append_singleton xs x ih =>
    intro acc
    simp only [List.foldl_append, List.foldl_cons, List.foldl_nil]
    rw [hl, ih acc, hl, ha]

theorem foldl_perm (red_t : V → T → V) (red_v : V → V → V) (lift : T → V)
    (hc : ∀ a b, red_v a b = red_v b a)
    (ha : ∀ a b c, red_v (red_v a b) c = red_v a (red_v b c))
    (hl : ∀ acc x, red_t acc x = red_v acc (lift x)) {xs ys : List T} (h : xs.Perm ys)
    (acc : V) : xs.foldl red_t acc = ys.foldl red_t acc := by
  apply List.Perm.foldl_eq' h
  intro x _ y _ z
  rw [hl, hl, hl, hl, ha, ha, hc (lift x)]

theorem foldl_pair {α β γ : Type} (f : α → γ → α) (g : β → γ → β) (xs : List γ) :
    ∀ (a : α) (b : β), xs.foldl (fun acc i => (f acc.1 i, g acc.2 i)) (a, b) =
      (xs.foldl f a, xs.foldl g b) := by
  induction xs with
  | nil => intro a b; rfl
  | cons x xs ih => intro a b; simp [ih]

theorem combine_prefix (red_t : V → T → V) (red_v : V → V → V) (lift : T → V)
    (empty : V) (a0 : Mem T) (N tasks : Nat) (q : T → Bool) (tbl : Nat → V)
    (hc : ∀ a b, red_v a b = red_v b a)
    (ha : ∀ a b c, red_v (red_v a b) c = red_v a (red_v b c))
    (hid : ∀ a, red_v empty a = a)
    (hl : ∀ acc x, red_t acc x = red_v acc (lift x))
    (htbl : ∀ t, t < tasks → ∃ tl : List T,
      tl.Perm ((slice a0 (taskStart N tasks t) (taskStart N tasks (t + 1))).filter q) ∧
      tbl t = tl.foldl red_t empty) :
    ∀ k, k ≤ tasks →
      (List.range k).foldl (fun acc i => red_v acc (tbl i)) empty =
        ((slice a0 0 (taskStart N tasks k)).filter q).foldl red_t empty := by
  intro k
  induction k with
  | zero =>
    intro _
    simp [taskStart_zero, slice_nil]
  | succ k ih =>
    intro hk
    obtain ⟨tl, h1, h2⟩ := htbl k (by omega)
    have hmono : taskStart N tasks k ≤ taskStart N tasks (k + 1) :=
      taskStart_mono N tasks (by omega)
    rw [List.range_succ, List.foldl_append, ih (by omega)]
    simp only [List.foldl_cons, List.foldl_nil]
    rw [h2, foldl_perm red_t red_v lift hc ha hl h1,
      slice_append a0 (show (0 : Int) ≤ taskStart N tasks k by omega)
        (show (taskStart N tasks k : Int) ≤ taskStart N tasks (k + 1) by omega),
      List.filter_append, List.foldl_append]
    exact (foldl_lift red_t red_v lift empty hc ha hid hl _ _).symm

theorem numTasks_pos (BLOCK_SIZE N numThreads : Nat) (h : ¬ N < BLOCK_SIZE)
    (ht : 1 ≤ numThreads) : 1 ≤ numTasks BLOCK_SIZE N numThreads := by
  unfold numTasks MAX_TASKS
  split
  · omega
  · rename_i hlt
    have hb : 0 < BLOCK_SIZE := by
      rcases Nat.eq_zero_or_pos BLOCK_SIZE with h0 | h0
      · subst h0; simp at hlt
      · exact h0
    have : 1 ≤ (N + BLOCK_SIZE - 1) / BLOCK_SIZE := by
      rw [Nat.le_div_iff_mul_le hb]
      omega
    omega

/-- C4: for a commutative and associative `reduction_v` with `empty` as identity and
`reduction_t(acc,x) = reduction_v(acc, lift x)`, for every array, predicate, task count
`tasks >= 1` and schedule of the first `parallel_for`, the accumulators that the parallel
path of `partition` computes (the first `parallel_for` and the combining loop) are the
sequential left folds of `reduction_t` from `empty` over the elements of `array[0..N)`
that satisfied `cmp` on entry, respectively did not; whenever `partition` returns, it
returns these, and it returns for every `tasks < MAX_TASKS`. -/
theorem parallel_reductions_sequential (BLOCK_SIZE : Nat) (empty : V) (cmp : T → Bool)
    (reduction_t : V → T → V) (reduction_v : V → V → V) (lift : T → V)
    (order1 order2 : List Nat) (p : parallel_partition_static_task T V)
    (hc : ∀ a b, reduction_v a b = reduction_v b a)
    (ha : ∀ a b c, reduction_v (reduction_v a b) c = reduction_v a (reduction_v b c))
    (hid : ∀ a, reduction_v empty a = a)
    (hl : ∀ acc x, reduction_t acc x = reduction_v acc (lift x))
    (hN : ¬ p.N < BLOCK_SIZE) (ht : 1 ≤ p.tasks)
    (ho : order1.Perm (List.range p.tasks)) :
    combineReductions empty reduction_v
        (parallel_for order1 (partitionTask empty cmp reduction_t) p) =
      (((contents p.array p.N).filter cmp).foldl reduction_t empty,
       ((contents p.array p.N).filter (fun x => !cmp x)).foldl reduction_t empty) ∧
    (∀ res, p.partition BLOCK_SIZE empty cmp reduction_t reduction_v order1 order2 = some res →
      res.leftReduction = ((contents p.array p.N).filter cmp).foldl reduction_t empty ∧
      res.rightReduction =
        ((contents p.array p.N).filter (fun x => !cmp x)).foldl reduction_t empty) ∧
    (p.tasks < MAX_TASKS →
      (p.partition BLOCK_SIZE empty cmp reduction_t reduction_v order1 order2).isSome = true) := by
  have inv := phase1_post cmp reduction_t empty p order1 ho
  generalize hp1 : parallel_for order1 (partitionTask empty cmp reduction_t) p = p1 at inv
  have hcomb : combineReductions empty reduction_v p1 =
      (((contents p.array p.N).filter cmp).foldl reduction_t empty,
       ((contents p.array p.N).filter (fun x => !cmp x)).foldl reduction_t empty) := by
    unfold combineReductions
    rw [foldl_pair (fun acc i => reduction_v acc (p1.leftReductions i))
      (fun acc i => reduction_v acc (p1.rightReductions i)), inv.hT]
    have hL := combine_prefix reduction_t reduction_v lift empty p.array p.N p.tasks cmp
      p1.leftReductions hc ha hid hl (fun t ht => by
        obtain ⟨tl, tr, t1, _, t3, _⟩ := (inv.done t ht).traces
        exact ⟨tl, t1, t3⟩) p.tasks (le_refl _)
    have hR := combine_prefix reduction_t reduction_v lift empty p.array p.N p.tasks
      (fun x => !cmp x) p1.rightReductions hc ha hid hl (fun t ht => by
        obtain ⟨tl, tr, _, t2, _, t4⟩ := (inv.done t ht).traces
        exact ⟨tr, t2, t4⟩) p.tasks (le_refl _)
    rw [hL, hR, taskStart_last p.N ht]
    rfl
  refine ⟨hcomb, ?_, ?_⟩
  · intro res hres
    simp only [parallel_partition_static_task.partition, if_neg hN, hp1, partitionFinish] at hres
    rcases hs : setSentinels p1 with _ | p2
    · rw [hs] at hres; exact Option.noConfusion hres
    · rw [hs] at hres
      simp only [Option.map_some', Option.some.injEq] at hres
      rw [← hres, hcomb]
      exact ⟨rfl, rfl⟩
  · intro hlt
    simp only [parallel_partition_static_task.partition, if_neg hN, hp1, partitionFinish]
    rw [setSentinels_of_lt p1 (by rw [inv.hT]; exact hlt)]
    rfl

/-- Witness of C4: the array `1 .. 8` with `cmp` "is even", summing reductions,
`BLOCK_SIZE = 2` and three threads, the tasks run in the order `2, 0, 1`. -/
theorem parallel_reductions_sequential_witness :
    (∀ a b : Nat, a + b = b + a) ∧
    combineReductions 0 (fun a b : Nat => a + b)
        (parallel_for [2, 0, 1] (partitionTask 0 (fun x : Nat => x % 2 == 0)
          (fun acc x => acc + x))
          (parallel_partition_static_task.create 2 (ofList [1, 2, 3, 4, 5, 6, 7, 8] 0) 8 3
            (0 : Nat) (zeroTables 0))) =
      (((contents (ofList [1, 2, 3, 4, 5, 6, 7, 8] 0) 8).filter
          (fun x : Nat => x % 2 == 0)).foldl (fun acc x => acc + x) 0,
       ((contents (ofList [1, 2, 3, 4, 5, 6, 7, 8] 0) 8).filter
          (fun x : Nat => !(x % 2 == 0))).foldl (fun acc x => acc + x) 0) :=
  ⟨Nat.add_comm, (parallel_reductions_sequential 2 0 (fun x : Nat => x % 2 == 0)
    (fun acc x => acc + x) (fun a b : Nat => a + b) (fun x => x) [2, 0, 1] [0, 1, 2]
    (parallel_partition_static_task.create 2 (ofList [1, 2, 3, 4, 5, 6, 7, 8] 0) 8 3
      (0 : Nat) (zeroTables 0))
    Nat.add_comm Nat.add_assoc Nat.zero_add (fun _ _ => rfl) (by decide) (by decide)
    (by decide)).1⟩

/-! ## The sentinel stores at the task limit -/

/-- C1 (failing input): `BLOCK_SIZE = 1`, `N = 512`, 512 threads. The constructor sets
`tasks = 512 = MAX_TASKS`, and `partition` stores `counter_start[512] = N` and
`counter_left[512] = 0` into arrays declared `[MAX_TASKS]`: the stores are out of
bounds and the call has no defined result. -/
theorem partition_undefined_512_threads :
    parallel_in_place_partitioning_static 1 (fun _ => (0 : Nat)) 512 (0 : Nat) 0 0
      (fun x : Nat => x == 1) (fun acc x => acc + x) (fun a b => a + b) 512 0
      (zeroTables 0) (List.range 512) (List.range 512) = none :=
  partition_none_of_max_tasks 1 (fun _ => (0 : Nat)) 512 (0 : Nat) 0 0
    (fun x : Nat => x == 1) (fun acc x => acc + x) (fun a b => a + b) 512 0
    (zeroTables 0) (List.range 512) (List.range 512) (by decide) (by decide)

/-- C2 (failing input): `BLOCK_SIZE = 128`, `N = 65536`, 512 threads: `tasks = 512`, the
sentinel stores are out of bounds and no `mid` is defined. -/
theorem partition_undefined_block_128 :
    parallel_in_place_partitioning_static 128 (fun _ => (0 : Nat)) 65536 (0 : Nat) 0 0
      (fun x : Nat => x == 1) (fun acc x => acc + x) (fun a b => a + b) 512 0
      (zeroTables 0) (List.range 512) (List.range 512) = none :=
  partition_none_of_max_tasks 128 (fun _ => (0 : Nat)) 65536 (0 : Nat) 0 0
    (fun x : Nat => x == 1) (fun acc x => acc + x) (fun a b => a + b) 512 0
    (zeroTables 0) (List.range 512) (List.range 512) (by decide) (by decide)

/-- C3 (failing input): `BLOCK_SIZE = 128`, `N = 100000`, 1000 threads: the task count
`ceil(N/BLOCK_SIZE) = 782` is clamped to `tasks = 512`, the sentinel stores are out of
bounds and no final array is defined. -/
theorem partition_undefined_clamped_tasks :
    parallel_in_place_partitioning_static 128 (fun k => (k.toNat % 3 : Nat)) 100000 (0 : Nat) 0 0
      (fun x : Nat => x == 1) (fun acc x => acc + x) (fun a b => a + b) 1000 0
      (zeroTables 0) (List.range 512) (List.range 512) = none :=
  partition_none_of_max_tasks 128 (fun k => (k.toNat % 3 : Nat)) 100000 (0 : Nat) 0 0
    (fun x : Nat => x == 1) (fun acc x => acc + x) (fun a b => a + b) 1000 0
    (zeroTables 0) (List.range 512) (List.range 512) (by decide) (by decide)

/-- The array `1 .. 8` with the predicate "is even", `BLOCK_SIZE = 2` and three threads,
the tasks run in the orders `2, 0, 1` and `1, 2, 0`: `mid = 4`, the even elements come
first, and the sums are 20 and 16. -/
theorem partition_eight_elements :
    (parallel_in_place_partitioning_static 2 (ofList [1, 2, 3, 4, 5, 6, 7, 8] 0) 8 (0 : Nat) 0 0
      (fun x : Nat => x % 2 == 0) (fun a x => a + x) (fun a b => a + b) 3 0 (zeroTables 0)
      [2, 0, 1] [1, 2, 0]).map (fun r => (r.1, contents r.2.1 8, r.2.2)) =
    some (4, [2, 6, 4, 8, 5, 1, 3, 7], 20, 16) := by
  decide

/-! ## The misplaced-range loop -/

theorem Range.size_eq_zero_of_empty {r : Range} (h : r.empty = true) : r.size = 0 := by
  simp only [Range.empty, decide_eq_true_eq] at h
  simp only [Range.size]
  omega

theorem Range.size_pos_of_not_empty {r : Range} (h : r.empty = false) : 0 < r.size := by
  simp only [Range.empty, decide_eq_false_iff_not] at h
  simp only [Range.size]
  omega

theorem Range.size_cast {r : Range} (h : r.empty = false) :
    (r.size : Int) = r.end_ - r.start + 1 := by
  simp only [Range.empty, decide_eq_false_iff_not] at h
  simp only [Range.size]
  omega

theorem prefixSize_succ (r : Nat → Range) (n : Nat) :
    prefixSize r (n + 1) = prefixSize r n + (r n).size := by
  simp [prefixSize, List.range_succ]

theorem prefixSize_store (r : Nat → Range) (n : Nat) (x : Range) :
    ∀ m, m ≤ n → prefixSize (store r n x) m = prefixSize r m := by
  intro m
  induction m with
  | zero => intro _; rfl
  | succ m ih =>
    intro hm
    rw [prefixSize_succ, prefixSize_succ, ih (by omega)]
    have : store r n x m = r m := by
      simp only [store]
      rw [if_neg (by omega)]
    rw [this]

theorem collectStep_inv (cand : Nat → Range) (sep : Nat → Int) (k : Nat) (c : RangeTable)
    (inv : CollInv cand sep k c) (h1 : sep k ≤ (cand k).start)
    (h2 : (cand k).end_ < sep (k + 1)) (h3 : sep k ≤ sep (k + 1)) :
    CollInv cand sep (k + 1) (collectStep cand c k) := by
  unfold collectStep
  by_cases he : (cand k).empty = false
  · rw [if_pos he]
    refine ⟨?_, ?_, ?_, ?_, ?_, ?_⟩
    · intro j hj
      by_cases hjn : j = c.n
      · exact ⟨k, by omega, by simp [store, hjn], he⟩
      · obtain ⟨t, ht, e1, e2⟩ := inv.src j (by simp only [] at hj; omega)
        exact ⟨t, by omega, by simp [store, hjn, e1], e2⟩
    · intro t ht hte
      by_cases htk : t = k
      · exact ⟨c.n, by simp, by simp [store, htk]⟩
      · obtain ⟨j, hj, e⟩ := inv.cov t (by omega) hte
        exact ⟨j, by simp only []; omega, by
          simp only [store]
          rw [if_neg (by omega)]
          exact e⟩
    · intro j j' hjj hj'
      simp only [] at hj'
      have hjn : j ≠ c.n := by omega
      by_cases hj'n : j' = c.n
      · simp only [store, hj'n, if_neg hjn, if_true]
        have := inv.below j (by omega)
        omega
      · simp only [store, if_neg hjn, if_neg hj'n]
        exact inv.sorted j j' hjj (by omega)
    · intro j hj
      simp only [] at hj
      by_cases hjn : j = c.n
      · simp only [store, hjn, if_true]; exact h2
      · simp only [store, if_neg hjn]
        have := inv.below j (by omega)
        omega
    · simp only []
      rw [prefixSize_succ, prefixSize_store _ _ _ _ (le_refl _), inv.tot1]
      simp [store]
    · simp only []
      rw [List.range_succ, List.map_append, List.sum_append, ← inv.tot2]
      simp
  · rw [if_neg he]
    have he' : (cand k).empty = true := by simpa using he
    refine ⟨?_, ?_, inv.sorted, ?_, inv.tot1, ?_⟩
    · intro j hj
      obtain ⟨t, ht, e1, e2⟩ := inv.src j hj
      exact ⟨t, by omega, e1, e2⟩
    · intro t ht hte
      by_cases htk : t = k
      · rw [htk, he'] at hte; exact Bool.noConfusion hte
      · exact inv.cov t (by omega) hte
    · intro j hj
      have := inv.below j hj
      omega
    · rw [List.range_succ, List.map_append, List.sum_append, ← inv.tot2]
      simp [Range.size_eq_zero_of_empty he']

theorem collect_fold_inv (cand : Nat → Range) (sep : Nat → Int) (n : Nat) (c0 : RangeTable)
    (hc0 : c0.n = 0 ∧ c0.total = 0)
    (h1 : ∀ i, i < n → sep i ≤ (cand i).start) (h2 : ∀ i, i < n → (cand i).end_ < sep (i + 1))
    (h3 : ∀ i, i < n → sep i ≤ sep (i + 1)) :
    ∀ k, k ≤ n → CollInv cand sep k ((List.range k).foldl (collectStep cand) c0) := by
  intro k
  induction k with
  | zero =>
    intro _
    simp only [List.range_zero, List.foldl_nil]
    refine ⟨fun j hj => ?_, fun t ht => ?_, fun j j' _ hj' => ?_, fun j hj => ?_, ?_, ?_⟩
    · rw [hc0.1] at hj; omega
    · omega
    · rw [hc0.1] at hj'; omega
    · rw [hc0.1] at hj; omega
    · rw [hc0.1, hc0.2]; rfl
    · rw [hc0.2]; rfl
  | succ k ih =>
    intro hk
    rw [List.range_succ, List.foldl_append]
    simp only [List.foldl_cons, List.foldl_nil]
    exact collectStep_inv cand sep k _ (ih (by omega)) (h1 k (by omega)) (h2 k (by omega))
      (h3 k (by omega))

theorem misplacedStep_views (gl gr : Range) (st : MisplacedState T V) (i : Nat) :
    leftView (misplacedStep gl gr st i) =
      collectStep (fun t => gl.intersect
        ⟨(st.p.counter_start t : Int) + (st.p.counter_left t : Int),
         (st.p.counter_start (t + 1) : Int) - 1⟩) (leftView st) i ∧
    rightView (misplacedStep gl gr st i) =
      collectStep (fun t => gr.intersect
        ⟨(st.p.counter_start t : Int),
         (st.p.counter_start t : Int) + (st.p.counter_left t : Int) - 1⟩) (rightView st) i ∧
    SameCore (misplacedStep gl gr st i).p st.p := by
  unfold misplacedStep collectStep leftView rightView SameCore
  simp only []
  by_cases h1 : (gl.intersect ⟨(st.p.counter_start i : Int) + (st.p.counter_left i : Int),
      (st.p.counter_start (i + 1) : Int) - 1⟩).empty = false
  · by_cases h2 : (gr.intersect ⟨(st.p.counter_start i : Int),
        (st.p.counter_start i : Int) + (st.p.counter_left i : Int) - 1⟩).empty = false
    · simp only [h1, h2, if_true]
      and_intros <;> first | rfl | trivial
    · simp only [h1, h2, if_true, if_false]
      and_intros <;> rfl
  · by_cases h2 : (gr.intersect ⟨(st.p.counter_start i : Int),
        (st.p.counter_start i : Int) + (st.p.counter_left i : Int) - 1⟩).empty = false
    · simp only [h1, h2, if_true, if_false]
      and_intros <;> rfl
    · simp only [h1, h2, if_false]
      and_intros <;> rfl

theorem misplacedFold_views (gl gr : Range) (p : parallel_partition_static_task T V)
    (xs : List Nat) :
    ∀ st : MisplacedState T V, SameCore st.p p →
      leftView (xs.foldl (misplacedStep gl gr) st) =
        xs.foldl (collectStep (fun t => gl.intersect
          ⟨(p.counter_start t : Int) + (p.counter_left t : Int),
           (p.counter_start (t + 1) : Int) - 1⟩)) (leftView st) ∧
      rightView (xs.foldl (misplacedStep gl gr) st) =
        xs.foldl (collectStep (fun t => gr.intersect
          ⟨(p.counter_start t : Int),
           (p.counter_start t : Int) + (p.counter_left t : Int) - 1⟩)) (rightView st) ∧
      SameCore (xs.foldl (misplacedStep gl gr) st).p p := by
  induction xs with
  | nil => intro st h; exact ⟨rfl, rfl, h⟩
  | cons x xs ih =>
    intro st h
    obtain ⟨v1, v2, v3⟩ := misplacedStep_views gl gr st x
    obtain ⟨c1, c2, c3, c4, c5⟩ := h
    rw [c4, c5] at v1 v2
    have hcore : SameCore (misplacedStep gl gr st x).p p := by
      obtain ⟨d1, d2, d3, d4, d5⟩ := v3
      exact ⟨d1.trans c1, d2.trans c2, d3.trans c3, d4.trans c4, d5.trans c5⟩
    obtain ⟨i1, i2, i3⟩ := ih (misplacedStep gl gr st x) hcore
    simp only [List.foldl_cons]
    rw [i1, i2, v1, v2]
    exact ⟨rfl, rfl, i3⟩

/-! ## findStartRange and the swap loop -/

theorem prefixSize_mono (r : Nat → Range) {m n : Nat} (h : m ≤ n) :
    prefixSize r m ≤ prefixSize r n := by
  induction n with
  | zero =>
    have : m = 0 := by omega
    rw [this]
  | succ n ih =>
    rcases Nat.lt_or_ge m (n + 1) with h1 | h1
    · have := ih (by omega)
      rw [prefixSize_succ]; omega
    · have : m = n + 1 := by omega
      rw [this]

theorem findStartRangeLoop_spec (r : Nat → Range) (c i : Nat)
    (h1 : prefixSize r i ≤ c) (h2 : c < prefixSize r (i + 1)) :
    ∀ (fuel i0 : Nat), i0 ≤ i → i - i0 < fuel →
      findStartRangeLoop r fuel i0 (c - prefixSize r i0) = (i, c - prefixSize r i) := by
  intro fuel
  induction fuel with
  | zero => intro i0 _ h; omega
  | succ fuel ih =>
    intro i0 hi0 hf
    simp only [findStartRangeLoop]
    rcases Nat.lt_or_ge i0 i with hlt | hge
    · have hm := prefixSize_mono r (show i0 + 1 ≤ i from hlt)
      rw [prefixSize_succ] at hm
      have hcond : c - prefixSize r i0 ≥ (r i0).size := by omega
      rw [if_pos hcond]
      have e : c - prefixSize r i0 - (r i0).size = c - prefixSize r (i0 + 1) := by
        rw [prefixSize_succ]; omega
      rw [e]
      exact ih (i0 + 1) hlt (by omega)
    · have : i0 = i := by omega
      subst this
      rw [prefixSize_succ] at h2
      have hcond : ¬ (c - prefixSize r i0 ≥ (r i0).size) := by omega
      rw [if_neg hcond]

theorem findStartRange_spec (r : Nat → Range) (n c i : Nat) (hi : i < n)
    (h1 : prefixSize r i ≤ c) (h2 : c < prefixSize r (i + 1)) :
    findStartRange c r n = (i, c - prefixSize r i) := by
  have := findStartRangeLoop_spec r c i h1 h2 n 0 (Nat.zero_le i) (by omega)
  simpa [findStartRange, prefixSize] using this

theorem exists_range_of_lt (r : Nat → Range) :
    ∀ (n c : Nat), c < prefixSize r n →
      ∃ i, i < n ∧ prefixSize r i ≤ c ∧ c < prefixSize r (i + 1) := by
  intro n
  induction n with
  | zero => intro c h; simp [prefixSize] at h
  | succ n ih =>
    intro c h
    rcases Nat.lt_or_ge c (prefixSize r n) with h1 | h1
    · obtain ⟨i, hi, e1, e2⟩ := ih c h1
      exact ⟨i, by omega, e1, e2⟩
    · exact ⟨n, by omega, h1, h⟩

theorem cellOf_eq (r : Nat → Range) (n c i : Nat) (hi : i < n)
    (h1 : prefixSize r i ≤ c) (h2 : c < prefixSize r (i + 1)) :
    cellOf r n c = (r i).start + ((c : Int) - (prefixSize r i : Int)) := by
  unfold cellOf
  rw [findStartRange_spec r n c i hi h1 h2]
  simp only []
  omega

theorem swapCells_add (f g : Nat → Int) : ∀ (m n s : Nat) (a : Mem T),
    swapCells f g s (m + n) a = swapCells f g (s + m) n (swapCells f g s m a) := by
  intro m
  induction m with
  | zero => intro n s a; simp [swapCells]
  | succ m ih =>
    intro n s a
    have e : m + 1 + n = (m + n) + 1 := by omega
    rw [e]
    simp only [swapCells]
    rw [ih n (s + 1) _]
    have e2 : s + 1 + m = s + (m + 1) := by omega
    rw [e2]

theorem swapRun_spec (f g : Nat → Int) : ∀ (m : Nat) (a : Mem T) (l r : Int) (c : Nat),
    (∀ j, j < m → f (c + j) = l + (j : Int) ∧ g (c + j) = r + (j : Int)) →
    swapRun m a l r = (swapCells f g c m a, l + (m : Int), r + (m : Int)) := by
  intro m
  induction m with
  | zero => intro a l r c _; simp [swapRun, swapCells]
  | succ m ih =>
    intro a l r c h
    simp only [swapRun, swapCells]
    have h0 := h 0 (Nat.succ_pos m)
    simp only [Nat.add_zero, Nat.cast_zero, add_zero] at h0
    rw [h0.1, h0.2]
    rw [ih (xchg a l r) (l + 1) (r + 1) (c + 1) (fun j hj => by
      have := h (j + 1) (by omega)
      have e : c + 1 + j = c + (j + 1) := by omega
      rw [e, this.1, this.2]
      push_cast
      constructor <;> ring)]
    push_cast
    simp only [Prod.mk.injEq, true_and]
    constructor <;> ring

theorem cursor_advance {r : Nat → Range} {n c idx left : Nat} {ptr : Int} {M : Nat}
    (hc : CursorOK r n c idx left ptr) (hpos : ∀ j, j < n → 0 < (r j).size)
    (hM : prefixSize r n = M) (hcM : c < M) (h0 : left = 0) :
    CursorOK r n c (idx + 1) (r (idx + 1)).size (r (idx + 1)).start ∧
    0 < (r (idx + 1)).size := by
  obtain ⟨h1, h2, h3, h4⟩ := hc
  have hlt : idx + 1 < n := by
    rcases Nat.lt_or_ge (idx + 1) n with h | h
    · exact h
    · have : idx + 1 = n := by omega
      rw [this, hM] at h3
      omega
  refine ⟨⟨hlt, le_refl _, ?_, by omega⟩, hpos _ hlt⟩
  rw [prefixSize_succ r (idx + 1)]
  omega

theorem cursor_cells {r : Nat → Range} {n c idx left : Nat} {ptr : Int}
    (hc : CursorOK r n c idx left ptr) :
    ∀ j, j < left → cellOf r n (c + j) = ptr + (j : Int) := by
  intro j hj
  obtain ⟨h1, h2, h3, h4⟩ := hc
  rw [prefixSize_succ] at h3
  rw [cellOf_eq r n (c + j) idx h1 (by omega) (by rw [prefixSize_succ]; omega), h4]
  push_cast
  omega

theorem cursor_step {r : Nat → Range} {n c idx left : Nat} {ptr : Int}
    (hc : CursorOK r n c idx left ptr) (m : Nat) (hm : m ≤ left) :
    CursorOK r n (c + m) idx (left - m) (ptr + (m : Int)) := by
  obtain ⟨h1, h2, h3, h4⟩ := hc
  exact ⟨h1, by omega, by omega, by omega⟩

theorem advanceLeft_spec (lm : Nat → Range) (s : SwapState T) :
    (advanceLeft lm s).array = s.array ∧ (advanceLeft lm s).size = s.size ∧
    (advanceLeft lm s).r_range = s.r_range ∧ (advanceLeft lm s).r_left = s.r_left ∧
    (advanceLeft lm s).r = s.r ∧
    (s.l_left = 0 → (advanceLeft lm s).l_range = s.l_range + 1 ∧
      (advanceLeft lm s).l_left = (lm (s.l_range + 1)).size ∧
      (advanceLeft lm s).l = (lm (s.l_range + 1)).start ∧
      (advanceLeft lm s).items =
        min s.size (min (lm (s.l_range + 1)).size s.r_left)) ∧
    (s.l_left ≠ 0 → advanceLeft lm s = s) := by
  unfold advanceLeft
  by_cases h : s.l_left = 0
  · simp [h]
  · simp [h]

theorem advanceRight_spec (rm : Nat → Range) (s : SwapState T) :
    (advanceRight rm s).array = s.array ∧ (advanceRight rm s).size = s.size ∧
    (advanceRight rm s).l_range = s.l_range ∧ (advanceRight rm s).l_left = s.l_left ∧
    (advanceRight rm s).l = s.l ∧
    (s.r_left = 0 → (advanceRight rm s).r_range = s.r_range + 1 ∧
      (advanceRight rm s).r_left = (rm (s.r_range + 1)).size ∧
      (advanceRight rm s).r = (rm (s.r_range + 1)).start ∧
      (advanceRight rm s).items =
        min s.size (min s.l_left (rm (s.r_range + 1)).size)) ∧
    (s.r_left ≠ 0 → advanceRight rm s = s) := by
  unfold advanceRight
  by_cases h : s.r_left = 0
  · simp [h]
  · simp [h]

theorem advance_spec (lm : Nat → Range) (nl : Nat) (rm : Nat → Range) (nr : Nat) (M e c : Nat)
    (s : SwapState T) (inv : SwapInv lm nl rm nr e c s)
    (hl : ∀ j, j < nl → 0 < (lm j).size) (hr : ∀ j, j < nr → 0 < (rm j).size)
    (hML : prefixSize lm nl = M) (hMR : prefixSize rm nr = M) (he : e ≤ M) (hs : s.size ≠ 0) :
    (advanceRight rm (advanceLeft lm s)).array = s.array ∧
    (advanceRight rm (advanceLeft lm s)).size = s.size ∧
    CursorOK lm nl c (advanceRight rm (advanceLeft lm s)).l_range
      (advanceRight rm (advanceLeft lm s)).l_left (advanceRight rm (advanceLeft lm s)).l ∧
    CursorOK rm nr c (advanceRight rm (advanceLeft lm s)).r_range
      (advanceRight rm (advanceLeft lm s)).r_left (advanceRight rm (advanceLeft lm s)).r ∧
    0 < (advanceRight rm (advanceLeft lm s)).l_left ∧
    0 < (advanceRight rm (advanceLeft lm s)).r_left ∧
    (advanceRight rm (advanceLeft lm s)).items =
      min (advanceRight rm (advanceLeft lm s)).size
        (min (advanceRight rm (advanceLeft lm s)).l_left
          (advanceRight rm (advanceLeft lm s)).r_left) := by
  obtain ⟨i1, i2, i3, i4, i5⟩ := inv
  have hcM : c < M := by omega
  obtain ⟨a1, a2, a3, a4, a5, a6, a7⟩ := advanceLeft_spec lm s
  generalize advanceLeft lm s = s1 at a1 a2 a3 a4 a5 a6 a7
  obtain ⟨b1, b2, b3, b4, b5, b6, b7⟩ := advanceRight_spec rm s1
  generalize advanceRight rm s1 = s2 at b1 b2 b3 b4 b5 b6 b7
  have L1 : CursorOK lm nl c s1.l_range s1.l_left s1.l ∧ 0 < s1.l_left := by
    by_cases h : s.l_left = 0
    · obtain ⟨e1, e2, e3, _⟩ := a6 h
      rw [e1, e2, e3]
      exact cursor_advance (h ▸ i3) hl hML hcM rfl
    · rw [a7 h]; exact ⟨i3, Nat.pos_of_ne_zero h⟩
  have R1 : CursorOK rm nr c s2.r_range s2.r_left s2.r ∧ 0 < s2.r_left := by
    by_cases h : s1.r_left = 0
    · obtain ⟨e1, e2, e3, _⟩ := b6 h
      rw [e1, e2, e3, a3]
      have h' : s.r_left = 0 := by rw [← a4]; exact h
      exact cursor_advance (h' ▸ i4) hr hMR hcM rfl
    · rw [b7 h, a3, a4, a5]
      rw [a4] at h
      exact ⟨i4, Nat.pos_of_ne_zero h⟩
  refine ⟨b1.trans a1, b2.trans a2, ?_, R1.1, ?_, R1.2, ?_⟩
  · rw [b3, b4, b5]; exact L1.1
  · rw [b4]; exact L1.2
  · by_cases h : s1.r_left = 0
    · obtain ⟨_, e2, _, e4⟩ := b6 h
      rw [e4, e2, b2, b4]
    · rw [b7 h]
      by_cases h' : s.l_left = 0
      · obtain ⟨_, e2, _, e4⟩ := a6 h'
        rw [e4, e2, a2, a4]
      · rw [a7 h']
        rw [a7 h'] at h
        rcases i5 with h5 | h5 | h5 | h5
        · exact absurd h5 hs
        · exact absurd h5 h'
        · exact absurd h5 h
        · exact h5.1

theorem swapRound_spec (lm : Nat → Range) (nl : Nat) (rm : Nat → Range) (nr : Nat) (M e c : Nat)
    (s : SwapState T) (inv : SwapInv lm nl rm nr e c s)
    (hl : ∀ j, j < nl → 0 < (lm j).size) (hr : ∀ j, j < nr → 0 < (rm j).size)
    (hML : prefixSize lm nl = M) (hMR : prefixSize rm nr = M) (he : e ≤ M) (hs : s.size ≠ 0) :
    ∃ m, 0 < m ∧ c + m ≤ e ∧ SwapInv lm nl rm nr e (c + m) (swapRound lm rm s) ∧
      (swapRound lm rm s).array = swapCells (cellOf lm nl) (cellOf rm nr) c m s.array := by
  obtain ⟨q1, q2, q3, q4, q5, q6, q7⟩ := advance_spec lm nl rm nr M e c s inv hl hr hML hMR he hs
  have hsize := inv.size_eq
  have hcle := inv.c_le
  unfold swapRound
  generalize advanceRight rm (advanceLeft lm s) = s2 at q1 q2 q3 q4 q5 q6 q7
  simp only []
  have hm1 : s2.items ≤ s2.size := by rw [q7]; exact Nat.min_le_left _ _
  have hm2 : s2.items ≤ s2.l_left := by
    rw [q7]; exact le_trans (Nat.min_le_right _ _) (Nat.min_le_left _ _)
  have hm3 : s2.items ≤ s2.r_left := by
    rw [q7]; exact le_trans (Nat.min_le_right _ _) (Nat.min_le_right _ _)
  have hmpos : 0 < s2.items := by
    rw [q7]
    have : 0 < s2.size := by rw [q2]; exact Nat.pos_of_ne_zero hs
    exact Nat.lt_min.2 ⟨this, Nat.lt_min.2 ⟨q5, q6⟩⟩
  have hzero : s2.size - s2.items = 0 ∨ s2.l_left - s2.items = 0 ∨ s2.r_left - s2.items = 0 := by
    have : s2.items = s2.size ∨ s2.items = s2.l_left ∨ s2.items = s2.r_left := by
      rw [q7]
      rcases Nat.le_total s2.size (min s2.l_left s2.r_left) with h | h
      · left; exact Nat.min_eq_left h
      · rw [Nat.min_eq_right h]
        rcases Nat.le_total s2.l_left s2.r_left with h' | h'
        · right; left; exact Nat.min_eq_left h'
        · right; right; exact Nat.min_eq_right h'
    omega
  have hrun := swapRun_spec (cellOf lm nl) (cellOf rm nr) s2.items s2.array s2.l s2.r c
    (fun j hj => ⟨cursor_cells q3 j (by omega), cursor_cells q4 j (by omega)⟩)
  rw [hrun]
  refine ⟨s2.items, hmpos, by omega, ⟨by omega, ?_, ?_, ?_, ?_⟩, ?_⟩
  · simp only []; omega
  · exact cursor_step q3 s2.items hm2
  · exact cursor_step q4 s2.items hm3
  · simp only []
    rcases hzero with h | h | h
    · exact Or.inl h
    · exact Or.inr (Or.inl h)
    · exact Or.inr (Or.inr (Or.inl h))
  · simp only []; rw [q1]

theorem swapLoop_spec (lm : Nat → Range) (nl : Nat) (rm : Nat → Range) (nr : Nat) (M e : Nat)
    (hl : ∀ j, j < nl → 0 < (lm j).size) (hr : ∀ j, j < nr → 0 < (rm j).size)
    (hML : prefixSize lm nl = M) (hMR : prefixSize rm nr = M) (he : e ≤ M) :
    ∀ (fuel c : Nat) (s : SwapState T), SwapInv lm nl rm nr e c s → s.size ≤ fuel →
      (swapLoop lm rm fuel s).array =
        swapCells (cellOf lm nl) (cellOf rm nr) c (e - c) s.array := by
  intro fuel
  induction fuel with
  | zero =>
    intro c s inv hf
    have h0 : e - c = 0 := by rw [← inv.size_eq]; omega
    simp [swapLoop, h0, swapCells]
  | succ fuel ih =>
    intro c s inv hf
    simp only [swapLoop]
    by_cases hs : s.size = 0
    · have h0 : e - c = 0 := by rw [← inv.size_eq]; exact hs
      simp [hs, h0, swapCells]
    · rw [if_neg hs]
      obtain ⟨m, hm, hcm, inv', harr⟩ :=
        swapRound_spec lm nl rm nr M e c s inv hl hr hML hMR he hs
      have hsz : (swapRound lm rm s).size ≤ fuel := by
        rw [inv'.size_eq]
        have := inv.size_eq
        omega
      rw [ih (c + m) _ inv' hsz, harr]
      have e1 : e - c = m + (e - (c + m)) := by omega
      rw [e1, swapCells_add]

theorem swapItemsInMisplacedRanges_spec (a : Mem T) (lm : Nat → Range) (nl : Nat)
    (rm : Nat → Range) (nr : Nat) (M s e : Nat)
    (hl : ∀ j, j < nl → 0 < (lm j).size) (hr : ∀ j, j < nr → 0 < (rm j).size)
    (hML : prefixSize lm nl = M) (hMR : prefixSize rm nr = M) (hse : s ≤ e) (he : e ≤ M) :
    swapItemsInMisplacedRanges a lm nl rm nr s e =
      swapCells (cellOf lm nl) (cellOf rm nr) s (e - s) a := by
  unfold swapItemsInMisplacedRanges
  simp only []
  rcases Nat.eq_or_lt_of_le hse with heq | hlt
  · subst heq
    simp [swapLoop, swapCells]
  · obtain ⟨i, hi, li1, li2⟩ := exists_range_of_lt lm nl s (by omega)
    obtain ⟨k, hk, ri1, ri2⟩ := exists_range_of_lt rm nr s (by omega)
    rw [findStartRange_spec lm nl s i hi li1 li2, findStartRange_spec rm nr s k hk ri1 ri2]
    simp only []
    rw [prefixSize_succ] at li2 ri2
    apply swapLoop_spec lm nl rm nr M e hl hr hML hMR he (e - s) s _ _ (le_refl _)
    refine ⟨hse, rfl, ⟨hi, by simp only []; omega, ?_, ?_⟩, ⟨hk, by simp only []; omega, ?_, ?_⟩, ?_⟩
    · simp only []; rw [prefixSize_succ]; omega
    · simp only []; omega
    · simp only []; rw [prefixSize_succ]; omega
    · simp only []; omega
    · simp only []
      right; right; right
      exact ⟨trivial, by omega, by omega⟩

/-! ## The effect of the exchanges -/

theorem Swapped.congr {f g : Nat → Int} {S S' : Nat → Prop} {a1 a : Mem T}
    (h : Swapped f g S a1 a) (hS : ∀ k, S' k ↔ S k) : Swapped f g S' a1 a :=
  ⟨fun k hk => h.at_f k ((hS k).1 hk), fun k hk => h.at_g k ((hS k).1 hk),
   fun x hx => h.other x (fun k hk => hx k ((hS k).2 hk))⟩

theorem Swapped.step {f g : Nat → Int} {S : Nat → Prop} {a1 a : Mem T} {M c : Nat}
    (h : Swapped f g S a1 a) (hSM : ∀ k, S k → k < M) (hc : c < M) (hnc : ¬ S c)
    (hf : ∀ k k', k < M → k' < M → f k = f k' → k = k')
    (hg : ∀ k k', k < M → k' < M → g k = g k' → k = k')
    (hfg : ∀ k k', k < M → k' < M → f k ≠ g k') :
    Swapped f g (fun k => k = c ∨ S k) a1 (xchg a (f c) (g c)) := by
  have hne : ∀ k, S k → k ≠ c := fun k hk hkc => hnc (hkc ▸ hk)
  have hfc : a (f c) = a1 (f c) := h.other _ (fun k hk =>
    ⟨fun e => hne k hk (hf c k hc (hSM k hk) e).symm, fun e => hfg c k hc (hSM k hk) e⟩)
  have hgc : a (g c) = a1 (g c) := h.other _ (fun k hk =>
    ⟨fun e => hfg k c (hSM k hk) hc e.symm, fun e => hne k hk (hg c k hc (hSM k hk) e).symm⟩)
  refine ⟨?_, ?_, ?_⟩
  · intro k hk
    rcases hk with hk | hk
    · subst hk; rw [xchg_left, hgc]
    · rw [xchg_other a (fun e => hne k hk (hf k c (hSM k hk) hc e))
        (fun e => hfg k c (hSM k hk) hc e)]
      exact h.at_f k hk
  · intro k hk
    rcases hk with hk | hk
    · subst hk; rw [xchg_right, hfc]
    · rw [xchg_other a (fun e => hfg c k hc (hSM k hk) e.symm)
        (fun e => hne k hk (hg k c (hSM k hk) hc e))]
      exact h.at_g k hk
  · intro x hx
    have hxc := hx c (Or.inl rfl)
    rw [xchg_other a hxc.1 hxc.2]
    exact h.other x (fun k hk => hx k (Or.inr hk))

theorem swapCells_swapped {f g : Nat → Int} {a1 : Mem T} {M : Nat}
    (hf : ∀ k k', k < M → k' < M → f k = f k' → k = k')
    (hg : ∀ k k', k < M → k' < M → g k = g k' → k = k')
    (hfg : ∀ k k', k < M → k' < M → f k ≠ g k') :
    ∀ (n s : Nat) (S : Nat → Prop) (a : Mem T), Swapped f g S a1 a →
      (∀ k, S k → k < M ∧ (k < s ∨ s + n ≤ k)) → s + n ≤ M →
      Swapped f g (fun k => (s ≤ k ∧ k < s + n) ∨ S k) a1 (swapCells f g s n a) := by
  intro n
  induction n with
  | zero =>
    intro s S a h _ _
    simp only [swapCells]
    exact h.congr (fun k => ⟨fun hk => hk.resolve_left (by omega), Or.inr⟩)
  | succ n ih =>
    intro s S a h hS hsM
    simp only [swapCells]
    have hstep := h.step (c := s) (fun k hk => (hS k hk).1) (by omega)
      (fun hs => by have := (hS s hs).2; omega) hf hg hfg
    have := ih (s + 1) _ _ hstep (fun k hk => by
      rcases hk with hk | hk
      · subst hk; exact ⟨by omega, by omega⟩
      · have := hS k hk
        exact ⟨this.1, by omega⟩) (by omega)
    exact this.congr (fun k => by
      constructor
      · rintro (⟨h1, h2⟩ | h3)
        · rcases Nat.eq_or_lt_of_le h1 with e | e
          · exact Or.inr (Or.inl e.symm)
          · exact Or.inl ⟨by omega, by omega⟩
        · exact Or.inr (Or.inr h3)
      · rintro (⟨h1, h2⟩ | h3 | h3)
        · exact Or.inl ⟨by omega, by omega⟩
        · exact Or.inl ⟨by omega, by omega⟩
        · exact Or.inr h3)

theorem xchg_self (a : Mem T) (i : Int) : xchg a i i = a := by
  funext k
  by_cases h : k = i <;> simp [xchg, h]

theorem xchg_comm (a : Mem T) (i j : Int) : xchg a i j = xchg a j i := by
  funext k
  unfold xchg
  by_cases h1 : k = i
  · by_cases h2 : k = j
    · rw [if_pos h1, if_pos h2, ← h1, ← h2]
    · rw [if_pos h1, if_neg h2, if_pos h1]
  · by_cases h2 : k = j
    · rw [if_neg h1, if_pos h2, if_pos h2]
    · rw [if_neg h1, if_neg h2, if_neg h2, if_neg h1]

theorem contents_xchg_perm_lt (a : Mem T) (N : Nat) (i j : Int) (hi : 0 ≤ i) (hij : i < j)
    (hj : j < N) : (contents (xchg a i j) N).Perm (contents a N) := by
  have dec : ∀ b : Mem T, contents b N =
      slice b 0 i ++ b i :: (slice b (i + 1) j ++ b j :: slice b (j + 1) N) := by
    intro b
    unfold contents
    rw [slice_append b hi (show i ≤ (N : Int) by omega), slice_cons b (show i < (N : Int) by omega),
      slice_append b (show i + 1 ≤ j by omega) (show j ≤ (N : Int) by omega),
      slice_cons b hj]
  rw [dec (xchg a i j), dec a, xchg_left, xchg_right,
    @slice_congr _ (xchg a i j) a 0 i (fun k _ hk => xchg_other a (by omega) (by omega)),
    @slice_congr _ (xchg a i j) a (i + 1) j
      (fun k hk1 hk2 => xchg_other a (by omega) (by omega)),
    @slice_congr _ (xchg a i j) a (j + 1) N
      (fun k hk1 _ => xchg_other a (by omega) (by omega))]
  exact perm_swap_ends _ _ (List.Perm.refl _)

theorem contents_xchg_perm (a : Mem T) (N : Nat) (i j : Int) (hi : 0 ≤ i) (hiN : i < N)
    (hj : 0 ≤ j) (hjN : j < N) : (contents (xchg a i j) N).Perm (contents a N) := by
  rcases lt_trichotomy i j with h | h | h
  · exact contents_xchg_perm_lt a N i j hi h hjN
  · subst h; rw [xchg_self]
  · rw [xchg_comm]; exact contents_xchg_perm_lt a N j i hj h hiN

theorem swapCells_perm (f g : Nat → Int) (N : Nat) : ∀ (n s : Nat) (a : Mem T),
    (∀ k, s ≤ k → k < s + n → 0 ≤ f k ∧ f k < N ∧ 0 ≤ g k ∧ g k < N) →
    (contents (swapCells f g s n a) N).Perm (contents a N) := by
  intro n
  induction n with
  | zero => intro s a _; exact List.Perm.refl _
  | succ n ih =>
    intro s a h
    simp only [swapCells]
    obtain ⟨h1, h2, h3, h4⟩ := h s (le_refl _) (by omega)
    exact (ih (s + 1) _ (fun k hk1 hk2 => h k (by omega) (by omega))).trans
      (contents_xchg_perm a N _ _ h1 h2 h3 h4)

theorem swapCells_frame (f g : Nat → Int) (N : Nat) : ∀ (n s : Nat) (a : Mem T),
    (∀ k, s ≤ k → k < s + n → 0 ≤ f k ∧ f k < N ∧ 0 ≤ g k ∧ g k < N) →
    ∀ x : Int, x < 0 ∨ (N : Int) ≤ x → swapCells f g s n a x = a x := by
  intro n
  induction n with
  | zero => intro s a _ x _; rfl
  | succ n ih =>
    intro s a h x hx
    simp only [swapCells]
    obtain ⟨h1, h2, h3, h4⟩ := h s (le_refl _) (by omega)
    rw [ih (s + 1) _ (fun k hk1 hk2 => h k (by omega) (by omega)) x hx]
    exact xchg_other a (by omega) (by omega)

/-! ## Cells of a collected range list -/

theorem CollInv.size_pos {cand : Nat → Range} {sep : Nat → Int} {k : Nat} {c : RangeTable}
    (inv : CollInv cand sep k c) : ∀ j, j < c.n → 0 < (c.tbl j).size := by
  intro j hj
  obtain ⟨t, _, e1, e2⟩ := inv.src j hj
  rw [e1]; exact Range.size_pos_of_not_empty e2

theorem CollInv.cell_bounds {cand : Nat → Range} {sep : Nat → Int} {k : Nat} {c : RangeTable}
    (inv : CollInv cand sep k c) (x : Nat) (hx : x < c.total) :
    ∃ j, j < c.n ∧ prefixSize c.tbl j ≤ x ∧ x < prefixSize c.tbl (j + 1) ∧
      cellOf c.tbl c.n x = (c.tbl j).start + ((x : Int) - (prefixSize c.tbl j : Int)) ∧
      (c.tbl j).start ≤ cellOf c.tbl c.n x ∧ cellOf c.tbl c.n x ≤ (c.tbl j).end_ := by
  obtain ⟨j, hj, h1, h2⟩ := exists_range_of_lt c.tbl c.n x (by rw [← inv.tot1]; exact hx)
  have hc := cellOf_eq c.tbl c.n x j hj h1 h2
  obtain ⟨t, _, e1, e2⟩ := inv.src j hj
  have hs := Range.size_cast (r := c.tbl j) (by rw [e1]; exact e2)
  rw [prefixSize_succ] at h2
  refine ⟨j, hj, h1, by rw [prefixSize_succ]; exact h2, hc, by rw [hc]; omega, by rw [hc]; omega⟩

theorem CollInv.cell_mem {cand : Nat → Range} {sep : Nat → Int} {k : Nat} {c : RangeTable}
    (inv : CollInv cand sep k c) (x : Nat) (hx : x < c.total) :
    ∃ t, t < k ∧ (cand t).start ≤ cellOf c.tbl c.n x ∧ cellOf c.tbl c.n x ≤ (cand t).end_ := by
  obtain ⟨j, hj, _, _, _, h4, h5⟩ := inv.cell_bounds x hx
  obtain ⟨t, ht, e1, _⟩ := inv.src j hj
  exact ⟨t, ht, by rw [← e1]; exact h4, by rw [← e1]; exact h5⟩

theorem CollInv.cell_lt {cand : Nat → Range} {sep : Nat → Int} {k : Nat} {c : RangeTable}
    (inv : CollInv cand sep k c) (x y : Nat) (hxy : x < y) (hy : y < c.total) :
    cellOf c.tbl c.n x < cellOf c.tbl c.n y := by
  obtain ⟨j, hj, a1, a2, a3, a4, a5⟩ := inv.cell_bounds x (by omega)
  obtain ⟨j', hj', b1, b2, b3, b4, b5⟩ := inv.cell_bounds y hy
  rcases Nat.lt_trichotomy j j' with h | h | h
  · have := inv.sorted j j' h hj'
    omega
  · subst h
    rw [a3, b3]; omega
  · have := prefixSize_mono c.tbl (show j' + 1 ≤ j from h)
    omega

theorem CollInv.cell_inj {cand : Nat → Range} {sep : Nat → Int} {k : Nat} {c : RangeTable}
    (inv : CollInv cand sep k c) (x y : Nat) (hx : x < c.total) (hy : y < c.total)
    (h : cellOf c.tbl c.n x = cellOf c.tbl c.n y) : x = y := by
  rcases Nat.lt_trichotomy x y with h1 | h1 | h1
  · have := inv.cell_lt x y h1 hy; omega
  · exact h1
  · have := inv.cell_lt y x h1 hx; omega

theorem CollInv.cell_surj {cand : Nat → Range} {sep : Nat → Int} {k : Nat} {c : RangeTable}
    (inv : CollInv cand sep k c) (t : Nat) (ht : t < k) (z : Int)
    (h1 : (cand t).start ≤ z) (h2 : z ≤ (cand t).end_) :
    ∃ x, x < c.total ∧ cellOf c.tbl c.n x = z := by
  have hne : (cand t).empty = false := by
    simp only [Range.empty, decide_eq_false_iff_not]
    omega
  obtain ⟨j, hj, e⟩ := inv.cov t ht hne
  have hs := Range.size_cast (r := c.tbl j) (by rw [e]; exact hne)
  have hle := prefixSize_mono c.tbl (show j + 1 ≤ c.n from hj)
  rw [prefixSize_succ] at hle
  rw [← e] at h1 h2
  refine ⟨prefixSize c.tbl j + (z - (c.tbl j).start).toNat, by rw [inv.tot1]; omega, ?_⟩
  rw [cellOf_eq c.tbl c.n _ j hj (by omega) (by rw [prefixSize_succ]; omega)]
  push_cast
  omega

/-! ## The second parallel_for of partition -/

theorem swapTask_step (lm : Nat → Range) (nl : Nat) (rm : Nat → Range) (nr : Nat)
    (M tasks N : Nat) (a1 : Mem T) (D : Nat → Prop) (p : parallel_partition_static_task T V)
    (t : Nat) (inv : Phase3Inv lm nl rm nr M tasks N a1 D p) (ht : t < tasks) (hD : ¬ D t)
    (hl : ∀ j, j < nl → 0 < (lm j).size) (hr : ∀ j, j < nr → 0 < (rm j).size)
    (hML : prefixSize lm nl = M) (hMR : prefixSize rm nr = M)
    (hf : ∀ k k', k < M → k' < M → cellOf lm nl k = cellOf lm nl k' → k = k')
    (hg : ∀ k k', k < M → k' < M → cellOf rm nr k = cellOf rm nr k' → k = k')
    (hfg : ∀ k k', k < M → k' < M → cellOf lm nl k ≠ cellOf rm nr k')
    (hN : ∀ k, k < M → 0 ≤ cellOf lm nl k ∧ cellOf lm nl k < N ∧
      0 ≤ cellOf rm nr k ∧ cellOf rm nr k < N)
    (hDt : ∀ u, D u → u < tasks) :
    Phase3Inv lm nl rm nr M tasks N a1 (fun u => u = t ∨ D u) (swapTask t p) := by
  have hse : taskStart M tasks t ≤ taskStart M tasks (t + 1) := taskStart_mono M tasks (by omega)
  have heM : taskStart M tasks (t + 1) ≤ M := taskStart_le M (by omega)
  have harr : (swapTask t p).array = swapCells (cellOf lm nl) (cellOf rm nr)
      (taskStart M tasks t) (taskStart M tasks (t + 1) - taskStart M tasks t) p.array := by
    simp only [swapTask]
    rw [inv.h_lm, inv.h_nl, inv.h_rm, inv.h_nr, inv.h_M, inv.h_T]
    exact swapItemsInMisplacedRanges_spec p.array lm nl rm nr M _ _ hl hr hML hMR hse heM
  have hinN : ∀ k, taskStart M tasks t ≤ k →
      k < taskStart M tasks t + (taskStart M tasks (t + 1) - taskStart M tasks t) →
      0 ≤ cellOf lm nl k ∧ cellOf lm nl k < N ∧ 0 ≤ cellOf rm nr k ∧ cellOf rm nr k < N :=
    fun k _ hk => hN k (by omega)
  refine ⟨inv.h_lm, inv.h_nl, inv.h_rm, inv.h_nr, inv.h_M, inv.h_T, ?_, ?_, ?_⟩
  · rw [harr]
    have := swapCells_swapped hf hg hfg (taskStart M tasks (t + 1) - taskStart M tasks t)
      (taskStart M tasks t) _ p.array inv.swapped (fun k hk => by
        obtain ⟨u, hu, h1, h2⟩ := hk
        have hut : u ≠ t := fun e => hD (e ▸ hu)
        have hle : taskStart M tasks (u + 1) ≤ M := taskStart_le M (hDt u hu)
        have := taskRange_disjoint M tasks hut (k : Int) (by omega) (by omega)
        exact ⟨by omega, by omega⟩) (by omega)
    exact this.congr (fun k => by
      constructor
      · rintro ⟨u, hu | hu, h1, h2⟩
        · subst hu; exact Or.inl ⟨h1, by omega⟩
        · exact Or.inr ⟨u, hu, h1, h2⟩
      · rintro (⟨h1, h2⟩ | ⟨u, hu, h1, h2⟩)
        · exact ⟨t, Or.inl rfl, h1, by omega⟩
        · exact ⟨u, Or.inr hu, h1, h2⟩)
  · rw [harr]
    exact (swapCells_perm _ _ N _ _ p.array hinN).trans inv.perm
  · intro x hx
    rw [harr, swapCells_frame _ _ N _ _ p.array hinN x hx]
    exact inv.frame x hx

theorem phase3_fold (lm : Nat → Range) (nl : Nat) (rm : Nat → Range) (nr : Nat)
    (M tasks N : Nat) (a1 : Mem T)
    (hl : ∀ j, j < nl → 0 < (lm j).size) (hr : ∀ j, j < nr → 0 < (rm j).size)
    (hML : prefixSize lm nl = M) (hMR : prefixSize rm nr = M)
    (hf : ∀ k k', k < M → k' < M → cellOf lm nl k = cellOf lm nl k' → k = k')
    (hg : ∀ k k', k < M → k' < M → cellOf rm nr k = cellOf rm nr k' → k = k')
    (hfg : ∀ k k', k < M → k' < M → cellOf lm nl k ≠ cellOf rm nr k')
    (hN : ∀ k, k < M → 0 ≤ cellOf lm nl k ∧ cellOf lm nl k < N ∧
      0 ≤ cellOf rm nr k ∧ cellOf rm nr k < N) (order : List Nat) :
    ∀ (D : Nat → Prop) (p : parallel_partition_static_task T V),
      Phase3Inv lm nl rm nr M tasks N a1 D p → (∀ u, D u → u < tasks) → order.Nodup →
      (∀ t ∈ order, t < tasks ∧ ¬ D t) →
      Phase3Inv lm nl rm nr M tasks N a1 (fun u => u ∈ order ∨ D u)
        (parallel_for order swapTask p) := by
  induction order with
  | nil =>
    intro D p inv _ _ _
    have e : (fun u => u ∈ ([] : List Nat) ∨ D u) = D := by
      funext u; simp
    rw [e]
    exact inv
  | cons t rest ih =>
    intro D p inv hDt hnd hall
    have ht := hall t (List.mem_cons_self t rest)
    have hnd' := List.nodup_cons.1 hnd
    have step := swapTask_step lm nl rm nr M tasks N a1 D p t inv ht.1 ht.2 hl hr hML hMR
      hf hg hfg hN hDt
    have := ih (fun u => u = t ∨ D u) (swapTask t p) step
      (fun u hu => by
        rcases hu with hu | hu
        · rw [hu]; exact ht.1
        · exact hDt u hu) hnd'.2
      (fun u hu => ⟨(hall u (List.mem_cons_of_mem t hu)).1, fun h => by
        rcases h with h | h
        · exact hnd'.1 (h ▸ hu)
        · exact (hall u (List.mem_cons_of_mem t hu)).2 h⟩)
    have e : (fun u => u ∈ t :: rest ∨ D u) = (fun u => u ∈ rest ∨ (u = t ∨ D u)) := by
      funext u
      apply propext
      simp only [List.mem_cons]
      tauto
    rw [e]
    exact this

theorem exists_task_of_lt (M tasks : Nat) :
    ∀ (n k : Nat), k < taskStart M tasks n →
      ∃ t, t < n ∧ taskStart M tasks t ≤ k ∧ k < taskStart M tasks (t + 1) := by
  intro n
  induction n with
  | zero => intro k h; rw [taskStart_zero] at h; omega
  | succ n ih =>
    intro k h
    rcases Nat.lt_or_ge k (taskStart M tasks n) with h1 | h1
    · obtain ⟨t, ht, e1, e2⟩ := ih k h1
      exact ⟨t, by omega, e1, e2⟩
    · exact ⟨n, by omega, h1, h⟩

theorem phase3_post (lm : Nat → Range) (nl : Nat) (rm : Nat → Range) (nr : Nat)
    (M tasks N : Nat) (p : parallel_partition_static_task T V)
    (h_lm : p.leftMisplacedRanges = lm) (h_nl : p.numMisplacedRangesLeft = nl)
    (h_rm : p.rightMisplacedRanges = rm) (h_nr : p.numMisplacedRangesRight = nr)
    (h_M : p.numMisplacedItems = M) (h_T : p.tasks = tasks) (htasks : 0 < tasks)
    (hl : ∀ j, j < nl → 0 < (lm j).size) (hr : ∀ j, j < nr → 0 < (rm j).size)
    (hML : prefixSize lm nl = M) (hMR : prefixSize rm nr = M)
    (hf : ∀ k k', k < M → k' < M → cellOf lm nl k = cellOf lm nl k' → k = k')
    (hg : ∀ k k', k < M → k' < M → cellOf rm nr k = cellOf rm nr k' → k = k')
    (hfg : ∀ k k', k < M → k' < M → cellOf lm nl k ≠ cellOf rm nr k')
    (hN : ∀ k, k < M → 0 ≤ cellOf lm nl k ∧ cellOf lm nl k < N ∧
      0 ≤ cellOf rm nr k ∧ cellOf rm nr k < N) (order : List Nat)
    (ho : order.Perm (List.range tasks)) :
    Swapped (cellOf lm nl) (cellOf rm nr) (fun k => k < M) p.array
      (parallel_for order swapTask p).array ∧
    (contents (parallel_for order swapTask p).array N).Perm (contents p.array N) ∧
    ∀ x : Int, x < 0 ∨ (N : Int) ≤ x → (parallel_for order swapTask p).array x = p.array x := by
  have inv0 : Phase3Inv lm nl rm nr M tasks N p.array (fun _ => False) p :=
    ⟨h_lm, h_nl, h_rm, h_nr, h_M, h_T,
     ⟨fun k hk => by obtain ⟨_, h, _⟩ := hk; exact h.elim,
      fun k hk => by obtain ⟨_, h, _⟩ := hk; exact h.elim, fun _ _ => rfl⟩,
     List.Perm.refl _, fun _ _ => rfl⟩
  have hnd : order.Nodup := ho.nodup_iff.2 (List.nodup_range _)
  have hmem : ∀ t, t ∈ order ↔ t < tasks := fun t => by
    rw [ho.mem_iff, List.mem_range]
  have fin := phase3_fold lm nl rm nr M tasks N p.array hl hr hML hMR hf hg hfg hN order
    (fun _ => False) p inv0 (fun _ h => h.elim) hnd (fun t ht => ⟨(hmem t).1 ht, fun h => h⟩)
  refine ⟨fin.swapped.congr (fun k => ?_), fin.perm, fin.frame⟩
  constructor
  · intro hk
    obtain ⟨t, ht, e1, e2⟩ := exists_task_of_lt M tasks tasks k
      (by rw [taskStart_last M htasks]; exact hk)
    exact ⟨t, Or.inl ((hmem t).2 ht), e1, e2⟩
  · rintro ⟨t, ht | ht, e1, e2⟩
    · have := taskStart_le M (show t + 1 ≤ tasks from (hmem t).1 ht)
      omega
    · exact ht.elim

/-! ## Counting the misplaced items -/

theorem sumCounterLeft_eq (p : parallel_partition_static_task T V) (h : 1 ≤ p.tasks) :
    sumCounterLeft p = ((List.range p.tasks).map p.counter_left).sum := by
  have key : ∀ (xs : List Nat) (init : Nat),
      xs.foldl (fun mid i => mid + p.counter_left i) init = init + (xs.map p.counter_left).sum := by
    intro xs
    induction xs with
    | nil => intro init; simp
    | cons x xs ih => intro init; simp [ih, Nat.add_assoc]
  unfold sumCounterLeft
  rw [key]
  obtain ⟨n, hn⟩ : ∃ n, p.tasks = n + 1 := ⟨p.tasks - 1, by omega⟩
  rw [hn, List.range_eq_range', List.range'_succ]
  simp

theorem counts_le_start (cs cl : Nat → Nat) (tasks : Nat)
    (hb : ∀ t, t < tasks → cs t + cl t ≤ cs (t + 1)) :
    ∀ k, k ≤ tasks → ((List.range k).map cl).sum ≤ cs k := by
  intro k
  induction k with
  | zero => intro _; simp
  | succ k ih =>
    intro hk
    rw [List.range_succ, List.map_append, List.sum_append]
    have := ih (by omega)
    have := hb k (by omega)
    simp only [List.map_cons, List.map_nil, List.sum_cons, List.sum_nil]
    omega

theorem misplaced_sums (cs cl : Nat → Nat) (tasks N mid : Nat)
    (hb : ∀ t, t < tasks → cs t + cl t ≤ cs (t + 1)) (hN : ∀ t, t ≤ tasks → cs t ≤ N) :
    ∀ k, k ≤ tasks →
      ((List.range k).map (fun t => (leftMisOf mid cs cl t).size)).sum +
          ((List.range k).map cl).sum + min mid (cs 0) =
        ((List.range k).map (fun t => (rightMisOf mid N cs cl t).size)).sum + min mid (cs k) := by
  intro k
  induction k with
  | zero => intro _; simp
  | succ k ih =>
    intro hk
    have ih' := ih (by omega)
    have h1 := hb k (by omega)
    have h2 := hN (k + 1) hk
    rw [List.range_succ, List.map_append, List.sum_append, List.map_append, List.sum_append,
      List.map_append, List.sum_append]
    simp only [List.map_cons, List.map_nil, List.sum_cons, List.sum_nil, Nat.add_zero]
    have e1 : ((leftMisOf mid cs cl k).size : Int) + (cl k : Int) + (min mid (cs k) : Nat) =
        ((rightMisOf mid N cs cl k).size : Int) + (min mid (cs (k + 1)) : Nat) := by
      simp only [leftMisOf, rightMisOf, Range.intersect, Range.size]
      omega
    omega

theorem misplaced_sums_eq (cs cl : Nat → Nat) (tasks N mid : Nat) (h0 : cs 0 = 0)
    (hlast : cs tasks = N)
    (hb : ∀ t, t < tasks → cs t + cl t ≤ cs (t + 1)) (hN : ∀ t, t ≤ tasks → cs t ≤ N)
    (hmid : mid = ((List.range tasks).map cl).sum) :
    ((List.range tasks).map (fun t => (leftMisOf mid cs cl t).size)).sum =
      ((List.range tasks).map (fun t => (rightMisOf mid N cs cl t).size)).sum ∧ mid ≤ N := by
  have h := misplaced_sums cs cl tasks N mid hb hN tasks (le_refl _)
  have hle := counts_le_start cs cl tasks hb tasks (le_refl _)
  rw [← hmid, hlast] at hle
  rw [← hmid, h0, hlast] at h
  refine ⟨?_, hle⟩
  have : min mid N = mid := Nat.min_eq_left hle
  rw [this] at h
  simp only [Nat.min_zero] at h
  omega

/-! ## Correctness of the parallel path below the task limit -/

theorem withSentinels_counters (cmp : T → Bool) (red : V → T → V) (empty : V) (a0 : Mem T)
    (N tasks : Nat) (p1 : parallel_partition_static_task T V)
    (inv : Phase1Inv cmp red empty a0 N tasks (fun u => u < tasks) p1) (ht : 0 < tasks) :
    (∀ t, t ≤ tasks → (withSentinels p1).counter_start t = taskStart N tasks t) ∧
    (∀ t, t < tasks → (withSentinels p1).counter_left t = p1.counter_left t) ∧
    (withSentinels p1).array = p1.array ∧ (withSentinels p1).N = N ∧
    (withSentinels p1).tasks = tasks ∧ (withSentinels p1).numMisplacedRangesLeft = 0 ∧
    (withSentinels p1).numMisplacedRangesRight = 0 := by
  refine ⟨?_, ?_, rfl, inv.hN, inv.hT, rfl, rfl⟩
  · intro t htl
    simp only [withSentinels, store, inv.hT, inv.hN]
    by_cases h : t = tasks
    · rw [if_pos h, h, taskStart_last N ht]
    · rw [if_neg h]
      exact (inv.done t (by omega)).start
  · intro t htl
    simp only [withSentinels, store, inv.hT]
    rw [if_neg (by omega)]

theorem phase2_post (cmp : T → Bool) (red : V → T → V) (empty : V) (a0 : Mem T)
    (N tasks : Nat) (p1 : parallel_partition_static_task T V)
    (inv : Phase1Inv cmp red empty a0 N tasks (fun u => u < tasks) p1) (ht : 0 < tasks) :
    SameCore (misplacedLoop (sumCounterLeft (withSentinels p1)) (withSentinels p1)).p
      (withSentinels p1) ∧
    CollInv (leftMisOf (sumCounterLeft (withSentinels p1)) (withSentinels p1).counter_start
        (withSentinels p1).counter_left)
      (fun t => ((withSentinels p1).counter_start t : Int)) tasks
      (leftView (misplacedLoop (sumCounterLeft (withSentinels p1)) (withSentinels p1))) ∧
    CollInv (rightMisOf (sumCounterLeft (withSentinels p1)) N (withSentinels p1).counter_start
        (withSentinels p1).counter_left)
      (fun t => ((withSentinels p1).counter_start t : Int)) tasks
      (rightView (misplacedLoop (sumCounterLeft (withSentinels p1)) (withSentinels p1))) ∧
    (leftView (misplacedLoop (sumCounterLeft (withSentinels p1)) (withSentinels p1))).total =
      (rightView (misplacedLoop (sumCounterLeft (withSentinels p1)) (withSentinels p1))).total ∧
    sumCounterLeft (withSentinels p1) ≤ N ∧
    (∀ t, t < tasks → taskStart N tasks t + p1.counter_left t ≤ taskStart N tasks (t + 1)) := by
  obtain ⟨w1, w2, w3, w4, w5, w6, w7⟩ :=
    withSentinels_counters cmp red empty a0 N tasks p1 inv ht
  generalize hq : withSentinels p1 = q at w1 w2 w3 w4 w5 w6 w7
  have hb : ∀ t, t < tasks → q.counter_start t + q.counter_left t ≤ q.counter_start (t + 1) := by
    intro t htl
    rw [w1 t (by omega), w1 (t + 1) (by omega), w2 t htl]
    exact (inv.done t htl).bound
  have hb' : ∀ t, t < tasks →
      taskStart N tasks t + p1.counter_left t ≤ taskStart N tasks (t + 1) :=
    fun t htl => (inv.done t htl).bound
  have hNle : ∀ t, t ≤ tasks → q.counter_start t ≤ N := by
    intro t htl
    rw [w1 t htl]; exact taskStart_le N htl
  have hmid : sumCounterLeft q = ((List.range tasks).map q.counter_left).sum := by
    rw [sumCounterLeft_eq q (by rw [w5]; exact ht), w5]
  generalize hm : sumCounterLeft q = mid at hmid
  obtain ⟨hsum, hmidle⟩ := misplaced_sums_eq q.counter_start q.counter_left tasks N mid
    (by rw [w1 0 (by omega), taskStart_zero]) (by rw [w1 tasks (le_refl _), taskStart_last N ht])
    hb hNle hmid
  obtain ⟨v1, v2, v3⟩ := misplacedFold_views (⟨0, (mid : Int) - 1⟩ : Range)
    (⟨(mid : Int), (q.N : Int) - 1⟩ : Range) q (List.range q.tasks)
    { p := q, numMisplacedItemsLeft := 0, numMisplacedItemsRight := 0 }
    ⟨rfl, rfl, rfl, rfl, rfl⟩
  have hloop : misplacedLoop mid q = (List.range q.tasks).foldl
      (misplacedStep (⟨0, (mid : Int) - 1⟩ : Range) (⟨(mid : Int), (q.N : Int) - 1⟩ : Range))
      { p := q, numMisplacedItemsLeft := 0, numMisplacedItemsRight := 0 } := rfl
  rw [← hloop] at v1 v2 v3
  rw [w5] at v1 v2
  rw [w4] at v2
  have cL := collect_fold_inv (leftMisOf mid q.counter_start q.counter_left)
    (fun t => (q.counter_start t : Int)) tasks
    (leftView { p := q, numMisplacedItemsLeft := 0, numMisplacedItemsRight := 0 })
    ⟨w6, rfl⟩
    (fun i hi => by
      simp only [leftMisOf, Range.intersect]
      omega)
    (fun i hi => by
      simp only [leftMisOf, Range.intersect]
      omega)
    (fun i hi => by
      have := hb i hi
      simp only []
      omega) tasks (le_refl _)
  have cR := collect_fold_inv (rightMisOf mid N q.counter_start q.counter_left)
    (fun t => (q.counter_start t : Int)) tasks
    (rightView { p := q, numMisplacedItemsLeft := 0, numMisplacedItemsRight := 0 })
    ⟨w7, rfl⟩
    (fun i hi => by
      simp only [rightMisOf, Range.intersect]
      omega)
    (fun i hi => by
      have := hb i hi
      simp only [rightMisOf, Range.intersect]
      omega)
    (fun i hi => by
      have := hb i hi
      simp only []
      omega) tasks (le_refl _)
  have eL : leftView (misplacedLoop mid q) = (List.range tasks).foldl
      (collectStep (leftMisOf mid q.counter_start q.counter_left))
      (leftView { p := q, numMisplacedItemsLeft := 0, numMisplacedItemsRight := 0 }) := v1
  have eR : rightView (misplacedLoop mid q) = (List.range tasks).foldl
      (collectStep (rightMisOf mid N q.counter_start q.counter_left))
      (rightView { p := q, numMisplacedItemsLeft := 0, numMisplacedItemsRight := 0 }) := v2
  rw [← eL] at cL
  rw [← eR] at cR
  refine ⟨v3, cL, cR, ?_, hmidle, hb'⟩
  rw [cL.tot2, cR.tot2]
  exact hsum

theorem final_partitioned (cmp : T → Bool) (a1 a3 : Mem T) (f g : Nat → Int) (M mid N : Nat)
    (hsw : Swapped f g (fun k => k < M) a1 a3)
    (hfL : ∀ k, k < M → 0 ≤ f k ∧ f k < mid ∧ cmp (a1 (f k)) = false)
    (hgR : ∀ k, k < M → (mid : Int) ≤ g k ∧ g k < N ∧ cmp (a1 (g k)) = true)
    (surjL : ∀ x : Int, 0 ≤ x → x < mid → cmp (a1 x) = false → ∃ k, k < M ∧ f k = x)
    (surjR : ∀ x : Int, (mid : Int) ≤ x → x < N → cmp (a1 x) = true → ∃ k, k < M ∧ g k = x) :
    (∀ i : Int, 0 ≤ i → i < mid → cmp (a3 i) = true) ∧
    (∀ j : Int, (mid : Int) ≤ j → j < N → cmp (a3 j) = false) := by
  constructor
  · intro i h0 h1
    by_cases hex : ∃ k, k < M ∧ f k = i
    · obtain ⟨k, hk, e⟩ := hex
      rw [← e, hsw.at_f k hk]
      exact (hgR k hk).2.2
    · have hother : a3 i = a1 i := hsw.other i (fun k hk =>
        ⟨fun e => hex ⟨k, hk, e.symm⟩, fun e => by have := (hgR k hk).1; omega⟩)
      rw [hother]
      by_contra hc
      have hc' : cmp (a1 i) = false := by simpa using hc
      exact hex (surjL i h0 h1 hc')
  · intro j h0 h1
    by_cases hex : ∃ k, k < M ∧ g k = j
    · obtain ⟨k, hk, e⟩ := hex
      rw [← e, hsw.at_g k hk]
      exact (hfL k hk).2.2
    · have hother : a3 j = a1 j := hsw.other j (fun k hk =>
        ⟨fun e => by have := (hfL k hk).2.1; omega, fun e => hex ⟨k, hk, e.symm⟩⟩)
      rw [hother]
      by_contra hc
      have hc' : cmp (a1 j) = true := by simpa using hc
      exact hex (surjR j h0 h1 hc')

theorem countP_of_partitioned (cmp : T → Bool) (a : Mem T) (mid N : Nat) (hle : mid ≤ N)
    (h1 : ∀ i : Int, 0 ≤ i → i < mid → cmp (a i) = true)
    (h2 : ∀ j : Int, (mid : Int) ≤ j → j < N → cmp (a j) = false) :
    (contents a N).countP cmp = mid := by
  unfold contents
  rw [slice_append a (show (0 : Int) ≤ mid by omega) (show (mid : Int) ≤ N by omega),
    List.countP_append]
  have c1 : (slice a 0 (mid : Int)).countP cmp = (slice a 0 (mid : Int)).length := by
    apply List.countP_eq_length.2
    intro x hx
    obtain ⟨k, k1, k2, rfl⟩ := mem_slice.1 hx
    exact h1 k k1 k2
  have c2 : (slice a (mid : Int) (N : Int)).countP cmp = 0 := by
    apply List.countP_eq_zero.2
    intro x hx
    obtain ⟨k, k1, k2, rfl⟩ := mem_slice.1 hx
    simp [h2 k k1 k2]
  rw [c1, c2, slice_length]
  omega

theorem contents_perm_of_tasks (a1 a0 : Mem T) (N tasks : Nat) (ht : 0 < tasks)
    (h : ∀ t, t < tasks → (slice a1 (taskStart N tasks t) (taskStart N tasks (t + 1))).Perm
      (slice a0 (taskStart N tasks t) (taskStart N tasks (t + 1)))) :
    (contents a1 N).Perm (contents a0 N) := by
  have key : ∀ k, k ≤ tasks →
      (slice a1 0 (taskStart N tasks k)).Perm (slice a0 0 (taskStart N tasks k)) := by
    intro k
    induction k with
    | zero => intro _; simp [taskStart_zero, slice_nil]
    | succ k ih =>
      intro hk
      have hm : taskStart N tasks k ≤ taskStart N tasks (k + 1) :=
        taskStart_mono N tasks (by omega)
      rw [slice_append a1 (show (0 : Int) ≤ taskStart N tasks k by omega)
          (show (taskStart N tasks k : Int) ≤ taskStart N tasks (k + 1) by omega),
        slice_append a0 (show (0 : Int) ≤ taskStart N tasks k by omega)
          (show (taskStart N tasks k : Int) ≤ taskStart N tasks (k + 1) by omega)]
      exact (ih (by omega)).append (h k (by omega))
  have := key tasks (le_refl _)
  rw [taskStart_last N ht] at this
  exact this

theorem partitionTail_correct (cmp : T → Bool) (red : V → T → V) (empty : V) (a0 : Mem T)
    (N tasks : Nat) (p1 : parallel_partition_static_task T V) (order2 : List Nat) (L R : V)
    (inv : Phase1Inv cmp red empty a0 N tasks (fun u => u < tasks) p1) (ht : 0 < tasks)
    (ho2 : order2.Perm (List.range tasks)) :
    (partitionTail order2 L R (withSentinels p1)).mid ≤ N ∧
    (∀ i : Int, 0 ≤ i → i < (partitionTail order2 L R (withSentinels p1)).mid →
      cmp ((partitionTail order2 L R (withSentinels p1)).task.array i) = true) ∧
    (∀ j : Int, ((partitionTail order2 L R (withSentinels p1)).mid : Int) ≤ j → j < N →
      cmp ((partitionTail order2 L R (withSentinels p1)).task.array j) = false) ∧
    (contents (partitionTail order2 L R (withSentinels p1)).task.array N).Perm
      (contents p1.array N) ∧
    (∀ x : Int, x < 0 ∨ (N : Int) ≤ x →
      (partitionTail order2 L R (withSentinels p1)).task.array x = p1.array x) := by
  obtain ⟨core, cL, cR, htot, hmid, hb⟩ := phase2_post cmp red empty a0 N tasks p1 inv ht
  obtain ⟨w1, w2, w3, w4, w5, w6, w7⟩ :=
    withSentinels_counters cmp red empty a0 N tasks p1 inv ht
  have hmidE : (partitionTail order2 L R (withSentinels p1)).mid =
      sumCounterLeft (withSentinels p1) := rfl
  have htask : (partitionTail order2 L R (withSentinels p1)).task =
      if ({ (misplacedLoop (sumCounterLeft (withSentinels p1)) (withSentinels p1)).p with
            numMisplacedItems := (misplacedLoop (sumCounterLeft (withSentinels p1))
              (withSentinels p1)).numMisplacedItemsLeft } :
          parallel_partition_static_task T V).numMisplacedItems ≠ 0
      then parallel_for order2 swapTask
        { (misplacedLoop (sumCounterLeft (withSentinels p1)) (withSentinels p1)).p with
          numMisplacedItems := (misplacedLoop (sumCounterLeft (withSentinels p1))
            (withSentinels p1)).numMisplacedItemsLeft }
      else { (misplacedLoop (sumCounterLeft (withSentinels p1)) (withSentinels p1)).p with
             numMisplacedItems := (misplacedLoop (sumCounterLeft (withSentinels p1))
               (withSentinels p1)).numMisplacedItemsLeft } := rfl
  rw [hmidE, htask]
  generalize hq : withSentinels p1 = q at core cL cR htot hmid w1 w2 w3 w4 w5 w6 w7
  generalize hm : sumCounterLeft q = mid at core cL cR htot hmid
  generalize hst : misplacedLoop mid q = st at core cL cR htot
  obtain ⟨k1, k2, k3, k4, k5⟩ := core
  have harr : st.p.array = p1.array := k1.trans w3
  generalize hlm : (leftView st).tbl = lm
  generalize hnl : (leftView st).n = nl
  generalize hrm : (rightView st).tbl = rm
  generalize hnr : (rightView st).n = nr
  generalize hM : (leftView st).total = M
  have hMR : (rightView st).total = M := by rw [← htot]; exact hM
  /- the cells of the left list hold misplaced elements of the left side -/
  have hfL : ∀ k, k < M → 0 ≤ cellOf lm nl k ∧ cellOf lm nl k < mid ∧
      cmp (p1.array (cellOf lm nl k)) = false := by
    intro k hk
    obtain ⟨t, ht', e1, e2⟩ := cL.cell_mem k (by rw [hM]; exact hk)
    rw [hlm, hnl] at e1 e2
    simp only [leftMisOf, Range.intersect] at e1 e2
    have x1 := w1 t (by omega)
    have x2 := w1 (t + 1) (by omega)
    have x3 := w2 t ht'
    rw [x1, x3] at e1
    rw [x2] at e2
    refine ⟨by omega, by omega, ?_⟩
    exact (inv.done t ht').right _ (by omega) (by omega)
  have hgR : ∀ k, k < M → (mid : Int) ≤ cellOf rm nr k ∧ cellOf rm nr k < N ∧
      cmp (p1.array (cellOf rm nr k)) = true := by
    intro k hk
    obtain ⟨t, ht', e1, e2⟩ := cR.cell_mem k (by rw [hMR]; exact hk)
    rw [hrm, hnr] at e1 e2
    simp only [rightMisOf, Range.intersect] at e1 e2
    have x1 := w1 t (by omega)
    have x3 := w2 t ht'
    rw [x1] at e1
    rw [x1, x3] at e2
    have := hb t ht'
    have := taskStart_le N (show t + 1 ≤ tasks from ht')
    refine ⟨by omega, by omega, ?_⟩
    exact (inv.done t ht').left _ (by omega) (by omega)
  have surjL : ∀ x : Int, 0 ≤ x → x < mid → cmp (p1.array x) = false →
      ∃ k, k < M ∧ cellOf lm nl k = x := by
    intro x h0 h1 hc
    obtain ⟨t, ht', e1, e2⟩ := exists_task_of_lt N tasks tasks x.toNat
      (by rw [taskStart_last N ht]; omega)
    have hge : (taskStart N tasks t : Int) + (p1.counter_left t : Int) ≤ x := by
      by_contra hcon
      have := (inv.done t ht').left x (by omega) (by omega)
      rw [this] at hc
      exact Bool.noConfusion hc
    obtain ⟨k, hk, e⟩ := cL.cell_surj t ht' x
      (by simp only [leftMisOf, Range.intersect]
          rw [w1 t (by omega), w2 t ht']
          omega)
      (by simp only [leftMisOf, Range.intersect]
          rw [w1 (t + 1) (by omega)]
          omega)
    exact ⟨k, by rw [← hM]; exact hk, by rw [← hlm, ← hnl]; exact e⟩
  have surjR : ∀ x : Int, (mid : Int) ≤ x → x < N → cmp (p1.array x) = true →
      ∃ k, k < M ∧ cellOf rm nr k = x := by
    intro x h0 h1 hc
    obtain ⟨t, ht', e1, e2⟩ := exists_task_of_lt N tasks tasks x.toNat
      (by rw [taskStart_last N ht]; omega)
    have hlt : x < (taskStart N tasks t : Int) + (p1.counter_left t : Int) := by
      by_contra hcon
      have := (inv.done t ht').right x (by omega) (by omega)
      rw [this] at hc
      exact Bool.noConfusion hc
    obtain ⟨k, hk, e⟩ := cR.cell_surj t ht' x
      (by simp only [rightMisOf, Range.intersect]
          rw [w1 t (by omega)]
          omega)
      (by simp only [rightMisOf, Range.intersect]
          rw [w1 t (by omega), w2 t ht']
          omega)
    exact ⟨k, by rw [← hMR]; exact hk, by rw [← hrm, ← hnr]; exact e⟩
  /- the exchanges of the second parallel_for -/
  have hsw : Swapped (cellOf lm nl) (cellOf rm nr) (fun k => k < M) p1.array
        (if ({ st.p with numMisplacedItems := st.numMisplacedItemsLeft } :
            parallel_partition_static_task T V).numMisplacedItems ≠ 0
          then parallel_for order2 swapTask
            { st.p with numMisplacedItems := st.numMisplacedItemsLeft }
          else { st.p with numMisplacedItems := st.numMisplacedItemsLeft }).array ∧
      (contents (if ({ st.p with numMisplacedItems := st.numMisplacedItemsLeft } :
            parallel_partition_static_task T V).numMisplacedItems ≠ 0
          then parallel_for order2 swapTask
            { st.p with numMisplacedItems := st.numMisplacedItemsLeft }
          else { st.p with numMisplacedItems := st.numMisplacedItemsLeft }).array N).Perm
        (contents p1.array N) ∧
      ∀ x : Int, x < 0 ∨ (N : Int) ≤ x →
        (if ({ st.p with numMisplacedItems := st.numMisplacedItemsLeft } :
            parallel_partition_static_task T V).numMisplacedItems ≠ 0
          then parallel_for order2 swapTask
            { st.p with numMisplacedItems := st.numMisplacedItemsLeft }
          else { st.p with numMisplacedItems := st.numMisplacedItemsLeft }).array x =
        p1.array x := by
    have hMdef : st.numMisplacedItemsLeft = M := hM
    by_cases hz : st.numMisplacedItemsLeft = 0
    · have hM0 : M = 0 := by rw [← hMdef]; exact hz
      have hcond : ¬ (({ st.p with numMisplacedItems := st.numMisplacedItemsLeft } :
          parallel_partition_static_task T V).numMisplacedItems ≠ 0) := by
        simp only [ne_eq, not_not]; exact hz
      rw [if_neg hcond]
      refine ⟨⟨fun k hk => by omega, fun k hk => by omega, fun x _ => ?_⟩, ?_, fun x _ => ?_⟩
      · exact congrFun harr x
      · show (contents st.p.array N).Perm (contents p1.array N)
        rw [harr]
      · exact congrFun harr x
    · have hcond : ({ st.p with numMisplacedItems := st.numMisplacedItemsLeft } :
          parallel_partition_static_task T V).numMisplacedItems ≠ 0 := hz
      rw [if_pos hcond]
      have post := phase3_post lm nl rm nr M tasks N
        ({ st.p with numMisplacedItems := st.numMisplacedItemsLeft } :
          parallel_partition_static_task T V)
        hlm hnl hrm hnr hMdef (k3.trans w5) ht
        (fun j hj => by
          have := cL.size_pos j (by rw [hnl]; exact hj)
          rw [hlm] at this; exact this)
        (fun j hj => by
          have := cR.size_pos j (by rw [hnr]; exact hj)
          rw [hrm] at this; exact this)
        (by rw [← hlm, ← hnl, ← cL.tot1]; exact hM)
        (by rw [← hrm, ← hnr, ← cR.tot1]; exact hMR)
        (fun k k' hk hk' e => by
          have := cL.cell_inj k k' (by rw [hM]; exact hk) (by rw [hM]; exact hk')
          rw [hlm, hnl] at this
          exact this e)
        (fun k k' hk hk' e => by
          have := cR.cell_inj k k' (by rw [hMR]; exact hk) (by rw [hMR]; exact hk')
          rw [hrm, hnr] at this
          exact this e)
        (fun k k' hk hk' e => by
          have := (hfL k hk).2.1
          have := (hgR k' hk').1
          omega)
        (fun k hk => by
          have := hfL k hk
          have := hgR k hk
          exact ⟨by omega, by omega, by omega, by omega⟩)
        order2 ho2
      have harr2 : ({ st.p with numMisplacedItems := st.numMisplacedItemsLeft } :
          parallel_partition_static_task T V).array = p1.array := harr
      rw [harr2] at post
      exact post
  obtain ⟨s1, s2, s3⟩ := hsw
  obtain ⟨f1, f2⟩ := final_partitioned cmp p1.array _ (cellOf lm nl) (cellOf rm nr) M mid N s1
    hfL hgR surjL surjR
  exact ⟨hmid, f1, f2, s2, s3⟩

/-- Below the task limit the parallel path of `partition` returns, and it returns a
partition of the array: `mid` is the number of elements that satisfy `cmp`, the cells
before `mid` satisfy `cmp`, the cells from `mid` on do not, `array[0..N)` is a permutation
of what it held on entry and no cell outside `[0,N)` is written; this holds for every
schedule of the two `parallel_for` calls. -/
theorem partition_parallel_correct (BLOCK_SIZE : Nat) (empty : V) (cmp : T → Bool)
    (reduction_t : V → T → V) (reduction_v : V → V → V) (order1 order2 : List Nat)
    (p : parallel_partition_static_task T V)
    (hN : ¬ p.N < BLOCK_SIZE) (ht : 1 ≤ p.tasks) (hlt : p.tasks < MAX_TASKS)
    (ho1 : order1.Perm (List.range p.tasks)) (ho2 : order2.Perm (List.range p.tasks)) :
    ∃ res, p.partition BLOCK_SIZE empty cmp reduction_t reduction_v order1 order2 = some res ∧
      res.mid = (contents p.array p.N).countP cmp ∧
      res.mid ≤ p.N ∧
      (∀ i : Int, 0 ≤ i → i < res.mid → cmp (res.task.array i) = true) ∧
      (∀ j : Int, (res.mid : Int) ≤ j → j < p.N → cmp (res.task.array j) = false) ∧
      (contents res.task.array p.N).Perm (contents p.array p.N) ∧
      (∀ x : Int, x < 0 ∨ (p.N : Int) ≤ x → res.task.array x = p.array x) := by
  have inv := phase1_post cmp reduction_t empty p order1 ho1
  generalize hp1 : parallel_for order1 (partitionTask empty cmp reduction_t) p = p1 at inv
  have hpart : p.partition BLOCK_SIZE empty cmp reduction_t reduction_v order1 order2 =
      some (partitionTail order2 (combineReductions empty reduction_v p1).1
        (combineReductions empty reduction_v p1).2 (withSentinels p1)) := by
    simp only [parallel_partition_static_task.partition, if_neg hN, hp1, partitionFinish]
    rw [setSentinels_of_lt p1 (by rw [inv.hT]; exact hlt)]
    rfl
  obtain ⟨t1, t2, t3, t4, t5⟩ := partitionTail_correct cmp reduction_t empty p.array p.N
    p.tasks p1 order2 (combineReductions empty reduction_v p1).1
    (combineReductions empty reduction_v p1).2 inv ht ho2
  have hperm1 : (contents p1.array p.N).Perm (contents p.array p.N) :=
    contents_perm_of_tasks p1.array p.array p.N p.tasks ht
      (fun t ht' => (inv.done t ht').perm)
  refine ⟨_, hpart, ?_, t1, t2, t3, t4.trans hperm1, fun x hx => ?_⟩
  · rw [← countP_of_partitioned cmp _ _ p.N t1 t2 t3]
    exact (t4.trans hperm1).countP_eq cmp
  · rw [t5 x hx]
    exact inv.frame x hx

/-- The function `parallel_in_place_partitioning_static` on an array of `N >= BLOCK_SIZE`
elements with at least one thread and fewer than `MAX_TASKS` tasks: it returns, for every schedule, the number of
elements that satisfy `cmp` and an array that is partitioned at that index and is a
permutation of the input. -/
theorem parallel_in_place_partitioning_static_correct (BLOCK_SIZE : Nat) (array : Mem T)
    (N : Nat) (init leftReduction rightReduction : V) (cmp : T → Bool)
    (reduction_t : V → T → V) (reduction_v : V → V → V) (numThreads : Nat) (empty : V)
    (raw : RawTables V) (order1 order2 : List Nat)
    (hN : ¬ N < BLOCK_SIZE) (hth : 1 ≤ numThreads)
    (hlt : numTasks BLOCK_SIZE N numThreads < MAX_TASKS)
    (ho1 : order1.Perm (List.range (numTasks BLOCK_SIZE N numThreads)))
    (ho2 : order2.Perm (List.range (numTasks BLOCK_SIZE N numThreads))) :
    ∃ mid a l r, parallel_in_place_partitioning_static BLOCK_SIZE array N init leftReduction
        rightReduction cmp reduction_t reduction_v numThreads empty raw order1 order2 =
        some (mid, a, l, r) ∧
      mid = (contents array N).countP cmp ∧
      (∀ i : Int, 0 ≤ i → i < mid → cmp (a i) = true) ∧
      (∀ j : Int, (mid : Int) ≤ j → j < N → cmp (a j) = false) ∧
      (contents a N).Perm (contents array N) ∧
      (∀ x : Int, x < 0 ∨ (N : Int) ≤ x → a x = array x) := by
  obtain ⟨res, h1, h2, _, h4, h5, h6, h7⟩ := partition_parallel_correct BLOCK_SIZE empty cmp
    reduction_t reduction_v order1 order2
    (parallel_partition_static_task.create BLOCK_SIZE array N numThreads init raw)
    hN (numTasks_pos BLOCK_SIZE N numThreads hN hth) hlt ho1 ho2
  refine ⟨res.mid, res.task.array, res.leftReduction, res.rightReduction, ?_, h2, h4, h5, h6, h7⟩
  simp only [parallel_in_place_partitioning_static]
  rw [h1]
  rfl

/-! ## Block::malloc -/

theorem Block.malloc_some (b : Block) (bytes_in align : Nat) (partial_ : Bool) (i : Nat)
    (h : (b.malloc bytes_in align partial_).ptr = some i) :
    i = b.cur ∧ i ≤ b.reserveEnd ∧
    (b.malloc bytes_in align partial_).bytes_in = min (roundUp bytes_in align) (b.reserveEnd - i) ∧
    (b.malloc bytes_in align partial_).block.cur = b.cur + roundUp bytes_in align := by
  unfold Block.malloc at h ⊢
  by_cases h1 : b.cur + roundUp bytes_in align > b.reserveEnd ∧ partial_ = false
  · simp [h1] at h
  · by_cases h3 : b.cur > b.reserveEnd
    · simp [h1, h3] at h
    · simp only [h1, h3, if_false, Option.some.injEq] at h
      subst h
      and_intros
      · rfl
      · omega
      · simp [h1, h3]
      · simp [h1, h3]

theorem roundUp_dvd (bytes k : Nat) (hk : k ≤ 6) : 2 ^ k ∣ roundUp bytes (2 ^ k) := by
  have key : ∀ s : Nat, (s &&& complement64 (2 ^ k - 1)) % 2 ^ k = 0 := by
    intro s
    rw [← Nat.and_pow_two_sub_one_eq_mod, Nat.and_assoc]
    have : complement64 (2 ^ k - 1) &&& (2 ^ k - 1) = 0 := by
      interval_cases k <;> decide
    rw [this]
    simp
  exact Nat.dvd_of_mod_eq_zero (key _)

theorem roundUp_dvd_of_le (bytes k m : Nat) (hk : k ≤ 6) (hm : m ≤ k) :
    2 ^ m ∣ roundUp bytes (2 ^ k) :=
  Nat.dvd_trans (Nat.pow_dvd_pow 2 hm) (roundUp_dvd bytes k hk)

theorem Block.malloc_cur_dvd (A : Nat) (b : Block) (bytes_in align : Nat) (partial_ : Bool)
    (hb : A ∣ b.cur) (hr : A ∣ roundUp bytes_in align) :
    A ∣ (b.malloc bytes_in align partial_).block.cur := by
  unfold Block.malloc
  by_cases h1 : b.cur + roundUp bytes_in align > b.reserveEnd ∧ partial_ = false
  · simpa [h1] using hb
  · by_cases h3 : b.cur > b.reserveEnd
    · simpa [h1, h3] using Nat.dvd_add hb hr
    · simpa [h1, h3] using Nat.dvd_add hb hr

theorem mem_set_cases {α : Type} {l : List α} {i : Nat} {a x : α} (h : x ∈ l.set i a) :
    x = a ∨ x ∈ l := by
  rcases List.mem_or_eq_of_mem_set h with h | h
  · exact Or.inr h
  · exact Or.inl h

theorem FastAllocator.tryCurrent_aligned (A : Nat) (fa fa1 : FastAllocator)
    (my : Option Nat) (bytes align : Nat) (partial_ : Bool) (res : Option (Ptr × Nat))
    (hfa : fa.CursorsAligned A) (hr : A ∣ roundUp bytes align)
    (h : fa.tryCurrent my bytes align partial_ = Except.ok (fa1, res)) :
    fa1.CursorsAligned A ∧ fa1.freeBlocks = fa.freeBlocks ∧
    (∀ r, res = some r → A ∣ r.1.offset) := by
  unfold FastAllocator.tryCurrent at h
  cases my with
  | none =>
    simp only [Except.ok.injEq, Prod.mk.injEq] at h
    obtain ⟨rfl, rfl⟩ := h
    exact ⟨hfa, rfl, fun r hr' => Option.noConfusion hr'⟩
  | some addr =>
    simp only [] at h
    cases hb : fa.blocks.get? addr with
    | none => rw [hb] at h; exact Except.noConfusion h
    | some blk =>
      rw [hb] at h
      simp only [Except.ok.injEq, Prod.mk.injEq] at h
      obtain ⟨rfl, rfl⟩ := h
      have hblk : blk ∈ fa.blocks := List.get?_mem hb
      refine ⟨?_, rfl, ?_⟩
      · intro b hbm
        rcases mem_set_cases hbm with h | h
        · rw [h]; exact Block.malloc_cur_dvd A blk bytes align partial_ (hfa blk hblk) hr
        · exact hfa b h
      · intro r hr'
        cases hp : (blk.malloc bytes align partial_).ptr with
        | none => rw [hp] at hr'; exact Option.noConfusion hr'
        | some i =>
          rw [hp] at hr'
          simp only [Option.map_some', Option.some.injEq] at hr'
          rw [← hr']
          rw [(Block.malloc_some blk bytes align partial_ i hp).1]
          exact hfa blk hblk

theorem Block.create_cur (bytesAllocate bytesReserve : Nat) (next : Option Nat)
    (atype : AllocationType) (huge_pages : Bool) (b : Block)
    (h : Block.create bytesAllocate bytesReserve next atype huge_pages = some b) : b.cur = 0 := by
  unfold Block.create at h
  simp only [] at h
  split at h
  · split at h
    · split at h <;> (simp only [Option.some.injEq] at h; rw [← h]; rfl)
    · simp only [Option.some.injEq] at h; rw [← h]; rfl
  · split at h
    · simp only [Option.some.injEq] at h; rw [← h]; rfl
    · exact Option.noConfusion h

theorem FastAllocator.place_aligned (A : Nat) (fa : FastAllocator) (ob : Option Block)
    (hfa : fa.CursorsAligned A) (hob : ∀ b, ob = some b → b.cur = 0) :
    ∀ b ∈ (fa.place ob).1.blocks, A ∣ b.cur := by
  intro b hb
  cases ob with
  | none => exact hfa b hb
  | some blk =>
    simp only [FastAllocator.place, List.mem_append, List.mem_singleton] at hb
    rcases hb with hb | hb
    · exact hfa b hb
    · rw [hb, hob blk rfl]; exact Nat.dvd_zero A

theorem FastAllocator.refill_aligned (A : Nat) (fa fa2 : FastAllocator) (slot : Nat)
    (my : Option Nat) (bytes : Nat) (huge_pages : Bool) (hfa : fa.CursorsAligned A)
    (h : fa.refill slot my bytes huge_pages = Except.ok fa2) : fa2.CursorsAligned A := by
  unfold FastAllocator.refill at h
  split at h
  · split at h
    · simp only [Except.ok.injEq] at h
      rw [← h]
      exact FastAllocator.place_aligned A fa _ hfa (fun b hb => Block.create_cur _ _ _ _ _ b hb)
    · simp only [Except.ok.injEq] at h
      rw [← h]; exact hfa
  · split at h
    · split at h
      · split at h
        · exact Except.noConfusion h
        · rename_i free _ freeBlk hget
          simp only [Except.ok.injEq] at h
          rw [← h]
          intro b hb
          rcases mem_set_cases hb with hb | hb
          · rw [hb]; exact hfa freeBlk (List.get?_mem hget)
          · exact hfa b hb
      · simp only [Except.ok.injEq] at h
        rw [← h]
        exact FastAllocator.place_aligned A _ _ hfa
          (fun b hb => Block.create_cur _ _ _ _ _ b hb)
    · simp only [Except.ok.injEq] at h
      rw [← h]; exact hfa

theorem FastAllocator.mallocLoop_aligned (A : Nat) (threadIndex align : Nat)
    (partial_ huge_pages : Bool) (bytes : Nat) (hr : A ∣ roundUp bytes align) :
    ∀ (fuel : Nat) (fa : FastAllocator), fa.CursorsAligned A →
      (FastAllocator.mallocLoop threadIndex align partial_ huge_pages fuel fa bytes).pool.CursorsAligned A ∧
      ∀ r, (FastAllocator.mallocLoop threadIndex align partial_ huge_pages fuel fa bytes).result
        = Except.ok r → A ∣ r.1.offset := by
  intro fuel
  induction fuel with
  | zero =>
    intro fa hfa
    exact ⟨hfa, fun r h => Except.noConfusion h⟩
  | succ fuel ih =>
    intro fa hfa
    unfold FastAllocator.mallocLoop
    simp only []
    split
    · exact ⟨hfa, fun r h => Except.noConfusion h⟩
    · rename_i fa1 res htry
      obtain ⟨h1, _, h3⟩ := FastAllocator.tryCurrent_aligned A fa fa1 _ bytes align partial_
        (some res) hfa hr htry
      refine ⟨h1, fun r h => ?_⟩
      simp only [Except.ok.injEq] at h
      exact h3 r (by rw [h])
    · rename_i fa1 htry
      obtain ⟨h1, _, _⟩ := FastAllocator.tryCurrent_aligned A fa fa1 _ bytes align partial_
        none hfa hr htry
      split
      · exact ⟨h1, fun r h => Except.noConfusion h⟩
      · split
        · exact ⟨h1, fun r h => Except.noConfusion h⟩
        · rename_i fa2 hre
          exact ih fa2 (FastAllocator.refill_aligned A fa1 fa2 _ _ bytes huge_pages h1 hre)

theorem FastAllocator.run_aligned : ∀ (reqs : List Request) (fa : FastAllocator) (m : Nat),
    m ≤ 6 → fa.CursorsAligned (2 ^ m) →
    (∀ q ∈ reqs, ∃ k, k ≤ 6 ∧ q.align = 2 ^ k) →
    ∀ (j : Nat) (q : Request) (res : Ptr × Nat), reqs[j]? = some q →
      (fa.run reqs)[j]? = some res →
      (∀ i q', i < j → reqs[i]? = some q' → q.align ≤ q'.align) → q.align ≤ 2 ^ m →
      q.align ∣ res.1.offset := by
  intro reqs
  induction reqs with
  | nil => intro fa m _ _ _ j q res hq; simp at hq
  | cons q0 rest ih =>
    intro fa m hm hfa hpow j q res hq hres hmin hle
    obtain ⟨k0, hk0, ha0⟩ := hpow q0 (List.mem_cons_self _ _)
    have hfa1 : fa.CursorsAligned (2 ^ min m k0) := fun b hb =>
      Nat.dvd_trans (Nat.pow_dvd_pow 2 (Nat.min_le_left m k0)) (hfa b hb)
    have hr : 2 ^ min m k0 ∣ roundUp q0.bytes q0.align := by
      rw [ha0]; exact roundUp_dvd_of_le q0.bytes k0 (min m k0) hk0 (Nat.min_le_right m k0)
    obtain ⟨l1, l2⟩ := FastAllocator.mallocLoop_aligned (2 ^ min m k0) q0.threadIndex q0.align
      q0.partial_ q0.huge_pages q0.bytes hr (fa.blocks.length + 3) fa hfa1
    unfold FastAllocator.run at hres
    have hm' : FastAllocator.mallocLoop q0.threadIndex q0.align q0.partial_ q0.huge_pages
        (fa.blocks.length + 3) fa q0.bytes =
        fa.malloc q0.threadIndex q0.bytes q0.align q0.partial_ q0.huge_pages := rfl
    rw [hm'] at l1 l2
    cases hres0 : (fa.malloc q0.threadIndex q0.bytes q0.align q0.partial_ q0.huge_pages).result with
    | error e => rw [hres0] at hres; simp at hres
    | ok r0 =>
      rw [hres0] at hres
      simp only [] at hres
      cases j with
      | zero =>
        simp only [List.getElem?_cons_zero, Option.some.injEq] at hq hres
        subst hq
        subst hres
        have hkm : k0 ≤ m := by
          rw [ha0] at hle
          exact (Nat.pow_le_pow_iff_right (by decide)).1 hle
        have := l2 r0 hres0
        rw [Nat.min_eq_right hkm] at this
        rw [ha0]; exact this
      | succ j =>
        simp only [List.getElem?_cons_succ] at hq hres
        have h0 : q.align ≤ q0.align := hmin 0 q0 (Nat.succ_pos j) (by simp)
        refine ih _ (min m k0) (le_trans (Nat.min_le_left m k0) hm) l1
          (fun q' hq' => hpow q' (List.mem_cons_of_mem _ hq')) j q res hq hres
          (fun i q' hi hq' => hmin (i + 1) q' (by omega) (by simpa using hq')) ?_
        rcases Nat.le_total m k0 with h | h
        · rw [Nat.min_eq_left h]; exact hle
        · rw [Nat.min_eq_right h, ← ha0]; exact h0

/-- C9 (amended): in a sequence of successful pool allocations `allocate(b, a, partial)`
with power-of-two alignments `a <= 64`, started on an allocator whose block cursors are
multiples of 64 (as after construction or `reset`), the offset of a returned pointer
inside the block payload is a multiple of that call's `a` whenever no earlier call of
the sequence used a smaller alignment (in particular when all calls use one
alignment). -/
theorem pool_malloc_aligned (fa : FastAllocator) (reqs : List Request)
    (hfa : fa.CursorsAligned 64)
    (hpow : ∀ q ∈ reqs, ∃ k, k ≤ 6 ∧ q.align = 2 ^ k)
    (j : Nat) (q : Request) (res : Ptr × Nat) (hq : reqs[j]? = some q)
    (hres : (fa.run reqs)[j]? = some res)
    (hmin : ∀ i q', i < j → reqs[i]? = some q' → q.align ≤ q'.align) :
    res.1.offset % q.align = 0 := by
  obtain ⟨k, hk, ha⟩ := hpow q (List.getElem?_mem hq)
  have hle : q.align ≤ 2 ^ 6 := by
    rw [ha]; exact Nat.pow_le_pow_right (by decide) hk
  exact Nat.mod_eq_zero_of_dvd
    (FastAllocator.run_aligned reqs fa 6 (le_refl 6) hfa hpow j q res hq hres hmin hle)

/-- Witness of C9 (amended): a new allocator, a request of 64 bytes aligned to 64 and
then one of 10 bytes aligned to 16; the second pointer has offset 64. -/
theorem pool_malloc_aligned_witness :
    (FastAllocator.new false).CursorsAligned 64 ∧ 64 % 16 = 0 :=
  ⟨fun _ h => absurd h (List.not_mem_nil _),
   pool_malloc_aligned (FastAllocator.new false)
    [⟨0, 64, 64, false, false⟩, ⟨0, 10, 16, false, false⟩]
    (fun _ h => absurd h (List.not_mem_nil _))
    (by
      intro q hq
      simp only [List.mem_cons, List.mem_singleton, List.not_mem_nil, or_false] at hq
      rcases hq with rfl | rfl
      · exact ⟨6, by decide, rfl⟩
      · exact ⟨4, by decide, rfl⟩)
    1 ⟨0, 10, 16, false, false⟩ (⟨0, 64⟩, 16) rfl (by decide)
    (by
      intro i q' hi hq'
      have : i = 0 := by omega
      subst this
      simp only [List.getElem?_cons_zero, Option.some.injEq] at hq'
      subst hq'
      decide)⟩

/-- C9 (counterexample): on a new allocator, `allocate(16, 16, false)` returns offset 0
of the first block and moves its cursor to 16; the following `allocate(64, 64, false)`
returns offset 16 of the same block, which is not a multiple of 64. -/
theorem pool_malloc_misaligned :
    ((FastAllocator.new false).run
      [⟨0, 16, 16, false, false⟩, ⟨0, 64, 64, false, false⟩]).map
      (fun r => (r.1.block, r.1.offset, r.2)) = [(0, 0, 16), (0, 16, 64)] ∧
    ¬ (16 % 64 = 0) := by
  decide

/-! ## Bounds of Block::malloc -/

theorem and_complement64 (s k : Nat) (hs : s < 2 ^ 64) (hk : k ≤ 64) :
    s &&& complement64 (2 ^ k - 1) = 2 ^ k * (s / 2 ^ k) := by
  unfold complement64
  apply Nat.eq_of_testBit_eq
  intro i
  rw [Nat.testBit_and, Nat.testBit_xor, Nat.testBit_two_pow_sub_one, Nat.testBit_two_pow_sub_one,
    Nat.testBit_mul_pow_two, ← Nat.shiftRight_eq_div_pow, Nat.testBit_shiftRight]
  by_cases h1 : i < k
  · have h2 : i < 64 := by omega
    have h3 : ¬ i ≥ k := by omega
    simp [h1, h2, h3]
  · have h3 : i ≥ k := by omega
    have e : k + (i - k) = i := by omega
    rw [e]
    by_cases h2 : i < 64
    · simp [h1, h2, h3]
    · have : Nat.testBit s i = false :=
        Nat.testBit_lt_two_pow (lt_of_lt_of_le hs (Nat.pow_le_pow_right (by decide) (by omega)))
      simp [this]

theorem roundUp_eq (bytes k : Nat) (hk : k ≤ 64) (hb : bytes + 2 ^ k ≤ 2 ^ 64) :
    roundUp bytes (2 ^ k) = 2 ^ k * ((bytes + (2 ^ k - 1)) / 2 ^ k) := by
  have hp : 0 < 2 ^ k := Nat.two_pow_pos k
  unfold roundUp
  exact and_complement64 _ k (by omega) hk

theorem roundUp_bounds (bytes k : Nat) (hk : k ≤ 64) (hb : bytes + 2 ^ k ≤ 2 ^ 64) :
    bytes ≤ roundUp bytes (2 ^ k) ∧ roundUp bytes (2 ^ k) < bytes + 2 ^ k ∧
    (roundUp bytes (2 ^ k) = bytes ↔ 2 ^ k ∣ bytes) := by
  have hp : 0 < 2 ^ k := Nat.two_pow_pos k
  rw [roundUp_eq bytes k hk hb]
  have h1 := Nat.div_add_mod (bytes + (2 ^ k - 1)) (2 ^ k)
  have h2 := Nat.mod_lt (bytes + (2 ^ k - 1)) hp
  refine ⟨by omega, by omega, ?_⟩
  constructor
  · intro h
    exact ⟨_, h.symm⟩
  · rintro ⟨c, hc⟩
    have h3 : (bytes + (2 ^ k - 1)) / 2 ^ k = c := by
      rw [hc, Nat.mul_comm, Nat.add_comm, Nat.add_mul_div_right _ _ hp,
        Nat.div_eq_of_lt (by omega)]
      simp
    rw [h3, hc]

/-! ## One call of FastAllocator::malloc -/

theorem Block.malloc_none_iff (b : Block) (bytes_in align : Nat) (partial_ : Bool) :
    (b.malloc bytes_in align partial_).ptr = none ↔
      (partial_ = false ∧ b.cur + roundUp bytes_in align > b.reserveEnd) ∨
        b.cur > b.reserveEnd := by
  unfold Block.malloc
  by_cases h1 : b.cur + roundUp bytes_in align > b.reserveEnd ∧ partial_ = false
  · simp [h1]
  · by_cases h3 : b.cur > b.reserveEnd
    · simp [h1, h3]
    · simp only [h1, h3, if_false]
      constructor
      · intro h; exact Option.noConfusion h
      · rintro (⟨h, h'⟩ | h)
        · exact absurd ⟨h', h⟩ h1
        · exact h.elim

theorem Block.malloc_some_full (b : Block) (bytes_in align : Nat) (i : Nat)
    (h : (b.malloc bytes_in align false).ptr = some i) :
    (b.malloc bytes_in align false).bytes_in = roundUp bytes_in align := by
  obtain ⟨e1, e2, e3, e4⟩ := Block.malloc_some b bytes_in align false i h
  have hn : ¬ (b.malloc bytes_in align false).ptr = none := by rw [h]; exact Option.noConfusion
  rw [Block.malloc_none_iff] at hn
  rw [e3]
  have : ¬ (b.cur + roundUp bytes_in align > b.reserveEnd) := fun hc => hn (Or.inl ⟨rfl, hc⟩)
  omega

theorem isChain_nil (bs : List Block) (h : Option Nat) : isChain bs h [] = true ↔ h = none := by
  simp [isChain]

theorem isChain_cons (bs : List Block) (h : Option Nat) (a : Nat) (l : List Nat) :
    isChain bs h (a :: l) = true ↔
      h = some a ∧ ∃ b, bs.get? a = some b ∧ isChain bs b.next l = true := by
  simp only [isChain, Bool.and_eq_true, decide_eq_true_eq]
  cases hb : bs.get? a with
  | none => simp
  | some b => simp

theorem isChain_congr (bs bs' : List Block) : ∀ (l : List Nat) (h : Option Nat),
    (∀ a ∈ l, (bs'.get? a).map Block.next = (bs.get? a).map Block.next) →
    isChain bs' h l = isChain bs h l := by
  intro l
  induction l with
  | nil => intro h _; simp [isChain]
  | cons a l ih =>
    intro h hl
    have ha := hl a (List.mem_cons_self _ _)
    have ih' := fun h' => ih h' (fun x hx => hl x (List.mem_cons_of_mem _ hx))
    simp only [isChain]
    cases hb : bs.get? a with
    | none =>
      rw [hb] at ha
      cases hb' : bs'.get? a with
      | none => rfl
      | some b' => rw [hb'] at ha; simp at ha
    | some b =>
      rw [hb] at ha
      cases hb' : bs'.get? a with
      | none => rw [hb'] at ha; simp at ha
      | some b' =>
        rw [hb'] at ha
        simp only [Option.map_some', Option.some.injEq] at ha
        simp only [ha, ih']

theorem get?_set_ne (bs : List Block) (a x : Nat) (b : Block) (h : x ≠ a) :
    (bs.set a b).get? x = bs.get? x := by
  simp only [List.get?_eq_getElem?]
  exact List.getElem?_set_ne (Ne.symm h)

theorem get?_set_self (bs : List Block) (a : Nat) (b b0 : Block) (h : bs.get? a = some b0) :
    (bs.set a b).get? a = some b := by
  simp only [List.get?_eq_getElem?] at h ⊢
  exact List.getElem?_set_self (List.getElem?_eq_some.1 h).1

theorem isChain_set (bs : List Block) (a : Nat) (b : Block) (l : List Nat) (h : Option Nat)
    (ha : a ∉ l) : isChain (bs.set a b) h l = isChain bs h l := by
  apply isChain_congr
  intro x hx
  rw [get?_set_ne bs a x b (fun e => ha (e ▸ hx))]

theorem isChain_functional (bs : List Block) : ∀ (l1 l2 : List Nat) (h : Option Nat),
    isChain bs h l1 = true → isChain bs h l2 = true → l1 = l2 := by
  intro l1
  induction l1 with
  | nil =>
    intro l2 h h1 h2
    rw [isChain_nil] at h1
    cases l2 with
    | nil => rfl
    | cons a l2 =>
      rw [isChain_cons] at h2
      rw [h1] at h2
      exact Option.noConfusion h2.1
  | cons a l1 ih =>
    intro l2 h h1 h2
    rw [isChain_cons] at h1
    obtain ⟨e1, b, hb, hc⟩ := h1
    cases l2 with
    | nil =>
      rw [isChain_nil] at h2
      rw [h2] at e1
      exact Option.noConfusion e1
    | cons a' l2 =>
      rw [isChain_cons] at h2
      obtain ⟨e2, b', hb', hc'⟩ := h2
      rw [e1] at e2
      simp only [Option.some.injEq] at e2
      subst e2
      rw [hb] at hb'
      simp only [Option.some.injEq] at hb'
      subst hb'
      rw [ih l2 _ hc hc']

theorem isChain_suffix (bs : List Block) : ∀ (l1 l2 : List Nat) (h : Option Nat),
    isChain bs h (l1 ++ l2) = true → ∃ h', isChain bs h' l2 = true := by
  intro l1
  induction l1 with
  | nil => intro l2 h hc; exact ⟨h, hc⟩
  | cons a l1 ih =>
    intro l2 h hc
    rw [List.cons_append, isChain_cons] at hc
    obtain ⟨_, b, _, hc'⟩ := hc
    exact ih l2 _ hc'

theorem isChain_nodup (bs : List Block) : ∀ (l : List Nat) (h : Option Nat),
    isChain bs h l = true → l.Nodup := by
  intro l
  induction l with
  | nil => intro _ _; exact List.nodup_nil
  | cons a l ih =>
    intro h hc
    have hc0 := hc
    rw [isChain_cons] at hc
    obtain ⟨e1, b, hb, hc'⟩ := hc
    refine List.nodup_cons.2 ⟨?_, ih _ hc'⟩
    intro hmem
    obtain ⟨l1, l2, rfl⟩ := List.append_of_mem hmem
    obtain ⟨h', hs⟩ := isChain_suffix bs l1 (a :: l2) _ hc'
    have hs0 := hs
    rw [isChain_cons] at hs
    obtain ⟨e2, b2, hb2, hc2⟩ := hs
    rw [hb] at hb2
    simp only [Option.some.injEq] at hb2
    subst hb2
    have := isChain_functional bs _ _ _ hc' hc2
    have hlen := congrArg List.length this
    simp only [List.length_append, List.length_cons] at hlen
    omega

theorem isChain_lt (bs : List Block) : ∀ (l : List Nat) (h : Option Nat),
    isChain bs h l = true → ∀ a ∈ l, a < bs.length := by
  intro l
  induction l with
  | nil => intro _ _ a ha; simp at ha
  | cons a l ih =>
    intro h hc x hx
    rw [isChain_cons] at hc
    obtain ⟨e1, b, hb, hc'⟩ := hc
    rcases List.mem_cons.1 hx with rfl | hx
    · simp only [List.get?_eq_getElem?] at hb
      exact (List.getElem?_eq_some.1 hb).1
    · exact ih _ hc' x hx

theorem isChain_length_le (bs : List Block) (l : List Nat) (h : Option Nat)
    (hc : isChain bs h l = true) : l.length ≤ bs.length := by
  have hn := isChain_nodup bs l h hc
  have hs : l ⊆ List.range bs.length := fun a ha =>
    List.mem_range.2 (isChain_lt bs l h hc a ha)
  have := (List.subperm_of_subset hn hs).length_le
  simpa using this

theorem SameButNext.refl (bs : List Block) : SameButNext bs bs :=
  ⟨rfl, fun _ b hb => ⟨b, hb, rfl⟩⟩

theorem SameButNext.trans {bs1 bs2 bs3 : List Block} (h1 : SameButNext bs1 bs2)
    (h2 : SameButNext bs2 bs3) : SameButNext bs1 bs3 := by
  refine ⟨h2.1.trans h1.1, fun x b hb => ?_⟩
  obtain ⟨b2, hb2, e2⟩ := h1.2 x b hb
  obtain ⟨b3, hb3, e3⟩ := h2.2 x b2 hb2
  refine ⟨b3, hb3, ?_⟩
  rw [e3, e2]

theorem SameButNext.set (bs : List Block) (a : Nat) (b : Block) (n : Option Nat)
    (hb : bs.get? a = some b) : SameButNext bs (bs.set a { b with next := n }) := by
  refine ⟨List.length_set _ _ _, fun x b0 hb0 => ?_⟩
  by_cases hx : x = a
  · subst hx
    rw [hb] at hb0
    simp only [Option.some.injEq] at hb0
    subst hb0
    exact ⟨_, get?_set_self bs x _ b hb, rfl⟩
  · exact ⟨b0, by rw [get?_set_ne bs a x _ hx]; exact hb0, rfl⟩

theorem SameButNext.shared_eq {bs1 bs2 : List Block} (h : SameButNext bs1 bs2) (a : Nat) :
    isShared bs2 a = isShared bs1 a := by
  unfold isShared
  cases hb : bs1.get? a with
  | none =>
    have : bs2.get? a = none := by
      simp only [List.get?_eq_getElem?] at hb ⊢
      rw [List.getElem?_eq_none_iff] at hb ⊢
      rw [h.1]; exact hb
    rw [this]
  | some b =>
    obtain ⟨b2, hb2, e⟩ := h.2 a b hb
    rw [hb2, e]

theorem Block.removeSharedLoop_spec (sh : Nat → Bool) : ∀ (rest : List Nat) (fuel : Nat)
    (bs : List Block) (head prev block : Option Nat),
    rest.length ≤ fuel → isChain bs block rest = true → rest.Nodup →
    (∀ a ∈ rest, ∀ b, bs.get? a = some b → (b.atype = AllocationType.SHARED ↔ sh a = true)) →
    (prev = none → head = block) →
    (∀ p, prev = some p → p ∉ rest ∧ ∃ pb, bs.get? p = some pb ∧ pb.next = block) →
    ∃ bs' head', Block.removeSharedLoop fuel bs head prev block = some (bs', head') ∧
      SameButNext bs bs' ∧
      (∀ x, x ∉ rest → prev ≠ some x → bs'.get? x = bs.get? x) ∧
      (prev = none → isChain bs' head' (rest.filter (fun a => !sh a)) = true) ∧
      (∀ p, prev = some p → head' = head ∧
        ∃ pb', bs'.get? p = some pb' ∧
          isChain bs' pb'.next (rest.filter (fun a => !sh a)) = true) := by
  intro rest
  induction rest with
  | nil =>
    intro fuel bs head prev block _ hc _ _ hp0 hp1
    rw [isChain_nil] at hc
    subst hc
    refine ⟨bs, head, ?_, SameButNext.refl bs, fun _ _ _ => rfl, ?_, ?_⟩
    · cases fuel <;> rfl
    · intro hp
      rw [hp0 hp]
      simp [isChain]
    · intro p hp
      obtain ⟨_, pb, hpb, hn⟩ := hp1 p hp
      exact ⟨rfl, pb, hpb, by rw [hn]; simp [isChain]⟩
  | cons a rest ih =>
    intro fuel bs head prev block hf hc hnd hsh hp0 hp1
    rw [isChain_cons] at hc
    obtain ⟨hblock, b, hb, hc'⟩ := hc
    subst hblock
    obtain ⟨hanot, hnd'⟩ := List.nodup_cons.1 hnd
    cases fuel with
    | zero => simp at hf
    | succ fuel =>
      have hf' : rest.length ≤ fuel := by simpa using hf
      have hsh' : ∀ x ∈ rest, ∀ b, bs.get? x = some b →
          (b.atype = AllocationType.SHARED ↔ sh x = true) :=
        fun x hx => hsh x (List.mem_cons_of_mem _ hx)
      have hsa := hsh a (List.mem_cons_self _ _) b hb
      by_cases hshared : b.atype = AllocationType.SHARED
      · have hfa : sh a = true := hsa.1 hshared
        have hfilter : (a :: rest).filter (fun a => !sh a) = rest.filter (fun a => !sh a) := by
          simp [List.filter_cons, hfa]
        rw [hfilter]
        cases prev with
        | none =>
          obtain ⟨bs', head', e, s1, s2, s3, _⟩ := ih fuel bs b.next none b.next hf' hc' hnd' hsh'
            (fun _ => rfl) (fun p hp => Option.noConfusion hp)
          refine ⟨bs', head', ?_, s1, ?_, fun _ => s3 rfl, fun p hp => Option.noConfusion hp⟩
          · simp only [Block.removeSharedLoop, hb, if_pos hshared]
            exact e
          · intro x hx hx'
            exact s2 x (fun h => hx (List.mem_cons_of_mem _ h)) hx'
        | some p =>
          obtain ⟨hpn, pb, hpb, hpnext⟩ := hp1 p rfl
          have hpa : p ≠ a := fun e => hpn (e ▸ List.mem_cons_self _ _)
          have hpr : p ∉ rest := fun h => hpn (List.mem_cons_of_mem _ h)
          obtain ⟨bs', head', e, s1, s2, _, s4⟩ := ih fuel (bs.set p { pb with next := b.next })
            head (some p) b.next hf'
            (by rw [isChain_set bs p _ rest _ hpr]; exact hc') hnd'
            (fun x hx b0 hb0 => by
              have hxp : x ≠ p := fun e => hpr (e ▸ hx)
              rw [get?_set_ne bs p x _ hxp] at hb0
              exact hsh' x hx b0 hb0)
            (fun hp => Option.noConfusion hp)
            (fun p' hp' => by
              simp only [Option.some.injEq] at hp'
              subst hp'
              exact ⟨hpr, _, get?_set_self bs p _ pb hpb, rfl⟩)
          refine ⟨bs', head', ?_, (SameButNext.set bs p pb b.next hpb).trans s1, ?_,
            fun hp => Option.noConfusion hp, ?_⟩
          · simp only [Block.removeSharedLoop, hb, if_pos hshared, hpb]
            exact e
          · intro x hx hx'
            have hxp : x ≠ p := fun e => hx' (by rw [e])
            rw [s2 x (fun h => hx (List.mem_cons_of_mem _ h)) hx', get?_set_ne bs p x _ hxp]
          · intro p' hp'
            simp only [Option.some.injEq] at hp'
            subst hp'
            exact s4 p rfl
      · have hfa : sh a = false := by
          cases hs : sh a with
          | false => rfl
          | true => exact absurd (hsa.2 hs) hshared
        have hfilter : (a :: rest).filter (fun a => !sh a) =
            a :: rest.filter (fun a => !sh a) := by
          simp [List.filter_cons, hfa]
        rw [hfilter]
        obtain ⟨bs', head', e, s1, s2, _, s4⟩ := ih fuel bs head (some a) b.next hf' hc' hnd' hsh'
          (fun hp => Option.noConfusion hp)
          (fun p' hp' => by
            simp only [Option.some.injEq] at hp'
            subst hp'
            exact ⟨hanot, b, hb, rfl⟩)
        obtain ⟨hh, ab', hab', hchain⟩ := s4 a rfl
        refine ⟨bs', head', ?_, s1, ?_, ?_, ?_⟩
        · simp only [Block.removeSharedLoop, hb, if_neg hshared]
          exact e
        · intro x hx hx'
          have hxa : x ≠ a := fun e => hx (e ▸ List.mem_cons_self _ _)
          exact s2 x (fun h => hx (List.mem_cons_of_mem _ h))
            (fun e => hxa (by simp only [Option.some.injEq] at e; exact e.symm))
        · intro hp
          rw [isChain_cons]
          exact ⟨by rw [hh, hp0 hp], ab', hab', hchain⟩
        · intro p hp
          obtain ⟨hpn, pb, hpb, hpnext⟩ := hp1 p hp
          have hpa : p ≠ a := fun e => hpn (e ▸ List.mem_cons_self _ _)
          have hpr : p ∉ rest := fun h => hpn (List.mem_cons_of_mem _ h)
          refine ⟨hh, pb, ?_, ?_⟩
          · rw [s2 p hpr (fun e => hpa (by simp only [Option.some.injEq] at e; exact e.symm))]
            exact hpb
          · rw [hpnext, isChain_cons]
            exact ⟨rfl, ab', hab', hchain⟩

theorem Block.remove_shared_blocks_spec (bs : List Block) (head : Option Nat) (l : List Nat)
    (hc : isChain bs head l = true) :
    ∃ bs' head', Block.remove_shared_blocks bs head = some (bs', head') ∧ SameButNext bs bs' ∧
      (∀ x, x ∉ l → bs'.get? x = bs.get? x) ∧
      isChain bs' head' (l.filter (fun a => !isShared bs a)) = true := by
  obtain ⟨bs', head', e, s1, s2, s3, _⟩ := Block.removeSharedLoop_spec (isShared bs) l bs.length
    bs head none head (isChain_length_le bs l head hc) hc (isChain_nodup bs l head hc)
    (fun a _ b hb => by unfold isShared; rw [hb]; simp)
    (fun _ => rfl) (fun p hp => Option.noConfusion hp)
  exact ⟨bs', head', e, s1, fun x hx => s2 x hx (fun h => Option.noConfusion h), s3 rfl⟩

/-! ## internal_fix_used_blocks and reset -/

theorem store_store {α : Type} (tbl : Nat → α) (i : Nat) (v w : α) :
    store (store tbl i v) i w = store tbl i w := by
  funext k
  simp only [store]
  split <;> rfl

theorem FastAllocator.fixLoop_spec (i : Nat) : ∀ (lt : List Nat) (fuel : Nat)
    (fa : FastAllocator) (lu : List Nat),
    lt.length ≤ fuel → isChain fa.blocks (fa.threadBlocks i) lt = true →
    isChain fa.blocks fa.usedBlocks lu = true → (∀ x, x ∈ lt → x ∉ lu) →
    ∃ fa', FastAllocator.fixLoop i fuel fa = some fa' ∧
      fa'.threadBlocks = store fa.threadBlocks i none ∧
      isChain fa'.blocks fa'.usedBlocks (lt.reverse ++ lu) = true ∧
      SameButNext fa.blocks fa'.blocks ∧
      (∀ x, x ∉ lt → fa'.blocks.get? x = fa.blocks.get? x) ∧
      fa' = { fa with blocks := fa'.blocks, usedBlocks := fa'.usedBlocks,
                      threadBlocks := fa'.threadBlocks } := by
  intro lt
  induction lt with
  | nil =>
    intro fuel fa lu _ hc hu _
    rw [isChain_nil] at hc
    refine ⟨fa, ?_, ?_, by simpa using hu, SameButNext.refl _, fun _ _ => rfl, rfl⟩
    · cases fuel <;> simp [FastAllocator.fixLoop, hc]
    · funext k
      simp only [store]
      split
      · rename_i h; rw [h, hc]
      · rfl
  | cons a lt ih =>
    intro fuel fa lu hf hc hu hd
    have hnd := isChain_nodup _ _ _ hc
    obtain ⟨hanot, _⟩ := List.nodup_cons.1 hnd
    rw [isChain_cons] at hc
    obtain ⟨hhead, b, hb, hc'⟩ := hc
    cases fuel with
    | zero => simp at hf
    | succ fuel =>
      have hau : a ∉ lu := hd a (List.mem_cons_self _ _)
      obtain ⟨fa', e, t1, t2, t3, t4, t5⟩ := ih fuel
        { fa with blocks := fa.blocks.set a { b with next := fa.usedBlocks },
                  usedBlocks := some a,
                  threadBlocks := store fa.threadBlocks i b.next }
        (a :: lu) (by simpa using hf)
        (by
          show isChain (fa.blocks.set a _) (store fa.threadBlocks i b.next i) lt = true
          rw [isChain_set _ _ _ _ _ hanot]
          simpa [store] using hc')
        (by
          show isChain (fa.blocks.set a _) (some a) (a :: lu) = true
          rw [isChain_cons]
          refine ⟨rfl, _, get?_set_self fa.blocks a _ b hb, ?_⟩
          show isChain (fa.blocks.set a _) fa.usedBlocks lu = true
          rw [isChain_set _ _ _ _ _ hau]
          exact hu)
        (by
          intro x hx hx'
          rcases List.mem_cons.1 hx' with h | h
          · exact hanot (h ▸ hx)
          · exact hd x (List.mem_cons_of_mem _ hx) h)
      refine ⟨fa', ?_, ?_, ?_, ?_, ?_, ?_⟩
      · simp only [FastAllocator.fixLoop, hhead, hb]
        exact e
      · rw [t1]
        exact store_store _ _ _ _
      · simpa using t2
      · exact (SameButNext.set fa.blocks a b fa.usedBlocks hb).trans t3
      · intro x hx
        have hxa : x ≠ a := fun e => hx (e ▸ List.mem_cons_self _ _)
        rw [t4 x (fun h => hx (List.mem_cons_of_mem _ h))]
        exact get?_set_ne fa.blocks a x _ hxa
      · rw [t5]

theorem FastAllocator.resetLoop_spec : ∀ (lu : List Nat) (fuel : Nat) (fa : FastAllocator)
    (lf : List Nat),
    lu.length ≤ fuel → isChain fa.blocks fa.usedBlocks lu = true →
    isChain fa.blocks fa.freeBlocks lf = true → (∀ x, x ∈ lu → x ∉ lf) →
    ∃ fa', FastAllocator.resetLoop fuel fa = some fa' ∧ fa'.usedBlocks = none ∧
      isChain fa'.blocks fa'.freeBlocks (lu.reverse ++ lf) = true ∧
      fa'.blocks.length = fa.blocks.length ∧
      (∀ x, x ∉ lu → fa'.blocks.get? x = fa.blocks.get? x) ∧
      (∀ x ∈ lu, ∀ b, fa.blocks.get? x = some b →
        ∃ b', fa'.blocks.get? x = some b' ∧ b' = { b.reset_block with next := b'.next }) ∧
      fa' = { fa with blocks := fa'.blocks, usedBlocks := none,
                      freeBlocks := fa'.freeBlocks } := by
  intro lu
  induction lu with
  | nil =>
    intro fuel fa lf _ hc hfree _
    rw [isChain_nil] at hc
    refine ⟨fa, ?_, hc, by simpa using hfree, rfl, fun _ _ => rfl,
      fun x hx => absurd hx (List.not_mem_nil _), ?_⟩
    · cases fuel <;> simp [FastAllocator.resetLoop, hc]
    · rw [← hc]
  | cons a lu ih =>
    intro fuel fa lf hf hc hfree hd
    have hnd := isChain_nodup _ _ _ hc
    obtain ⟨hanot, _⟩ := List.nodup_cons.1 hnd
    rw [isChain_cons] at hc
    obtain ⟨hhead, b, hb, hc'⟩ := hc
    cases fuel with
    | zero => simp at hf
    | succ fuel =>
      have haf : a ∉ lf := hd a (List.mem_cons_self _ _)
      obtain ⟨fa', e, t1, t2, t3, t4, t5, t6⟩ := ih fuel
        { fa with blocks := fa.blocks.set a { b.reset_block with next := fa.freeBlocks },
                  freeBlocks := some a,
                  usedBlocks := b.reset_block.next }
        (a :: lf) (by simpa using hf)
        (by
          show isChain (fa.blocks.set a _) b.reset_block.next lu = true
          rw [isChain_set _ _ _ _ _ hanot]
          exact hc')
        (by
          show isChain (fa.blocks.set a _) (some a) (a :: lf) = true
          rw [isChain_cons]
          refine ⟨rfl, _, get?_set_self fa.blocks a _ b hb, ?_⟩
          show isChain (fa.blocks.set a _) fa.freeBlocks lf = true
          rw [isChain_set _ _ _ _ _ haf]
          exact hfree)
        (by
          intro x hx hx'
          rcases List.mem_cons.1 hx' with h | h
          · exact hanot (h ▸ hx)
          · exact hd x (List.mem_cons_of_mem _ hx) h)
      refine ⟨fa', ?_, t1, by simpa using t2, ?_, ?_, ?_, ?_⟩
      · simp only [FastAllocator.resetLoop, hhead, hb]
        exact e
      · rw [t3]
        exact List.length_set _ _ _
      · intro x hx
        have hxa : x ≠ a := fun e => hx (e ▸ List.mem_cons_self _ _)
        rw [t4 x (fun h => hx (List.mem_cons_of_mem _ h))]
        exact get?_set_ne fa.blocks a x _ hxa
      · intro x hx b0 hb0
        rcases List.mem_cons.1 hx with h | h
        · subst h
          rw [hb] at hb0
          simp only [Option.some.injEq] at hb0
          subst hb0
          refine ⟨{ b.reset_block with next := fa.freeBlocks }, ?_, rfl⟩
          rw [t4 x hanot]
          exact get?_set_self fa.blocks x _ b hb
        · have hxa : x ≠ a := fun e => hanot (e ▸ h)
          exact t5 x h b0 (by
            show (fa.blocks.set a _).get? x = some b0
            rw [get?_set_ne fa.blocks a x _ hxa]; exact hb0)
      · rw [t6]

theorem mem_usedAfterFix (lt : Nat → List Nat) (lu : List Nat) (x : Nat) : ∀ n,
    x ∈ usedAfterFix lt lu n ↔ x ∈ lu ∨ ∃ i, i < n ∧ x ∈ lt i := by
  intro n
  induction n with
  | zero => simp [usedAfterFix]
  | succ n ih =>
    simp only [usedAfterFix, List.mem_append, List.mem_reverse, ih]
    constructor
    · rintro (h | h | ⟨i, hi, h⟩)
      · exact Or.inr ⟨n, Nat.lt_succ_self n, h⟩
      · exact Or.inl h
      · exact Or.inr ⟨i, Nat.lt_succ_of_lt hi, h⟩
    · rintro (h | ⟨i, hi, h⟩)
      · exact Or.inr (Or.inl h)
      · rcases Nat.lt_succ_iff_lt_or_eq.1 hi with h' | h'
        · exact Or.inr (Or.inr ⟨i, h', h⟩)
        · subst h'; exact Or.inl h

theorem isChain_frame (bs bs' : List Block) (l : List Nat) (h : Option Nat)
    (hf : ∀ x ∈ l, bs'.get? x = bs.get? x) : isChain bs' h l = isChain bs h l :=
  isChain_congr bs bs' l h (fun a ha => by rw [hf a ha])

theorem FastAllocator.fixSlots_spec (lt : Nat → List Nat) (lu lf : List Nat)
    (fa : FastAllocator) (ok : fa.ListsOK lt lu lf) :
    ∀ n, n ≤ MAX_THREAD_USED_BLOCK_SLOTS →
    ∃ fa', (List.range n).foldlM FastAllocator.fixSlot fa = some fa' ∧
      (∀ i, i < n → fa'.threadBlocks i = none) ∧
      (∀ i, ¬ i < n → fa'.threadBlocks i = fa.threadBlocks i) ∧
      isChain fa'.blocks fa'.usedBlocks (usedAfterFix lt lu n) = true ∧
      SameButNext fa.blocks fa'.blocks ∧
      (∀ x, (∀ i, i < n → x ∉ lt i) → fa'.blocks.get? x = fa.blocks.get? x) ∧
      fa' = { fa with blocks := fa'.blocks, usedBlocks := fa'.usedBlocks,
                      threadBlocks := fa'.threadBlocks } := by
  intro n
  induction n with
  | zero =>
    intro _
    exact ⟨fa, rfl, fun i hi => absurd hi (Nat.not_lt_zero i), fun _ _ => rfl, ok.used,
      SameButNext.refl _, fun _ _ => rfl, rfl⟩
  | succ n ih =>
    intro hn
    obtain ⟨fa1, e1, a1, a2, a3, a4, a5, a6⟩ := ih (Nat.le_of_succ_le hn)
    have hn' : n < MAX_THREAD_USED_BLOCK_SLOTS := hn
    have hframe : ∀ (l : List Nat) (h : Option Nat), (∀ x ∈ l, ∀ i, i < n → x ∉ lt i) →
        isChain fa1.blocks h l = isChain fa.blocks h l :=
      fun l h hl => isChain_frame _ _ l h (fun x hx => a5 x (hl x hx))
    have hchain : isChain fa1.blocks (fa1.threadBlocks n) (lt n) = true := by
      rw [a2 n (Nat.lt_irrefl n), hframe]
      · exact ok.thread n hn'
      · intro x hx i hi
        exact ok.thread_thread n i hn' (Nat.lt_trans hi hn') (Nat.ne_of_gt hi) x hx
    obtain ⟨fa2, e2, b1, b2, b3, b4, b5⟩ := FastAllocator.fixLoop_spec n (lt n) fa1.blocks.length
      fa1 (usedAfterFix lt lu n) (isChain_length_le _ _ _ hchain) hchain a3
      (by
        intro x hx hx'
        rcases (mem_usedAfterFix lt lu x n).1 hx' with h | ⟨i, hi, h⟩
        · exact ok.thread_used n hn' x hx h
        · exact ok.thread_thread n i hn' (Nat.lt_trans hi hn') (Nat.ne_of_gt hi) x hx h)
    refine ⟨{ fa2 with threadBlocks := store fa2.threadBlocks n none }, ?_, ?_, ?_, ?_, ?_, ?_, ?_⟩
    · rw [List.range_succ, List.foldlM_append, e1]
      simp only [List.foldlM_cons, List.foldlM_nil, Option.some_bind, Option.pure_def,
        Option.bind_eq_bind, FastAllocator.fixSlot, e2, Option.map_some', Option.bind_some]
    · intro i hi
      show store fa2.threadBlocks n none i = none
      rw [b1]
      simp only [store]
      split
      · rfl
      · rename_i h1
        exact a1 i (by omega)
    · intro i hi
      show store fa2.threadBlocks n none i = fa.threadBlocks i
      rw [b1]
      have hin : i ≠ n := fun e => hi (e ▸ Nat.lt_succ_self n)
      simp only [store, if_neg hin]
      exact a2 i (fun h => hi (Nat.lt_succ_of_lt h))
    · exact b2
    · exact a4.trans b3
    · intro x hx
      show fa2.blocks.get? x = fa.blocks.get? x
      rw [b4 x (hx n (Nat.lt_succ_self n)), a5 x (fun i hi => hx i (Nat.lt_succ_of_lt hi))]
    · rw [b5, a6]

theorem FastAllocator.internal_fix_used_blocks_spec (lt : Nat → List Nat) (lu lf : List Nat)
    (fa : FastAllocator) (ok : fa.ListsOK lt lu lf) :
    ∃ fa', fa.internal_fix_used_blocks = some fa' ∧
      (∀ i, i < MAX_THREAD_USED_BLOCK_SLOTS → fa'.threadBlocks i = none) ∧
      (∀ i, ¬ i < MAX_THREAD_USED_BLOCK_SLOTS → fa'.threadBlocks i = fa.threadBlocks i) ∧
      isChain fa'.blocks fa'.usedBlocks (usedAfterFix lt lu MAX_THREAD_USED_BLOCK_SLOTS) = true ∧
      isChain fa'.blocks fa'.freeBlocks lf = true ∧
      SameButNext fa.blocks fa'.blocks ∧
      (∀ x, (∀ i, i < MAX_THREAD_USED_BLOCK_SLOTS → x ∉ lt i) →
        fa'.blocks.get? x = fa.blocks.get? x) ∧
      fa' = { fa with blocks := fa'.blocks, usedBlocks := fa'.usedBlocks,
                      threadBlocks := fa'.threadBlocks } := by
  obtain ⟨fa', e, a1, a2, a3, a4, a5, a6⟩ := FastAllocator.fixSlots_spec lt lu lf fa ok
    MAX_THREAD_USED_BLOCK_SLOTS (Nat.le_refl _)
  refine ⟨fa', e, a1, a2, a3, ?_, a4, a5, a6⟩
  have hfree : fa'.freeBlocks = fa.freeBlocks := by rw [a6]
  rw [hfree, isChain_frame fa.blocks fa'.blocks lf _
    (fun x hx => a5 x (fun i hi hx' => ok.thread_free i hi x hx' hx))]
  exact ok.free

theorem FastAllocator.clearSlots_fold (fa : FastAllocator) : ∀ n,
    ((List.range n).foldl
      (fun fa i => { fa with threadUsedBlocks := store fa.threadUsedBlocks i none,
                             threadBlocks := store fa.threadBlocks i none }) fa) =
    { fa with threadUsedBlocks := fun i => if i < n then none else fa.threadUsedBlocks i,
              threadBlocks := fun i => if i < n then none else fa.threadBlocks i } := by
  intro n
  induction n with
  | zero => simp
  | succ n ih =>
    rw [List.range_succ, List.foldl_append, ih]
    simp only [List.foldl_cons, List.foldl_nil]
    congr 1
    · funext i
      simp only [store]
      by_cases h1 : i = n
      · simp [h1]
      · by_cases h2 : i < n
        · have : i < n + 1 := by omega
          simp [h1, h2, this]
        · have : ¬ i < n + 1 := by omega
          simp [h1, h2, this]
    · funext i
      simp only [store]
      by_cases h1 : i = n
      · simp [h1]
      · by_cases h2 : i < n
        · have : i < n + 1 := by omega
          simp [h1, h2, this]
        · have : ¬ i < n + 1 := by omega
          simp [h1, h2, this]

theorem FastAllocator.clearSlots_eq (fa : FastAllocator) :
    fa.clearSlots =
    { fa with threadUsedBlocks := fun i =>
                if i < MAX_THREAD_USED_BLOCK_SLOTS then none else fa.threadUsedBlocks i,
              threadBlocks := fun i =>
                if i < MAX_THREAD_USED_BLOCK_SLOTS then none else fa.threadBlocks i } :=
  FastAllocator.clearSlots_fold fa MAX_THREAD_USED_BLOCK_SLOTS

theorem FastAllocator.reset_spec (lt : Nat → List Nat) (lu lf : List Nat)
    (fa : FastAllocator) (ok : fa.ListsOK lt lu lf) :
    ∃ fa', fa.reset = some fa' ∧
      fa'.usedBlocks = none ∧
      (∀ i, i < MAX_THREAD_USED_BLOCK_SLOTS →
        fa'.threadUsedBlocks i = none ∧ fa'.threadBlocks i = none) ∧
      fa'.bytesUsed = 0 ∧ fa'.bytesWasted = 0 ∧
      isChain fa'.blocks fa'.freeBlocks
        (((usedAfterFix lt lu MAX_THREAD_USED_BLOCK_SLOTS).reverse ++ lf).filter
          (fun a => !isShared fa.blocks a)) = true ∧
      fa'.blocks.length = fa.blocks.length ∧
      (∀ x b, fa.blocks.get? x = some b → ∃ b', fa'.blocks.get? x = some b' ∧
        b' = { (if x ∈ usedAfterFix lt lu MAX_THREAD_USED_BLOCK_SLOTS then b.reset_block else b)
               with next := b'.next }) ∧
      fa'.slotMask = fa.slotMask ∧ fa'.growSize = fa.growSize ∧ fa'.atype = fa.atype ∧
      fa'.defaultBlockSize = fa.defaultBlockSize ∧
      fa'.log2_grow_size_scale = fa.log2_grow_size_scale ∧
      fa'.use_single_mode = fa.use_single_mode ∧
      fa'.thread_local_allocators2 = fa.thread_local_allocators2.map ThreadLocal2.reset := by
  obtain ⟨fa1, e1, a1, a2, a3, a4, a5, a6, a7⟩ :=
    FastAllocator.internal_fix_used_blocks_spec lt lu lf fa ok
  have hdis : ∀ x, x ∈ usedAfterFix lt lu MAX_THREAD_USED_BLOCK_SLOTS → x ∉ lf := by
    intro x hx
    rcases (mem_usedAfterFix lt lu x _).1 hx with h | ⟨i, hi, h⟩
    · exact ok.used_free x h
    · exact ok.thread_free i hi x h
  obtain ⟨fa3, e3, b1, b2, b3, b4, b5, b6⟩ := FastAllocator.resetLoop_spec
    (usedAfterFix lt lu MAX_THREAD_USED_BLOCK_SLOTS) fa1.blocks.length
    { fa1 with bytesUsed := 0, bytesWasted := 0 } lf
    (isChain_length_le _ _ _ a3) a3 a4 hdis
  obtain ⟨bs4, head4, e4, c1, c2, c3⟩ := Block.remove_shared_blocks_spec fa3.blocks fa3.freeBlocks
    _ b2
  have hblocks : ∀ x b, fa.blocks.get? x = some b → ∃ b', bs4.get? x = some b' ∧
      b' = { (if x ∈ usedAfterFix lt lu MAX_THREAD_USED_BLOCK_SLOTS then b.reset_block else b)
             with next := b'.next } := by
    intro x b hb
    obtain ⟨b1', hb1, eb1⟩ := a5.2 x b hb
    by_cases hx : x ∈ usedAfterFix lt lu MAX_THREAD_USED_BLOCK_SLOTS
    · obtain ⟨b3', hb3, eb3⟩ := b5 x hx b1' hb1
      obtain ⟨b4', hb4, eb4⟩ := c1.2 x b3' hb3
      refine ⟨b4', hb4, ?_⟩
      rw [if_pos hx, eb4, eb3, eb1]
      rfl
    · have hb3 : fa3.blocks.get? x = some b1' := by rw [b4 x hx]; exact hb1
      obtain ⟨b4', hb4, eb4⟩ := c1.2 x b1' hb3
      refine ⟨b4', hb4, ?_⟩
      rw [if_neg hx, eb4, eb1]
  have hshared : ∀ a, isShared fa3.blocks a = isShared fa.blocks a := by
    intro a
    unfold isShared
    cases hb : fa.blocks.get? a with
    | none =>
      have : fa3.blocks.get? a = none := by
        simp only [List.get?_eq_getElem?] at hb ⊢
        rw [List.getElem?_eq_none_iff] at hb ⊢
        rw [b3]
        show fa1.blocks.length ≤ a
        rw [a5.1]; exact hb
      rw [this]
    | some b =>
      obtain ⟨b1', hb1, eb1⟩ := a5.2 a b hb
      by_cases hx : a ∈ usedAfterFix lt lu MAX_THREAD_USED_BLOCK_SLOTS
      · obtain ⟨b3', hb3, eb3⟩ := b5 a hx b1' hb1
        rw [hb3, eb3, eb1]
        rfl
      · have hb3 : fa3.blocks.get? a = some b1' := by rw [b4 a hx]; exact hb1
        rw [hb3, eb1]
  have hfilter : ((usedAfterFix lt lu MAX_THREAD_USED_BLOCK_SLOTS).reverse ++ lf).filter
      (fun a => !isShared fa3.blocks a) =
      ((usedAfterFix lt lu MAX_THREAD_USED_BLOCK_SLOTS).reverse ++ lf).filter
      (fun a => !isShared fa.blocks a) := by
    congr 1
    funext a
    rw [hshared a]
  rw [hfilter] at c3
  have hreset : fa.reset = some
      { ({ fa3 with blocks := bs4, freeBlocks := head4 } : FastAllocator).clearSlots with
        thread_local_allocators2 :=
          ({ fa3 with blocks := bs4, freeBlocks := head4 } :
            FastAllocator).clearSlots.thread_local_allocators2.map ThreadLocal2.reset } := by
    simp only [FastAllocator.reset, e1, e3, e4]
  refine ⟨_, hreset, ?_⟩
  rw [FastAllocator.clearSlots_eq]
  have h3 := b6
  refine ⟨b1, ?_, ?_, ?_, c3, ?_, hblocks, ?_, ?_, ?_, ?_, ?_, ?_, ?_⟩
  · intro i hi
    exact ⟨if_pos hi, if_pos hi⟩
  · show fa3.bytesUsed = 0
    rw [h3]
  · show fa3.bytesWasted = 0
    rw [h3]
  · show bs4.length = fa.blocks.length
    rw [c1.1, b3]
    exact a5.1
  · show fa3.slotMask = fa.slotMask
    rw [h3]; show fa1.slotMask = _; rw [a7]
  · show fa3.growSize = fa.growSize
    rw [h3]; show fa1.growSize = _; rw [a7]
  · show fa3.atype = fa.atype
    rw [h3]; show fa1.atype = _; rw [a7]
  · show fa3.defaultBlockSize = fa.defaultBlockSize
    rw [h3]; show fa1.defaultBlockSize = _; rw [a7]
  · show fa3.log2_grow_size_scale = fa.log2_grow_size_scale
    rw [h3]; show fa1.log2_grow_size_scale = _; rw [a7]
  · show fa3.use_single_mode = fa.use_single_mode
    rw [h3]; show fa1.use_single_mode = _; rw [a7]
  · show fa3.thread_local_allocators2.map ThreadLocal2.reset = _
    rw [h3]; show fa1.thread_local_allocators2.map _ = _; rw [a7]

theorem examplePool_lists : examplePool.ListsOK exampleThreadLists [2, 3] [0, 1] where
  thread := by decide
  used := by decide
  free := by decide
  thread_thread := by
    intro i j _ _ hij x hx hx'
    unfold exampleThreadLists at hx hx'
    by_cases hi : i = 0
    · by_cases hj : j = 0
      · omega
      · simp [hj] at hx'
    · simp [hi] at hx
  thread_used := by
    intro i _ x hx
    unfold exampleThreadLists at hx
    by_cases hi : i = 0
    · simp [hi] at hx; subst hx; decide
    · simp [hi] at hx
  thread_free := by
    intro i _ x hx
    unfold exampleThreadLists at hx
    by_cases hi : i = 0
    · simp [hi] at hx; subst hx; decide
    · simp [hi] at hx
  used_free := by decide

/-- C19: for every block list `head -> ... -> nullptr` (the blocks `l`, in order),
`Block::remove_shared_blocks(head)` returns the head of the list of exactly the blocks of
`l` whose type is not `SHARED`, in their original order: a sublist of `l`, whatever the
positions of the shared blocks. It changes only `next` members of blocks of `l`.
Consequently, after `reset()` the list `freeBlocks` contains no block of type
`SHARED`. -/
theorem remove_shared_blocks_sublist (blocks : List Block) (head : Option Nat) (l : List Nat)
    (fa : FastAllocator) (lt : Nat → List Nat) (lu lf : List Nat)
    (hc : isChain blocks head l = true) (ok : fa.ListsOK lt lu lf) :
    (∃ blocks2 head2, Block.remove_shared_blocks blocks head = some (blocks2, head2) ∧
      isChain blocks2 head2 (l.filter (fun a => !isShared blocks a)) = true ∧
      (l.filter (fun a => !isShared blocks a)).Sublist l ∧
      (∀ a, a ∈ l.filter (fun a => !isShared blocks a) ↔ a ∈ l ∧ isShared blocks a = false) ∧
      (∀ a, a ∈ l.filter (fun a => !isShared blocks a) → isShared blocks2 a = false) ∧
      SameButNext blocks blocks2 ∧ (∀ x, x ∉ l → blocks2.get? x = blocks.get? x)) ∧
    (∃ fa2 lf2, fa.reset = some fa2 ∧ isChain fa2.blocks fa2.freeBlocks lf2 = true ∧
      ∀ a, a ∈ lf2 → isShared fa2.blocks a = false) := by
  constructor
  · obtain ⟨bs', head', e, s1, s2, s3⟩ := Block.remove_shared_blocks_spec blocks head l hc
    refine ⟨bs', head', e, s3, List.filter_sublist l, ?_, ?_, s1, s2⟩
    · intro a
      simp [List.mem_filter]
    · intro a ha
      rw [s1.shared_eq a]
      simpa using (List.mem_filter.1 ha).2
  · obtain ⟨fa', e, _, _, _, _, hchain, hlen, hblk, _⟩ := FastAllocator.reset_spec lt lu lf fa ok
    refine ⟨fa', _, e, hchain, ?_⟩
    intro a ha
    have hns : isShared fa.blocks a = false := by simpa using (List.mem_filter.1 ha).2
    unfold isShared at hns ⊢
    cases hb : fa.blocks.get? a with
    | none =>
      have : fa'.blocks.get? a = none := by
        simp only [List.get?_eq_getElem?] at hb ⊢
        rw [List.getElem?_eq_none_iff] at hb ⊢
        rw [hlen]; exact hb
      rw [this]
    | some b =>
      rw [hb] at hns
      obtain ⟨b', hb', eb⟩ := hblk a b hb
      have hat : b'.atype = b.atype := by
        rw [eb]
        by_cases hx : a ∈ usedAfterFix lt lu MAX_THREAD_USED_BLOCK_SLOTS
        · simp [hx, Block.reset_block]
        · simp [hx]
      rw [hb']
      simpa [hat] using hns

/-- Witness of C19: the list `0 -> 1 -> 2 -> 3 -> 4 -> 5` of `exampleBlocks`, which
starts and ends with a shared block and has two consecutive shared blocks in the middle:
the returned list is `1 -> 4`. -/
theorem remove_shared_blocks_sublist_witness :
    isChain exampleBlocks (some 0) [0, 1, 2, 3, 4, 5] = true ∧
    examplePool.ListsOK exampleThreadLists [2, 3] [0, 1] ∧
    ∃ blocks2 head2, Block.remove_shared_blocks exampleBlocks (some 0) = some (blocks2, head2) ∧
      isChain blocks2 head2 [1, 4] = true :=
  ⟨by decide, examplePool_lists,
    match (remove_shared_blocks_sublist exampleBlocks (some 0) [0, 1, 2, 3, 4, 5] examplePool
      exampleThreadLists [2, 3] [0, 1] (by decide) examplePool_lists).1 with
    | ⟨blocks2, head2, h1, h2, _⟩ => ⟨blocks2, head2, h1, h2⟩⟩

/-- C17: for every allocator whose block lists are `lt i` (slot `i`), `lu` (used) and
`lf` (free), `reset()` returns and afterwards: `usedBlocks` is `nullptr`, every
`threadUsedBlocks[i]` and `threadBlocks[i]` is `nullptr`, `bytesUsed = bytesWasted = 0`,
and the list `freeBlocks` holds, each exactly once, the blocks of the three kinds of list
whose type is not `SHARED`. Those that came from the used list or a slot list have
`cur = 0` (and `allocEnd` raised to the former cursor), those that were free keep their
cursor; no block object is created or destroyed and every block keeps `reserveEnd`,
`wasted`, `atype` and `huge_pages`. The `ThreadLocal2` objects are reset. -/
theorem reset_moves_used_to_free (fa : FastAllocator) (lt : Nat → List Nat) (lu lf : List Nat)
    (ok : fa.ListsOK lt lu lf) :
    ∃ fa2 lf2, fa.reset = some fa2 ∧
      fa2.usedBlocks = none ∧
      (∀ i, i < MAX_THREAD_USED_BLOCK_SLOTS →
        fa2.threadUsedBlocks i = none ∧ fa2.threadBlocks i = none) ∧
      fa2.bytesUsed = 0 ∧ fa2.bytesWasted = 0 ∧
      isChain fa2.blocks fa2.freeBlocks lf2 = true ∧ lf2.Nodup ∧
      (∀ x, x ∈ lf2 ↔
        (x ∈ lu ∨ (∃ i, i < MAX_THREAD_USED_BLOCK_SLOTS ∧ x ∈ lt i) ∨ x ∈ lf) ∧
          isShared fa.blocks x = false) ∧
      (∀ x b, (x ∈ lu ∨ ∃ i, i < MAX_THREAD_USED_BLOCK_SLOTS ∧ x ∈ lt i) →
        fa.blocks.get? x = some b → b.atype ≠ AllocationType.SHARED →
        x ∈ lf2 ∧ ∃ b2, fa2.blocks.get? x = some b2 ∧ b2.cur = 0 ∧
          b2.allocEnd = max b.allocEnd b.cur ∧ b2.reserveEnd = b.reserveEnd ∧
          b2.wasted = b.wasted ∧ b2.atype = b.atype ∧ b2.huge_pages = b.huge_pages) ∧
      (∀ x b, x ∈ lf → fa.blocks.get? x = some b → b.atype ≠ AllocationType.SHARED →
        x ∈ lf2 ∧ ∃ b2, fa2.blocks.get? x = some b2 ∧ b2.cur = b.cur ∧
          b2.allocEnd = b.allocEnd ∧ b2.reserveEnd = b.reserveEnd ∧
          b2.wasted = b.wasted ∧ b2.atype = b.atype ∧ b2.huge_pages = b.huge_pages) ∧
      fa2.blocks.length = fa.blocks.length ∧
      fa2.thread_local_allocators2 = fa.thread_local_allocators2.map ThreadLocal2.reset := by
  obtain ⟨fa', e, h1, h2, h3, h4, hchain, hlen, hblk, _, _, _, _, _, _, htl⟩ :=
    FastAllocator.reset_spec lt lu lf fa ok
  have hmem : ∀ x, x ∈ ((usedAfterFix lt lu MAX_THREAD_USED_BLOCK_SLOTS).reverse ++ lf).filter
      (fun a => !isShared fa.blocks a) ↔
      (x ∈ lu ∨ (∃ i, i < MAX_THREAD_USED_BLOCK_SLOTS ∧ x ∈ lt i) ∨ x ∈ lf) ∧
        isShared fa.blocks x = false := by
    intro x
    simp only [List.mem_filter, List.mem_append, List.mem_reverse, mem_usedAfterFix,
      Bool.not_eq_true', or_assoc]
  have hsh : ∀ x b, fa.blocks.get? x = some b → b.atype ≠ AllocationType.SHARED →
      isShared fa.blocks x = false := by
    intro x b hb hne
    unfold isShared
    rw [hb]
    simpa using hne
  refine ⟨fa', _, e, h1, h2, h3, h4, hchain, isChain_nodup _ _ _ hchain, hmem, ?_, ?_, hlen, htl⟩
  · intro x b hx hb hne
    refine ⟨(hmem x).2 ⟨?_, hsh x b hb hne⟩, ?_⟩
    · rcases hx with h | h
      · exact Or.inl h
      · exact Or.inr (Or.inl h)
    · obtain ⟨b', hb', eb⟩ := hblk x b hb
      have hx' : x ∈ usedAfterFix lt lu MAX_THREAD_USED_BLOCK_SLOTS :=
        (mem_usedAfterFix lt lu x _).2 hx
      rw [if_pos hx'] at eb
      refine ⟨b', hb', ?_⟩
      rw [eb]
      exact ⟨rfl, rfl, rfl, rfl, rfl, rfl⟩
  · intro x b hx hb hne
    refine ⟨(hmem x).2 ⟨Or.inr (Or.inr hx), hsh x b hb hne⟩, ?_⟩
    obtain ⟨b', hb', eb⟩ := hblk x b hb
    have hx' : x ∉ usedAfterFix lt lu MAX_THREAD_USED_BLOCK_SLOTS := by
      intro h
      rcases (mem_usedAfterFix lt lu x _).1 h with h' | ⟨i, hi, h'⟩
      · exact ok.used_free x h' hx
      · exact ok.thread_free i hi x h' hx
    rw [if_neg hx'] at eb
    refine ⟨b', hb', ?_⟩
    rw [eb]
    exact ⟨rfl, rfl, rfl, rfl, rfl, rfl⟩

/-- Witness of C17: `examplePool`, with the block 4 in the list of slot 0, the blocks 2
and 3 used and the blocks 0 and 1 free, the blocks 1 and 3 shared: after `reset()` the
free list is `2 -> 4 -> 0`. -/
theorem reset_moves_used_to_free_witness :
    examplePool.ListsOK exampleThreadLists [2, 3] [0, 1] ∧
    ∃ fa2, examplePool.reset = some fa2 ∧ fa2.usedBlocks = none ∧
      isChain fa2.blocks fa2.freeBlocks [2, 4, 0] = true :=
  ⟨examplePool_lists,
    match reset_moves_used_to_free examplePool exampleThreadLists [2, 3] [0, 1]
      examplePool_lists with
    | ⟨fa2, lf2, h1, h2, _, _, _, h6, _⟩ =>
      ⟨fa2, h1, h2, by
        have e : examplePool.reset.map (fun fa => isChain fa.blocks fa.freeBlocks [2, 4, 0]) =
            some true := by decide
        rw [h1] at e
        simpa using e⟩⟩

/-! ## clear and shrink -/

theorem Block.clearLoop_spec (device : Bool) (bs : List Block) : ∀ (l : List Nat) (fuel : Nat)
    (head : Option Nat), l.length ≤ fuel → isChain bs head l = true →
    Block.clearLoop device bs fuel head = some (l.flatMap (clearCalls device bs)) := by
  intro l
  induction l with
  | nil =>
    intro fuel head _ hc
    rw [isChain_nil] at hc
    subst hc
    cases fuel <;> rfl
  | cons a l ih =>
    intro fuel head hf hc
    rw [isChain_cons] at hc
    obtain ⟨hhead, b, hb, hc'⟩ := hc
    cases fuel with
    | zero => simp at hf
    | succ fuel =>
      simp only [Block.clearLoop, hhead, hb, ih fuel b.next (by simpa using hf) hc',
        Option.map_some', List.flatMap_cons, clearCalls]

theorem Block.clear_list_spec (device : Bool) (bs : List Block) (l : List Nat)
    (head : Option Nat) (hc : isChain bs head l = true) :
    Block.clear_list device bs head = some (l.flatMap (clearCalls device bs)) :=
  Block.clearLoop_spec device bs l bs.length head (isChain_length_le bs l head hc) hc

theorem clearCalls_block (device : Bool) (bs : List Block) (a : Nat) :
    ∀ c ∈ clearCalls device bs a, c.block = a := by
  intro c hc
  unfold clearCalls at hc
  cases hb : bs.get? a with
  | none => rw [hb] at hc; simp at hc
  | some b =>
    rw [hb] at hc
    simp only [Block.clear_block] at hc
    split at hc
    · cases device <;> simp at hc
      · subst hc; rfl
      · rcases hc with rfl | rfl <;> rfl
    · split at hc
      · cases device <;> simp at hc
        · subst hc; rfl
        · rcases hc with rfl | rfl <;> rfl
      · simp at hc

theorem BackendCall.releases_block (a : Nat) (c : BackendCall) (h : c.releases a = true) :
    c.block = a := by
  cases c <;> simp [BackendCall.releases] at h <;> simpa [BackendCall.block] using h

theorem clearCalls_releases (device : Bool) (bs : List Block) (a : Nat) (b : Block)
    (hb : bs.get? a = some b)
    (ht : b.atype = AllocationType.ALIGNED_MALLOC ∨ b.atype = AllocationType.OS_MALLOC) :
    ((clearCalls device bs a).filter (BackendCall.releases a)).length = 1 := by
  unfold clearCalls
  rw [hb]
  simp only [Block.clear_block]
  rcases ht with h | h
  · rw [if_pos h]
    cases device <;> simp [BackendCall.releases, List.filter_cons]
  · have h' : ¬ b.atype = AllocationType.ALIGNED_MALLOC := by rw [h]; decide
    rw [if_neg h', if_pos h]
    cases device <;> simp [BackendCall.releases, List.filter_cons]

theorem clearCalls_other (device : Bool) (bs : List Block) (a : Nat) (b : Block)
    (hb : bs.get? a = some b)
    (ht : ¬ (b.atype = AllocationType.ALIGNED_MALLOC ∨ b.atype = AllocationType.OS_MALLOC)) :
    clearCalls device bs a = [] := by
  unfold clearCalls
  rw [hb]
  simp only [Block.clear_block]
  rw [if_neg (fun h => ht (Or.inl h)), if_neg (fun h => ht (Or.inr h))]

theorem flatMap_filter_releases (f : Nat → List BackendCall)
    (hf : ∀ x, ∀ c ∈ f x, c.block = x) (a : Nat) : ∀ (l : List Nat), l.Nodup →
    ((l.flatMap f).filter (BackendCall.releases a)).length =
      if a ∈ l then ((f a).filter (BackendCall.releases a)).length else 0 := by
  have hother : ∀ x, x ≠ a → (f x).filter (BackendCall.releases a) = [] := by
    intro x hx
    rw [List.filter_eq_nil_iff]
    intro c hc hr
    exact hx ((hf x c hc).symm.trans (BackendCall.releases_block a c hr))
  intro l
  induction l with
  | nil => intro _; simp
  | cons x l ih =>
    intro hnd
    obtain ⟨hx, hnd'⟩ := List.nodup_cons.1 hnd
    rw [List.flatMap_cons, List.filter_append, List.length_append, ih hnd']
    by_cases hxa : x = a
    · subst hxa
      simp [hx]
    · have : a ∈ x :: l ↔ a ∈ l := by
        simp [List.mem_cons, Ne.symm hxa]
      simp only [this, hother x hxa, List.length_nil, Nat.zero_add]

theorem SameLinks.links_refl (bs : List Block) : SameLinks bs bs :=
  ⟨rfl, fun _ b hb => ⟨b, hb, rfl, rfl, rfl, rfl⟩⟩

theorem SameLinks.links_trans {bs1 bs2 bs3 : List Block} (h1 : SameLinks bs1 bs2)
    (h2 : SameLinks bs2 bs3) : SameLinks bs1 bs3 := by
  refine ⟨h2.1.trans h1.1, fun x b hb => ?_⟩
  obtain ⟨b2, hb2, e1, e2, e3, e4⟩ := h1.2 x b hb
  obtain ⟨b3, hb3, f1, f2, f3, f4⟩ := h2.2 x b2 hb2
  exact ⟨b3, hb3, f1.trans e1, f2.trans e2, f3.trans e3, f4.trans e4⟩

theorem SameLinks.back {bs1 bs2 : List Block} (h : SameLinks bs1 bs2) (x : Nat)
    (b2 : Block) (hb2 : bs2.get? x = some b2) :
    ∃ b, bs1.get? x = some b ∧ b2.next = b.next ∧ b2.atype = b.atype := by
  have hx : x < bs1.length := by
    simp only [List.get?_eq_getElem?] at hb2
    rw [← h.1]
    exact (List.getElem?_eq_some.1 hb2).1
  obtain ⟨b, hb⟩ : ∃ b, bs1.get? x = some b := ⟨bs1[x], by simp [List.get?_eq_getElem?, hx]⟩
  obtain ⟨b2', hb2', e1, e2, _⟩ := h.2 x b hb
  rw [hb2] at hb2'
  simp only [Option.some.injEq] at hb2'
  subst hb2'
  exact ⟨b, hb, e1, e2⟩

theorem SameLinks.isChain {bs1 bs2 : List Block} (h : SameLinks bs1 bs2) (l : List Nat)
    (head : Option Nat) : Embree.isChain bs2 head l = Embree.isChain bs1 head l := by
  apply isChain_congr
  intro a _
  cases hb : bs1.get? a with
  | none =>
    have : bs2.get? a = none := by
      simp only [List.get?_eq_getElem?] at hb ⊢
      rw [List.getElem?_eq_none_iff] at hb ⊢
      rw [h.1]; exact hb
    rw [this]
  | some b =>
    obtain ⟨b2, hb2, e1, _⟩ := h.2 a b hb
    rw [hb2]
    simp [e1]

theorem SameLinks.shrink (os_shrink : Nat → Nat → Nat → Bool → Nat) (device : Bool)
    (bs : List Block) (a : Nat) (b : Block) (hb : bs.get? a = some b) :
    SameLinks bs (bs.set a (b.shrink_block os_shrink device a).1) := by
  refine ⟨List.length_set _ _ _, fun x b0 hb0 => ?_⟩
  by_cases hx : x = a
  · subst hx
    rw [hb] at hb0
    simp only [Option.some.injEq] at hb0
    subst hb0
    refine ⟨_, get?_set_self bs x _ b hb, ?_⟩
    unfold Block.shrink_block
    split <;> exact ⟨rfl, rfl, rfl, rfl⟩
  · exact ⟨b0, by rw [get?_set_ne bs a x _ hx]; exact hb0, rfl, rfl, rfl, rfl⟩

theorem Block.shrink_block_calls (os_shrink : Nat → Nat → Nat → Bool → Nat) (device : Bool)
    (a : Nat) (b : Block) : ∀ c ∈ (b.shrink_block os_shrink device a).2,
    c.block = a ∧ b.atype = AllocationType.OS_MALLOC ∧ ∀ x, c.releases x = false := by
  intro c hc
  unfold Block.shrink_block at hc
  split at hc
  · rename_i h
    cases device <;> simp at hc
    · subst hc; exact ⟨rfl, h, fun _ => rfl⟩
    · rcases hc with rfl | rfl <;> exact ⟨rfl, h, fun _ => rfl⟩
  · simp at hc

theorem Block.shrinkLoop_spec (os_shrink : Nat → Nat → Nat → Bool → Nat) (device : Bool) :
    ∀ (l : List Nat) (fuel : Nat) (bs : List Block) (head : Option Nat),
    l.length ≤ fuel → isChain bs head l = true →
    ∃ bs' calls, Block.shrinkLoop os_shrink device fuel bs head = some (bs', calls) ∧
      SameLinks bs bs' ∧ (∀ x, x ∉ l → bs'.get? x = bs.get? x) ∧
      ∀ c ∈ calls, c.block ∈ l ∧
        (∃ b, bs.get? c.block = some b ∧ b.atype = AllocationType.OS_MALLOC) ∧
        ∀ x, c.releases x = false := by
  intro l
  induction l with
  | nil =>
    intro fuel bs head _ hc
    rw [isChain_nil] at hc
    subst hc
    refine ⟨bs, [], ?_, SameLinks.links_refl bs, fun _ _ => rfl, fun c hc => absurd hc (List.not_mem_nil _)⟩
    cases fuel <;> rfl
  | cons a l ih =>
    intro fuel bs head hf hc
    have hnd := isChain_nodup _ _ _ hc
    obtain ⟨hanot, _⟩ := List.nodup_cons.1 hnd
    rw [isChain_cons] at hc
    obtain ⟨hhead, b, hb, hc'⟩ := hc
    cases fuel with
    | zero => simp at hf
    | succ fuel =>
      have hlinks := SameLinks.shrink os_shrink device bs a b hb
      have hnext : (b.shrink_block os_shrink device a).1.next = b.next := by
        unfold Block.shrink_block
        split <;> rfl
      obtain ⟨bs', calls, e, s1, s2, s3⟩ := ih fuel
        (bs.set a (b.shrink_block os_shrink device a).1)
        (b.shrink_block os_shrink device a).1.next (by simpa using hf)
        (by rw [hnext, isChain_set _ _ _ _ _ hanot]; exact hc')
      refine ⟨bs', (b.shrink_block os_shrink device a).2 ++ calls, ?_, hlinks.links_trans s1, ?_, ?_⟩
      · simp only [Block.shrinkLoop, hhead, hb, e, Option.map_some']
      · intro x hx
        have hxa : x ≠ a := fun e => hx (e ▸ List.mem_cons_self _ _)
        rw [s2 x (fun h => hx (List.mem_cons_of_mem _ h)), get?_set_ne bs a x _ hxa]
      · intro c hc
        rcases List.mem_append.1 hc with h | h
        · obtain ⟨h1, h2, h3⟩ := Block.shrink_block_calls os_shrink device a b c h
          exact ⟨h1 ▸ List.mem_cons_self _ _, ⟨b, by rw [h1]; exact hb, h2⟩, h3⟩
        · obtain ⟨h1, ⟨b0, hb0, h2⟩, h3⟩ := s3 c h
          have hca : c.block ≠ a := fun e => hanot (e ▸ h1)
          rw [get?_set_ne bs a _ _ hca] at hb0
          exact ⟨List.mem_cons_of_mem _ h1, ⟨b0, hb0, h2⟩, h3⟩

theorem Block.shrink_list_spec (os_shrink : Nat → Nat → Nat → Bool → Nat) (device : Bool)
    (bs0 bs : List Block) (l : List Nat) (head : Option Nat) (h0 : SameLinks bs0 bs)
    (hc : isChain bs0 head l = true) :
    ∃ bs' calls, Block.shrink_list os_shrink device bs head = some (bs', calls) ∧
      SameLinks bs0 bs' ∧ (∀ x, x ∉ l → bs'.get? x = bs.get? x) ∧
      ∀ c ∈ calls, c.block ∈ l ∧
        (∃ b, bs0.get? c.block = some b ∧ b.atype = AllocationType.OS_MALLOC) ∧
        ∀ x, c.releases x = false := by
  have hc1 : isChain bs head l = true := by rw [h0.isChain]; exact hc
  obtain ⟨bs', calls, e, s1, s2, s3⟩ := Block.shrinkLoop_spec os_shrink device l bs.length bs head
    (isChain_length_le bs l head hc1) hc1
  refine ⟨bs', calls, e, h0.links_trans s1, s2, fun c hc => ?_⟩
  obtain ⟨h1, ⟨b, hb, h2⟩, h3⟩ := s3 c hc
  obtain ⟨b0, hb0, _, e2⟩ := h0.back c.block b hb
  exact ⟨h1, ⟨b0, hb0, by rw [← e2]; exact h2⟩, h3⟩

theorem SameButNext.clearCalls {bs1 bs2 : List Block} (h : SameButNext bs1 bs2) (device : Bool)
    (a : Nat) : Embree.clearCalls device bs2 a = Embree.clearCalls device bs1 a := by
  unfold Embree.clearCalls
  cases hb : bs1.get? a with
  | none =>
    have : bs2.get? a = none := by
      simp only [List.get?_eq_getElem?] at hb ⊢
      rw [List.getElem?_eq_none_iff] at hb ⊢
      rw [h.1]; exact hb
    rw [this]
  | some b =>
    obtain ⟨b2, hb2, e⟩ := h.2 a b hb
    rw [hb2, e]
    rfl

theorem SameButNext.sameLinks_next {bs1 bs2 : List Block} (h : SameButNext bs1 bs2) (x : Nat)
    (b : Block) (hb : bs1.get? x = some b) :
    ∃ b2, bs2.get? x = some b2 ∧ b2.atype = b.atype := by
  obtain ⟨b2, hb2, e⟩ := h.2 x b hb
  exact ⟨b2, hb2, by rw [e]⟩

theorem usedAfterFix_nodup_append (fa : FastAllocator) (lt : Nat → List Nat) (lu lf : List Nat)
    (ok : fa.ListsOK lt lu lf) (bs : List Block) (head : Option Nat)
    (hu : isChain bs head (usedAfterFix lt lu MAX_THREAD_USED_BLOCK_SLOTS) = true) :
    (usedAfterFix lt lu MAX_THREAD_USED_BLOCK_SLOTS ++ lf).Nodup := by
  rw [List.nodup_append]
  refine ⟨isChain_nodup _ _ _ hu, isChain_nodup _ _ _ ok.free, ?_⟩
  intro x hx hx'
  rcases (mem_usedAfterFix lt lu x _).1 hx with h | ⟨i, hi, h⟩
  · exact ok.used_free x h hx'
  · exact ok.thread_free i hi x h hx'

theorem FastAllocator.clear_spec (lt : Nat → List Nat) (lu lf : List Nat)
    (fa : FastAllocator) (device : Bool) (ok : fa.ListsOK lt lu lf) :
    ∃ fa', fa.clear device = some (fa',
        (usedAfterFix lt lu MAX_THREAD_USED_BLOCK_SLOTS ++ lf).flatMap
          (clearCalls device fa.blocks)) ∧
      (usedAfterFix lt lu MAX_THREAD_USED_BLOCK_SLOTS ++ lf).Nodup ∧
      fa'.usedBlocks = none ∧ fa'.freeBlocks = none ∧
      (∀ i, i < MAX_THREAD_USED_BLOCK_SLOTS →
        fa'.threadUsedBlocks i = none ∧ fa'.threadBlocks i = none) ∧
      fa'.bytesUsed = 0 ∧ fa'.bytesWasted = 0 ∧ fa'.thread_local_allocators2 = [] := by
  obtain ⟨fa1, e1, a1, a2, a3, a4, a5, a6, a7⟩ :=
    FastAllocator.internal_fix_used_blocks_spec lt lu lf fa ok
  have c1 := Block.clear_list_spec device fa1.blocks _ _ a3
  have c2 := Block.clear_list_spec device fa1.blocks _ _ a4
  have hcc : clearCalls device fa1.blocks = clearCalls device fa.blocks := by
    funext a
    exact a5.clearCalls device a
  rw [hcc] at c1 c2
  simp only [FastAllocator.clear, FastAllocator.cleanup, e1, Option.map_some', c1, c2,
    List.flatMap_append, FastAllocator.clearSlots_eq]
  exact ⟨_, rfl, usedAfterFix_nodup_append fa lt lu lf ok _ _ a3, rfl, rfl,
    fun i hi => ⟨if_pos hi, if_pos hi⟩, rfl, rfl, rfl⟩

theorem isChain_of_mem (bs : List Block) (l : List Nat) (head : Option Nat) (a : Nat)
    (hc : isChain bs head l = true) (ha : a ∈ l) : ∃ l', isChain bs (some a) l' = true := by
  obtain ⟨l1, l2, rfl⟩ := List.append_of_mem ha
  obtain ⟨h', hs⟩ := isChain_suffix bs l1 (a :: l2) head hc
  have hs0 := hs
  rw [isChain_cons] at hs
  rw [hs.1] at hs0
  exact ⟨_, hs0⟩

theorem FastAllocator.shrinkSlots_spec (os_shrink : Nat → Nat → Nat → Bool → Nat) (device : Bool)
    (fa : FastAllocator)
    (hcur : ∀ i, i < MAX_THREAD_USED_BLOCK_SLOTS →
      ∃ l, isChain fa.blocks (fa.threadUsedBlocks i) l = true) :
    ∀ n, n ≤ MAX_THREAD_USED_BLOCK_SLOTS →
    ∃ bs' calls, FastAllocator.shrinkSlots os_shrink device fa n = some (bs', calls) ∧
      SameLinks fa.blocks bs' ∧
      ∀ c ∈ calls, (∃ b, fa.blocks.get? c.block = some b ∧ b.atype = AllocationType.OS_MALLOC) ∧
        ∀ x, c.releases x = false := by
  intro n
  induction n with
  | zero =>
    intro _
    exact ⟨fa.blocks, [], rfl, SameLinks.links_refl _, fun c hc => absurd hc (List.not_mem_nil _)⟩
  | succ n ih =>
    intro hn
    obtain ⟨bs1, calls1, e1, s1, s2⟩ := ih (Nat.le_of_succ_le hn)
    obtain ⟨l, hl⟩ := hcur n hn
    obtain ⟨bs2, calls2, e2, t1, _, t3⟩ := Block.shrink_list_spec os_shrink device fa.blocks bs1 l
      (fa.threadUsedBlocks n) s1 hl
    refine ⟨bs2, calls1 ++ calls2, ?_, t1, ?_⟩
    · simp only [FastAllocator.shrinkSlots, e1, e2, Option.map_some']
    · intro c hc
      rcases List.mem_append.1 hc with h | h
      · exact s2 c h
      · exact ⟨(t3 c h).2.1, (t3 c h).2.2⟩

theorem FastAllocator.shrink_spec (os_shrink : Nat → Nat → Nat → Bool → Nat) (device : Bool)
    (fa : FastAllocator) (lu lf : List Nat)
    (hcur : ∀ i, i < MAX_THREAD_USED_BLOCK_SLOTS →
      ∃ l, isChain fa.blocks (fa.threadUsedBlocks i) l = true)
    (hu : isChain fa.blocks fa.usedBlocks lu = true)
    (hf : isChain fa.blocks fa.freeBlocks lf = true) :
    ∃ fa' calls, fa.shrink os_shrink device =
        some (fa', calls ++ lf.flatMap (clearCalls device fa'.blocks)) ∧
      SameLinks fa.blocks fa'.blocks ∧ fa'.freeBlocks = none ∧
      ∀ c ∈ calls, (∃ b, fa.blocks.get? c.block = some b ∧ b.atype = AllocationType.OS_MALLOC) ∧
        ∀ x, c.releases x = false := by
  obtain ⟨bs1, calls1, e1, s1, s2⟩ := FastAllocator.shrinkSlots_spec os_shrink device fa hcur
    MAX_THREAD_USED_BLOCK_SLOTS (Nat.le_refl _)
  obtain ⟨bs2, calls2, e2, t1, _, t3⟩ := Block.shrink_list_spec os_shrink device fa.blocks bs1 lu
    fa.usedBlocks s1 hu
  have e3 := Block.clear_list_spec device bs2 lf fa.freeBlocks (by rw [t1.isChain]; exact hf)
  refine ⟨{ fa with blocks := bs2, freeBlocks := none }, calls1 ++ calls2, ?_, t1, rfl, ?_⟩
  · simp only [FastAllocator.shrink, e1, e2, e3]
  · intro c hc
    rcases List.mem_append.1 hc with h | h
    · exact s2 c h
    · exact ⟨(t3 c h).2.1, (t3 c h).2.2⟩

/-- C20: for every allocator with block lists `lt i`, `lu`, `lf` (and every
`threadUsedBlocks[i]` null or a block of the used list or of a slot list), `clear()`
makes the calls of `clear_block` for the blocks of the used list (after the slot lists
were moved into it) and then of the free list, in list order: exactly one `alignedFree`
or `os_free` for each block of these lists of type `ALIGNED_MALLOC` or `OS_MALLOC`, and
no call at all, neither a release nor a `memoryMonitor` callback, for a block of type
`SHARED`. `shrink()` calls `os_shrink` and `memoryMonitor` only for blocks of type
`OS_MALLOC`, releases exactly once each block of the free list of type `ALIGNED_MALLOC`
or `OS_MALLOC`, and makes no call for a block of type `SHARED`. -/
theorem clear_releases_once (fa : FastAllocator) (lt : Nat → List Nat) (lu lf : List Nat)
    (device : Bool) (os_shrink : Nat → Nat → Nat → Bool → Nat)
    (ok : fa.ListsOK lt lu lf)
    (hcur : ∀ i a, i < MAX_THREAD_USED_BLOCK_SLOTS → fa.threadUsedBlocks i = some a →
      a ∈ lu ∨ ∃ j, j < MAX_THREAD_USED_BLOCK_SLOTS ∧ a ∈ lt j) :
    (∃ fa2 calls, fa.clear device = some (fa2, calls) ∧
      calls = (usedAfterFix lt lu MAX_THREAD_USED_BLOCK_SLOTS ++ lf).flatMap
        (clearCalls device fa.blocks) ∧
      (∀ a b, (a ∈ lu ∨ (∃ i, i < MAX_THREAD_USED_BLOCK_SLOTS ∧ a ∈ lt i) ∨ a ∈ lf) →
        fa.blocks.get? a = some b →
        (b.atype = AllocationType.ALIGNED_MALLOC ∨ b.atype = AllocationType.OS_MALLOC) →
        (calls.filter (BackendCall.releases a)).length = 1) ∧
      (∀ a b, fa.blocks.get? a = some b → b.atype = AllocationType.SHARED →
        ∀ c ∈ calls, c.block ≠ a) ∧
      fa2.usedBlocks = none ∧ fa2.freeBlocks = none) ∧
    (∃ fa3 calls, fa.shrink os_shrink device = some (fa3, calls) ∧
      (∀ a b, a ∈ lf → fa.blocks.get? a = some b →
        (b.atype = AllocationType.ALIGNED_MALLOC ∨ b.atype = AllocationType.OS_MALLOC) →
        (calls.filter (BackendCall.releases a)).length = 1) ∧
      (∀ a b, fa.blocks.get? a = some b → b.atype = AllocationType.SHARED →
        ∀ c ∈ calls, c.block ≠ a) ∧
      fa3.freeBlocks = none) := by
  have hshared : ∀ (bs : List Block) (l : List Nat) (a : Nat) (b : Block),
      bs.get? a = some b → b.atype = AllocationType.SHARED →
      ∀ c ∈ l.flatMap (clearCalls device bs), c.block ≠ a := by
    intro bs l a b hb hs c hc hca
    obtain ⟨x, _, hcx⟩ := List.mem_flatMap.1 hc
    have hxa : x = a := (clearCalls_block device bs x c hcx).symm.trans hca
    subst hxa
    rw [clearCalls_other device bs x b hb (by rw [hs]; decide)] at hcx
    exact absurd hcx (List.not_mem_nil _)
  constructor
  · obtain ⟨fa', e, hnd, h1, h2, _⟩ := FastAllocator.clear_spec lt lu lf fa device ok
    refine ⟨fa', _, e, rfl, ?_, ?_, h1, h2⟩
    · intro a b ha hb ht
      rw [flatMap_filter_releases _ (clearCalls_block device fa.blocks) a _ hnd]
      have hmem : a ∈ usedAfterFix lt lu MAX_THREAD_USED_BLOCK_SLOTS ++ lf := by
        rw [List.mem_append, mem_usedAfterFix]
        rcases ha with h | h | h
        · exact Or.inl (Or.inl h)
        · exact Or.inl (Or.inr h)
        · exact Or.inr h
      rw [if_pos hmem]
      exact clearCalls_releases device fa.blocks a b hb ht
    · intro a b hb hs
      exact hshared fa.blocks _ a b hb hs
  · have hcur' : ∀ i, i < MAX_THREAD_USED_BLOCK_SLOTS →
        ∃ l, isChain fa.blocks (fa.threadUsedBlocks i) l = true := by
      intro i hi
      cases hp : fa.threadUsedBlocks i with
      | none => exact ⟨[], by simp [isChain]⟩
      | some a =>
        rcases hcur i a hi hp with h | ⟨j, hj, h⟩
        · exact isChain_of_mem _ _ _ a ok.used h
        · exact isChain_of_mem _ _ _ a (ok.thread j hj) h
    obtain ⟨fa', calls, e, s1, s2, s3⟩ := FastAllocator.shrink_spec os_shrink device fa lu lf
      hcur' ok.used ok.free
    refine ⟨fa', _, e, ?_, ?_, s2⟩
    · intro a b ha hb ht
      obtain ⟨b2, hb2, _, e2, _⟩ := s1.2 a b hb
      rw [List.filter_append, List.length_append]
      have h0 : calls.filter (BackendCall.releases a) = [] := by
        rw [List.filter_eq_nil_iff]
        intro c hc
        rw [(s3 c hc).2 a]
        exact Bool.false_ne_true
      rw [h0, flatMap_filter_releases _ (clearCalls_block device fa'.blocks) a _
        (isChain_nodup _ _ _ ok.free), if_pos ha]
      simpa using clearCalls_releases device fa'.blocks a b2 hb2 (by rw [e2]; exact ht)
    · intro a b hb hs c hc
      rcases List.mem_append.1 hc with h | h
      · obtain ⟨⟨b0, hb0, ht⟩, _⟩ := s3 c h
        intro hca
        rw [hca, hb] at hb0
        simp only [Option.some.injEq] at hb0
        subst hb0
        rw [hs] at ht
        exact AllocationType.noConfusion ht
      · obtain ⟨b2, hb2, _, e2, _⟩ := s1.2 a b hb
        exact hshared fa'.blocks lf a b2 hb2 (by rw [e2]; exact hs) c h

theorem examplePool_current (i a : Nat) (_hi : i < MAX_THREAD_USED_BLOCK_SLOTS)
    (h : examplePool.threadUsedBlocks i = some a) :
    a ∈ [2, 3] ∨ ∃ j, j < MAX_THREAD_USED_BLOCK_SLOTS ∧ a ∈ exampleThreadLists j := by
  have e : examplePool.threadUsedBlocks i = if i = 0 then some 4 else none := rfl
  rw [e] at h
  by_cases h0 : i = 0
  · rw [if_pos h0] at h
    simp only [Option.some.injEq] at h
    subst h
    exact Or.inr ⟨0, by decide, by decide⟩
  · rw [if_neg h0] at h
    exact Option.noConfusion h

/-- Witness of C20: `examplePool` with a device: `clear()` handles the blocks
`4, 2, 3, 0, 1` in this order and makes six calls, none for the shared blocks 3 and 1. -/
theorem clear_releases_once_witness :
    examplePool.ListsOK exampleThreadLists [2, 3] [0, 1] ∧
    (∃ fa2 calls, examplePool.clear true = some (fa2, calls) ∧
      calls = [BackendCall.os_free 4 8192 false, BackendCall.memoryMonitor 4 (-320) true,
        BackendCall.alignedFree 2, BackendCall.memoryMonitor 2 (-4160) true,
        BackendCall.alignedFree 0, BackendCall.memoryMonitor 0 (-4160) true]) :=
  ⟨examplePool_lists,
    match (clear_releases_once examplePool exampleThreadLists [2, 3] [0, 1] true
      (fun _ _ _ _ => 0) examplePool_lists examplePool_current).1 with
    | ⟨fa2, calls, h1, h2, _⟩ => ⟨fa2, calls, h1, by rw [h2]; decide⟩⟩

/-! ## Reuse of blocks after reset -/

theorem FastAllocator.mallocLoop_serve (threadIndex align : Nat) (partial_ huge_pages : Bool)
    (bytes fuel : Nat) (fa : FastAllocator) (a : Nat) (b : Block) (i : Nat)
    (h0 : fa.threadUsedBlocks (threadIndex &&& fa.slotMask) = some a)
    (hb : fa.blocks.get? a = some b) (hi : (b.malloc bytes align partial_).ptr = some i) :
    FastAllocator.mallocLoop threadIndex align partial_ huge_pages (fuel + 1) fa bytes =
      { pool := { fa with blocks := fa.blocks.set a (b.malloc bytes align partial_).block },
        result := Except.ok (⟨a, i⟩, (b.malloc bytes align partial_).bytes_in) } := by
  unfold FastAllocator.mallocLoop
  simp only [h0, FastAllocator.tryCurrent, hb, hi, Option.map_some']

theorem FastAllocator.mallocLoop_none (threadIndex align : Nat) (partial_ huge_pages : Bool)
    (bytes fuel : Nat) (fa fa2 : FastAllocator)
    (h0 : fa.threadUsedBlocks (threadIndex &&& fa.slotMask) = none)
    (hb : ¬ bytes > maxAllocationSize)
    (hr : fa.refill (threadIndex &&& fa.slotMask) none bytes huge_pages = Except.ok fa2) :
    FastAllocator.mallocLoop threadIndex align partial_ huge_pages (fuel + 1) fa bytes =
      FastAllocator.mallocLoop threadIndex align partial_ huge_pages fuel fa2 bytes := by
  conv => lhs; unfold FastAllocator.mallocLoop
  simp only [h0, FastAllocator.tryCurrent, if_neg hb, hr]

theorem FastAllocator.mallocLoop_fail (threadIndex align : Nat) (partial_ huge_pages : Bool)
    (bytes fuel : Nat) (fa fa2 : FastAllocator) (a : Nat) (b : Block)
    (h0 : fa.threadUsedBlocks (threadIndex &&& fa.slotMask) = some a)
    (hget : fa.blocks.get? a = some b) (hn : (b.malloc bytes align partial_).ptr = none)
    (hb : ¬ bytes > maxAllocationSize)
    (hr : FastAllocator.refill
      { fa with blocks := fa.blocks.set a (b.malloc bytes align partial_).block }
      (threadIndex &&& fa.slotMask) (some a) bytes huge_pages = Except.ok fa2) :
    FastAllocator.mallocLoop threadIndex align partial_ huge_pages (fuel + 1) fa bytes =
      FastAllocator.mallocLoop threadIndex align partial_ huge_pages fuel fa2 bytes := by
  conv => lhs; unfold FastAllocator.mallocLoop
  simp only [h0, FastAllocator.tryCurrent, hget, hn, Option.map_none', if_neg hb, hr]

theorem FastAllocator.refill_create (fa : FastAllocator) (slot : Nat) (my : Option Nat)
    (bytes : Nat) (huge_pages : Bool) (nb : Block)
    (hfree : fa.freeBlocks = none) (hmy : my = fa.threadUsedBlocks slot)
    (hc : Block.create (min (max fa.growSize bytes) maxAllocationSize)
      (min (max fa.growSize bytes) maxAllocationSize) (fa.threadBlocks slot) fa.atype
      huge_pages = some nb) :
    fa.refill slot my bytes huge_pages = Except.ok
      { fa with blocks := fa.blocks ++ [nb],
                threadUsedBlocks := store fa.threadUsedBlocks slot (some fa.blocks.length),
                threadBlocks := store fa.threadBlocks slot (some fa.blocks.length) } := by
  unfold FastAllocator.refill
  simp only [hfree, if_true, hmy, hc, FastAllocator.place]

theorem FastAllocator.refill_take (fa : FastAllocator) (slot : Nat) (my : Option Nat)
    (bytes : Nat) (huge_pages : Bool) (f : Nat) (fb : Block)
    (hfree : fa.freeBlocks = some f) (hmy : my = fa.threadUsedBlocks slot)
    (hget : fa.blocks.get? f = some fb) :
    fa.refill slot my bytes huge_pages = Except.ok
      { fa with blocks := fa.blocks.set f { fb with next := fa.usedBlocks },
                usedBlocks := some f,
                threadUsedBlocks := store fa.threadUsedBlocks slot (some f),
                freeBlocks := fb.next } := by
  unfold FastAllocator.refill
  have h1 : ¬ (some f : Option Nat) = none := fun h => Option.noConfusion h
  simp only [hfree, h1, if_false, hmy, if_true, hget]

theorem pageRound_eq (x : Nat) (hx : x + PAGE_SIZE ≤ 2 ^ 64) :
    (x + PAGE_SIZE - 1) &&& complement64 (PAGE_SIZE - 1) =
      PAGE_SIZE * ((x + (PAGE_SIZE - 1)) / PAGE_SIZE) := by
  have h := roundUp_eq x 12 (by decide) (by
    have : (2 : Nat) ^ 12 = PAGE_SIZE := by decide
    rw [this]; exact hx)
  have e : (2 : Nat) ^ 12 = PAGE_SIZE := by decide
  rw [e] at h
  unfold roundUp at h
  have e2 : x + PAGE_SIZE - 1 = x + (PAGE_SIZE - 1) := by
    have : 0 < PAGE_SIZE := by decide
    omega
  rw [e2]
  exact h

theorem poolBlockSize_spec (G : Nat) :
    min G maxAllocationSize ≤ poolBlockSize G ∧ 64 ∣ poolBlockSize G := by
  unfold poolBlockSize
  have hm : min G maxAllocationSize ≤ maxAllocationSize := Nat.min_le_right _ _
  have hmax : maxAllocationSize = 4194240 := by decide
  have hp : PAGE_SIZE = 4096 := by decide
  have hh : sizeof_Header = 64 := by decide
  rw [pageRound_eq _ (by rw [hp, hh]; omega)]
  rw [hp, hh]
  have h1 := Nat.div_add_mod (64 + min G maxAllocationSize + (4096 - 1)) 4096
  have h2 := Nat.mod_lt (64 + min G maxAllocationSize + (4096 - 1)) (show 0 < 4096 by decide)
  constructor
  · omega
  · apply Nat.dvd_sub'
    · exact Nat.dvd_trans (by decide : 64 ∣ 4096) (Nat.dvd_mul_right _ _)
    · exact Nat.dvd_refl 64

theorem roundUp_le_of_dvd (bytes k C : Nat) (hk : k ≤ 6) (hb : bytes ≤ C) (hC : 64 ∣ C)
    (hbig : bytes + 2 ^ k ≤ 2 ^ 64) : roundUp bytes (2 ^ k) ≤ C := by
  rw [roundUp_eq bytes k (by omega) hbig]
  have hp : 0 < 2 ^ k := Nat.two_pow_pos k
  have hd : 2 ^ k ∣ C := Nat.dvd_trans (Nat.pow_dvd_pow 2 hk) hC
  obtain ⟨c, hc⟩ := hd
  rw [hc]
  apply Nat.mul_le_mul_left
  rw [hc] at hb
  have : (bytes + (2 ^ k - 1)) / 2 ^ k ≤ (2 ^ k * c + (2 ^ k - 1)) / 2 ^ k :=
    Nat.div_le_div_right (by omega)
  have e : (2 ^ k * c + (2 ^ k - 1)) / 2 ^ k = c := by
    rw [Nat.mul_comm, Nat.add_comm, Nat.add_mul_div_right _ _ hp, Nat.div_eq_of_lt (by omega)]
    simp
  omega

theorem Block.create_pool (G bytes : Nat) (next : Option Nat) (atype : AllocationType)
    (huge_pages : Bool) (hb : bytes ≤ G)
    (ht : atype = AllocationType.ALIGNED_MALLOC ∨ atype = AllocationType.OS_MALLOC) :
    ∃ nb, Block.create (min (max G bytes) maxAllocationSize)
        (min (max G bytes) maxAllocationSize) next atype huge_pages = some nb ∧
      nb.cur = 0 ∧ nb.reserveEnd = poolBlockSize G ∧ nb.next = next ∧
      nb.atype ≠ AllocationType.SHARED := by
  have hmax : max G bytes = G := Nat.max_eq_left hb
  rw [hmax]
  unfold Block.create poolBlockSize
  simp only []
  rcases ht with h | h
  · subst h
    simp only [if_true]
    split
    · split
      · exact ⟨_, rfl, rfl, rfl, rfl, by simp [Block.new]⟩
      · exact ⟨_, rfl, rfl, rfl, rfl, by simp [Block.new]⟩
    · exact ⟨_, rfl, rfl, rfl, rfl, by simp [Block.new]⟩
  · subst h
    have : ¬ AllocationType.OS_MALLOC = AllocationType.ALIGNED_MALLOC := by decide
    simp only [this, if_false, if_true]
    exact ⟨_, rfl, rfl, rfl, rfl, by simp [Block.new]⟩

theorem Block.malloc_fields (b : Block) (bytes_in align : Nat) (partial_ : Bool) :
    (b.malloc bytes_in align partial_).block.next = b.next ∧
    (b.malloc bytes_in align partial_).block.atype = b.atype ∧
    (b.malloc bytes_in align partial_).block.reserveEnd = b.reserveEnd ∧
    (b.malloc bytes_in align partial_).block.wasted = b.wasted := by
  unfold Block.malloc
  by_cases h1 : b.cur + roundUp bytes_in align > b.reserveEnd ∧ partial_ = false
  · simp [h1]
  · by_cases h3 : b.cur > b.reserveEnd
    · simp [h1, h3]
    · simp [h1, h3]

theorem Block.malloc_fresh (b : Block) (q : Request) (G : Nat) (hcur : b.cur = 0)
    (hC : b.reserveEnd = poolBlockSize G) (hq : q.Uniform G q.threadIndex) :
    (b.malloc q.bytes q.align q.partial_).ptr = some 0 ∧
    (b.malloc q.bytes q.align q.partial_).block.cur = roundUp q.bytes q.align := by
  obtain ⟨_, hb, hm, k, hk, ha⟩ := hq
  obtain ⟨c1, c2⟩ := poolBlockSize_spec G
  have hmax : maxAllocationSize = 4194240 := by decide
  have hle : roundUp q.bytes q.align ≤ poolBlockSize G := by
    rw [ha]
    apply roundUp_le_of_dvd q.bytes k _ hk _ c2
    · have : 2 ^ k ≤ 2 ^ 6 := Nat.pow_le_pow_right (by decide) hk
      omega
    · have : q.bytes ≤ min G maxAllocationSize := Nat.le_min.2 ⟨hb, hm⟩
      omega
  cases hp : (b.malloc q.bytes q.align q.partial_).ptr with
  | none =>
    rw [Block.malloc_none_iff] at hp
    omega
  | some i =>
    obtain ⟨e1, _, _, e4⟩ := Block.malloc_some b _ _ _ i hp
    rw [e1, hcur]
    rw [e4, hcur]
    exact ⟨rfl, Nat.zero_add _⟩

theorem get?_append_left (bs : List Block) (nb : Block) (x : Nat) (hx : x < bs.length) :
    (bs ++ [nb]).get? x = bs.get? x := by
  simp only [List.get?_eq_getElem?]
  exact List.getElem?_append_left hx

theorem get?_append_length (bs : List Block) (nb : Block) :
    (bs ++ [nb]).get? bs.length = some nb := by
  simp [List.get?_eq_getElem?]

theorem FastAllocator.GrowInv.set_block {C s : Nat} {fa : FastAllocator} (inv : fa.GrowInv C s)
    (a : Nat) (b b2 : Block) (hb : fa.blocks.get? a = some b) (hn : b2.next = b.next)
    (hr : b2.reserveEnd = b.reserveEnd) (ht : b2.atype = b.atype) :
    FastAllocator.GrowInv C s { fa with blocks := fa.blocks.set a b2 } where
  free := inv.free
  used := inv.used
  atype := inv.atype
  size := inv.size
  others := inv.others
  chain := by
    obtain ⟨l, hl, hall⟩ := inv.chain
    refine ⟨l, ?_, ?_⟩
    · show isChain (fa.blocks.set a b2) (fa.threadBlocks s) l = true
      rw [isChain_congr fa.blocks]
      · exact hl
      · intro x _
        by_cases hx : x = a
        · subst hx
          rw [get?_set_self fa.blocks x b2 b hb, hb]
          simp [hn]
        · rw [get?_set_ne fa.blocks a x b2 hx]
    · intro x hx
      exact hall x (by simpa using hx)
  blocks := by
    intro b0 hb0
    rcases mem_set_cases hb0 with h | h
    · have := inv.blocks b (List.get?_mem hb)
      rw [h, hr, ht]
      exact this
    · exact inv.blocks b0 h

theorem FastAllocator.grow_refill (C s : Nat) (fa : FastAllocator) (q : Request) (fuel : Nat)
    (inv : fa.GrowInv C s) (hs : q.threadIndex &&& fa.slotMask = s)
    (hq : q.Uniform fa.growSize q.threadIndex) :
    ∃ fa2, fa.refill s (fa.threadUsedBlocks s) q.bytes q.huge_pages = Except.ok fa2 ∧
      (∃ res, (FastAllocator.mallocLoop q.threadIndex q.align q.partial_ q.huge_pages (fuel + 1)
        fa2 q.bytes).result = Except.ok res) ∧
      (FastAllocator.mallocLoop q.threadIndex q.align q.partial_ q.huge_pages (fuel + 1)
        fa2 q.bytes).pool.GrowInv C s ∧
      (FastAllocator.mallocLoop q.threadIndex q.align q.partial_ q.huge_pages (fuel + 1)
        fa2 q.bytes).pool.SlotCursor C s (some (roundUp q.bytes q.align)) ∧
      (FastAllocator.mallocLoop q.threadIndex q.align q.partial_ q.huge_pages (fuel + 1)
        fa2 q.bytes).pool.blocks.length = fa.blocks.length + 1 ∧
      (FastAllocator.mallocLoop q.threadIndex q.align q.partial_ q.huge_pages (fuel + 1)
        fa2 q.bytes).pool.growSize = fa.growSize ∧
      (FastAllocator.mallocLoop q.threadIndex q.align q.partial_ q.huge_pages (fuel + 1)
        fa2 q.bytes).pool.slotMask = fa.slotMask := by
  obtain ⟨nb, hc, n1, n2, n3, n4⟩ := Block.create_pool fa.growSize q.bytes (fa.threadBlocks s)
    fa.atype q.huge_pages hq.2.1 inv.atype
  have hre := FastAllocator.refill_create fa s (fa.threadUsedBlocks s) q.bytes q.huge_pages nb
    inv.free rfl hc
  refine ⟨_, hre, ?_⟩
  obtain ⟨m1, m2⟩ := Block.malloc_fresh nb q fa.growSize n1 n2 hq
  obtain ⟨f1, f2, f3, f4⟩ := Block.malloc_fields nb q.bytes q.align q.partial_
  have hloop := FastAllocator.mallocLoop_serve q.threadIndex q.align q.partial_ q.huge_pages
    q.bytes fuel
    { fa with blocks := fa.blocks ++ [nb],
              threadUsedBlocks := store fa.threadUsedBlocks s (some fa.blocks.length),
              threadBlocks := store fa.threadBlocks s (some fa.blocks.length) }
    fa.blocks.length nb 0
    (by show store fa.threadUsedBlocks s (some fa.blocks.length)
          (q.threadIndex &&& fa.slotMask) = some fa.blocks.length
        rw [hs]; simp [store])
    (get?_append_length fa.blocks nb) m1
  rw [hloop]
  have hget : ((fa.blocks ++ [nb]).set fa.blocks.length
      (nb.malloc q.bytes q.align q.partial_).block).get? fa.blocks.length =
      some (nb.malloc q.bytes q.align q.partial_).block :=
    get?_set_self _ _ _ nb (get?_append_length fa.blocks nb)
  have hold : ∀ x, x < fa.blocks.length → ((fa.blocks ++ [nb]).set fa.blocks.length
      (nb.malloc q.bytes q.align q.partial_).block).get? x = fa.blocks.get? x := by
    intro x hx
    rw [get?_set_ne _ _ _ _ (Nat.ne_of_lt hx), get?_append_left _ _ _ hx]
  refine ⟨⟨_, rfl⟩, ?_, ?_, ?_, rfl, rfl⟩
  · obtain ⟨l, hl, hall⟩ := inv.chain
    exact {
      free := inv.free
      used := inv.used
      atype := inv.atype
      size := inv.size
      others := fun i hi => by
        show store fa.threadBlocks s (some fa.blocks.length) i = none
        simp only [store, if_neg hi]
        exact inv.others i hi
      chain := by
        refine ⟨fa.blocks.length :: l, ?_, ?_⟩
        · show isChain _ (store fa.threadBlocks s (some fa.blocks.length) s) _ = true
          rw [isChain_cons]
          refine ⟨by simp [store], _, hget, ?_⟩
          rw [f1, n3, isChain_frame fa.blocks _ l _
            (fun x hx => hold x (isChain_lt _ _ _ hl x hx))]
          exact hl
        · intro x hx
          have hx' : x < fa.blocks.length + 1 := by simpa using hx
          rcases Nat.lt_succ_iff_lt_or_eq.1 hx' with h | h
          · exact List.mem_cons_of_mem _ (hall x h)
          · rw [h]; exact List.mem_cons_self _ _
      blocks := by
        intro b0 hb0
        rcases mem_set_cases hb0 with h | h
        · rw [h, f3, f2, n2]
          exact ⟨inv.size.symm, n4⟩
        · rcases List.mem_append.1 h with h' | h'
          · exact inv.blocks b0 h'
          · rw [List.mem_singleton.1 h', n2]
            exact ⟨inv.size.symm, n4⟩ }
  · show FastAllocator.SlotCursor C _ s _
    unfold FastAllocator.SlotCursor
    have : store fa.threadUsedBlocks s (some fa.blocks.length) s = some fa.blocks.length := by
      simp [store]
    simp only [this]
    exact ⟨_, hget, by rw [f3, n2]; exact inv.size.symm, by rw [m2]⟩
  · show ((fa.blocks ++ [nb]).set _ _).length = _
    simp

theorem FastAllocator.malloc_grow (C s : Nat) (fa : FastAllocator) (q : Request)
    (cs : Option Nat) (inv : fa.GrowInv C s) (hcur : fa.SlotCursor C s cs)
    (hs : q.threadIndex &&& fa.slotMask = s) (hq : q.Uniform fa.growSize q.threadIndex) :
    (∃ res, (fa.malloc q.threadIndex q.bytes q.align q.partial_ q.huge_pages).result =
      Except.ok res) ∧
    (fa.malloc q.threadIndex q.bytes q.align q.partial_ q.huge_pages).pool.GrowInv C s ∧
    (fa.malloc q.threadIndex q.bytes q.align q.partial_ q.huge_pages).pool.SlotCursor C s
      (cursorStep C cs q).1 ∧
    (fa.malloc q.threadIndex q.bytes q.align q.partial_ q.huge_pages).pool.blocks.length =
      fa.blocks.length + (cursorStep C cs q).2 ∧
    (fa.malloc q.threadIndex q.bytes q.align q.partial_ q.huge_pages).pool.growSize =
      fa.growSize ∧
    (fa.malloc q.threadIndex q.bytes q.align q.partial_ q.huge_pages).pool.slotMask =
      fa.slotMask := by
  have hmax : ¬ q.bytes > maxAllocationSize := Nat.not_lt.2 hq.2.2.1
  unfold FastAllocator.malloc
  unfold FastAllocator.SlotCursor at hcur
  cases h0 : fa.threadUsedBlocks s with
  | none =>
    rw [h0] at hcur
    subst hcur
    obtain ⟨fa2, hre, r1, r2, r3, r4, r5, r6⟩ := FastAllocator.grow_refill C s fa q
      (fa.blocks.length + 1) inv hs hq
    rw [h0] at hre
    rw [FastAllocator.mallocLoop_none q.threadIndex q.align q.partial_ q.huge_pages q.bytes
      (fa.blocks.length + 2) fa fa2 (by rw [hs]; exact h0) hmax (by rw [hs]; exact hre)]
    exact ⟨r1, r2, r3, r4, r5, r6⟩
  | some a =>
    rw [h0] at hcur
    obtain ⟨b, hb, hC, hcs⟩ := hcur
    subst hcs
    obtain ⟨f1, f2, f3, f4⟩ := Block.malloc_fields b q.bytes q.align q.partial_
    have inv1 := inv.set_block a b (b.malloc q.bytes q.align q.partial_).block hb f1 f3 f2
    cases hp : (b.malloc q.bytes q.align q.partial_).ptr with
    | some i =>
      rw [FastAllocator.mallocLoop_serve q.threadIndex q.align q.partial_ q.huge_pages q.bytes
        (fa.blocks.length + 2) fa a b i (by rw [hs]; exact h0) hb hp]
      obtain ⟨_, _, _, e4⟩ := Block.malloc_some b _ _ _ i hp
      have hcond : ¬ ((q.partial_ = false ∧ b.cur + roundUp q.bytes q.align > C) ∨ b.cur > C) := by
        rw [← hC, ← Block.malloc_none_iff, hp]
        exact fun h => Option.noConfusion h
      simp only [cursorStep, if_neg hcond]
      refine ⟨⟨_, rfl⟩, inv1, ?_, ?_, ?_, ?_⟩
      · show FastAllocator.SlotCursor C _ s _
        unfold FastAllocator.SlotCursor
        simp only [h0]
        exact ⟨_, get?_set_self fa.blocks a _ b hb, by rw [f3]; exact hC, by rw [e4]⟩
      · simp
      · first | rfl | trivial
      · first | rfl | trivial
    | none =>
      obtain ⟨fa2, hre, r1, r2, r3, r4, r5, r6⟩ := FastAllocator.grow_refill C s
        { fa with blocks := fa.blocks.set a (b.malloc q.bytes q.align q.partial_).block } q
        (fa.blocks.length + 1) inv1 hs hq
      have hre' : FastAllocator.refill
          { fa with blocks := fa.blocks.set a (b.malloc q.bytes q.align q.partial_).block }
          (q.threadIndex &&& fa.slotMask) (some a) q.bytes q.huge_pages = Except.ok fa2 := by
        rw [hs, ← h0]; exact hre
      rw [FastAllocator.mallocLoop_fail q.threadIndex q.align q.partial_ q.huge_pages q.bytes
        (fa.blocks.length + 2) fa fa2 a b (by rw [hs]; exact h0) hb hp hmax hre']
      have hcond : (q.partial_ = false ∧ b.cur + roundUp q.bytes q.align > C) ∨ b.cur > C := by
        rw [← hC, ← Block.malloc_none_iff]
        exact hp
      simp only [cursorStep, if_pos hcond]
      refine ⟨r1, r2, r3, ?_, r5, r6⟩
      rw [r4]
      show (fa.blocks.set a _).length + 1 = _
      simp

theorem SameSizes.set_same (bs : List Block) (a : Nat) (b b2 : Block) (hb : bs.get? a = some b)
    (h : b2.getBlockTotalReservedBytes = b.getBlockTotalReservedBytes) :
    SameSizes bs (bs.set a b2) := by
  unfold SameSizes
  apply List.ext_getElem?
  intro x
  simp only [List.getElem?_map]
  by_cases hx : x = a
  · subst hx
    simp only [List.get?_eq_getElem?] at hb
    rw [List.getElem?_set_self (List.getElem?_eq_some.1 hb).1, hb]
    simp [h]
  · rw [List.getElem?_set_ne (Ne.symm hx)]

theorem SameSizes.length {bs1 bs2 : List Block} (h : SameSizes bs1 bs2) :
    bs2.length = bs1.length := by
  have := congrArg List.length h
  simpa using this

theorem Block.malloc_sizes (b : Block) (bytes_in align : Nat) (partial_ : Bool) :
    (b.malloc bytes_in align partial_).block.getBlockTotalReservedBytes =
      b.getBlockTotalReservedBytes := by
  obtain ⟨_, _, f3, f4⟩ := Block.malloc_fields b bytes_in align partial_
  simp only [Block.getBlockTotalReservedBytes, f3, f4]

theorem FastAllocator.ReuseInv.set_other {C s : Nat} {fa : FastAllocator} {lf : List Nat}
    (inv : fa.ReuseInv C s lf) (a : Nat) (b2 : Block) (ha : a ∉ lf) :
    FastAllocator.ReuseInv C s { fa with blocks := fa.blocks.set a b2 } lf where
  chain := by
    show isChain (fa.blocks.set a b2) fa.freeBlocks lf = true
    rw [isChain_set _ _ _ _ _ ha]
    exact inv.chain
  fresh := by
    intro x hx
    have hxa : x ≠ a := fun e => ha (e ▸ hx)
    obtain ⟨b, hb, h1, h2⟩ := inv.fresh x hx
    exact ⟨b, by show (fa.blocks.set a b2).get? x = some b
                 rw [get?_set_ne _ _ _ _ hxa]; exact hb, h1, h2⟩
  current := inv.current

theorem FastAllocator.reuse_refill (C s G : Nat) (fa : FastAllocator) (q : Request) (fuel : Nat)
    (f : Nat) (lf : List Nat) (inv : fa.ReuseInv C s (f :: lf)) (hC : C = poolBlockSize G)
    (hs : q.threadIndex &&& fa.slotMask = s) (hq : q.Uniform G q.threadIndex) :
    ∃ fa2, fa.refill s (fa.threadUsedBlocks s) q.bytes q.huge_pages = Except.ok fa2 ∧
      (∃ res, (FastAllocator.mallocLoop q.threadIndex q.align q.partial_ q.huge_pages (fuel + 1)
        fa2 q.bytes).result = Except.ok res) ∧
      (FastAllocator.mallocLoop q.threadIndex q.align q.partial_ q.huge_pages (fuel + 1)
        fa2 q.bytes).pool.ReuseInv C s lf ∧
      (FastAllocator.mallocLoop q.threadIndex q.align q.partial_ q.huge_pages (fuel + 1)
        fa2 q.bytes).pool.SlotCursor C s (some (roundUp q.bytes q.align)) ∧
      SameSizes fa.blocks (FastAllocator.mallocLoop q.threadIndex q.align q.partial_
        q.huge_pages (fuel + 1) fa2 q.bytes).pool.blocks ∧
      (FastAllocator.mallocLoop q.threadIndex q.align q.partial_ q.huge_pages (fuel + 1)
        fa2 q.bytes).pool.slotMask = fa.slotMask := by
  have hchain := inv.chain
  have hnd := isChain_nodup _ _ _ hchain
  obtain ⟨hfnot, _⟩ := List.nodup_cons.1 hnd
  rw [isChain_cons] at hchain
  obtain ⟨hfree, fb, hfb, hrest⟩ := hchain
  obtain ⟨fb0, hfb0, hcur0, hres0⟩ := inv.fresh f (List.mem_cons_self _ _)
  rw [hfb] at hfb0
  simp only [Option.some.injEq] at hfb0
  subst hfb0
  have hre := FastAllocator.refill_take fa s (fa.threadUsedBlocks s) q.bytes q.huge_pages f fb
    hfree rfl hfb
  refine ⟨_, hre, ?_⟩
  obtain ⟨m1, m2⟩ := Block.malloc_fresh { fb with next := fa.usedBlocks } q G hcur0
    (by show fb.reserveEnd = _; rw [hres0, hC]) hq
  obtain ⟨f1, f2, f3, f4⟩ := Block.malloc_fields { fb with next := fa.usedBlocks } q.bytes q.align
    q.partial_
  have hget1 : (fa.blocks.set f { fb with next := fa.usedBlocks }).get? f =
      some { fb with next := fa.usedBlocks } := get?_set_self _ _ _ fb hfb
  have hloop := FastAllocator.mallocLoop_serve q.threadIndex q.align q.partial_ q.huge_pages
    q.bytes fuel
    { fa with blocks := fa.blocks.set f { fb with next := fa.usedBlocks },
              usedBlocks := some f,
              threadUsedBlocks := store fa.threadUsedBlocks s (some f),
              freeBlocks := fb.next }
    f { fb with next := fa.usedBlocks } 0
    (by show store fa.threadUsedBlocks s (some f) (q.threadIndex &&& fa.slotMask) = some f
        rw [hs]; simp [store])
    hget1 m1
  rw [hloop]
  have hget2 : ((fa.blocks.set f { fb with next := fa.usedBlocks }).set f
      (Block.malloc { fb with next := fa.usedBlocks } q.bytes q.align q.partial_).block).get? f =
      some (Block.malloc { fb with next := fa.usedBlocks } q.bytes q.align q.partial_).block :=
    get?_set_self _ _ _ _ hget1
  refine ⟨⟨_, rfl⟩, ?_, ?_, ?_, rfl⟩
  · exact {
      chain := by
        show isChain ((fa.blocks.set f _).set f _) fb.next lf = true
        rw [isChain_set _ _ _ _ _ hfnot, isChain_set _ _ _ _ _ hfnot]
        exact hrest
      fresh := by
        intro x hx
        have hxf : x ≠ f := fun e => hfnot (e ▸ hx)
        obtain ⟨b, hb, h1, h2⟩ := inv.fresh x (List.mem_cons_of_mem _ hx)
        refine ⟨b, ?_, h1, h2⟩
        show ((fa.blocks.set f _).set f _).get? x = some b
        rw [get?_set_ne _ _ _ _ hxf, get?_set_ne _ _ _ _ hxf]
        exact hb
      current := by
        intro a ha
        have : store fa.threadUsedBlocks s (some f) s = some a := ha
        simp only [store, if_true, Option.some.injEq] at this
        rw [← this]
        exact hfnot }
  · show FastAllocator.SlotCursor C _ s _
    unfold FastAllocator.SlotCursor
    have : store fa.threadUsedBlocks s (some f) s = some f := by simp [store]
    simp only [this]
    exact ⟨_, hget2, by rw [f3]; exact hres0, by rw [m2]⟩
  · show SameSizes fa.blocks ((fa.blocks.set f _).set f _)
    have s1 := SameSizes.set_same fa.blocks f fb { fb with next := fa.usedBlocks } hfb rfl
    have s2 := SameSizes.set_same (fa.blocks.set f { fb with next := fa.usedBlocks }) f
      { fb with next := fa.usedBlocks }
      (Block.malloc { fb with next := fa.usedBlocks } q.bytes q.align q.partial_).block hget1
      (Block.malloc_sizes _ _ _ _)
    exact Eq.trans s2 s1

theorem FastAllocator.malloc_reuse (C s G : Nat) (fa : FastAllocator) (q : Request)
    (cs : Option Nat) (lf : List Nat) (inv : fa.ReuseInv C s lf) (hcur : fa.SlotCursor C s cs)
    (hC : C = poolBlockSize G) (hs : q.threadIndex &&& fa.slotMask = s)
    (hq : q.Uniform G q.threadIndex) (hroom : (cursorStep C cs q).2 ≤ lf.length) :
    (∃ res, (fa.malloc q.threadIndex q.bytes q.align q.partial_ q.huge_pages).result =
      Except.ok res) ∧
    (fa.malloc q.threadIndex q.bytes q.align q.partial_ q.huge_pages).pool.ReuseInv C s
      (lf.drop (cursorStep C cs q).2) ∧
    (fa.malloc q.threadIndex q.bytes q.align q.partial_ q.huge_pages).pool.SlotCursor C s
      (cursorStep C cs q).1 ∧
    SameSizes fa.blocks
      (fa.malloc q.threadIndex q.bytes q.align q.partial_ q.huge_pages).pool.blocks ∧
    (fa.malloc q.threadIndex q.bytes q.align q.partial_ q.huge_pages).pool.slotMask =
      fa.slotMask := by
  have hmax : ¬ q.bytes > maxAllocationSize := Nat.not_lt.2 hq.2.2.1
  unfold FastAllocator.malloc
  unfold FastAllocator.SlotCursor at hcur
  cases h0 : fa.threadUsedBlocks s with
  | none =>
    rw [h0] at hcur
    subst hcur
    simp only [cursorStep] at hroom ⊢
    cases lf with
    | nil => simp at hroom
    | cons f lf =>
      obtain ⟨fa2, hre, r1, r2, r3, r4, r5⟩ := FastAllocator.reuse_refill C s G fa q
        (fa.blocks.length + 1) f lf inv hC hs hq
      rw [h0] at hre
      rw [FastAllocator.mallocLoop_none q.threadIndex q.align q.partial_ q.huge_pages q.bytes
        (fa.blocks.length + 2) fa fa2 (by rw [hs]; exact h0) hmax (by rw [hs]; exact hre)]
      exact ⟨r1, r2, r3, r4, r5⟩
  | some a =>
    rw [h0] at hcur
    obtain ⟨b, hb, hCb, hcs⟩ := hcur
    subst hcs
    obtain ⟨f1, f2, f3, f4⟩ := Block.malloc_fields b q.bytes q.align q.partial_
    have hanot : a ∉ lf := inv.current a h0
    have inv1 := inv.set_other a (b.malloc q.bytes q.align q.partial_).block hanot
    have hsz := SameSizes.set_same fa.blocks a b (b.malloc q.bytes q.align q.partial_).block hb
      (Block.malloc_sizes _ _ _ _)
    cases hp : (b.malloc q.bytes q.align q.partial_).ptr with
    | some i =>
      rw [FastAllocator.mallocLoop_serve q.threadIndex q.align q.partial_ q.huge_pages q.bytes
        (fa.blocks.length + 2) fa a b i (by rw [hs]; exact h0) hb hp]
      obtain ⟨_, _, _, e4⟩ := Block.malloc_some b _ _ _ i hp
      have hcond : ¬ ((q.partial_ = false ∧ b.cur + roundUp q.bytes q.align > C) ∨ b.cur > C) := by
        rw [← hCb, ← Block.malloc_none_iff, hp]
        exact fun h => Option.noConfusion h
      simp only [cursorStep, if_neg hcond, List.drop_zero]
      refine ⟨⟨_, rfl⟩, inv1, ?_, hsz, ?_⟩
      · show FastAllocator.SlotCursor C _ s _
        unfold FastAllocator.SlotCursor
        simp only [h0]
        exact ⟨_, get?_set_self fa.blocks a _ b hb, by rw [f3]; exact hCb, by rw [e4]⟩
      · first | rfl | trivial
    | none =>
      have hcond : (q.partial_ = false ∧ b.cur + roundUp q.bytes q.align > C) ∨ b.cur > C := by
        rw [← hCb, ← Block.malloc_none_iff]
        exact hp
      simp only [cursorStep, if_pos hcond] at hroom ⊢
      cases lf with
      | nil => simp at hroom
      | cons f lf =>
        obtain ⟨fa2, hre, r1, r2, r3, r4, r5⟩ := FastAllocator.reuse_refill C s G
          { fa with blocks := fa.blocks.set a (b.malloc q.bytes q.align q.partial_).block } q
          (fa.blocks.length + 1) f lf inv1 hC hs hq
        have hre' : FastAllocator.refill
            { fa with blocks := fa.blocks.set a (b.malloc q.bytes q.align q.partial_).block }
            (q.threadIndex &&& fa.slotMask) (some a) q.bytes q.huge_pages = Except.ok fa2 := by
          rw [hs, ← h0]; exact hre
        rw [FastAllocator.mallocLoop_fail q.threadIndex q.align q.partial_ q.huge_pages q.bytes
          (fa.blocks.length + 2) fa fa2 a b (by rw [hs]; exact h0) hb hp hmax hre']
        exact ⟨r1, r2, r3, Eq.trans r4 hsz, r5⟩

theorem cursorStep_le_one (C : Nat) (cs : Option Nat) (q : Request) : (cursorStep C cs q).2 ≤ 1 := by
  unfold cursorStep
  cases cs with
  | none => exact Nat.le_refl 1
  | some c =>
    simp only []
    split
    · exact Nat.le_refl 1
    · exact Nat.zero_le 1

theorem FastAllocator.runPool_grow (C s t : Nat) : ∀ (reqs : List Request) (fa : FastAllocator)
    (cs : Option Nat), fa.GrowInv C s → fa.SlotCursor C s cs → t &&& fa.slotMask = s →
    (∀ q ∈ reqs, q.Uniform fa.growSize t) →
    (fa.runPool reqs).GrowInv C s ∧
    (fa.runPool reqs).blocks.length = fa.blocks.length + cursorRun C cs reqs ∧
    (fa.runPool reqs).growSize = fa.growSize ∧ (fa.runPool reqs).slotMask = fa.slotMask ∧
    (fa.run reqs).length = reqs.length := by
  intro reqs
  induction reqs with
  | nil =>
    intro fa cs inv _ _ _
    exact ⟨inv, rfl, rfl, rfl, rfl⟩
  | cons q rest ih =>
    intro fa cs inv hcur hs hq
    obtain ⟨ht, hq0⟩ : q.threadIndex = t ∧ q.Uniform fa.growSize q.threadIndex := by
      have := hq q (List.mem_cons_self _ _)
      exact ⟨this.1, by rw [this.1]; exact this⟩
    obtain ⟨⟨res, hres⟩, i1, i2, i3, i4, i5⟩ := FastAllocator.malloc_grow C s fa q cs inv hcur
      (by rw [ht]; exact hs) hq0
    obtain ⟨j1, j2, j3, j4, j5⟩ := ih _ (cursorStep C cs q).1 i1 i2 (by rw [i5]; exact hs)
      (fun q' hq' => by rw [i4]; exact hq q' (List.mem_cons_of_mem _ hq'))
    simp only [FastAllocator.runPool, FastAllocator.run, hres, cursorRun, List.length_cons]
    refine ⟨j1, ?_, by rw [j3, i4], by rw [j4, i5], by rw [j5]⟩
    rw [j2, i3]
    omega

theorem FastAllocator.runPool_reuse (C s t G : Nat) (hC : C = poolBlockSize G) :
    ∀ (reqs : List Request) (fa : FastAllocator) (cs : Option Nat) (lf : List Nat),
    fa.ReuseInv C s lf → fa.SlotCursor C s cs → t &&& fa.slotMask = s →
    (∀ q ∈ reqs, q.Uniform G t) → cursorRun C cs reqs ≤ lf.length →
    SameSizes fa.blocks (fa.runPool reqs).blocks ∧ (fa.run reqs).length = reqs.length := by
  intro reqs
  induction reqs with
  | nil =>
    intro fa cs lf _ _ _ _ _
    exact ⟨rfl, rfl⟩
  | cons q rest ih =>
    intro fa cs lf inv hcur hs hq hroom
    obtain ⟨ht, hq0⟩ : q.threadIndex = t ∧ q.Uniform G q.threadIndex := by
      have := hq q (List.mem_cons_self _ _)
      exact ⟨this.1, by rw [this.1]; exact this⟩
    simp only [cursorRun] at hroom
    obtain ⟨⟨res, hres⟩, i1, i2, i3, i4⟩ := FastAllocator.malloc_reuse C s G fa q cs lf inv hcur
      hC (by rw [ht]; exact hs) hq0 (by omega)
    obtain ⟨j1, j2⟩ := ih _ (cursorStep C cs q).1 (lf.drop (cursorStep C cs q).2) i1 i2
      (by rw [i4]; exact hs) (fun q' hq' => hq q' (List.mem_cons_of_mem _ hq'))
      (by rw [List.length_drop]; omega)
    simp only [FastAllocator.runPool, FastAllocator.run, hres, List.length_cons]
    exact ⟨Eq.trans j1 i3, by rw [j2]⟩

theorem SameSizes.of_blocks (bs bs2 : List Block) (hlen : bs2.length = bs.length)
    (h : ∀ x b, bs.get? x = some b → ∃ b2, bs2.get? x = some b2 ∧
      b2.getBlockTotalReservedBytes = b.getBlockTotalReservedBytes) : SameSizes bs bs2 := by
  unfold SameSizes
  apply List.ext_getElem?
  intro x
  simp only [List.getElem?_map]
  cases hb : bs[x]? with
  | none =>
    have : bs2[x]? = none := by
      rw [List.getElem?_eq_none_iff] at hb ⊢
      rw [hlen]; exact hb
    rw [this]
  | some b =>
    obtain ⟨b2, hb2, e⟩ := h x b (by simpa [List.get?_eq_getElem?] using hb)
    simp only [List.get?_eq_getElem?] at hb2
    rw [hb2]
    simp [e]

theorem length_le_of_range_subset (l : List Nat) (K : Nat) (h : ∀ x, x < K → x ∈ l) :
    K ≤ l.length := by
  have hs : List.range K ⊆ l := fun x hx => h x (List.mem_range.1 hx)
  have := (List.subperm_of_subset (List.nodup_range K) hs).length_le
  simpa using this

/-- C18 (amended): on an allocator without blocks (as constructed), for every sequence
of requests of one thread in which each request is at most `growSize` and at most
`maxAllocationSize` bytes with a power-of-two alignment of at most 64, so that all
blocks get the same size: every call succeeds, `reset()` returns, the same sequence
after `reset()` succeeds again and creates no block; the number of block objects and the
total mapped byte count after the replay are those before `reset()`. -/
theorem reset_replay_no_new_block (fa : FastAllocator) (t : Nat) (reqs : List Request)
    (hblocks : fa.blocks = []) (hused : fa.usedBlocks = none) (hfree : fa.freeBlocks = none)
    (hthread : ∀ i, fa.threadBlocks i = none ∧ fa.threadUsedBlocks i = none)
    (hatype : fa.atype = AllocationType.ALIGNED_MALLOC ∨ fa.atype = AllocationType.OS_MALLOC)
    (hmask : fa.slotMask < MAX_THREAD_USED_BLOCK_SLOTS)
    (hreqs : ∀ q ∈ reqs, q.Uniform fa.growSize t) :
    (fa.run reqs).length = reqs.length ∧
    ∃ fa2, (fa.runPool reqs).reset = some fa2 ∧
      (fa2.run reqs).length = reqs.length ∧
      (fa2.runPool reqs).blocks.length = (fa.runPool reqs).blocks.length ∧
      (fa2.runPool reqs).mappedBytes = (fa.runPool reqs).mappedBytes := by
  have hs8 : t &&& fa.slotMask < MAX_THREAD_USED_BLOCK_SLOTS :=
    Nat.lt_of_le_of_lt Nat.and_le_right hmask
  generalize hs : t &&& fa.slotMask = s at hs8
  have inv0 : fa.GrowInv (poolBlockSize fa.growSize) s :=
    { free := hfree
      used := hused
      atype := hatype
      size := rfl
      others := fun i _ => (hthread i).1
      chain := ⟨[], by rw [(hthread s).1]; rfl, fun x hx => by rw [hblocks] at hx; simp at hx⟩
      blocks := fun b hb => by rw [hblocks] at hb; simp at hb }
  have cur0 : fa.SlotCursor (poolBlockSize fa.growSize) s none := by
    unfold FastAllocator.SlotCursor
    rw [(hthread s).2]
  obtain ⟨g1, g2, g3, g4, g5⟩ := FastAllocator.runPool_grow (poolBlockSize fa.growSize) s t reqs
    fa none inv0 cur0 hs hreqs
  refine ⟨g5, ?_⟩
  generalize fa.runPool reqs = pf at g1 g2 g3 g4
  obtain ⟨l, hl, hall⟩ := g1.chain
  have ok : pf.ListsOK (fun i => if i = s then l else []) [] [] :=
    { thread := fun i _ => by
        by_cases hi : i = s
        · rw [if_pos hi, hi]; exact hl
        · rw [if_neg hi, g1.others i hi]; rfl
      used := by rw [g1.used]; rfl
      free := by rw [g1.free]; rfl
      thread_thread := fun i j _ _ hij x hx hx' => by
        by_cases hi : i = s
        · have hj : j ≠ s := fun e => hij (hi.trans e.symm)
          rw [if_neg hj] at hx'
          exact absurd hx' (List.not_mem_nil _)
        · rw [if_neg hi] at hx
          exact absurd hx (List.not_mem_nil _)
      thread_used := fun _ _ x _ hx => absurd hx (List.not_mem_nil _)
      thread_free := fun _ _ x _ hx => absurd hx (List.not_mem_nil _)
      used_free := fun x hx => absurd hx (List.not_mem_nil _) }
  obtain ⟨fa2, e, _, r2, _, _, rchain, rlen, rblk, rmask, _⟩ :=
    FastAllocator.reset_spec _ _ _ pf ok
  have hmemU : ∀ x, x ∈ usedAfterFix (fun i => if i = s then l else []) []
      MAX_THREAD_USED_BLOCK_SLOTS ↔ x ∈ l := by
    intro x
    rw [mem_usedAfterFix]
    constructor
    · rintro (h | ⟨i, _, h⟩)
      · exact absurd h (List.not_mem_nil _)
      · by_cases hi : i = s
        · rw [if_pos hi] at h; exact h
        · rw [if_neg hi] at h; exact absurd h (List.not_mem_nil _)
    · intro h
      exact Or.inr ⟨s, hs8, by rw [if_pos rfl]; exact h⟩
  have hget : ∀ x, x ∈ l → ∃ b, pf.blocks.get? x = some b := by
    intro x hx
    have := isChain_lt _ _ _ hl x hx
    exact ⟨pf.blocks[x], by simp [List.get?_eq_getElem?, this]⟩
  have hns : ∀ x, x ∈ l → isShared pf.blocks x = false := by
    intro x hx
    obtain ⟨b, hb⟩ := hget x hx
    unfold isShared
    rw [hb]
    simpa using (g1.blocks b (List.get?_mem hb)).2
  have hmemF : ∀ x, x ∈ ((usedAfterFix (fun i => if i = s then l else []) []
      MAX_THREAD_USED_BLOCK_SLOTS).reverse ++ []).filter (fun a => !isShared pf.blocks a) ↔
      x ∈ l := by
    intro x
    simp only [List.append_nil, List.mem_filter, List.mem_reverse, hmemU, Bool.not_eq_true']
    exact ⟨fun h => h.1, fun h => ⟨h, hns x h⟩⟩
  have inv2 : fa2.ReuseInv (poolBlockSize fa.growSize) s
      (((usedAfterFix (fun i => if i = s then l else []) []
        MAX_THREAD_USED_BLOCK_SLOTS).reverse ++ []).filter (fun a => !isShared pf.blocks a)) :=
    { chain := rchain
      fresh := by
        intro x hx
        have hxl := (hmemF x).1 hx
        obtain ⟨b, hb⟩ := hget x hxl
        obtain ⟨b2, hb2, eb⟩ := rblk x b hb
        rw [if_pos ((hmemU x).2 hxl)] at eb
        refine ⟨b2, hb2, by rw [eb]; rfl, ?_⟩
        rw [eb]
        exact (g1.blocks b (List.get?_mem hb)).1
      current := by
        intro a ha
        rw [(r2 s hs8).1] at ha
        exact Option.noConfusion ha }
  have cur2 : fa2.SlotCursor (poolBlockSize fa.growSize) s none := by
    unfold FastAllocator.SlotCursor
    rw [(r2 s hs8).1]
  have hroom : cursorRun (poolBlockSize fa.growSize) none reqs ≤
      (((usedAfterFix (fun i => if i = s then l else []) []
        MAX_THREAD_USED_BLOCK_SLOTS).reverse ++ []).filter
          (fun a => !isShared pf.blocks a)).length := by
    apply length_le_of_range_subset
    intro x hx
    rw [hmemF]
    apply hall
    rw [g2, hblocks]
    simpa using hx
  obtain ⟨u1, u2⟩ := FastAllocator.runPool_reuse (poolBlockSize fa.growSize) s t fa.growSize rfl
    reqs fa2 none _ inv2 cur2 (by rw [rmask, g4]; exact hs) hreqs hroom
  have hsz : SameSizes pf.blocks fa2.blocks := by
    apply SameSizes.of_blocks _ _ rlen
    intro x b hb
    obtain ⟨b2, hb2, eb⟩ := rblk x b hb
    refine ⟨b2, hb2, ?_⟩
    rw [eb]
    split <;> rfl
  have hall2 : SameSizes pf.blocks (fa2.runPool reqs).blocks := Eq.trans u1 hsz
  refine ⟨fa2, e, u2, hall2.length, ?_⟩
  unfold FastAllocator.mappedBytes
  rw [hall2]

/-- Witness of C18 (amended): a new allocator (`growSize = 4096`) and three requests of
thread 0 of 100, 4000 and 4096 bytes. -/
theorem reset_replay_no_new_block_witness :
    (FastAllocator.new false).slotMask < MAX_THREAD_USED_BLOCK_SLOTS ∧
    ∃ fa2, ((FastAllocator.new false).runPool
        [⟨0, 100, 16, false, false⟩, ⟨0, 4000, 64, true, false⟩,
         ⟨0, 4096, 64, false, false⟩]).reset = some fa2 ∧
      (fa2.runPool [⟨0, 100, 16, false, false⟩, ⟨0, 4000, 64, true, false⟩,
         ⟨0, 4096, 64, false, false⟩]).blocks.length =
      ((FastAllocator.new false).runPool
        [⟨0, 100, 16, false, false⟩, ⟨0, 4000, 64, true, false⟩,
         ⟨0, 4096, 64, false, false⟩]).blocks.length :=
  ⟨by decide,
    match (reset_replay_no_new_block (FastAllocator.new false) 0
      [⟨0, 100, 16, false, false⟩, ⟨0, 4000, 64, true, false⟩, ⟨0, 4096, 64, false, false⟩]
      rfl rfl rfl (fun _ => ⟨rfl, rfl⟩) (Or.inl rfl) (by decide)
      (by
        intro q hq
        simp only [List.mem_cons, List.mem_singleton, List.not_mem_nil, or_false] at hq
        rcases hq with rfl | rfl | rfl
        · exact ⟨rfl, by decide, by decide, 4, by decide, rfl⟩
        · exact ⟨rfl, by decide, by decide, 6, by decide, rfl⟩
        · exact ⟨rfl, by decide, by decide, 6, by decide, rfl⟩)).2 with
    | ⟨fa2, h1, _, h3, _⟩ => ⟨fa2, h1, h3⟩⟩

/-- C18 (counterexample): on a new allocator the requests of 100000 and then 4000 bytes
(thread 0, not partial) create two blocks, with `reserveEnd` 102336 and 8128 and 110720
mapped bytes in total. After `reset()` the free list starts with the small block: the
replay of the first request takes both blocks into use and is served by the large one,
and the second request, which does not fit behind it, creates a third block: three
blocks and 118976 mapped bytes. -/
theorem reset_replay_creates_block :
    ((FastAllocator.new false).run
      [⟨0, 100000, 64, false, false⟩, ⟨0, 4000, 64, false, false⟩]).length = 2 ∧
    ((FastAllocator.new false).runPool
      [⟨0, 100000, 64, false, false⟩, ⟨0, 4000, 64, false, false⟩]).blocks.length = 2 ∧
    ((FastAllocator.new false).runPool
      [⟨0, 100000, 64, false, false⟩, ⟨0, 4000, 64, false, false⟩]).mappedBytes = 110720 ∧
    (((FastAllocator.new false).runPool
      [⟨0, 100000, 64, false, false⟩, ⟨0, 4000, 64, false, false⟩]).reset).map
      (fun fa2 =>
        ((fa2.run [⟨0, 100000, 64, false, false⟩, ⟨0, 4000, 64, false, false⟩]).length,
         (fa2.runPool
           [⟨0, 100000, 64, false, false⟩, ⟨0, 4000, 64, false, false⟩]).blocks.length,
         (fa2.runPool
           [⟨0, 100000, 64, false, false⟩, ⟨0, 4000, 64, false, false⟩]).mappedBytes)) =
      some (2, 3, 118976) := by
  decide

/-! ## The task count -/

/-- C29, counterexample: for `N = 0`, one thread and `BLOCK_SIZE = 1` the constructor
computes `tasks = 0`, which is below 1. -/
theorem numTasks_zero_for_empty_array :
    ¬ (1 ≤ numTasks 1 0 1 ∧ numTasks 1 0 1 ≤ 512) := by
  decide

/-- C29, amended: for every `N >= 1`, every `maxThreads >= 1` and every `BLOCK_SIZE`, the
task count computed by the constructor satisfies `1 <= tasks <= 512`. -/
theorem numTasks_bounds (BLOCK_SIZE N maxThreads : Nat) (hN : 1 ≤ N) (hth : 1 ≤ maxThreads) :
    1 ≤ numTasks BLOCK_SIZE N maxThreads ∧ numTasks BLOCK_SIZE N maxThreads ≤ 512 := by
  unfold numTasks MAX_TASKS
  refine ⟨?_, Nat.min_le_right _ _⟩
  rw [Nat.le_min]
  refine ⟨?_, by omega⟩
  split
  · exact hth
  · rename_i h
    have hB : 0 < BLOCK_SIZE := by
      rcases Nat.eq_zero_or_pos BLOCK_SIZE with h0 | h0
      · exact absurd (by rw [h0]; exact Nat.zero_le _) h
      · exact h0
    rw [Nat.le_div_iff_mul_le hB]
    omega

/-- C29, amended, on an input: 1000 elements, 8 threads and `BLOCK_SIZE = 128` give a
task count between 1 and 512. -/
theorem numTasks_bounds_witness :
    (1 ≤ 1000 ∧ 1 ≤ 8) ∧ 1 ≤ numTasks 128 1000 8 ∧ numTasks 128 1000 8 ≤ 512 :=
  ⟨by decide, numTasks_bounds 128 1000 8 (by decide) (by decide)⟩

/-- C24, failing input: for `BLOCK_SIZE = 2`, `N = 2000` and 1000 threads the task count
is `MAX_TASKS`, so the sentinel index `tasks` of `counter_start[tasks] = N` and
`counter_left[tasks] = 0` is not below the capacity of the arrays and the stores have no
defined result. -/
theorem sentinel_index_at_capacity :
    ¬ 2000 < 2 ∧ 1 ≤ 1000 ∧ numTasks 2 2000 1000 = MAX_TASKS ∧
    (setSentinels (parallel_partition_static_task.create 2 (fun _ => false) 2000 1000 ()
      (zeroTables ()))).isNone = true := by
  refine ⟨by decide, by decide, by decide, ?_⟩
  rw [setSentinels_of_not_lt _ (by decide)]
  rfl

/-! ## The member init -/

theorem parallel_for_withInit (v : V) (body : Nat → parallel_partition_static_task T V →
      parallel_partition_static_task T V)
    (hb : ∀ t p, body t (withInit v p) = withInit v (body t p)) (order : List Nat) :
    ∀ p, parallel_for order body (withInit v p) = withInit v (parallel_for order body p) := by
  induction order with
  | nil => intro p; rfl
  | cons t rest ih =>
    intro p
    simp only [parallel_for, List.foldl_cons] at ih ⊢
    rw [hb, ih]

theorem misplacedStep_withInit (v : V) (gl gr : Range) (st : MisplacedState T V) (i : Nat) :
    misplacedStep gl gr { st with p := withInit v st.p } i =
      { misplacedStep gl gr st i with p := withInit v (misplacedStep gl gr st i).p } := by
  obtain ⟨p, nL, nR⟩ := st
  obtain ⟨a, N, tasks, ini, n1, n2, n3, cs, cl, lm, rm, lr, rr⟩ := p
  simp only [misplacedStep, withInit]
  split_ifs <;> rfl

theorem misplacedLoop_withInit (v : V) (mid : Nat) (p : parallel_partition_static_task T V) :
    misplacedLoop mid (withInit v p) =
      { misplacedLoop mid p with p := withInit v (misplacedLoop mid p).p } := by
  unfold misplacedLoop
  simp only []
  have key : ∀ (l : List Nat) (st : MisplacedState T V),
      l.foldl (misplacedStep ⟨0, (mid : Int) - 1⟩ ⟨(mid : Int), (p.N : Int) - 1⟩)
          { st with p := withInit v st.p } =
        { l.foldl (misplacedStep ⟨0, (mid : Int) - 1⟩ ⟨(mid : Int), (p.N : Int) - 1⟩) st with
          p := withInit v (l.foldl (misplacedStep ⟨0, (mid : Int) - 1⟩
            ⟨(mid : Int), (p.N : Int) - 1⟩) st).p } := by
    intro l
    induction l with
    | nil => intro st; rfl
    | cons i rest ih =>
      intro st
      simp only [List.foldl_cons]
      rw [misplacedStep_withInit, ih]
  exact key (List.range p.tasks) ⟨p, 0, 0⟩

theorem partitionTail_eq (order2 : List Nat) (L R : V)
    (p : parallel_partition_static_task T V) :
    partitionTail order2 L R p =
      { mid := sumCounterLeft p, leftReduction := L, rightReduction := R,
        task := if (phase3Entry p).numMisplacedItems ≠ 0
          then parallel_for order2 swapTask (phase3Entry p) else phase3Entry p } := rfl

theorem phase3Entry_withInit (v : V) (p : parallel_partition_static_task T V) :
    phase3Entry (withInit v p) = withInit v (phase3Entry p) := by
  unfold phase3Entry
  rw [show sumCounterLeft (withInit v p) = sumCounterLeft p from rfl, misplacedLoop_withInit]
  rfl

theorem partitionTail_withInit (v : V) (order2 : List Nat) (L R : V)
    (p : parallel_partition_static_task T V) :
    partitionTail order2 L R (withInit v p) =
      { partitionTail order2 L R p with task := withInit v (partitionTail order2 L R p).task } := by
  rw [partitionTail_eq, partitionTail_eq, phase3Entry_withInit]
  have e : (withInit v (phase3Entry p)).numMisplacedItems = (phase3Entry p).numMisplacedItems :=
    rfl
  rw [e, show sumCounterLeft (withInit v p) = sumCounterLeft p from rfl]
  by_cases h : (phase3Entry p).numMisplacedItems ≠ 0
  · simp only [if_pos h]
    rw [parallel_for_withInit v swapTask (fun _ _ => rfl) order2 _]
  · simp only [if_neg h]

theorem setSentinels_withInit (v : V) (p : parallel_partition_static_task T V) :
    setSentinels (withInit v p) = (setSentinels p).map (withInit v) := by
  unfold setSentinels storeChecked
  by_cases h : p.tasks < MAX_TASKS
  · have h' : (withInit v p).tasks < MAX_TASKS := h
    simp only [if_pos h, if_pos h']
    rfl
  · have h' : ¬ (withInit v p).tasks < MAX_TASKS := h
    simp only [if_neg h, if_neg h']
    rfl

theorem partition_withInit (BLOCK_SIZE : Nat) (empty : V) (cmp : T → Bool)
    (reduction_t : V → T → V) (reduction_v : V → V → V) (order1 order2 : List Nat) (v : V)
    (p : parallel_partition_static_task T V) :
    (withInit v p).partition BLOCK_SIZE empty cmp reduction_t reduction_v order1 order2 =
      (p.partition BLOCK_SIZE empty cmp reduction_t reduction_v order1 order2).map
        (fun res => { res with task := withInit v res.task }) := by
  unfold parallel_partition_static_task.partition
  by_cases hN : p.N < BLOCK_SIZE
  · have hN' : (withInit v p).N < BLOCK_SIZE := hN
    rw [if_pos hN, if_pos hN']
    rfl
  · have hN' : ¬ (withInit v p).N < BLOCK_SIZE := hN
    rw [if_neg hN, if_neg hN']
    simp only []
    rw [parallel_for_withInit v (partitionTask empty cmp reduction_t) (fun _ _ => rfl) order1 p]
    unfold partitionFinish
    rw [setSentinels_withInit]
    rw [show combineReductions empty reduction_v
        (withInit v (parallel_for order1 (partitionTask empty cmp reduction_t) p)) =
      combineReductions empty reduction_v
        (parallel_for order1 (partitionTask empty cmp reduction_t) p) from rfl]
    cases setSentinels (parallel_for order1 (partitionTask empty cmp reduction_t) p) with
    | none => rfl
    | some ps =>
      simp only [Option.map_some']
      rw [partitionTail_withInit]

/-- C28: the result of `parallel_in_place_partitioning_static` (the returned `mid`, the
final array and the final `leftReduction` and `rightReduction`) is the same for any two
values `init1`, `init2` of the argument `init`, for every array, predicate, reductions,
thread count and schedules: the argument is stored in the task object and never read. -/
theorem partitioning_independent_of_init (BLOCK_SIZE : Nat) (array : Mem T) (N : Nat)
    (init1 init2 : V) (L0 R0 : V) (cmp : T → Bool) (reduction_t : V → T → V)
    (reduction_v : V → V → V) (numThreads : Nat) (empty : V) (raw : RawTables V)
    (order1 order2 : List Nat) :
    parallel_in_place_partitioning_static BLOCK_SIZE array N init1 L0 R0 cmp reduction_t
        reduction_v numThreads empty raw order1 order2 =
      parallel_in_place_partitioning_static BLOCK_SIZE array N init2 L0 R0 cmp reduction_t
        reduction_v numThreads empty raw order1 order2 := by
  unfold parallel_in_place_partitioning_static
  have e : parallel_partition_static_task.create BLOCK_SIZE array N numThreads init1 raw =
      withInit init1
        (parallel_partition_static_task.create BLOCK_SIZE array N numThreads init2 raw) := rfl
  rw [e, partition_withInit, Option.map_map]
  rfl

/-! ## The state on entry of the second parallel_for -/

theorem phase3Entry_spec (cmp : T → Bool) (red : V → T → V) (empty : V) (a0 : Mem T)
    (N tasks : Nat) (p1 : parallel_partition_static_task T V)
    (inv : Phase1Inv cmp red empty a0 N tasks (fun u => u < tasks) p1) (ht : 0 < tasks) :
    (phase3Entry (withSentinels p1)).tasks = tasks ∧
    (phase3Entry (withSentinels p1)).array = p1.array ∧
    (misplacedLoop (sumCounterLeft (withSentinels p1)) (withSentinels p1)).numMisplacedItemsLeft =
      (misplacedLoop (sumCounterLeft (withSentinels p1))
        (withSentinels p1)).numMisplacedItemsRight ∧
    (∀ j, j < (phase3Entry (withSentinels p1)).numMisplacedRangesLeft →
      0 < ((phase3Entry (withSentinels p1)).leftMisplacedRanges j).size) ∧
    (∀ j, j < (phase3Entry (withSentinels p1)).numMisplacedRangesRight →
      0 < ((phase3Entry (withSentinels p1)).rightMisplacedRanges j).size) ∧
    prefixSize (phase3Entry (withSentinels p1)).leftMisplacedRanges
      (phase3Entry (withSentinels p1)).numMisplacedRangesLeft =
        (phase3Entry (withSentinels p1)).numMisplacedItems ∧
    prefixSize (phase3Entry (withSentinels p1)).rightMisplacedRanges
      (phase3Entry (withSentinels p1)).numMisplacedRangesRight =
        (phase3Entry (withSentinels p1)).numMisplacedItems ∧
    (∀ k, k < (phase3Entry (withSentinels p1)).numMisplacedItems →
      0 ≤ cellOf (phase3Entry (withSentinels p1)).leftMisplacedRanges
        (phase3Entry (withSentinels p1)).numMisplacedRangesLeft k ∧
      cellOf (phase3Entry (withSentinels p1)).leftMisplacedRanges
        (phase3Entry (withSentinels p1)).numMisplacedRangesLeft k <
          sumCounterLeft (withSentinels p1) ∧
      (sumCounterLeft (withSentinels p1) : Int) ≤
        cellOf (phase3Entry (withSentinels p1)).rightMisplacedRanges
          (phase3Entry (withSentinels p1)).numMisplacedRangesRight k ∧
      cellOf (phase3Entry (withSentinels p1)).rightMisplacedRanges
        (phase3Entry (withSentinels p1)).numMisplacedRangesRight k < N) ∧
    (∀ k k', k < (phase3Entry (withSentinels p1)).numMisplacedItems →
      k' < (phase3Entry (withSentinels p1)).numMisplacedItems →
      cellOf (phase3Entry (withSentinels p1)).leftMisplacedRanges
        (phase3Entry (withSentinels p1)).numMisplacedRangesLeft k =
      cellOf (phase3Entry (withSentinels p1)).leftMisplacedRanges
        (phase3Entry (withSentinels p1)).numMisplacedRangesLeft k' → k = k') ∧
    (∀ k k', k < (phase3Entry (withSentinels p1)).numMisplacedItems →
      k' < (phase3Entry (withSentinels p1)).numMisplacedItems →
      cellOf (phase3Entry (withSentinels p1)).rightMisplacedRanges
        (phase3Entry (withSentinels p1)).numMisplacedRangesRight k =
      cellOf (phase3Entry (withSentinels p1)).rightMisplacedRanges
        (phase3Entry (withSentinels p1)).numMisplacedRangesRight k' → k = k') := by
  obtain ⟨core, cL, cR, htot, hmid, hb⟩ := phase2_post cmp red empty a0 N tasks p1 inv ht
  obtain ⟨w1, w2, w3, w4, w5, w6, w7⟩ :=
    withSentinels_counters cmp red empty a0 N tasks p1 inv ht
  unfold phase3Entry
  simp only []
  generalize hq : withSentinels p1 = q at core cL cR htot hmid w1 w2 w3 w4 w5 w6 w7
  generalize hm : sumCounterLeft q = mid at core cL cR htot hmid
  generalize hst : misplacedLoop mid q = st at core cL cR htot
  obtain ⟨k1, k2, k3, k4, k5⟩ := core
  have hMR : (rightView st).total = st.numMisplacedItemsLeft := htot.symm
  have hfL : ∀ k, k < st.numMisplacedItemsLeft →
      0 ≤ cellOf st.p.leftMisplacedRanges st.p.numMisplacedRangesLeft k ∧
      cellOf st.p.leftMisplacedRanges st.p.numMisplacedRangesLeft k < mid := by
    intro k hk
    obtain ⟨t, ht', e1, e2⟩ := cL.cell_mem k hk
    simp only [leftMisOf, Range.intersect] at e1 e2
    have x1 := w1 t (by omega)
    have x2 := w1 (t + 1) (by omega)
    have x3 := w2 t ht'
    rw [x1, x3] at e1
    rw [x2] at e2
    exact ⟨by change (0 : Int) ≤ cellOf (leftView st).tbl (leftView st).n k; omega,
      by change cellOf (leftView st).tbl (leftView st).n k < (mid : Int); omega⟩
  have hgR : ∀ k, k < st.numMisplacedItemsLeft →
      (mid : Int) ≤ cellOf st.p.rightMisplacedRanges st.p.numMisplacedRangesRight k ∧
      cellOf st.p.rightMisplacedRanges st.p.numMisplacedRangesRight k < N := by
    intro k hk
    obtain ⟨t, ht', e1, e2⟩ := cR.cell_mem k (by rw [hMR]; exact hk)
    simp only [rightMisOf, Range.intersect] at e1 e2
    have x1 := w1 t (by omega)
    have x3 := w2 t ht'
    rw [x1] at e1
    rw [x1, x3] at e2
    have := hb t ht'
    have := taskStart_le N (show t + 1 ≤ tasks from ht')
    exact ⟨by change (mid : Int) ≤ cellOf (rightView st).tbl (rightView st).n k; omega,
      by change cellOf (rightView st).tbl (rightView st).n k < (N : Int); omega⟩
  refine ⟨k3.trans w5, k1.trans w3, htot, fun j hj => cL.size_pos j hj,
    fun j hj => cR.size_pos j hj, cL.tot1.symm, ?_, ?_, ?_, ?_⟩
  · exact cR.tot1.symm.trans hMR
  · intro k hk
    exact ⟨(hfL k hk).1, (hfL k hk).2, (hgR k hk).1, (hgR k hk).2⟩
  · intro k k' hk hk' e
    exact cL.cell_inj k k' hk hk' e
  · intro k k' hk hk' e
    exact cR.cell_inj k k' (by rw [hMR]; exact hk) (by rw [hMR]; exact hk') e

theorem setSentinels_eq_some (p ps : parallel_partition_static_task T V)
    (h : setSentinels p = some ps) : p.tasks < MAX_TASKS ∧ ps = withSentinels p := by
  by_cases hlt : p.tasks < MAX_TASKS
  · rw [setSentinels_of_lt p hlt] at h
    exact ⟨hlt, (Option.some.inj h).symm⟩
  · rw [setSentinels_of_not_lt p hlt] at h
    exact Option.noConfusion h

theorem findStartRange_in_range (r : Nat → Range) (n c : Nat) (h : c < prefixSize r n) :
    (findStartRange c r n).1 < n ∧
    (findStartRange c r n).2 < (r (findStartRange c r n).1).size ∧
    prefixSize r (findStartRange c r n).1 + (findStartRange c r n).2 = c ∧
    ∀ fuel, n ≤ fuel → findStartRangeLoop r fuel 0 c = findStartRange c r n := by
  obtain ⟨i, hi, h1, h2⟩ := exists_range_of_lt r n c h
  have e := findStartRange_spec r n c i hi h1 h2
  rw [e]
  simp only []
  rw [prefixSize_succ] at h2
  refine ⟨hi, by omega, by omega, fun fuel hf => ?_⟩
  have := findStartRangeLoop_spec r c i h1 (by rw [prefixSize_succ]; exact h2) fuel 0
    (Nat.zero_le _) (by omega)
  simpa [prefixSize] using this

theorem taskStart_lt (M : Nat) {tasks t : Nat} (hM : 1 ≤ M) (ht : t < tasks) :
    t * M / tasks < M := by
  apply Nat.div_lt_of_lt_mul
  exact Nat.mul_lt_mul_of_pos_right ht hM

/-- C26: in `partition`, for every array, predicate, task count `tasks >= 1` and schedule
of the first `parallel_for`, with `ps` the task object that the sentinel stores leave:
when the misplaced-range loop has counted `numMisplacedItems >= 1`, then for every task
`t < tasks` the start coordinate
`startID = t*numMisplacedItems/tasks` is below the total size of the left misplaced ranges
and below that of the right misplaced ranges, and each of the two calls of
`findStartRange` ends at a list index `i < numRanges` with a residual index below
`r[i].size()`; the loop does not depend on the fuel `numRanges`. -/
theorem findStartRange_within_ranges (empty : V) (cmp : T → Bool) (reduction_t : V → T → V)
    (order1 : List Nat) (p ps : parallel_partition_static_task T V) (t : Nat)
    (ht : 1 ≤ p.tasks) (ho1 : order1.Perm (List.range p.tasks))
    (hs : setSentinels (parallel_for order1 (partitionTask empty cmp reduction_t) p) = some ps)
    (hM : 1 ≤ (phase3Entry ps).numMisplacedItems) (htt : t < (phase3Entry ps).tasks) :
    t * (phase3Entry ps).numMisplacedItems / (phase3Entry ps).tasks <
      prefixSize (phase3Entry ps).leftMisplacedRanges (phase3Entry ps).numMisplacedRangesLeft ∧
    t * (phase3Entry ps).numMisplacedItems / (phase3Entry ps).tasks <
      prefixSize (phase3Entry ps).rightMisplacedRanges (phase3Entry ps).numMisplacedRangesRight ∧
    (findStartRange (t * (phase3Entry ps).numMisplacedItems / (phase3Entry ps).tasks)
      (phase3Entry ps).leftMisplacedRanges (phase3Entry ps).numMisplacedRangesLeft).1 <
        (phase3Entry ps).numMisplacedRangesLeft ∧
    (findStartRange (t * (phase3Entry ps).numMisplacedItems / (phase3Entry ps).tasks)
      (phase3Entry ps).leftMisplacedRanges (phase3Entry ps).numMisplacedRangesLeft).2 <
        ((phase3Entry ps).leftMisplacedRanges
          (findStartRange (t * (phase3Entry ps).numMisplacedItems / (phase3Entry ps).tasks)
            (phase3Entry ps).leftMisplacedRanges
            (phase3Entry ps).numMisplacedRangesLeft).1).size ∧
    (findStartRange (t * (phase3Entry ps).numMisplacedItems / (phase3Entry ps).tasks)
      (phase3Entry ps).rightMisplacedRanges (phase3Entry ps).numMisplacedRangesRight).1 <
        (phase3Entry ps).numMisplacedRangesRight ∧
    (findStartRange (t * (phase3Entry ps).numMisplacedItems / (phase3Entry ps).tasks)
      (phase3Entry ps).rightMisplacedRanges (phase3Entry ps).numMisplacedRangesRight).2 <
        ((phase3Entry ps).rightMisplacedRanges
          (findStartRange (t * (phase3Entry ps).numMisplacedItems / (phase3Entry ps).tasks)
            (phase3Entry ps).rightMisplacedRanges
            (phase3Entry ps).numMisplacedRangesRight).1).size ∧
    (∀ fuel, (phase3Entry ps).numMisplacedRangesLeft ≤ fuel →
      findStartRangeLoop (phase3Entry ps).leftMisplacedRanges fuel 0
          (t * (phase3Entry ps).numMisplacedItems / (phase3Entry ps).tasks) =
        findStartRange (t * (phase3Entry ps).numMisplacedItems / (phase3Entry ps).tasks)
          (phase3Entry ps).leftMisplacedRanges (phase3Entry ps).numMisplacedRangesLeft) ∧
    (∀ fuel, (phase3Entry ps).numMisplacedRangesRight ≤ fuel →
      findStartRangeLoop (phase3Entry ps).rightMisplacedRanges fuel 0
          (t * (phase3Entry ps).numMisplacedItems / (phase3Entry ps).tasks) =
        findStartRange (t * (phase3Entry ps).numMisplacedItems / (phase3Entry ps).tasks)
          (phase3Entry ps).rightMisplacedRanges (phase3Entry ps).numMisplacedRangesRight) := by
  have inv := phase1_post cmp reduction_t empty p order1 ho1
  generalize parallel_for order1 (partitionTask empty cmp reduction_t) p = p1 at inv hs
  obtain ⟨_, rfl⟩ := setSentinels_eq_some p1 ps hs
  obtain ⟨_, _, _, _, _, hML, hMR, _, _, _⟩ :=
    phase3Entry_spec cmp reduction_t empty p.array p.N p.tasks p1 inv ht
  have hlt := taskStart_lt (phase3Entry (withSentinels p1)).numMisplacedItems hM htt
  obtain ⟨l1, l2, _, l4⟩ := findStartRange_in_range (phase3Entry (withSentinels p1)).leftMisplacedRanges
    (phase3Entry (withSentinels p1)).numMisplacedRangesLeft _ (by rw [hML]; exact hlt)
  obtain ⟨r1, r2, _, r4⟩ := findStartRange_in_range (phase3Entry (withSentinels p1)).rightMisplacedRanges
    (phase3Entry (withSentinels p1)).numMisplacedRangesRight _ (by rw [hMR]; exact hlt)
  exact ⟨by rw [hML]; exact hlt, by rw [hMR]; exact hlt, l1, l2, r1, r2, l4, r4⟩

/-- C26 on an input: the array `5, 6, 1, 2, 7, 3` with the predicate "is below 4" and
three tasks has two misplaced items on each side; for task 2 the start coordinate 1 lies
in the first left range and in the second right range. -/
theorem findStartRange_within_ranges_witness :
    (1 ≤ exampleTask.tasks ∧ [2, 0, 1].Perm (List.range exampleTask.tasks) ∧
      1 ≤ (phase3Entry examplePhase1).numMisplacedItems ∧
      2 < (phase3Entry examplePhase1).tasks) ∧
    (findStartRange (2 * (phase3Entry examplePhase1).numMisplacedItems /
        (phase3Entry examplePhase1).tasks)
      (phase3Entry examplePhase1).rightMisplacedRanges
      (phase3Entry examplePhase1).numMisplacedRangesRight).1 <
        (phase3Entry examplePhase1).numMisplacedRangesRight :=
  ⟨by decide,
   (findStartRange_within_ranges 0 exampleCmp (fun acc x => acc + x) [2, 0, 1] exampleTask
      examplePhase1 2 (by decide) (by decide) (setSentinels_of_lt _ (by decide)) (by decide)
      (by decide)).2.2.2.2.1⟩

/-! ## The cells of the second parallel_for -/

theorem Range.cells_length (r : Range) : r.cells.length = r.size := by
  simp [Range.cells]

theorem concatCells_succ (r : Nat → Range) (n : Nat) :
    concatCells r (n + 1) = concatCells r n ++ (r n).cells := by
  simp [concatCells, List.range_succ, List.flatMap_append]

theorem concatCells_length (r : Nat → Range) (n : Nat) :
    (concatCells r n).length = prefixSize r n := by
  induction n with
  | zero => rfl
  | succ n ih => rw [concatCells_succ, List.length_append, ih, Range.cells_length, prefixSize_succ]

theorem concatCells_prefix (r : Nat → Range) (i c : Nat) (x : Int)
    (h : (concatCells r (i + 1))[c]? = some x) :
    ∀ n, i + 1 ≤ n → (concatCells r n)[c]? = some x := by
  intro n hn
  induction n with
  | zero => omega
  | succ n ih =>
    rcases Nat.eq_or_lt_of_le hn with e | e
    · rw [← e]; exact h
    · rw [concatCells_succ]
      have := ih (by omega)
      rw [List.getElem?_append_left]
      · exact this
      · by_contra hc
        rw [List.getElem?_eq_none (by omega)] at this
        exact Option.noConfusion this

theorem concatCells_get (r : Nat → Range) (n c : Nat) (h : c < prefixSize r n) :
    (concatCells r n)[c]? = some (cellOf r n c) := by
  obtain ⟨i, hi, h1, h2⟩ := exists_range_of_lt r n c h
  rw [cellOf_eq r n c i hi h1 h2]
  apply concatCells_prefix r i c _ _ n hi
  rw [concatCells_succ, List.getElem?_append_right (by rw [concatCells_length]; exact h1),
    concatCells_length]
  rw [prefixSize_succ] at h2
  simp only [Range.cells]
  rw [List.getElem?_map, List.getElem?_range (by omega)]
  simp only [Option.map_some']
  congr 1
  omega

theorem task_of_coordinate (M tasks : Nat) (ht : 0 < tasks) (k : Nat) (hk : k < M) :
    ∃! t, t < tasks ∧ taskStart M tasks t ≤ k ∧ k < taskStart M tasks (t + 1) := by
  obtain ⟨t, h1, h2, h3⟩ := exists_task_of_lt M tasks tasks k
    (by rw [taskStart_last M ht]; exact hk)
  refine ⟨t, ⟨h1, h2, h3⟩, ?_⟩
  rintro u ⟨_, u2, u3⟩
  rcases Nat.lt_trichotomy u t with h | h | h
  · have := taskStart_mono M tasks (show u + 1 ≤ t from h)
    omega
  · exact h
  · have := taskStart_mono M tasks (show t + 1 ≤ u from h)
    omega

/-- C25: in `partition`, for every array, predicate, task count `tasks >= 1` and schedule
of the first `parallel_for`, with `ps` the task object that the sentinel stores leave,
let `M = numMisplacedItems` on entry of the second `parallel_for`. The cells that `swapItemsInMisplacedRanges` computes for a coordinate
`k < M` are the `k`-th cell of the concatenation of the left misplaced ranges and the
`k`-th cell of the concatenation of the right misplaced ranges. On every array content
`a`, task `t` makes exactly the exchanges of these two cells for
`k = t*M/tasks, ..., (t+1)*M/tasks - 1`, once each: the cells of the pairs are exchanged
and every other cell is left as it was. Every `k < M` belongs to exactly one task, the
cells of different coordinates are different, and two different tasks touch no common
cell. -/
theorem phase3_tasks_disjoint (empty : V) (cmp : T → Bool) (reduction_t : V → T → V)
    (order1 : List Nat) (p ps : parallel_partition_static_task T V)
    (ht : 1 ≤ p.tasks) (ho1 : order1.Perm (List.range p.tasks))
    (hs : setSentinels (parallel_for order1 (partitionTask empty cmp reduction_t) p) = some ps) :
    (phase3Entry ps).tasks = p.tasks ∧
    (∀ k, k < (phase3Entry ps).numMisplacedItems →
      (concatCells (phase3Entry ps).leftMisplacedRanges
        (phase3Entry ps).numMisplacedRangesLeft)[k]? = some (leftCell (phase3Entry ps) k) ∧
      (concatCells (phase3Entry ps).rightMisplacedRanges
        (phase3Entry ps).numMisplacedRangesRight)[k]? = some (rightCell (phase3Entry ps) k)) ∧
    (∀ (t : Nat) (a : Mem T), t < p.tasks →
      (swapTask t { phase3Entry ps with array := a }).array =
        swapCells (leftCell (phase3Entry ps)) (rightCell (phase3Entry ps))
          (taskStart (phase3Entry ps).numMisplacedItems p.tasks t)
          (taskStart (phase3Entry ps).numMisplacedItems p.tasks (t + 1) -
            taskStart (phase3Entry ps).numMisplacedItems p.tasks t) a ∧
      Swapped (leftCell (phase3Entry ps)) (rightCell (phase3Entry ps))
        (fun k => taskStart (phase3Entry ps).numMisplacedItems p.tasks t ≤ k ∧
          k < taskStart (phase3Entry ps).numMisplacedItems p.tasks (t + 1))
        a (swapTask t { phase3Entry ps with array := a }).array) ∧
    (∀ k, k < (phase3Entry ps).numMisplacedItems →
      ∃! t, t < p.tasks ∧ taskStart (phase3Entry ps).numMisplacedItems p.tasks t ≤ k ∧
        k < taskStart (phase3Entry ps).numMisplacedItems p.tasks (t + 1)) ∧
    (∀ k k', k < (phase3Entry ps).numMisplacedItems →
      k' < (phase3Entry ps).numMisplacedItems →
      (leftCell (phase3Entry ps) k = leftCell (phase3Entry ps) k' → k = k') ∧
      (rightCell (phase3Entry ps) k = rightCell (phase3Entry ps) k' → k = k') ∧
      leftCell (phase3Entry ps) k ≠ rightCell (phase3Entry ps) k') ∧
    (∀ t u k k', t < p.tasks → u < p.tasks → t ≠ u →
      taskStart (phase3Entry ps).numMisplacedItems p.tasks t ≤ k →
      k < taskStart (phase3Entry ps).numMisplacedItems p.tasks (t + 1) →
      taskStart (phase3Entry ps).numMisplacedItems p.tasks u ≤ k' →
      k' < taskStart (phase3Entry ps).numMisplacedItems p.tasks (u + 1) →
      leftCell (phase3Entry ps) k ≠ leftCell (phase3Entry ps) k' ∧
      leftCell (phase3Entry ps) k ≠ rightCell (phase3Entry ps) k' ∧
      rightCell (phase3Entry ps) k ≠ leftCell (phase3Entry ps) k' ∧
      rightCell (phase3Entry ps) k ≠ rightCell (phase3Entry ps) k') := by
  have inv := phase1_post cmp reduction_t empty p order1 ho1
  generalize parallel_for order1 (partitionTask empty cmp reduction_t) p = p1 at inv hs
  obtain ⟨_, rfl⟩ := setSentinels_eq_some p1 ps hs
  obtain ⟨hT, _, _, hl, hr, hML, hMR, hcell, hf, hg⟩ :=
    phase3Entry_spec cmp reduction_t empty p.array p.N p.tasks p1 inv ht
  generalize phase3Entry (withSentinels p1) = q at hT hl hr hML hMR hcell hf hg
  have hfg : ∀ k k', k < q.numMisplacedItems → k' < q.numMisplacedItems →
      leftCell q k ≠ rightCell q k' := by
    intro k k' hk hk' e
    have h1 := (hcell k hk).2.1
    have h2 := (hcell k' hk').2.2.1
    unfold leftCell rightCell at e
    omega
  have hinj : ∀ k k', k < q.numMisplacedItems → k' < q.numMisplacedItems →
      (leftCell q k = leftCell q k' → k = k') ∧ (rightCell q k = rightCell q k' → k = k') ∧
      leftCell q k ≠ rightCell q k' :=
    fun k k' hk hk' => ⟨hf k k' hk hk', hg k k' hk hk', hfg k k' hk hk'⟩
  refine ⟨hT, ?_, ?_, ?_, hinj, ?_⟩
  · intro k hk
    exact ⟨concatCells_get _ _ k (by rw [hML]; exact hk),
      concatCells_get _ _ k (by rw [hMR]; exact hk)⟩
  · intro t a htt
    have hmono := taskStart_mono q.numMisplacedItems p.tasks (show t ≤ t + 1 by omega)
    have hle := taskStart_le q.numMisplacedItems (show t + 1 ≤ p.tasks from htt)
    have e1 : (swapTask t { q with array := a }).array =
        swapCells (leftCell q) (rightCell q) (taskStart q.numMisplacedItems p.tasks t)
          (taskStart q.numMisplacedItems p.tasks (t + 1) -
            taskStart q.numMisplacedItems p.tasks t) a := by
      have := swapItemsInMisplacedRanges_spec a q.leftMisplacedRanges q.numMisplacedRangesLeft
        q.rightMisplacedRanges q.numMisplacedRangesRight q.numMisplacedItems
        (taskStart q.numMisplacedItems p.tasks t) (taskStart q.numMisplacedItems p.tasks (t + 1))
        hl hr hML hMR hmono hle
      rw [← hT] at this ⊢
      exact this
    refine ⟨e1, ?_⟩
    rw [e1]
    have sw := @swapCells_swapped _ _ _ a q.numMisplacedItems hf hg hfg
      (taskStart q.numMisplacedItems p.tasks (t + 1) - taskStart q.numMisplacedItems p.tasks t)
      (taskStart q.numMisplacedItems p.tasks t) (fun _ => False) a
      ⟨fun _ h => h.elim, fun _ h => h.elim, fun _ _ => rfl⟩ (fun _ h => h.elim) (by omega)
    exact sw.congr (fun k => ⟨fun h => Or.inl ⟨h.1, by omega⟩,
      fun h => h.elim (fun h' => ⟨h'.1, by omega⟩) (fun h' => h'.elim)⟩)
  · intro k hk
    exact task_of_coordinate q.numMisplacedItems p.tasks ht k hk
  · intro t u k k' htt hu hne a1 a2 b1 b2
    have hk : k < q.numMisplacedItems := by
      have := taskStart_le q.numMisplacedItems (show t + 1 ≤ p.tasks from htt)
      omega
    have hk' : k' < q.numMisplacedItems := by
      have := taskStart_le q.numMisplacedItems (show u + 1 ≤ p.tasks from hu)
      omega
    have hkk : k ≠ k' := by
      intro e
      subst e
      exact hne ((task_of_coordinate q.numMisplacedItems p.tasks ht k hk).unique
        ⟨htt, a1, a2⟩ ⟨hu, b1, b2⟩)
    exact ⟨fun e => hkk (hf k k' hk hk' e), hfg k k' hk hk',
      fun e => hfg k' k hk' hk e.symm, fun e => hkk (hg k k' hk hk' e)⟩

/-- C25 on an input: the array `5, 6, 1, 2, 7, 3` with the predicate "is below 4" and
three tasks; task 2 exchanges the cells of the coordinate 1 and no other. -/
theorem phase3_tasks_disjoint_witness :
    (1 ≤ exampleTask.tasks ∧ [2, 0, 1].Perm (List.range exampleTask.tasks)) ∧
    Swapped (leftCell (phase3Entry examplePhase1)) (rightCell (phase3Entry examplePhase1))
      (fun k => taskStart (phase3Entry examplePhase1).numMisplacedItems exampleTask.tasks 2 ≤ k ∧
        k < taskStart (phase3Entry examplePhase1).numMisplacedItems exampleTask.tasks (2 + 1))
      (phase3Entry examplePhase1).array
      (swapTask 2 { phase3Entry examplePhase1 with
        array := (phase3Entry examplePhase1).array }).array :=
  ⟨by decide,
   ((phase3_tasks_disjoint 0 exampleCmp (fun acc x => acc + x) [2, 0, 1] exampleTask
      examplePhase1 (by decide) (by decide) (setSentinels_of_lt _ (by decide))).2.2.1 2
      (phase3Entry examplePhase1).array (by decide)).2⟩

/-! ## The rounds of swapItemsInMisplacedRanges -/

theorem swapRound_items (lm : Nat → Range) (nl : Nat) (rm : Nat → Range) (nr : Nat) (M e c : Nat)
    (s : SwapState T) (inv : SwapInv lm nl rm nr e c s)
    (hl : ∀ j, j < nl → 0 < (lm j).size) (hr : ∀ j, j < nr → 0 < (rm j).size)
    (hML : prefixSize lm nl = M) (hMR : prefixSize rm nr = M) (he : e ≤ M) (hs : s.size ≠ 0) :
    1 ≤ (advanceRight rm (advanceLeft lm s)).items ∧
    (advanceRight rm (advanceLeft lm s)).l_range < nl ∧
    (advanceRight rm (advanceLeft lm s)).r_range < nr ∧
    c + (advanceRight rm (advanceLeft lm s)).items ≤ e ∧
    SwapInv lm nl rm nr e (c + (advanceRight rm (advanceLeft lm s)).items)
      (swapRound lm rm s) := by
  obtain ⟨_, q2, q3, q4, q5, q6, q7⟩ := advance_spec lm nl rm nr M e c s inv hl hr hML hMR he hs
  obtain ⟨m, hm, hcm, inv', _⟩ := swapRound_spec lm nl rm nr M e c s inv hl hr hML hMR he hs
  have hsz : (swapRound lm rm s).size =
      (advanceRight rm (advanceLeft lm s)).size - (advanceRight rm (advanceLeft lm s)).items :=
    rfl
  have h1 := inv'.size_eq
  have h2 := inv.size_eq
  have h3 := inv.c_le
  have hle : (advanceRight rm (advanceLeft lm s)).items ≤
      (advanceRight rm (advanceLeft lm s)).size := by
    rw [q7]; exact Nat.min_le_left _ _
  have hme : m = (advanceRight rm (advanceLeft lm s)).items := by omega
  rw [← hme]
  exact ⟨hm, q3.inList, q4.inList, hcm, inv'⟩

theorem swapRounds_spec (lm : Nat → Range) (nl : Nat) (rm : Nat → Range) (nr : Nat) (M e : Nat)
    (hl : ∀ j, j < nl → 0 < (lm j).size) (hr : ∀ j, j < nr → 0 < (rm j).size)
    (hML : prefixSize lm nl = M) (hMR : prefixSize rm nr = M) (he : e ≤ M) :
    ∀ (fuel c : Nat) (s : SwapState T), SwapInv lm nl rm nr e c s → s.size ≤ fuel →
      (∀ x ∈ swapRounds lm rm fuel s, 1 ≤ x.items ∧ x.l_range < nl ∧ x.r_range < nr) ∧
      ((swapRounds lm rm fuel s).map (fun x => x.items)).sum = e - c ∧
      (swapLoop lm rm fuel s).size = 0 := by
  intro fuel
  induction fuel with
  | zero =>
    intro c s inv hf
    have h0 : e - c = 0 := by rw [← inv.size_eq]; omega
    refine ⟨fun x hx => ?_, by simp [swapRounds, h0], by simp only [swapLoop]; omega⟩
    simp [swapRounds] at hx
  | succ fuel ih =>
    intro c s inv hf
    simp only [swapLoop, swapRounds]
    by_cases hs : s.size = 0
    · have h0 : e - c = 0 := by rw [← inv.size_eq]; exact hs
      rw [if_pos hs, if_pos hs]
      refine ⟨fun x hx => ?_, by simp [h0], hs⟩
      simp at hx
    · rw [if_neg hs, if_neg hs]
      obtain ⟨g1, g2, g3, g4, inv'⟩ := swapRound_items lm nl rm nr M e c s inv hl hr hML hMR he hs
      have hsz : (swapRound lm rm s).size ≤ fuel := by
        rw [inv'.size_eq]
        have := inv.size_eq
        omega
      obtain ⟨r1, r2, r3⟩ := ih _ _ inv' hsz
      refine ⟨fun x hx => ?_, ?_, r3⟩
      · rcases List.mem_cons.1 hx with hx | hx
        · rw [hx]; exact ⟨g1, g2, g3⟩
        · exact r1 x hx
      · rw [List.map_cons, List.sum_cons, r2]
        omega

theorem swapLoop_fuel (lm rm : Nat → Range) :
    ∀ (fuel : Nat) (s : SwapState T), (swapLoop lm rm fuel s).size = 0 →
      ∀ k, swapLoop lm rm (fuel + k) s = swapLoop lm rm fuel s := by
  intro fuel
  induction fuel with
  | zero =>
    intro s h k
    simp only [swapLoop] at h
    cases k with
    | zero => rfl
    | succ k => simp [swapLoop, h]
  | succ fuel ih =>
    intro s h k
    rw [show fuel + 1 + k = (fuel + k) + 1 by omega]
    simp only [swapLoop] at h ⊢
    by_cases hs : s.size = 0
    · rw [if_pos hs, if_pos hs]
    · rw [if_neg hs] at h
      rw [if_neg hs, if_neg hs]
      exact ih _ h k

/-- C27: for every call `swapItemsInMisplacedRanges(array, leftMisplacedRanges,
numLeftMisplacedRanges, rightMisplacedRanges, numRightMisplacedRanges, startID, endID)`
with `startID <= endID <= M`, where `M` is the total size of each of the two range lists
and all stored ranges are non-empty: the call is the `while(size)` loop run from the
initial locals; in every round of the loop, after the two range-advance statements,
`items >= 1` and the cursors `l_range`, `r_range` point into their lists; the inner loops
of all rounds together make `endID - startID` exchanges; and the loop ends with
`size == 0`, after which more fuel changes nothing. -/
theorem swap_loop_rounds (a : Mem T) (lm : Nat → Range) (nl : Nat) (rm : Nat → Range)
    (nr : Nat) (M s e : Nat)
    (hl : ∀ j, j < nl → 0 < (lm j).size) (hr : ∀ j, j < nr → 0 < (rm j).size)
    (hML : prefixSize lm nl = M) (hMR : prefixSize rm nr = M) (hse : s ≤ e) (he : e ≤ M) :
    swapItemsInMisplacedRanges a lm nl rm nr s e =
      (swapLoop lm rm (e - s) (swapStart a lm nl rm nr s e)).array ∧
    (∀ x ∈ swapRounds lm rm (e - s) (swapStart a lm nl rm nr s e),
      1 ≤ x.items ∧ x.l_range < nl ∧ x.r_range < nr) ∧
    ((swapRounds lm rm (e - s) (swapStart a lm nl rm nr s e)).map (fun x => x.items)).sum =
      e - s ∧
    (swapLoop lm rm (e - s) (swapStart a lm nl rm nr s e)).size = 0 ∧
    ∀ k, swapLoop lm rm (e - s + k) (swapStart a lm nl rm nr s e) =
      swapLoop lm rm (e - s) (swapStart a lm nl rm nr s e) := by
  have key : (∀ x ∈ swapRounds lm rm (e - s) (swapStart a lm nl rm nr s e),
        1 ≤ x.items ∧ x.l_range < nl ∧ x.r_range < nr) ∧
      ((swapRounds lm rm (e - s) (swapStart a lm nl rm nr s e)).map (fun x => x.items)).sum =
        e - s ∧
      (swapLoop lm rm (e - s) (swapStart a lm nl rm nr s e)).size = 0 := by
    rcases Nat.eq_or_lt_of_le hse with heq | hlt
    · subst heq
      have h0 : (swapStart a lm nl rm nr s s).size = 0 := Nat.sub_self s
      simp [swapLoop, swapRounds, h0]
    · obtain ⟨i, hi, li1, li2⟩ := exists_range_of_lt lm nl s (by omega)
      obtain ⟨k, hk, ri1, ri2⟩ := exists_range_of_lt rm nr s (by omega)
      have e1 := findStartRange_spec lm nl s i hi li1 li2
      have e2 := findStartRange_spec rm nr s k hk ri1 ri2
      rw [prefixSize_succ] at li2 ri2
      apply swapRounds_spec lm nl rm nr M e hl hr hML hMR he (e - s) s _ _ _
      · unfold swapStart
        rw [e1, e2]
        refine ⟨hse, rfl, ⟨hi, by simp only []; omega, ?_, ?_⟩,
          ⟨hk, by simp only []; omega, ?_, ?_⟩, ?_⟩
        · simp only []; rw [prefixSize_succ]; omega
        · simp only []; omega
        · simp only []; rw [prefixSize_succ]; omega
        · simp only []; omega
        · simp only []
          right; right; right
          exact ⟨trivial, by omega, by omega⟩
      · exact le_refl _
  exact ⟨rfl, key.1, key.2.1, key.2.2, swapLoop_fuel lm rm _ _ key.2.2⟩

/-- C27 on an input: the array `5, 6, 1, 2, 7, 3`, the left range `[0,1]` and the right
ranges `[3,3]`, `[4,4]`, coordinates `0 .. 2`: the rounds of the loop make two exchanges
in all. -/
theorem swap_loop_rounds_witness :
    ((∀ j, j < 1 → 0 < ((fun _ => ⟨0, 1⟩ : Nat → Range) j).size) ∧
      (∀ j, j < 2 → 0 < ((fun j => ⟨3 + (j : Int), 3 + (j : Int)⟩ : Nat → Range) j).size) ∧
      prefixSize (fun _ => ⟨0, 1⟩) 1 = 2 ∧
      prefixSize (fun j => ⟨3 + (j : Int), 3 + (j : Int)⟩) 2 = 2 ∧ 0 ≤ 2 ∧ 2 ≤ 2) ∧
    ((swapRounds (fun _ => ⟨0, 1⟩) (fun j => ⟨3 + (j : Int), 3 + (j : Int)⟩) (2 - 0)
      (swapStart (ofList [5, 6, 1, 2, 7, 3] (0 : Nat)) (fun _ => ⟨0, 1⟩) 1
        (fun j => ⟨3 + (j : Int), 3 + (j : Int)⟩) 2 0 2)).map (fun x => x.items)).sum = 2 - 0 :=
  ⟨by decide,
   (swap_loop_rounds (ofList [5, 6, 1, 2, 7, 3] (0 : Nat)) (fun _ => ⟨0, 1⟩) 1
      (fun j => ⟨3 + (j : Int), 3 + (j : Int)⟩) 2 2 0 2 (by decide) (by decide) (by decide)
      (by decide) (by decide) (by decide)).2.2.1⟩

/-! ## The cursor of a block -/

/-- C30, counterexample: a block constructed with `reserveEnd = 100` has `cur = 0`; after
`malloc(200, 1, partial = true)`, which grants the 100 bytes that are left, its cursor is
200 and exceeds `reserveEnd`. -/
theorem partial_malloc_cursor_past_reserve :
    (Block.new AllocationType.ALIGNED_MALLOC 100 100 none 0 false).cur ≤
      (Block.new AllocationType.ALIGNED_MALLOC 100 100 none 0 false).reserveEnd ∧
    ((Block.new AllocationType.ALIGNED_MALLOC 100 100 none 0 false).malloc 200 1 true).ptr =
      some 0 ∧
    ((Block.new AllocationType.ALIGNED_MALLOC 100 100 none 0 false).malloc 200 1 true).bytes_in =
      100 ∧
    ¬ ((Block.new AllocationType.ALIGNED_MALLOC 100 100 none 0 false).malloc 200 1 true).block.cur ≤
      ((Block.new AllocationType.ALIGNED_MALLOC 100 100 none 0 false).malloc 200 1
        true).block.reserveEnd := by
  decide

/-- C30, amended: the block invariant `cur <= reserveEnd` holds after construction and is
preserved by a non-partial `Block::malloc`, successful or failing, by `reset_block` and,
when `os_shrink` returns a size that is not below the bytes it is asked to keep (which
are not more than the old size), by `shrink_block`. -/
theorem block_cursor_invariant (b : Block) (bytes align : Nat)
    (os_shrink : Nat → Nat → Nat → Bool → Nat) (device : Bool) (this : Nat)
    (atype : AllocationType) (bytesAllocate bytesReserve : Nat) (next : Option Nat)
    (wasted : Nat) (huge_pages : Bool)
    (h : b.cur ≤ b.reserveEnd)
    (hos : ∀ p bytesNew bytesOld g, bytesNew ≤ bytesOld →
      bytesNew ≤ os_shrink p bytesNew bytesOld g) :
    (Block.new atype bytesAllocate bytesReserve next wasted huge_pages).cur ≤
      (Block.new atype bytesAllocate bytesReserve next wasted huge_pages).reserveEnd ∧
    (b.malloc bytes align false).block.cur ≤ (b.malloc bytes align false).block.reserveEnd ∧
    b.reset_block.cur ≤ b.reset_block.reserveEnd ∧
    (b.shrink_block os_shrink device this).1.cur ≤
      (b.shrink_block os_shrink device this).1.reserveEnd := by
  refine ⟨Nat.zero_le _, ?_, Nat.zero_le _, ?_⟩
  · unfold Block.malloc
    simp only []
    by_cases h1 : b.cur + roundUp bytes align > b.reserveEnd
    · rw [if_pos ⟨h1, trivial⟩]
      exact h
    · rw [if_neg (fun hc => h1 hc.1), if_neg (fun hc => h1 hc.1)]
      have h2 : ¬ b.cur > b.reserveEnd := by omega
      rw [if_neg h2]
      show b.cur + roundUp bytes align ≤ b.reserveEnd
      omega
  · unfold Block.shrink_block
    by_cases ht : b.atype = AllocationType.OS_MALLOC
    · rw [if_pos ht]
      simp only []
      have hu : b.getBlockUsedBytes = b.cur := by
        unfold Block.getBlockUsedBytes
        exact Nat.min_eq_left h
      have := hos this (sizeof_Header + b.getBlockUsedBytes) (b.reserveEnd + sizeof_Header)
        b.huge_pages (by omega)
      omega
    · rw [if_neg ht]
      exact h

/-- C30, amended, on an input: the block of `examplePool` with `cur = 256` and
`reserveEnd = 8128`, a non-partial request of 100 bytes aligned to 16, and an `os_shrink`
that keeps exactly the bytes asked for. -/
theorem block_cursor_invariant_witness :
    ((⟨256, 100, 8128, none, 0, AllocationType.OS_MALLOC, false⟩ : Block).cur ≤
        (⟨256, 100, 8128, none, 0, AllocationType.OS_MALLOC, false⟩ : Block).reserveEnd ∧
      ∀ p bytesNew bytesOld g, bytesNew ≤ bytesOld →
        bytesNew ≤ (fun (_ u _ : Nat) (_ : Bool) => u) p bytesNew bytesOld g) ∧
    ((⟨256, 100, 8128, none, 0, AllocationType.OS_MALLOC, false⟩ : Block).malloc 100 16
        false).block.cur ≤
      ((⟨256, 100, 8128, none, 0, AllocationType.OS_MALLOC, false⟩ : Block).malloc 100 16
        false).block.reserveEnd :=
  ⟨⟨by decide, fun _ _ _ _ _ => Nat.le_refl _⟩,
   (block_cursor_invariant ⟨256, 100, 8128, none, 0, AllocationType.OS_MALLOC, false⟩ 100 16
      (fun _ u _ _ => u) true 4 AllocationType.OS_MALLOC 100 8128 none 0 false (by decide)
      (fun _ _ _ _ _ => Nat.le_refl _)).2.1⟩

/-! ## The slot mask after init -/

theorem and_mod64 (s m : Nat) (hm : m < 2 ^ 64) : s &&& m = (s % 2 ^ 64) &&& m := by
  have e : m = (2 ^ 64 - 1) &&& m := by
    rw [Nat.and_comm, Nat.and_pow_two_sub_one_eq_mod]
    exact (Nat.mod_eq_of_lt hm).symm
  conv_lhs => rw [e]
  rw [← Nat.and_assoc, Nat.and_pow_two_sub_one_eq_mod]

theorem FastAllocator.aptr_eq (ptr : Nat) :
    FastAllocator.aptr ptr = 64 * (((ptr + 63) % 2 ^ 64) / 64) := by
  unfold FastAllocator.aptr
  have e : ptr + maxAlignment - 1 = ptr + 63 := rfl
  have e2 : maxAlignment - 1 = 2 ^ 6 - 1 := rfl
  rw [e, e2, and_mod64 _ _ (by decide),
    and_complement64 _ 6 (Nat.mod_lt _ (by decide)) (by decide)]
  rfl

theorem FastAllocator.aptr_padding (ptr : Nat) (hp : ptr < 2 ^ 64) :
    sub64 (FastAllocator.aptr ptr) ptr < maxAlignment ∧
    (ptr + sub64 (FastAllocator.aptr ptr) ptr) % maxAlignment = 0 ∧
    FastAllocator.aptr ptr = (ptr + sub64 (FastAllocator.aptr ptr) ptr) % 2 ^ 64 ∧
    (ptr + 63 < 2 ^ 64 → FastAllocator.aptr ptr = ptr + sub64 (FastAllocator.aptr ptr) ptr) := by
  rw [FastAllocator.aptr_eq]
  unfold sub64 maxAlignment
  norm_num at hp ⊢
  refine ⟨?_, ?_, ?_, ?_⟩ <;> omega

/-- C21: for every address `ptr` and every `bytes`, `addBlock(ptr, bytes)` leaves the
allocator unchanged when `bytes < 4096`, and also when fewer than 4096 bytes remain after
the padding that aligns `ptr` up to `maxAlignment = 64`; otherwise it pushes exactly one
block of type `SHARED` at the head of `freeBlocks`, whose member `wasted` is that padding,
whose cursor is 0, and whose header and payload, `sizeof_Header + reserveEnd` bytes from
the aligned address, end where the region ends and so lie inside `[ptr, ptr + bytes)`. -/
theorem addBlock_spec (fa : FastAllocator) (ptr : Nat) (bytes : Int) (hp : ptr < 2 ^ 64) :
    sub64 (FastAllocator.aptr ptr) ptr < maxAlignment ∧
    (ptr + sub64 (FastAllocator.aptr ptr) ptr) % maxAlignment = 0 ∧
    FastAllocator.aptr ptr = (ptr + sub64 (FastAllocator.aptr ptr) ptr) % 2 ^ 64 ∧
    (bytes < 4096 → fa.addBlock ptr bytes = fa) ∧
    (bytes - (sub64 (FastAllocator.aptr ptr) ptr : Nat) < 4096 → fa.addBlock ptr bytes = fa) ∧
    (4096 ≤ bytes - (sub64 (FastAllocator.aptr ptr) ptr : Nat) →
      SharedBlockAdded fa ptr bytes (sub64 (FastAllocator.aptr ptr) ptr)
        (fa.addBlock ptr bytes)) := by
  obtain ⟨p1, p2, p3, p4⟩ := FastAllocator.aptr_padding ptr hp
  have hsmall : bytes - (sub64 (FastAllocator.aptr ptr) ptr : Nat) < 4096 →
      fa.addBlock ptr bytes = fa := by
    intro h
    unfold FastAllocator.addBlock
    simp only []
    rw [if_pos h]
  refine ⟨p1, p2, p3, fun h => hsmall (by omega), hsmall, fun h => ?_⟩
  unfold FastAllocator.addBlock
  simp only []
  rw [if_neg (by omega)]
  refine ⟨_, rfl, rfl, rfl, rfl, rfl, rfl, ?_, fun hreg => ?_⟩
  · show ((sub64 (FastAllocator.aptr ptr) ptr : Nat) : Int) + (sizeof_Header : Int) +
      (((bytes - (sub64 (FastAllocator.aptr ptr) ptr : Nat) - (sizeof_Header : Int)).toNat :
        Nat) : Int) = bytes
    have hs : (sizeof_Header : Int) = 64 := rfl
    rw [hs]
    omega
  · have hs : (sizeof_Header : Int) = 64 := rfl
    have hm : maxAlignment = 64 := rfl
    rw [hm] at p1
    have h63 : ptr + 63 < 2 ^ 64 := by
      have : (ptr : Int) + 63 < 2 ^ 64 := by omega
      exact_mod_cast this
    have e := p4 h63
    refine ⟨by omega, e, ?_⟩
    show (FastAllocator.aptr ptr : Int) + (sizeof_Header : Int) +
      (((bytes - (sub64 (FastAllocator.aptr ptr) ptr : Nat) - (sizeof_Header : Int)).toNat :
        Nat) : Int) ≤ (ptr : Int) + bytes
    rw [hs]
    omega

/-- C21 on an input: the region of 8192 bytes at the address 1000 is added to
`examplePool` as a shared block with 24 bytes of padding. -/
theorem addBlock_spec_witness :
    ((1000 : Nat) < 2 ^ 64 ∧
      (4096 : Int) ≤ 8192 - (sub64 (FastAllocator.aptr 1000) 1000 : Nat)) ∧
    SharedBlockAdded examplePool 1000 8192 (sub64 (FastAllocator.aptr 1000) 1000)
      (examplePool.addBlock 1000 8192) :=
  ⟨⟨by decide, by decide⟩,
   (addBlock_spec examplePool 1000 8192 (by decide)).2.2.2.2.2 (by decide)⟩

/-! ## The high-water mark of a block -/

/-- C31, counterexample: the block that `Block::create(100, 100)` constructs has
`allocEnd = reserveEnd = 4032`; a partial `malloc(5000, 1)` grants the 4032 bytes and
leaves `cur = 5000`, and `reset_block` then sets `allocEnd = 5000`, above `reserveEnd`. -/
theorem reset_block_allocEnd_past_reserve :
    Block.create 100 100 none AllocationType.ALIGNED_MALLOC false =
      some ⟨0, 4032, 4032, none, 64, AllocationType.ALIGNED_MALLOC, false⟩ ∧
    ((⟨0, 4032, 4032, none, 64, AllocationType.ALIGNED_MALLOC, false⟩ : Block).malloc 5000 1
      true).ptr = some 0 ∧
    ((⟨0, 4032, 4032, none, 64, AllocationType.ALIGNED_MALLOC, false⟩ : Block).malloc 5000 1
      true).block.allocEnd ≤
      ((⟨0, 4032, 4032, none, 64, AllocationType.ALIGNED_MALLOC, false⟩ : Block).malloc 5000 1
        true).block.reserveEnd ∧
    ¬ ((⟨0, 4032, 4032, none, 64, AllocationType.ALIGNED_MALLOC, false⟩ : Block).malloc 5000 1
        true).block.reset_block.allocEnd ≤
      ((⟨0, 4032, 4032, none, 64, AllocationType.ALIGNED_MALLOC, false⟩ : Block).malloc 5000 1
        true).block.reset_block.reserveEnd := by
  decide

theorem Block.create_allocEnd (bytesAllocate bytesReserve : Nat) (next : Option Nat)
    (atype : AllocationType) (huge_pages : Bool) (nb : Block)
    (hres : bytesAllocate ≤ bytesReserve)
    (hno : sizeof_Header + bytesReserve + PAGE_SIZE ≤ 2 ^ 64)
    (hc : Block.create bytesAllocate bytesReserve next atype huge_pages = some nb) :
    nb.allocEnd ≤ nb.reserveEnd := by
  have e1 := pageRound_eq (sizeof_Header + bytesAllocate) (by omega)
  have e2 := pageRound_eq (sizeof_Header + bytesReserve) hno
  have hp : 0 < PAGE_SIZE := by decide
  have hle : PAGE_SIZE * ((sizeof_Header + bytesAllocate + (PAGE_SIZE - 1)) / PAGE_SIZE) ≤
      PAGE_SIZE * ((sizeof_Header + bytesReserve + (PAGE_SIZE - 1)) / PAGE_SIZE) :=
    Nat.mul_le_mul_left _ (Nat.div_le_div_right (by omega))
  unfold Block.create at hc
  simp only [e1, e2] at hc
  split at hc
  · split at hc
    · split at hc
      · cases hc
        exact Nat.sub_le_sub_right hle _
      · cases hc
        exact Nat.le_refl _
    · cases hc
      exact Nat.le_refl _
  · split at hc
    · cases hc
      exact Nat.sub_le_sub_right hle _
    · exact Option.noConfusion hc

/-- C31, amended: the block invariant `allocEnd <= reserveEnd` holds after construction
by `Block::create` with `bytesReserve >= bytesAllocate` (sizes that do not reach `2^64`)
and for the block that `addBlock` constructs; it is preserved by `Block::malloc`, partial
or not, and by `shrink_block`, and by `reset_block` when the cursor is not above
`reserveEnd`. -/
theorem block_allocEnd_invariant (b : Block) (bytes align : Nat) (partial_ : Bool)
    (os_shrink : Nat → Nat → Nat → Bool → Nat) (device : Bool) (this : Nat)
    (bytesAllocate bytesReserve : Nat) (next : Option Nat) (atype : AllocationType)
    (huge_pages : Bool) (fa : FastAllocator) (ptr : Nat) (regionBytes : Int)
    (h : b.allocEnd ≤ b.reserveEnd) (hres : bytesAllocate ≤ bytesReserve)
    (hno : sizeof_Header + bytesReserve + PAGE_SIZE ≤ 2 ^ 64)
    (hfa : ∀ blk ∈ fa.blocks, blk.allocEnd ≤ blk.reserveEnd) :
    (∀ nb, Block.create bytesAllocate bytesReserve next atype huge_pages = some nb →
      nb.allocEnd ≤ nb.reserveEnd) ∧
    (∀ blk ∈ (fa.addBlock ptr regionBytes).blocks, blk.allocEnd ≤ blk.reserveEnd) ∧
    (b.malloc bytes align partial_).block.allocEnd ≤
      (b.malloc bytes align partial_).block.reserveEnd ∧
    (b.cur ≤ b.reserveEnd → b.reset_block.allocEnd ≤ b.reset_block.reserveEnd) ∧
    (b.shrink_block os_shrink device this).1.allocEnd ≤
      (b.shrink_block os_shrink device this).1.reserveEnd := by
  refine ⟨fun nb hc => Block.create_allocEnd _ _ _ _ _ nb hres hno hc, ?_, ?_, ?_, ?_⟩
  · intro blk hblk
    unfold FastAllocator.addBlock at hblk
    simp only [] at hblk
    split at hblk
    · exact hfa blk hblk
    · simp only [FastAllocator.place, List.mem_append, List.mem_singleton] at hblk
      rcases hblk with hb | hb
      · exact hfa blk hb
      · rw [hb]
        exact Nat.le_refl _
  · have hf : (b.malloc bytes align partial_).block.allocEnd = b.allocEnd := by
      unfold Block.malloc
      simp only []
      split_ifs <;> rfl
    rw [hf, (Block.malloc_fields b bytes align partial_).2.2.1]
    exact h
  · intro hc
    show max b.allocEnd b.cur ≤ b.reserveEnd
    exact Nat.max_le.2 ⟨h, hc⟩
  · unfold Block.shrink_block
    split
    · exact Nat.le_refl _
    · exact h

/-- C31, amended, on an input: the block of `examplePool` with `cur = 256`,
`allocEnd = 100` and `reserveEnd = 8128`, and a region of 8192 bytes at the address 1000
added to `examplePool`. -/
theorem block_allocEnd_invariant_witness :
    ((⟨256, 100, 8128, none, 0, AllocationType.OS_MALLOC, false⟩ : Block).allocEnd ≤
        (⟨256, 100, 8128, none, 0, AllocationType.OS_MALLOC, false⟩ : Block).reserveEnd ∧
      100 ≤ 8128 ∧ sizeof_Header + 8128 + PAGE_SIZE ≤ 2 ^ 64 ∧
      (∀ blk ∈ examplePool.blocks, blk.allocEnd ≤ blk.reserveEnd) ∧
      (⟨256, 100, 8128, none, 0, AllocationType.OS_MALLOC, false⟩ : Block).cur ≤
        (⟨256, 100, 8128, none, 0, AllocationType.OS_MALLOC, false⟩ : Block).reserveEnd) ∧
    (⟨256, 100, 8128, none, 0, AllocationType.OS_MALLOC, false⟩ : Block).reset_block.allocEnd ≤
      (⟨256, 100, 8128, none, 0, AllocationType.OS_MALLOC, false⟩ : Block).reset_block.reserveEnd :=
  ⟨by decide,
   (block_allocEnd_invariant ⟨256, 100, 8128, none, 0, AllocationType.OS_MALLOC, false⟩ 100 16
      false (fun _ u _ _ => u) true 4 100 8128 none AllocationType.OS_MALLOC false examplePool
      1000 8192 (by decide) (by decide) (by decide) (by decide)).2.2.2.1 (by decide)⟩

/-! ## The paths of ThreadLocal::malloc -/

theorem ThreadLocal.malloc_cases (tl : ThreadLocal) (alloc : FastAllocator)
    (threadIndex bytes align : Nat) (huge_pages : Nat → Bool) (P : BumpOutcome → Prop)
    (fast : ∀ tl1 offset,
      ({ tl with bytesUsed := tl.bytesUsed + bytes } : ThreadLocal).tryLocal bytes align =
        some (tl1, offset) →
      P { bump := tl1, alloc := alloc, requests := [],
          result := Except.ok (BumpPtr.slab tl1.ptr offset) })
    (escape :
      ({ tl with bytesUsed := tl.bytesUsed + bytes } : ThreadLocal).tryLocal bytes align = none →
      4 * bytes > tl.allocBlockSize →
      P { bump := { tl with bytesUsed := tl.bytesUsed + bytes },
          alloc := (alloc.malloc threadIndex bytes maxAlignment false (huge_pages 0)).pool,
          requests := [⟨threadIndex, bytes, maxAlignment, false, huge_pages 0⟩],
          result := (alloc.malloc threadIndex bytes maxAlignment false
            (huge_pages 0)).result.map (fun res => BumpPtr.pool res.1) })
    (err1 : ∀ alloc1 e,
      ({ tl with bytesUsed := tl.bytesUsed + bytes } : ThreadLocal).tryLocal bytes align = none →
      ¬ 4 * bytes > tl.allocBlockSize →
      ({ tl with bytesUsed := tl.bytesUsed + bytes } : ThreadLocal).newBlock alloc threadIndex
        true (huge_pages 1) = (alloc1, Except.error e) →
      P { bump := { tl with bytesUsed := tl.bytesUsed + bytes }, alloc := alloc1,
          requests := [⟨threadIndex, tl.allocBlockSize, maxAlignment, true, huge_pages 1⟩],
          result := Except.error e })
    (part : ∀ alloc1 tl1 tl2 offset,
      ({ tl with bytesUsed := tl.bytesUsed + bytes } : ThreadLocal).tryLocal bytes align = none →
      ¬ 4 * bytes > tl.allocBlockSize →
      ({ tl with bytesUsed := tl.bytesUsed + bytes } : ThreadLocal).newBlock alloc threadIndex
        true (huge_pages 1) = (alloc1, Except.ok tl1) →
      tl1.tryLocal bytes align = some (tl2, offset) →
      P { bump := tl2, alloc := alloc1,
          requests := [⟨threadIndex, tl.allocBlockSize, maxAlignment, true, huge_pages 1⟩],
          result := Except.ok (BumpPtr.slab tl2.ptr offset) })
    (err2 : ∀ alloc1 tl1 alloc2 e,
      ({ tl with bytesUsed := tl.bytesUsed + bytes } : ThreadLocal).tryLocal bytes align = none →
      ¬ 4 * bytes > tl.allocBlockSize →
      ({ tl with bytesUsed := tl.bytesUsed + bytes } : ThreadLocal).newBlock alloc threadIndex
        true (huge_pages 1) = (alloc1, Except.ok tl1) →
      tl1.tryLocal bytes align = none →
      tl1.newBlock alloc1 threadIndex false (huge_pages 2) = (alloc2, Except.error e) →
      P { bump := tl1, alloc := alloc2,
          requests := [⟨threadIndex, tl.allocBlockSize, maxAlignment, true, huge_pages 1⟩,
            ⟨threadIndex, tl1.allocBlockSize, maxAlignment, false, huge_pages 2⟩],
          result := Except.error e })
    (full : ∀ alloc1 tl1 alloc2 tl2 tl3 offset,
      ({ tl with bytesUsed := tl.bytesUsed + bytes } : ThreadLocal).tryLocal bytes align = none →
      ¬ 4 * bytes > tl.allocBlockSize →
      ({ tl with bytesUsed := tl.bytesUsed + bytes } : ThreadLocal).newBlock alloc threadIndex
        true (huge_pages 1) = (alloc1, Except.ok tl1) →
      tl1.tryLocal bytes align = none →
      tl1.newBlock alloc1 threadIndex false (huge_pages 2) = (alloc2, Except.ok tl2) →
      tl2.tryLocal bytes align = some (tl3, offset) →
      P { bump := tl3, alloc := alloc2,
          requests := [⟨threadIndex, tl.allocBlockSize, maxAlignment, true, huge_pages 1⟩,
            ⟨threadIndex, tl1.allocBlockSize, maxAlignment, false, huge_pages 2⟩],
          result := Except.ok (BumpPtr.slab tl3.ptr offset) })
    (null : ∀ alloc1 tl1 alloc2 tl2,
      ({ tl with bytesUsed := tl.bytesUsed + bytes } : ThreadLocal).tryLocal bytes align = none →
      ¬ 4 * bytes > tl.allocBlockSize →
      ({ tl with bytesUsed := tl.bytesUsed + bytes } : ThreadLocal).newBlock alloc threadIndex
        true (huge_pages 1) = (alloc1, Except.ok tl1) →
      tl1.tryLocal bytes align = none →
      tl1.newBlock alloc1 threadIndex false (huge_pages 2) = (alloc2, Except.ok tl2) →
      tl2.tryLocal bytes align = none →
      P { bump := tl2, alloc := alloc2,
          requests := [⟨threadIndex, tl.allocBlockSize, maxAlignment, true, huge_pages 1⟩,
            ⟨threadIndex, tl1.allocBlockSize, maxAlignment, false, huge_pages 2⟩],
          result := Except.ok BumpPtr.null }) :
    P (tl.malloc alloc threadIndex bytes align huge_pages) := by
  unfold ThreadLocal.malloc
  simp only []
  split
  · rename_i tl1 offset h1
    exact fast tl1 offset h1
  · rename_i h1
    split
    · rename_i h2
      exact escape h1 h2
    · rename_i h2
      split
      · rename_i alloc1 e h3
        exact err1 alloc1 e h1 h2 h3
      · rename_i alloc1 tl1 h3
        split
        · rename_i tl2 offset h4
          exact part alloc1 tl1 tl2 offset h1 h2 h3 h4
        · rename_i h4
          split
          · rename_i alloc2 e h5
            exact err2 alloc1 tl1 alloc2 e h1 h2 h3 h4 h5
          · rename_i alloc2 tl2 h5
            split
            · rename_i tl3 offset h6
              exact full alloc1 tl1 alloc2 tl2 tl3 offset h1 h2 h3 h4 h5 h6
            · rename_i h6
              exact null alloc1 tl1 alloc2 tl2 h1 h2 h3 h4 h5 h6

theorem ThreadLocal.tryLocal_eq_some (tl tl1 : ThreadLocal) (bytes align offset : Nat)
    (h : tl.tryLocal bytes align = some (tl1, offset)) :
    tl.cur + (bytes + tl.ofs align) ≤ tl.end_ ∧
    tl1 = { tl with cur := tl.cur + (bytes + tl.ofs align),
                    bytesWasted := tl.bytesWasted + tl.ofs align } ∧
    offset = tl.cur + (bytes + tl.ofs align) - bytes := by
  unfold ThreadLocal.tryLocal at h
  simp only [] at h
  split at h
  · rename_i hle
    simp only [Option.some.injEq, Prod.mk.injEq] at h
    exact ⟨hle, h.1.symm, h.2.symm⟩
  · exact Option.noConfusion h

theorem ThreadLocal.newBlock_eq_ok (tl tl1 : ThreadLocal) (alloc alloc1 : FastAllocator)
    (threadIndex : Nat) (partial_ huge_pages : Bool)
    (h : tl.newBlock alloc threadIndex partial_ huge_pages = (alloc1, Except.ok tl1)) :
    ∃ p granted,
      (alloc.malloc threadIndex tl.allocBlockSize maxAlignment partial_ huge_pages).result =
        Except.ok (p, granted) ∧
      alloc1 = (alloc.malloc threadIndex tl.allocBlockSize maxAlignment partial_ huge_pages).pool ∧
      tl1 = { tl with ptr := some p, bytesWasted := tl.bytesWasted + sub64 tl.end_ tl.cur,
                      cur := 0, end_ := granted } := by
  unfold ThreadLocal.newBlock at h
  simp only [] at h
  split at h
  · simp only [Prod.mk.injEq] at h
    exact Except.noConfusion h.2
  · rename_i p granted hr
    simp only [Prod.mk.injEq, Except.ok.injEq] at h
    exact ⟨p, granted, hr, h.1.symm, h.2.symm⟩

/-- C33: the invariant `cur <= end` of a `ThreadLocal` holds after the constructor and
after `reset`, and `ThreadLocal::malloc` preserves it on every path: the fast path, the
call of the parent allocator for a large allocation, the partial and the full new block,
and also when the parent allocator throws. -/
theorem threadlocal_cur_le_end (tl : ThreadLocal) (alloc : FastAllocator)
    (threadIndex bytes align : Nat) (huge_pages : Nat → Bool) (h : tl.cur ≤ tl.end_) :
    (ThreadLocal.new alloc).cur ≤ (ThreadLocal.new alloc).end_ ∧
    tl.reset.cur ≤ tl.reset.end_ ∧
    (tl.malloc alloc threadIndex bytes align huge_pages).bump.cur ≤
      (tl.malloc alloc threadIndex bytes align huge_pages).bump.end_ := by
  refine ⟨Nat.le_refl _, Nat.le_refl _, ?_⟩
  apply ThreadLocal.malloc_cases tl alloc threadIndex bytes align huge_pages
    (fun o => o.bump.cur ≤ o.bump.end_)
  · intro tl1 offset h1
    obtain ⟨a, b, _⟩ := ThreadLocal.tryLocal_eq_some _ _ _ _ _ h1
    rw [b]
    exact a
  · intro _ _
    exact h
  · intro _ _ _ _ _
    exact h
  · intro alloc1 tl1 tl2 offset _ _ _ h4
    obtain ⟨a, b, _⟩ := ThreadLocal.tryLocal_eq_some _ _ _ _ _ h4
    rw [b]
    exact a
  · intro alloc1 tl1 alloc2 e _ _ h3 _ _
    obtain ⟨p, g, _, _, b⟩ := ThreadLocal.newBlock_eq_ok _ _ _ _ _ _ _ h3
    rw [b]
    exact Nat.zero_le _
  · intro alloc1 tl1 alloc2 tl2 tl3 offset _ _ _ _ _ h6
    obtain ⟨a, b, _⟩ := ThreadLocal.tryLocal_eq_some _ _ _ _ _ h6
    rw [b]
    exact a
  · intro alloc1 tl1 alloc2 tl2 _ _ _ _ h5 _
    obtain ⟨p, g, _, _, b⟩ := ThreadLocal.newBlock_eq_ok _ _ _ _ _ _ _ h5
    rw [b]
    exact Nat.zero_le _

/-- C33 on an input: a `ThreadLocal` with `cur = 10` and `end = 4096`, and a request of
100 bytes aligned to 16. -/
theorem threadlocal_cur_le_end_witness :
    (⟨some ⟨0, 64⟩, 10, 4096, 4096, 10, 0⟩ : ThreadLocal).cur ≤
      (⟨some ⟨0, 64⟩, 10, 4096, 4096, 10, 0⟩ : ThreadLocal).end_ ∧
    ((⟨some ⟨0, 64⟩, 10, 4096, 4096, 10, 0⟩ : ThreadLocal).malloc (FastAllocator.new false) 0
      100 16 (fun _ => false)).bump.cur ≤
      ((⟨some ⟨0, 64⟩, 10, 4096, 4096, 10, 0⟩ : ThreadLocal).malloc (FastAllocator.new false) 0
        100 16 (fun _ => false)).bump.end_ :=
  ⟨by decide, (threadlocal_cur_le_end ⟨some ⟨0, 64⟩, 10, 4096, 4096, 10, 0⟩
    (FastAllocator.new false) 0 100 16 (fun _ => false) (by decide)).2.2⟩

theorem usedAfterFix_perm (lt : Nat → List Nat) (lu : List Nat) : ∀ n,
    (usedAfterFix lt lu n).Perm (lu ++ (List.range n).flatMap lt) := by
  intro n
  induction n with
  | zero => simp [usedAfterFix]
  | succ n ih =>
    simp only [usedAfterFix, List.range_succ, List.flatMap_append, List.flatMap_singleton]
    rw [← List.append_assoc]
    exact ((List.reverse_perm (lt n)).append ih).trans List.perm_append_comm

/-- C35: for every allocator whose block lists end and share no block,
`internal_fix_used_blocks()` returns; afterwards every `threadBlocks[i]` is `nullptr`,
the list `usedBlocks` consists of the blocks it held before and the blocks of all lists
`threadBlocks[i]`, each exactly once, the list `freeBlocks` is the same list of the same
blocks, and no block changed but in its member `next`, so every cursor is unchanged. -/
theorem fix_used_blocks_splices (lt : Nat → List Nat) (lu lf : List Nat) (fa : FastAllocator)
    (ok : fa.ListsOK lt lu lf) :
    ∃ fa', fa.internal_fix_used_blocks = some fa' ∧
      (∀ i, i < MAX_THREAD_USED_BLOCK_SLOTS → fa'.threadBlocks i = none) ∧
      isChain fa'.blocks fa'.usedBlocks (usedAfterFix lt lu MAX_THREAD_USED_BLOCK_SLOTS) = true ∧
      (usedAfterFix lt lu MAX_THREAD_USED_BLOCK_SLOTS).Perm
        (lu ++ (List.range MAX_THREAD_USED_BLOCK_SLOTS).flatMap lt) ∧
      (usedAfterFix lt lu MAX_THREAD_USED_BLOCK_SLOTS).Nodup ∧
      fa'.freeBlocks = fa.freeBlocks ∧
      isChain fa'.blocks fa'.freeBlocks lf = true ∧
      (∀ x, x ∈ lf → fa'.blocks.get? x = fa.blocks.get? x) ∧
      SameButNext fa.blocks fa'.blocks ∧
      (∀ x b, fa.blocks.get? x = some b →
        ∃ b', fa'.blocks.get? x = some b' ∧ b'.cur = b.cur) := by
  obtain ⟨fa', e, a1, _, a3, a4, a5, a6, a7⟩ :=
    FastAllocator.internal_fix_used_blocks_spec lt lu lf fa ok
  refine ⟨fa', e, a1, a3, usedAfterFix_perm lt lu _, ?_, by rw [a7], a4, ?_, a5, ?_⟩
  · exact (List.nodup_append.1
      (usedAfterFix_nodup_append fa lt lu lf ok fa'.blocks fa'.usedBlocks a3)).1
  · intro x hx
    exact a6 x (fun i hi hxi => ok.thread_free i hi x hxi hx)
  · intro x b hb
    obtain ⟨b', h1, h2⟩ := a5.2 x b hb
    exact ⟨b', h1, by rw [h2]⟩

/-- C35 on an input: in `examplePool` the list of slot 0 is the block 4 and the used list
holds the blocks 2 and 3; after `internal_fix_used_blocks()` the used list holds the
blocks 4, 2 and 3. -/
theorem fix_used_blocks_splices_witness :
    examplePool.ListsOK exampleThreadLists [2, 3] [0, 1] ∧
    ∃ fa', examplePool.internal_fix_used_blocks = some fa' ∧
      (∀ i, i < MAX_THREAD_USED_BLOCK_SLOTS → fa'.threadBlocks i = none) ∧
      isChain fa'.blocks fa'.usedBlocks
        (usedAfterFix exampleThreadLists [2, 3] MAX_THREAD_USED_BLOCK_SLOTS) = true := by
  refine ⟨examplePool_lists, ?_⟩
  obtain ⟨fa', h1, h2, h3, _⟩ :=
    fix_used_blocks_splices exampleThreadLists [2, 3] [0, 1] examplePool examplePool_lists
  exact ⟨fa', h1, h2, h3⟩

/-! ## Termination of FastAllocator::malloc -/

theorem FastAllocator.SlotOK.set_cursor {fa : FastAllocator} {threadIndex : Nat}
    {lf : List Nat} (ok : fa.SlotOK threadIndex lf) (a : Nat) (b nb : Block)
    (hb : fa.blocks.get? a = some b) (hn : nb.next = b.next) :
    FastAllocator.SlotOK { fa with blocks := fa.blocks.set a nb } threadIndex lf := by
  refine ⟨ok.atype, ?_, fun x hx => ?_⟩
  · show isChain (fa.blocks.set a nb) fa.freeBlocks lf = true
    rw [isChain_congr fa.blocks (fa.blocks.set a nb) lf fa.freeBlocks (fun x _ => ?_)]
    · exact ok.free
    · by_cases hxa : x = a
      · subst hxa
        rw [get?_set_self fa.blocks x nb b hb, hb]
        simp [hn]
      · rw [get?_set_ne fa.blocks a x nb hxa]
  · show x < (fa.blocks.set a nb).length
    rw [List.length_set]
    exact ok.current x hx

theorem Block.malloc_serves (b : Block) (bytes align k : Nat) (partial_ : Bool)
    (hk : k ≤ 6) (ha : align = 2 ^ k) (hb : bytes ≤ maxAllocationSize) :
    (b.cur = 0 → bytes ≤ b.reserveEnd → 64 ∣ b.reserveEnd →
      ∃ i, (b.malloc bytes align partial_).ptr = some i) ∧
    (∀ i, (b.malloc bytes align partial_).ptr = some i → partial_ = false →
      bytes ≤ (b.malloc bytes align partial_).bytes_in) := by
  have hp : (2 : Nat) ^ k ≤ 2 ^ 6 := Nat.pow_le_pow_right (by decide) hk
  have hbig : bytes + 2 ^ k ≤ 2 ^ 64 := by
    have : maxAllocationSize + 2 ^ 6 ≤ 2 ^ 64 := by decide
    omega
  constructor
  · intro hc hr hd
    have hle := roundUp_le_of_dvd bytes k b.reserveEnd hk hr hd hbig
    cases hres : (b.malloc bytes align partial_).ptr with
    | some i => exact ⟨i, rfl⟩
    | none =>
      rw [Block.malloc_none_iff, ha] at hres
      rcases hres with ⟨_, h⟩ | h
      · omega
      · omega
  · intro i hi hpart
    subst hpart
    rw [Block.malloc_some_full b bytes align i hi, ha]
    exact (roundUp_bounds bytes k (by omega) hbig).1

theorem FastAllocator.refill_fresh (fa : FastAllocator) (threadIndex bytes : Nat)
    (huge_pages : Bool) (ok : fa.SlotOK threadIndex []) (hb : bytes ≤ maxAllocationSize) :
    ∃ nb : Block, nb.cur = 0 ∧ bytes ≤ nb.reserveEnd ∧ 64 ∣ nb.reserveEnd ∧
      fa.refill (threadIndex &&& fa.slotMask) (fa.threadUsedBlocks (threadIndex &&& fa.slotMask))
          bytes huge_pages = Except.ok
        { fa with blocks := fa.blocks ++ [nb],
                  threadUsedBlocks := store fa.threadUsedBlocks (threadIndex &&& fa.slotMask)
                    (some fa.blocks.length),
                  threadBlocks := store fa.threadBlocks (threadIndex &&& fa.slotMask)
                    (some fa.blocks.length) } := by
  have hfree : fa.freeBlocks = none := (isChain_nil _ _).1 ok.free
  obtain ⟨nb, hc, h0, hr, _, _⟩ := Block.create_pool (max fa.growSize bytes) bytes
    (fa.threadBlocks (threadIndex &&& fa.slotMask)) fa.atype huge_pages (Nat.le_max_right _ _)
    ok.atype
  have em : max (max fa.growSize bytes) bytes = max fa.growSize bytes := by omega
  rw [em] at hc
  obtain ⟨s1, s2⟩ := poolBlockSize_spec (max fa.growSize bytes)
  refine ⟨nb, h0, ?_, by rw [hr]; exact s2, ?_⟩
  · rw [hr]
    have : bytes ≤ min (max fa.growSize bytes) maxAllocationSize :=
      Nat.le_min.2 ⟨Nat.le_max_right _ _, hb⟩
    omega
  · exact FastAllocator.refill_create fa _ _ bytes huge_pages nb hfree rfl hc

theorem FastAllocator.refill_reuse (fa : FastAllocator) (threadIndex bytes : Nat)
    (huge_pages : Bool) (f : Nat) (rest : List Nat) (ok : fa.SlotOK threadIndex (f :: rest)) :
    ∃ fa2, fa.refill (threadIndex &&& fa.slotMask)
        (fa.threadUsedBlocks (threadIndex &&& fa.slotMask)) bytes huge_pages = Except.ok fa2 ∧
      fa2.SlotOK threadIndex rest ∧ fa2.slotMask = fa.slotMask ∧
      fa2.blocks.length = fa.blocks.length := by
  have hch := ok.free
  rw [isChain_cons] at hch
  obtain ⟨hfree, fb, hget, hrest⟩ := hch
  have hnd := isChain_nodup fa.blocks (f :: rest) fa.freeBlocks ok.free
  have hf : f ∉ rest := (List.nodup_cons.1 hnd).1
  have hlt : f < fa.blocks.length := by
    rcases Nat.lt_or_ge f fa.blocks.length with h | h
    · exact h
    · rw [List.get?_eq_none.2 h] at hget
      exact Option.noConfusion hget
  refine ⟨_, FastAllocator.refill_take fa _ _ bytes huge_pages f fb hfree rfl hget,
    ⟨ok.atype, ?_, fun a ha => ?_⟩, rfl, by simp⟩
  · show isChain (fa.blocks.set f { fb with next := fa.usedBlocks }) fb.next rest = true
    rw [isChain_set fa.blocks f _ rest fb.next hf]
    exact hrest
  · show a < (fa.blocks.set f { fb with next := fa.usedBlocks }).length
    have ha' : store fa.threadUsedBlocks (threadIndex &&& fa.slotMask) (some f)
        (threadIndex &&& fa.slotMask) = some a := ha
    simp only [store, if_true] at ha'
    rw [List.length_set]
    have : f = a := Option.some.inj ha'
    omega

theorem FastAllocator.mallocLoop_fresh (fa : FastAllocator) (threadIndex bytes align k : Nat)
    (partial_ huge_pages : Bool) (nb : Block) (hk : k ≤ 6) (ha : align = 2 ^ k)
    (hb : bytes ≤ maxAllocationSize) (hat : fa.atype = AllocationType.ALIGNED_MALLOC ∨
      fa.atype = AllocationType.OS_MALLOC) (hfree : fa.freeBlocks = none)
    (h0 : nb.cur = 0) (hr : bytes ≤ nb.reserveEnd) (hd : 64 ∣ nb.reserveEnd) :
    ∃ out : MallocOutcome,
      (∀ fuel, FastAllocator.mallocLoop threadIndex align partial_ huge_pages (fuel + 1)
        { fa with blocks := fa.blocks ++ [nb],
                  threadUsedBlocks := store fa.threadUsedBlocks (threadIndex &&& fa.slotMask)
                    (some fa.blocks.length),
                  threadBlocks := store fa.threadBlocks (threadIndex &&& fa.slotMask)
                    (some fa.blocks.length) } bytes = out) ∧
      (∃ p g, out.result = Except.ok (p, g) ∧ (partial_ = false → bytes ≤ g)) ∧
      out.pool.SlotOK threadIndex [] ∧ out.pool.slotMask = fa.slotMask := by
  obtain ⟨s1, s2⟩ := Block.malloc_serves nb bytes align k partial_ hk ha hb
  obtain ⟨i, hi⟩ := s1 h0 hr hd
  have hget : (fa.blocks ++ [nb]).get? fa.blocks.length = some nb := get?_append_length _ _
  refine ⟨_, fun fuel => FastAllocator.mallocLoop_serve threadIndex align partial_ huge_pages
    bytes fuel _ fa.blocks.length nb i (by simp [store]) hget hi,
    ⟨_, _, rfl, s2 i hi⟩, ⟨hat, ?_, fun a hx => ?_⟩, rfl⟩
  · show isChain ((fa.blocks ++ [nb]).set fa.blocks.length _) fa.freeBlocks [] = true
    rw [isChain_nil]
    exact hfree
  · show a < ((fa.blocks ++ [nb]).set fa.blocks.length _).length
    have hx' : store fa.threadUsedBlocks (threadIndex &&& fa.slotMask) (some fa.blocks.length)
        (threadIndex &&& fa.slotMask) = some a := hx
    simp only [store, if_true] at hx'
    have : fa.blocks.length = a := Option.some.inj hx'
    rw [List.length_set, List.length_append, List.length_singleton]
    omega

theorem FastAllocator.mallocLoop_after_refill (threadIndex bytes align k : Nat)
    (partial_ huge_pages : Bool) (hk : k ≤ 6) (ha : align = 2 ^ k)
    (hb : bytes ≤ maxAllocationSize) (lf : List Nat)
    (ih : ∀ (rest : List Nat), rest.length < lf.length → ∀ fa2 : FastAllocator,
      fa2.SlotOK threadIndex rest →
      ∃ out : MallocOutcome,
        (∀ fuel, rest.length + 2 ≤ fuel →
          FastAllocator.mallocLoop threadIndex align partial_ huge_pages fuel fa2 bytes = out) ∧
        (∃ p g, out.result = Except.ok (p, g) ∧ (partial_ = false → bytes ≤ g)) ∧
        (∃ lf', out.pool.SlotOK threadIndex lf' ∧ lf'.length ≤ rest.length) ∧
        out.pool.slotMask = fa2.slotMask)
    (fa1 : FastAllocator) (ok1 : fa1.SlotOK threadIndex lf) :
    ∃ fa2, fa1.refill (threadIndex &&& fa1.slotMask)
        (fa1.threadUsedBlocks (threadIndex &&& fa1.slotMask)) bytes huge_pages = Except.ok fa2 ∧
      ∃ out : MallocOutcome,
        (∀ fuel, lf.length + 1 ≤ fuel →
          FastAllocator.mallocLoop threadIndex align partial_ huge_pages fuel fa2 bytes = out) ∧
        (∃ p g, out.result = Except.ok (p, g) ∧ (partial_ = false → bytes ≤ g)) ∧
        (∃ lf', out.pool.SlotOK threadIndex lf' ∧ lf'.length ≤ lf.length) ∧
        out.pool.slotMask = fa1.slotMask := by
  cases lf with
  | nil =>
    obtain ⟨nb, h0, hr, hd, href⟩ := FastAllocator.refill_fresh fa1 threadIndex bytes huge_pages
      ok1 hb
    obtain ⟨out, o1, o2, o3, o4⟩ := FastAllocator.mallocLoop_fresh fa1 threadIndex bytes align k
      partial_ huge_pages nb hk ha hb ok1.atype ((isChain_nil _ _).1 ok1.free) h0 hr hd
    refine ⟨_, href, out, fun fuel hf => ?_, o2, ⟨[], o3, Nat.le_refl _⟩, o4⟩
    obtain ⟨fuel', rfl⟩ : ∃ fuel', fuel = fuel' + 1 := ⟨fuel - 1, by
      simp only [List.length_nil] at hf
      omega⟩
    exact o1 fuel'
  | cons f rest =>
    obtain ⟨fa2, href, ok2, hm, _⟩ := FastAllocator.refill_reuse fa1 threadIndex bytes huge_pages
      f rest ok1
    obtain ⟨out, o1, o2, ⟨lf', o3, o3'⟩, o4⟩ := ih rest (by simp) fa2 ok2
    refine ⟨fa2, href, out, fun fuel hf => o1 fuel (by
      simp only [List.length_cons] at hf
      omega), o2, ⟨lf', o3, by
      simp only [List.length_cons]
      omega⟩, o4.trans hm⟩

theorem FastAllocator.mallocLoop_returns (threadIndex bytes align k : Nat)
    (partial_ huge_pages : Bool) (hk : k ≤ 6) (ha : align = 2 ^ k)
    (hb : bytes ≤ maxAllocationSize) :
    ∀ (n : Nat) (lf : List Nat), lf.length = n → ∀ fa : FastAllocator,
      fa.SlotOK threadIndex lf →
      ∃ out : MallocOutcome,
        (∀ fuel, lf.length + 2 ≤ fuel →
          FastAllocator.mallocLoop threadIndex align partial_ huge_pages fuel fa bytes = out) ∧
        (∃ p g, out.result = Except.ok (p, g) ∧ (partial_ = false → bytes ≤ g)) ∧
        (∃ lf', out.pool.SlotOK threadIndex lf' ∧ lf'.length ≤ lf.length) ∧
        out.pool.slotMask = fa.slotMask := by
  intro n
  induction n using Nat.strong_induction_on with
  | _ n ihn =>
    intro lf hlen fa ok
    have ih : ∀ (rest : List Nat), rest.length < lf.length → ∀ fa2 : FastAllocator,
        fa2.SlotOK threadIndex rest →
        ∃ out : MallocOutcome,
          (∀ fuel, rest.length + 2 ≤ fuel →
            FastAllocator.mallocLoop threadIndex align partial_ huge_pages fuel fa2 bytes = out) ∧
          (∃ p g, out.result = Except.ok (p, g) ∧ (partial_ = false → bytes ≤ g)) ∧
          (∃ lf', out.pool.SlotOK threadIndex lf' ∧ lf'.length ≤ rest.length) ∧
          out.pool.slotMask = fa2.slotMask :=
      fun rest hr fa2 ok2 => ihn rest.length (by omega) rest rfl fa2 ok2
    cases hcur : fa.threadUsedBlocks (threadIndex &&& fa.slotMask) with
    | none =>
      obtain ⟨fa2, href, out, o1, o2, o3, o4⟩ := FastAllocator.mallocLoop_after_refill
        threadIndex bytes align k partial_ huge_pages hk ha hb lf ih fa ok
      rw [hcur] at href
      refine ⟨out, fun fuel hf => ?_, o2, o3, o4⟩
      obtain ⟨fuel', rfl⟩ : ∃ fuel', fuel = fuel' + 1 := ⟨fuel - 1, by omega⟩
      rw [FastAllocator.mallocLoop_none threadIndex align partial_ huge_pages bytes fuel' fa fa2
        hcur (by omega) href]
      exact o1 fuel' (by omega)
    | some a =>
      have hlt := ok.current a hcur
      obtain ⟨b, hget⟩ : ∃ b, fa.blocks.get? a = some b := by
        cases hg : fa.blocks.get? a with
        | some b => exact ⟨b, rfl⟩
        | none =>
          rw [List.get?_eq_none] at hg
          omega
      have ok1 := ok.set_cursor a b (b.malloc bytes align partial_).block hget
        (Block.malloc_fields b bytes align partial_).1
      cases hres : (b.malloc bytes align partial_).ptr with
      | some i =>
        refine ⟨{ pool := { fa with blocks := fa.blocks.set a (b.malloc bytes align partial_).block },
                  result := Except.ok (⟨a, i⟩, (b.malloc bytes align partial_).bytes_in) },
          fun fuel hf => ?_, ⟨_, _, rfl,
          (Block.malloc_serves b bytes align k partial_ hk ha hb).2 i hres⟩,
          ⟨lf, ok1, Nat.le_refl _⟩, rfl⟩
        obtain ⟨fuel', rfl⟩ : ∃ fuel', fuel = fuel' + 1 := ⟨fuel - 1, by omega⟩
        exact FastAllocator.mallocLoop_serve threadIndex align partial_ huge_pages bytes fuel' fa
          a b i hcur hget hres
      | none =>
        obtain ⟨fa2, href, out, o1, o2, o3, o4⟩ := FastAllocator.mallocLoop_after_refill
          threadIndex bytes align k partial_ huge_pages hk ha hb lf ih _ ok1
        have hcur1 : FastAllocator.threadUsedBlocks
            { fa with blocks := fa.blocks.set a (b.malloc bytes align partial_).block }
            (threadIndex &&& fa.slotMask) = some a := hcur
        have href' : FastAllocator.refill
            { fa with blocks := fa.blocks.set a (b.malloc bytes align partial_).block }
            (threadIndex &&& fa.slotMask) (some a) bytes huge_pages = Except.ok fa2 := by
          rw [← hcur1]
          exact href
        refine ⟨out, fun fuel hf => ?_, o2, o3, o4⟩
        obtain ⟨fuel', rfl⟩ : ∃ fuel', fuel = fuel' + 1 := ⟨fuel - 1, by omega⟩
        rw [FastAllocator.mallocLoop_fail threadIndex align partial_ huge_pages bytes fuel' fa fa2
          a b hcur hget hres (by omega) href']
        exact o1 fuel' (by omega)

/-- C36: for every allocator whose allocation type is one the constructor sets, whose
list `freeBlocks` ends and whose current block for the calling thread is a block, with
any cursors (so also after a request that was refused as too large), and for every
request with `bytes <= maxAllocationSize` and a power-of-two `align <= 64`:
`FastAllocator::malloc` leaves its `while (true)` loop within (length of `freeBlocks`) + 2
rounds and returns a pointer, granting at least `bytes` bytes when `partial = false`;
more rounds change nothing, and the allocator is left in such a state again. -/
theorem pool_malloc_terminates (fa : FastAllocator) (lf : List Nat)
    (threadIndex bytes align k : Nat) (partial_ huge_pages : Bool)
    (ok : fa.SlotOK threadIndex lf) (hk : k ≤ 6) (ha : align = 2 ^ k)
    (hb : bytes ≤ maxAllocationSize) :
    fa.ReturnsWithin threadIndex bytes align partial_ huge_pages (lf.length + 2) ∧
    (∀ fuel, lf.length + 2 ≤ fuel →
      FastAllocator.mallocLoop threadIndex align partial_ huge_pages fuel fa bytes =
        FastAllocator.mallocLoop threadIndex align partial_ huge_pages (lf.length + 2) fa bytes) ∧
    ∃ lf', (fa.malloc threadIndex bytes align partial_ huge_pages).pool.SlotOK threadIndex lf' ∧
      lf'.length ≤ lf.length := by
  obtain ⟨out, o1, ⟨p, g, o2, o2'⟩, ⟨lf', o3, o3'⟩, _⟩ :=
    FastAllocator.mallocLoop_returns threadIndex bytes align k partial_ huge_pages hk ha hb
      lf.length lf rfl fa ok
  have hlen := isChain_length_le fa.blocks lf fa.freeBlocks ok.free
  have e0 := o1 (lf.length + 2) (Nat.le_refl _)
  have em : fa.malloc threadIndex bytes align partial_ huge_pages = out :=
    o1 (fa.blocks.length + 3) (by omega)
  refine ⟨⟨p, g, by rw [e0]; exact o2, o2', by rw [e0]; exact em⟩,
    fun fuel hf => by rw [e0]; exact o1 fuel hf, lf', by rw [em]; exact o3, o3'⟩

theorem exampleFailedPool_refused :
    (examplePool.malloc 0 5000000 64 false false).result =
      Except.error MallocError.tooLarge := rfl

theorem exampleFailedPool_slot : exampleFailedPool.SlotOK 0 [0, 1] where
  atype := by decide
  free := by decide
  current := by
    intro a ha
    have h4 : some 4 = some a := ha
    have : 4 = a := Option.some.inj h4
    rw [← this]
    decide

/-- C36 on an input: `examplePool` after a request that was refused as too large, and a
non-partial request of 9000 bytes, which neither the current block nor the two free
blocks can serve: the loop ends within `2 + 2` rounds, with a new block. -/
theorem pool_malloc_terminates_witness :
    (exampleFailedPool.SlotOK 0 [0, 1] ∧ 4 ≤ 6 ∧ 16 = 2 ^ 4 ∧ 9000 ≤ maxAllocationSize) ∧
    exampleFailedPool.ReturnsWithin 0 9000 16 false false ([0, 1].length + 2) :=
  ⟨⟨exampleFailedPool_slot, by decide, by decide, by decide⟩,
   (pool_malloc_terminates exampleFailedPool [0, 1] 0 9000 16 4 false false
      exampleFailedPool_slot (by decide) (by decide) (by decide)).1⟩

/-! ## The accounts of a ThreadLocal -/

end Embree
